import Mathlib

set_option linter.unusedSectionVars false

/-!
# Online variational Bayes for LDA (`vowpalwabbit/lda_core.cc`)

A shallow embedding of the LDA reduction.  Arithmetic is carried out in an
ordered field `α`: sums, products and quotients are exact.  The transcendental
library functions and the bit-level reinterpretations of a float are parameters
collected in `math_kernels`; the narrowing of a `double` to a `float` is the
operation `to_float` of the class `float_cast`, which is the identity on `ℝ` (exact
arithmetic) and the rounding to binary32 on `ℚ`.  Flat C arrays are functions
`Nat → α`; a `v_array` is such a function together with its current size, exactly as
the begin/end pointer pair of the source (erasing an array does not clear its cells).
-/

namespace LDA

/-! ## Loops and arrays -/

/-- The loop `for (k = 0; k < n; k++) body k`, as a state transformer. -/
def for_loop {σ : Type} : Nat → (Nat → σ → σ) → σ → σ
  | 0, _, st => st
  | n + 1, body, st => body n (for_loop n body st)

/-- Store `x` in cell `i` of a flat array. -/
def store {α : Type} (mem : Nat → α) (i : Nat) (x : α) : Nat → α :=
  fun j => if j = i then x else mem j

/-- The `v_array<T>` of the source: cells and the distance `end - begin`. -/
structure v_array (α : Type) where
  data : Nat → α
  size : Nat

namespace v_array

variable {α : Type}

/-- A zero-filled array with no element (`calloc_or_die` / `v_init`). -/
def init [Zero α] : v_array α := ⟨fun _ => 0, 0⟩

/-- Method `erase()`: the end pointer goes back to the beginning. -/
def erase (a : v_array α) : v_array α := { a with size := 0 }

/-- Method `push_back(x)`. -/
def push_back (a : v_array α) (x : α) : v_array α :=
  ⟨store a.data a.size x, a.size + 1⟩

/-- Method `last()`: the cell just before the end pointer. -/
def last (a : v_array α) : α := a.data (a.size - 1)

/-- The access `a.end[off]` for a signed offset `off`. -/
def end_index (a : v_array α) (off : Int) : α := a.data (Int.toNat ((a.size : Int) + off))

/-- The assignment `a[i] = x`. -/
def set (a : v_array α) (i : Nat) (x : α) : v_array α := { a with data := store a.data i x }

end v_array

/-! ## Data model -/

/-- The enumeration `lda_math_mode`. -/
inductive lda_math_mode
  | USE_SIMD
  | USE_PRECISE
  | USE_FAST_APPROX
  deriving DecidableEq

/-- A sparse feature: value `x` and position `weight_index` in the weight table. -/
structure feature (α : Type) where
  x : α
  weight_index : Nat

/-- The class `index_feature`: a feature tagged with its document number. -/
structure index_feature (α : Type) where
  document : Nat
  f : feature α

/-- The order `index_feature::operator<` is the order of `weight_index`; this is its
non-strict form, used to sort. -/
def index_feature.le {α : Type} (a b : index_feature α) : Prop :=
  a.f.weight_index ≤ b.f.weight_index

instance {α : Type} : DecidableRel (index_feature.le (α := α)) :=
  fun a b => inferInstanceAs (Decidable (a.f.weight_index ≤ b.f.weight_index))

/-- A document: its features in the order in which the loops over `indices` and
`atomics` meet them, and the published `topic_predictions`. -/
structure Example (α : Type) where
  features : List (feature α)
  topic_predictions : List α

/-- The fields of `vw` used by the reduction.  `weight_vector` is the flat table
`reg.weight_vector`; `returned` records the examples handed to
`return_simple_example`. -/
structure vw (α : Type) where
  lda : Nat
  eta : α
  power_t : α
  initial_t : α
  num_bits : Nat
  stride_shift : Nat
  weight_mask : Nat
  weight_vector : Nat → α
  random_weights : Bool
  add_constant : Bool
  ring_size : Nat
  sum_loss : α
  sum_loss_since_last_dump : α
  returned : List (Example α)

/-- Method `vw::length()`: the number of rows, `1 << num_bits`. -/
def vw.length {α : Type} (all : vw α) : Nat := 1 <<< all.num_bits

/-- The structure `lda`.  `v_end_array` is the capacity given to `v` by `resize`. -/
structure lda (α : Type) where
  topics : Nat
  lda_alpha : α
  lda_rho : α
  lda_D : α
  lda_epsilon : α
  minibatch : Nat
  mmode : lda_math_mode
  Elogtheta : v_array α
  decay_levels : v_array α
  total_new : v_array α
  examples : List (Example α)
  total_lambda : v_array α
  doc_lengths : v_array Int
  digammas : v_array α
  v : Nat → α
  v_end_array : Nat
  sorted_features : List (index_feature α)
  total_lambda_init : Bool
  example_t : α
  all : vw α

/-! ## Single precision -/

/-- The conversion `(float)x` of a `double` to single precision, for the arithmetic
`α`.  In exact arithmetic, the instance for `ℝ`, every number is a float and the
conversion changes nothing; the instance for `ℚ` rounds to the nearest binary32
number. -/
class float_cast (α : Type) where
  to_float : α → α

export float_cast (to_float)

/-- The binary32 number nearest to `x`, a tie going to the even significand: with
`2^e <= |x| < 2^(e+1)` the significand is a multiple of `2^(e-23)`, and of `2^(-149)`
for the subnormal numbers.  Numbers beyond the largest float are not met and are
rounded in the same way. -/
def binary32 (x : ℚ) : ℚ :=
  if x = 0 then 0
  else
    let a : ℚ := |x|
    let e : Int := Int.log 2 a
    let q : ℚ := 2 ^ (max e (-126) - 23)
    let n : ℚ := a / q
    let f : Int := ⌊n⌋
    let k : Int :=
      if n - f < 1 / 2 then f else if 1 / 2 < n - f then f + 1 else if f % 2 = 0 then f else f + 1
    (if x < 0 then -1 else 1) * (k : ℚ) * q

instance float_cast_real : float_cast ℝ := ⟨fun x => x⟩

instance float_cast_rat : float_cast ℚ := ⟨binary32⟩

/-! ## Math kernels -/

/-- What the embedding takes from outside the file: the C library and Boost
functions, the reinterpretation of a float as its 32-bit pattern and back, whether
the build defines `HAVE_SIMD_MATHMODE`, and which cells of the weight table and
of `v` sit on a 16-byte boundary. -/
structure math_kernels (α : Type) where
  exp : α → α
  log : α → α
  pow : α → α → α
  boost_digamma : α → α
  boost_lgamma : α → α
  bits : α → Nat
  of_bits : Nat → α
  have_simd : Bool
  weights_aligned16 : Nat → Bool
  v_aligned16 : Nat → Bool

section kernels

variable {α : Type} [LinearOrderedField α] [FloorRing α] [float_cast α]

/-- Rounding toward zero: the value of the conversion `(int)x` whenever it is in the
range of `int`.  The offsets `-1 - example_t + t_last(w)` into `decay_levels` are taken
with it: their magnitude is at most the number of minibatches processed plus the
rounding of the stamp. -/
def to_int (x : α) : Int := if 0 ≤ x then Int.floor x else Int.ceil x

/-- The conversion `(int)x` of a float as the machine carries it out (`cvttss2si`): `x`
rounded toward zero when this is in the range of `int`, and `INT_MIN` otherwise, where
C leaves the conversion undefined. -/
def float_to_int (x : α) : Int :=
  if -2 ^ 31 ≤ to_int x ∧ to_int x < 2 ^ 31 then to_int x else -2 ^ 31

/-- The conversion `(uint32_t)x` of a float: `x` rounded toward zero when this is in the
range of `uint32_t`; otherwise, where C leaves the conversion undefined, the low 32 bits
that the 64-bit `cvttss2si` leaves. -/
def float_to_uint32 (x : α) : Nat :=
  Int.toNat ((if -2 ^ 63 ≤ to_int x ∧ to_int x < 2 ^ 63 then to_int x else -2 ^ 63) % 2 ^ 32)

/-- The sum of two `int`: the sum when it is in the range of `int`; beyond it, where C
leaves the addition undefined, the sum modulo `2^32` that the machine's `add` leaves. -/
def int_add (a b : Int) : Int := (a + b + 2 ^ 31) % 2 ^ 32 - 2 ^ 31

/-- Whether a 32-bit pattern is that of a NaN: exponent field `255` and a fraction
that is not zero. -/
def is_nan_bits (n : Nat) : Bool := (n >>> 23) % 256 == 255 && n % 2 ^ 23 != 0

/-- Function `lda::underflow_threshold`. -/
def underflow_threshold : α := 1.0e-10

namespace ldamath

/-- Function `ldamath::fastlog2`. -/
def fastlog2 (m : math_kernels α) (x : α) : α :=
  let mx : Nat := (m.bits x &&& 0x007FFFFF) ||| (0x7e <<< 23)
  let mx_f : α := m.of_bits mx
  let vx : Nat := m.bits x
  let y : α := (vx : α) * (1 / ((1 <<< 23 : Nat) : α))
  y - 124.22544637 - 1.498030302 * mx_f - 1.72587999 / (0.3520887068 + mx_f)

/-- Function `ldamath::fastlog`. -/
def fastlog (m : math_kernels α) (x : α) : α := 0.69314718 * fastlog2 m x

/-- Function `ldamath::fastpow2`. -/
def fastpow2 (m : math_kernels α) (p : α) : α :=
  let offset : α := if p < 0 then 1 else 0
  let clipp : α := if p < -126 then -126 else p
  let w : Int := float_to_int clipp
  let z : α := clipp - (w : α) + offset
  let approx : Nat := float_to_uint32
    (((1 <<< 23 : Nat) : α) * (clipp + 121.2740838 + 27.7280233 / (4.84252568 - z) - 1.49012907 * z))
  m.of_bits approx

/-- Function `ldamath::fastexp`. -/
def fastexp (m : math_kernels α) (p : α) : α := fastpow2 m (1.442695040 * p)

/-- Function `ldamath::fastpow`. -/
def fastpow (m : math_kernels α) (x p : α) : α := fastpow2 m (p * fastlog2 m x)

/-- Function `ldamath::fastlgamma`. -/
def fastlgamma (m : math_kernels α) (x : α) : α :=
  let logterm := fastlog m (x * (1 + x) * (2 + x))
  let xp3 := 3 + x;
  -2.081061466 - x + 0.0833333 / xp3 - logterm + (2.5 + x) * fastlog m xp3

/-- Function `ldamath::fastdigamma`. -/
def fastdigamma (m : math_kernels α) (x : α) : α :=
  let twopx := 2 + x
  let logterm := fastlog m twopx;
  -(1 + 2 * x) / (x * (1 + x)) - (13 + 6 * x) / (12 * twopx * twopx) + logterm

/-- The conversion `_mm_cvtepi32_ps` of one lane: the pattern read as a signed
32-bit integer. -/
def v4si_to_v4sf (n : Nat) : α :=
  if n % 2 ^ 32 < 2 ^ 31 then ((n % 2 ^ 32 : Nat) : α) else ((n % 2 ^ 32 : Nat) : α) - 2 ^ 32

/-- The conversion `_mm_cvttps_epi32` of one lane, as a 32-bit pattern: the lane rounded
toward zero when this is in the range of a signed 32-bit integer, and the pattern
`0x80000000` otherwise. -/
def v4sf_to_v4si (x : α) : Nat := Int.toNat (float_to_int x % 2 ^ 32)

/-- One lane of the integer vector `v4sf_to_v4si(v)` that `ldamath::vfastpow2` hands to
`_mm_castsi128_ps`. -/
def vfastpow2_bits (p : α) : Nat :=
  let offset : α := if p < 0 then 1 else 0
  let clipp : α := if p < -126 then -126 else p
  let w : Nat := v4sf_to_v4si clipp
  let z : α := clipp - v4si_to_v4sf w + offset
  let v : α := ((1 <<< 23 : Nat) : α) *
    (clipp + 121.2740838 + 27.7280233 / (4.84252568 - z) - 1.49012907 * z)
  v4sf_to_v4si v

/-- One lane of `ldamath::vfastpow2`. -/
def vfastpow2 (m : math_kernels α) (p : α) : α := m.of_bits (vfastpow2_bits p)

/-- One lane of `ldamath::vfastexp`. -/
def vfastexp (m : math_kernels α) (p : α) : α := vfastpow2 m (1.442695040 * p)

/-- One lane of `ldamath::vfastlog2`. -/
def vfastlog2 (m : math_kernels α) (x : α) : α :=
  let vx_i : Nat := m.bits x
  let mx_f : α := m.of_bits ((vx_i &&& 0x007FFFFF) ||| 0x3f000000)
  let y : α := v4si_to_v4sf vx_i * 1.1920928955078125e-7
  y - 124.22551499 - 1.498030302 * mx_f - 1.72587999 / (0.3520887068 + mx_f)

/-- One lane of `ldamath::vfastlog`. -/
def vfastlog (m : math_kernels α) (x : α) : α := 0.69314718 * vfastlog2 m x

/-- One lane of `ldamath::vfastdigamma`. -/
def vfastdigamma (m : math_kernels α) (x : α) : α :=
  let twopx := 2 + x
  let logterm := vfastlog m twopx
  (-48 + x * (-157 + x * (-127 - 30 * x))) / (12 * x * (1 + x) * twopx * twopx) + logterm

/-- The specialisations of `ldamath::lgamma<float, mtype>`. -/
def lgamma (m : math_kernels α) : lda_math_mode → α → α
  | .USE_PRECISE => m.boost_lgamma
  | .USE_FAST_APPROX => fastlgamma m
  | .USE_SIMD => fastlgamma m

/-- The specialisations of `ldamath::digamma<float, mtype>`. -/
def digamma (m : math_kernels α) : lda_math_mode → α → α
  | .USE_PRECISE => m.boost_digamma
  | .USE_FAST_APPROX => fastdigamma m
  | .USE_SIMD => fastdigamma m

/-- The specialisations of `ldamath::exponential<float, mtype>`. -/
def exponential (m : math_kernels α) : lda_math_mode → α → α
  | .USE_PRECISE => m.exp
  | .USE_FAST_APPROX => fastexp m
  | .USE_SIMD => fastexp m

/-- The specialisations of `ldamath::powf<float, mtype>`. -/
def powf (m : math_kernels α) : lda_math_mode → α → α → α
  | .USE_PRECISE => m.pow
  | .USE_FAST_APPROX => fastpow m
  | .USE_SIMD => fastpow m

/-! ## Gamma transforms -/

/-- The call `std::accumulate(gamma, gamma + K, initial)` on the cells `g, …, g+K-1`. -/
def accumulate (K : Nat) (mem : Nat → α) (g : Nat) (initial : α) : α :=
  for_loop K (fun k acc => acc + mem (g + k)) initial

/-- The call `std::inner_product(a, a + K, b, init)`. -/
def inner_product (K : Nat) (a b : Nat → α) (init : α) : α :=
  for_loop K (fun k acc => acc + a k * b k) init

/-- The generic template `ldamath::expdigammify<T, mtype>` on the `K` cells from `g`. -/
def expdigammify (m : math_kernels α) (mtype : lda_math_mode) (K : Nat) (mem : Nat → α)
    (g : Nat) (threshold initial : α) : Nat → α :=
  let sum := digamma m mtype (accumulate K mem g initial)
  for_loop K (fun k mem1 =>
    store mem1 (g + k) (max threshold (exponential m mtype (digamma m mtype (mem1 (g + k)) - sum)))) mem

/-- The generic template `ldamath::expdigammify_2<T, mtype>`: cells `g, …` of `mem`,
normalisers `norm 0, …`. -/
def expdigammify_2 (m : math_kernels α) (mtype : lda_math_mode) (K : Nat) (mem : Nat → α)
    (g : Nat) (norm : Nat → α) (threshold : α) : Nat → α :=
  for_loop K (fun k mem1 =>
    store mem1 (g + k) (max threshold (exponential m mtype (digamma m mtype (mem1 (g + k)) - norm k)))) mem

/-- A loop `for (; fp < fpend && !is_aligned16(fp); ++fp) body`; the first argument
is `fpend - fp`.  Returns the final `fp` and state. -/
def scalar_head {σ : Type} (aligned : Nat → Bool) (body : Nat → σ → σ) : Nat → Nat → σ → Nat × σ
  | 0, fp, st => (fp, st)
  | n + 1, fp, st => if aligned fp then (fp, st) else scalar_head aligned body n (fp + 1) (body fp st)

/-- A loop `for (; is_aligned16(fp) && fp + 4 < fpend; fp += 4) body`; the first
argument bounds the number of rounds from above. -/
def vector_body {σ : Type} (aligned : Nat → Bool) (body : Nat → σ → σ) (fpend : Nat) :
    Nat → Nat → σ → Nat × σ
  | 0, fp, st => (fp, st)
  | n + 1, fp, st =>
    if aligned fp && decide (fp + 4 < fpend) then vector_body aligned body fpend n (fp + 4) (body fp st)
    else (fp, st)

/-- A loop `for (; fp < fpend; ++fp) body`; the first argument is `fpend - fp`. -/
def scalar_tail {σ : Type} (body : Nat → σ → σ) : Nat → Nat → σ → σ
  | 0, _, st => st
  | n + 1, fp, st => scalar_tail body n (fp + 1) (body fp st)

/-- The three loops in a row: scalar prologue, aligned groups of four, scalar rest. -/
def simd_sweep {σ : Type} (aligned : Nat → Bool) (scalar vector : Nat → σ → σ) (g K : Nat)
    (st : σ) : σ :=
  let r1 := scalar_head aligned scalar K g st
  let r2 := vector_body aligned vector (g + K) K r1.1 r1.2
  scalar_tail scalar (g + K - r2.1) r2.1 r2.2

/-- The running state of the first sweep of `vexpdigammify`: memory, `extra_sum` and
the four lanes of `sum`. -/
structure vsum_state (α : Type) where
  mem : Nat → α
  extra_sum : α
  sum : Nat → α

/-- Function `ldamath::vexpdigammify`.  The values of `α` are numbers, on which
`_mm_max_ps(threshold, x)` is `max threshold x`; a lane `x` whose pattern is a NaN
(`is_nan_bits`) is not among them, and `_mm_max_ps` returns it as it is. -/
def vexpdigammify (m : math_kernels α) (aligned : Nat → Bool) (K : Nat) (mem : Nat → α) (g : Nat)
    (threshold : α) : Nat → α :=
  let s1 : vsum_state α := simd_sweep aligned
    (fun fp st => { st with extra_sum := st.extra_sum + st.mem fp,
                            mem := store st.mem fp (fastdigamma m (st.mem fp)) })
    (fun fp st => { st with sum := fun j => st.sum j + st.mem (fp + j),
                            mem := for_loop 4 (fun j mem1 => store mem1 (fp + j) (vfastdigamma m (st.mem (fp + j)))) st.mem })
    g K ⟨mem, 0, fun _ => 0⟩
  let extra_sum := fastdigamma m (s1.extra_sum + ((s1.sum 0 + s1.sum 1) + (s1.sum 2 + s1.sum 3)))
  simd_sweep aligned
    (fun fp mem1 => store mem1 fp (max threshold (fastexp m (mem1 fp - extra_sum))))
    (fun fp mem1 => for_loop 4 (fun j mem2 =>
      store mem2 (fp + j) (max threshold (vfastexp m (mem1 (fp + j) - extra_sum)))) mem1)
    g K s1.mem

/-- Function `ldamath::vexpdigammify_2`; `_mm_max_ps` as in `vexpdigammify`. -/
def vexpdigammify_2 (m : math_kernels α) (aligned : Nat → Bool) (K : Nat) (mem : Nat → α) (g : Nat)
    (norm : Nat → α) (threshold : α) : Nat → α :=
  simd_sweep aligned
    (fun fp mem1 => store mem1 fp (max threshold (fastexp m (fastdigamma m (mem1 fp) - norm (fp - g)))))
    (fun fp mem1 => for_loop 4 (fun j mem2 =>
      store mem2 (fp + j)
        (max threshold (vfastexp m (vfastdigamma m (mem1 (fp + j)) - norm (fp + j - g))))) mem1)
    g K mem

end ldamath

/-- Method `lda::digamma`: dispatch on the math mode. -/
def lda.digamma (m : math_kernels α) (l : lda α) (x : α) : α := ldamath.digamma m l.mmode x

/-- Method `lda::lgamma`. -/
def lda.lgamma (m : math_kernels α) (l : lda α) (x : α) : α := ldamath.lgamma m l.mmode x

/-- Method `lda::powf`. -/
def lda.powf (m : math_kernels α) (l : lda α) (x p : α) : α := ldamath.powf m l.mmode x p

/-- Method `lda::expdigammify` on the `all.lda` cells from `g`; `aligned` tells which
cells of the array sit on a 16-byte boundary. -/
def lda.expdigammify (m : math_kernels α) (l : lda α) (aligned : Nat → Bool) (mem : Nat → α)
    (g : Nat) : Nat → α :=
  match l.mmode with
  | .USE_FAST_APPROX => ldamath.expdigammify m .USE_FAST_APPROX l.all.lda mem g underflow_threshold 0
  | .USE_PRECISE => ldamath.expdigammify m .USE_PRECISE l.all.lda mem g underflow_threshold 0
  | .USE_SIMD =>
    if m.have_simd then ldamath.vexpdigammify m aligned l.all.lda mem g underflow_threshold
    else ldamath.expdigammify m .USE_FAST_APPROX l.all.lda mem g underflow_threshold 0

/-- Method `lda::expdigammify_2`. -/
def lda.expdigammify_2 (m : math_kernels α) (l : lda α) (aligned : Nat → Bool) (mem : Nat → α)
    (g : Nat) (norm : Nat → α) : Nat → α :=
  match l.mmode with
  | .USE_FAST_APPROX => ldamath.expdigammify_2 m .USE_FAST_APPROX l.all.lda mem g norm underflow_threshold
  | .USE_PRECISE => ldamath.expdigammify_2 m .USE_PRECISE l.all.lda mem g norm underflow_threshold
  | .USE_SIMD =>
    if m.have_simd then ldamath.vexpdigammify_2 m aligned l.all.lda mem g norm underflow_threshold
    else ldamath.expdigammify_2 m .USE_FAST_APPROX l.all.lda mem g norm underflow_threshold

/-! ## The per-document loop -/

/-- Function `average_diff`. -/
def average_diff (all : vw α) (oldgamma newgamma : Nat → α) : α :=
  let sum := for_loop all.lda (fun k accum => accum + |oldgamma k - newgamma k|) 0
  let normalizer := for_loop all.lda (fun k acc => acc + newgamma k) 0
  sum / normalizer

/-- Function `theta_kl`: the new contents of `Elogtheta` and the returned value. -/
def theta_kl (m : math_kernels α) (l : lda α) (Elogtheta : v_array α) (gamma : Nat → α) :
    v_array α × α :=
  let r1 : v_array α × α := for_loop l.topics
    (fun k st => (st.1.push_back (l.digamma m (gamma k)), st.2 + gamma k)) (Elogtheta.erase, 0)
  let digammasum := l.digamma m r1.2
  let gammasum := l.lgamma m r1.2
  let kl0 : α := -((l.topics : α) * l.lgamma m l.lda_alpha)
  let kl1 : α := kl0 + (l.lgamma m (l.lda_alpha * (l.topics : α)) - gammasum)
  for_loop l.topics
    (fun k st =>
      let e := st.1.set k (st.1.data k - digammasum)
      (e, st.2 + (l.lda_alpha - gamma k) * e.data k + l.lgamma m (gamma k)))
    (r1.1, kl1)

/-- Function `find_cw`; `u_for_w` and `v` are positions in the weight table and in `l.v`. -/
def find_cw (l : lda α) (weights : Nat → α) (u_for_w : Nat) (varr : Nat → α) (v : Nat) : α :=
  1 / ldamath.inner_product l.topics (fun k => weights (u_for_w + k)) (fun k => varr (v + k)) 0

/-- The variables live across one round of the `do … while` of `lda_loop`. -/
structure loop_state (α : Type) where
  varr : Nat → α
  new_gamma : Nat → α
  old_gamma : Nat → α
  score : α
  doc_length : α

/-- What one feature does in a round of `lda_loop`: new_gamma, score, doc_length. -/
def lda_loop_feature (m : math_kernels α) (l : lda α) (weights : Nat → α) (varr : Nat → α) (v : Nat)
    (st : (Nat → α) × α × α) (f : feature α) : (Nat → α) × α × α :=
  let u_for_w := (f.weight_index &&& l.all.weight_mask) + l.topics + 1
  let c_w := find_cw l weights u_for_w varr v
  let xc_w := c_w * f.x
  let score := st.2.1 + -f.x * m.log c_w
  let new_gamma := for_loop l.topics (fun k g => store g k (g k + xc_w * weights (u_for_w + k))) st.1
  (new_gamma, score, st.2.2 + f.x)

/-- One round of the `do … while` of `lda_loop` (lines 602–627). -/
def lda_loop_body (m : math_kernels α) (l : lda α) (v : Nat) (weights : Nat → α) (ec : Example α)
    (st : loop_state α) : loop_state α :=
  let varr1 := for_loop l.topics (fun k a => store a (v + k) (st.new_gamma k)) st.varr
  let varr2 := l.expdigammify m m.v_aligned16 varr1 v
  let old_gamma := for_loop l.topics (fun k a => store a k (st.new_gamma k)) st.old_gamma
  let zeroed := for_loop l.topics (fun k a => store a k 0) st.new_gamma
  let r := ec.features.foldl (lda_loop_feature m l weights varr2 v) (zeroed, 0, 0)
  let new_gamma := for_loop l.topics (fun k g => store g k (g k * varr2 (v + k) + l.lda_alpha)) r.1
  ⟨varr2, new_gamma, old_gamma, r.2.1, r.2.2⟩

/-- The `do … while` of `lda_loop`, at most `fuel` rounds; `none` when the exit test
has not held by then. -/
def lda_loop_rounds (m : math_kernels α) (l : lda α) (v : Nat) (weights : Nat → α) (ec : Example α) :
    Nat → loop_state α → Option (loop_state α)
  | 0, _ => none
  | fuel + 1, st =>
    let st1 := lda_loop_body m l v weights ec st
    if average_diff l.all st1.old_gamma st1.new_gamma > l.lda_epsilon then
      lda_loop_rounds m l v weights ec fuel st1
    else some st1

/-- What `lda_loop` leaves behind: the array `l.v`, `Elogtheta`, the example with its
prediction, and the returned score. -/
structure loop_result (α : Type) where
  varr : Nat → α
  Elogtheta : v_array α
  ec : Example α
  score : α

/-- Function `lda_loop`; `v` is the position in `l.v` of the document's block. -/
def lda_loop (m : math_kernels α) (fuel : Nat) (l : lda α) (Elogtheta : v_array α) (v : Nat)
    (weights : Nat → α) (ec : Example α) : Option (loop_result α) :=
  let new_gamma := for_loop l.topics (fun k a => store a k 1) (fun _ => 0)
  let old_gamma := for_loop l.topics (fun k a => store a k 0) (fun _ => 0)
  match lda_loop_rounds m l v weights ec fuel ⟨l.v, new_gamma, old_gamma, 0, 0⟩ with
  | none => none
  | some st =>
    let ec1 := { ec with topic_predictions := (List.range l.topics).map st.new_gamma }
    let kl := theta_kl m l Elogtheta st.new_gamma
    some ⟨st.varr, kl.1, ec1, (st.score + kl.2) / st.doc_length⟩

/-! ## The minibatch update -/

/-- Modelled from the spec: `return_simple_example` is defined outside
`lda_core.cc`; following "release the examples (zero loss contribution)", it hands
the example back and leaves every other field alone. -/
def return_simple_example (all : vw α) (ec : Example α) : vw α :=
  { all with returned := all.returned ++ [ec] }

/-- Lines 715–723 of `learn_batch`: the first non-empty minibatch fills
`total_lambda` with the column sums of the table. -/
def learn_batch_total_lambda (l : lda α) : v_array α :=
  if l.total_lambda.size = 0 then
    let t0 := for_loop l.all.lda (fun _ a => a.push_back 0) l.total_lambda
    let stride := 1 <<< l.all.stride_shift
    for_loop (l.all.weight_mask / stride + 1) (fun j t =>
      for_loop l.all.lda (fun k t1 => t1.set k (t1.data k + l.all.weight_vector (j * stride + k))) t) t0
  else l.total_lambda

/-- The local variables `eta`, `minuseta` and `batch_size` of `learn_batch`. -/
structure batch_locals (α : Type) where
  eta : α
  minuseta : α
  batch_size : Nat

/-- Lines 734–736 of `learn_batch`, for the counter value `example_t` already
incremented. -/
def learn_batch_locals (m : math_kernels α) (l : lda α) (example_t : α) : batch_locals α :=
  let eta := l.all.eta * l.powf m example_t (-l.all.power_t)
  let minuseta := 1 - eta
  let batch_size := l.examples.length
  ⟨eta * (l.lda_D / (batch_size : α)), minuseta, batch_size⟩

/-- Lines 715–743 of `learn_batch`: everything before the first pass.  The entry
appended to `decay_levels` is the logarithm of the kernels at `minuseta`, a number;
for `minuseta <= 0` the code's `log` gives `-inf` or a NaN, which no value of `α`
stands for. -/
def learn_batch_prologue (m : math_kernels α) (l : lda α) : lda α :=
  let total_lambda := learn_batch_total_lambda l
  let example_t := l.example_t + 1
  let total_new := for_loop l.all.lda (fun _ a => a.push_back 0) l.total_new.erase
  let sorted := l.sorted_features.insertionSort index_feature.le
  let loc := learn_batch_locals m l example_t
  let decay_levels := l.decay_levels.push_back (l.decay_levels.last + m.log loc.minuseta)
  let additional : α := (l.all.length : α) * l.lda_rho
  let digammas := for_loop l.all.lda
    (fun i a => a.push_back (l.digamma m (total_lambda.data i + additional))) l.digammas.erase
  { l with total_lambda := total_lambda, example_t := example_t, total_new := total_new,
           sorted_features := sorted, decay_levels := decay_levels, digammas := digammas }

/-- The body of the first loop over `sorted_features` (lines 751–763) for an entry
that is not skipped. -/
def first_pass_row (m : math_kernels α) (l : lda α) (weights : Nat → α) (s : index_feature α) :
    Nat → α :=
  let weights_for_w := s.f.weight_index &&& l.all.weight_mask
  let decay_component := l.decay_levels.end_index (-2) -
    l.decay_levels.end_index (to_int (-1 - l.example_t + weights (weights_for_w + l.all.lda)))
  let decay := min 1 (m.exp decay_component)
  let u_for_w := weights_for_w + l.all.lda + 1
  let w1 := store weights (weights_for_w + l.all.lda) (to_float l.example_t)
  let w2 := for_loop l.all.lda (fun k a =>
    let a1 := store a (weights_for_w + k) (a (weights_for_w + k) * decay)
    store a1 (u_for_w + k) (a1 (weights_for_w + k) + l.lda_rho)) w1
  l.expdigammify_2 m m.weights_aligned16 w2 u_for_w l.digammas.data

/-- The first loop over `sorted_features` (lines 747–764).  `last_weight_index` is
`none` for the initial `(size_t)-1`, which no 32-bit `weight_index` equals. -/
def first_pass (m : math_kernels α) (l : lda α) :
    Option Nat → (Nat → α) → List (index_feature α) → (Nat → α)
  | _, weights, [] => weights
  | last_weight_index, weights, s :: rest =>
    if last_weight_index = some s.f.weight_index then first_pass m l last_weight_index weights rest
    else first_pass m l (some s.f.weight_index) (first_pass_row m l weights s) rest

/-- The loop over the documents (lines 766–776), from document `d` on. -/
def learn_batch_docs (m : math_kernels α) (fuel : Nat) (weights : Nat → α) :
    Nat → List (Example α) → lda α → Option (lda α)
  | _, [], l => some l
  | d, ec :: rest, l =>
    match lda_loop m fuel l l.Elogtheta (d * l.all.lda) weights ec with
    | none => none
    | some r =>
      let all1 := if l.doc_lengths.data d > 0 then
          { l.all with sum_loss := l.all.sum_loss - r.score,
                       sum_loss_since_last_dump := l.all.sum_loss_since_last_dump - r.score }
        else l.all
      learn_batch_docs m fuel weights (d + 1) rest
        { l with v := r.varr, Elogtheta := r.Elogtheta, all := return_simple_example all1 r.ec }

/-- The factor `decay` computed by the first loop for the row that starts at cell `b`
of the table `weights` (lines 753–755). -/
def first_pass_decay (m : math_kernels α) (l : lda α) (weights : Nat → α) (b : Nat) : α :=
  min 1 (m.exp (l.decay_levels.end_index (-2) -
    l.decay_levels.end_index (to_int (-1 - l.example_t + weights (b + l.all.lda)))))

/-- The weight table and `total_new`, as the second loop updates them. -/
structure pass_state (α : Type) where
  weights : Nat → α
  total_new : v_array α

/-- Lines 790–797: what one entry of a run adds to its row and to `total_new`. -/
def second_pass_entry (l : lda α) (eta : α) (st : pass_state α) (s : index_feature α) :
    pass_state α :=
  let v_s := s.document * l.all.lda
  let word_weights := s.f.weight_index &&& l.all.weight_mask
  let u_for_w := (s.f.weight_index &&& l.all.weight_mask) + l.all.lda + 1
  let c_w := eta * find_cw l st.weights u_for_w l.v v_s * s.f.x
  for_loop l.all.lda (fun k st1 =>
    let new_value := st1.weights (u_for_w + k) * l.v (v_s + k) * c_w
    ⟨store st1.weights (word_weights + k) (st1.weights (word_weights + k) + new_value),
     st1.total_new.set k (st1.total_new.data k + new_value)⟩) st

/-- The amount `new_value` that entry `s` adds for topic `k` (lines 790–794), with
the `u` slots read from the table `weights`. -/
def new_value (l : lda α) (eta : α) (weights : Nat → α) (s : index_feature α) (k : Nat) : α :=
  weights ((s.f.weight_index &&& l.all.weight_mask) + l.all.lda + 1 + k)
    * l.v (s.document * l.all.lda + k)
    * (eta * find_cw l weights ((s.f.weight_index &&& l.all.weight_mask) + l.all.lda + 1) l.v
        (s.document * l.all.lda) * s.f.x)

/-- The sum of the amounts `new_value` of the entries of `feats` whose row holds the
`lambda` cell `i`. -/
def gain (l : lda α) (eta : α) (weights : Nat → α) (feats : List (index_feature α)) (i : Nat) : α :=
  ((feats.filter (fun e => decide ((e.f.weight_index &&& l.all.weight_mask) ≤ i ∧
      i < (e.f.weight_index &&& l.all.weight_mask) + l.all.lda))).map
    (fun e => new_value l eta weights e (i - (e.f.weight_index &&& l.all.weight_mask)))).sum

/-- Lines 783–787: the row of a run is shrunk by `minuseta`. -/
def second_pass_shrink (l : lda α) (minuseta : α) (weights : Nat → α) (s : index_feature α) :
    Nat → α :=
  let word_weights := s.f.weight_index &&& l.all.weight_mask
  for_loop l.all.lda (fun k a => store a (word_weights + k) (minuseta * a (word_weights + k))) weights

/-- The second loop over `sorted_features` (lines 778–799): `next` runs to the
end of the entries that share the `weight_index` of `s`. -/
def second_pass (l : lda α) (loc : batch_locals α) :
    List (index_feature α) → pass_state α → pass_state α
  | [], st => st
  | s :: rest, st =>
    let run := rest.takeWhile (fun next => next.f.weight_index == s.f.weight_index)
    let st1 : pass_state α := { st with weights := second_pass_shrink l loc.minuseta st.weights s }
    let st2 := (s :: run).foldl (second_pass_entry l loc.eta) st1
    second_pass l loc (rest.dropWhile (fun next => next.f.weight_index == s.f.weight_index)) st2
termination_by feats => feats.length
decreasing_by
  simp_wf
  exact Nat.lt_succ_of_le (List.dropWhile_sublist _).length_le

/-- Lines 800–808 of `learn_batch`. -/
def learn_batch_epilogue (l : lda α) (minuseta : α) : lda α :=
  let total_lambda := for_loop l.all.lda
    (fun k t => let t1 := t.set k (t.data k * minuseta); t1.set k (t1.data k + l.total_new.data k))
    l.total_lambda
  { l with total_lambda := total_lambda, sorted_features := [], examples := [],
           doc_lengths := l.doc_lengths.erase }

/-- Function `learn_batch`.  `fuel` bounds the rounds of every `lda_loop`; the
result is `none` when some document has not converged within it. -/
def learn_batch (m : math_kernels α) (fuel : Nat) (l : lda α) : Option (lda α) :=
  if l.sorted_features.isEmpty then
    some { l with all := l.examples.foldl return_simple_example l.all, examples := [] }
  else
    let loc := learn_batch_locals m l (l.example_t + 1)
    let l1 := learn_batch_prologue m l
    let weights1 := first_pass m l1 none l1.all.weight_vector l1.sorted_features
    let l2 : lda α := { l1 with all := { l1.all with weight_vector := weights1 } }
    match learn_batch_docs m fuel weights1 0 l2.examples l2 with
    | none => none
    | some l3 =>
      let st := second_pass l3 loc l3.sorted_features ⟨l3.all.weight_vector, l3.total_new⟩
      let l4 : lda α :=
        { l3 with all := { l3.all with weight_vector := st.weights }, total_new := st.total_new }
      some (learn_batch_epilogue l4 loc.minuseta)

/-! ## The streaming interface -/

/-- Lines 813–823 of `learn`: the example is pushed and its features appended;
`doc_lengths` is an array of `int`. -/
def learn_push (l : lda α) (ec : Example α) : lda α :=
  let num_ex := l.examples.length
  let l1 : lda α := { l with examples := l.examples ++ [ec],
                             doc_lengths := l.doc_lengths.push_back 0 }
  ec.features.foldl (fun (l2 : lda α) f =>
    { l2 with sorted_features := l2.sorted_features ++ [⟨num_ex, f⟩],
              doc_lengths := l2.doc_lengths.set num_ex
                (int_add (l2.doc_lengths.data num_ex) (float_to_int f.x)) }) l1

/-- Function `learn`. -/
def learn (m : math_kernels α) (fuel : Nat) (l : lda α) (ec : Example α) : Option (lda α) :=
  let num_ex := l.examples.length
  let l1 := learn_push l ec
  if num_ex + 1 = l.minibatch then learn_batch m fuel l1 else some l1

/-- Function `end_pass`. -/
def end_pass (m : math_kernels α) (fuel : Nat) (l : lda α) : Option (lda α) :=
  if l.examples.length ≠ 0 then learn_batch m fuel l else some l

/-- The body of the loop of `end_examples` for row `i`. -/
def end_examples_row (m : math_kernels α) (l : lda α) (i : Nat) (weights : Nat → α) : Nat → α :=
  let weights_for_w := i <<< l.all.stride_shift
  let decay_component := l.decay_levels.last -
    l.decay_levels.end_index (to_int (-1 - l.example_t + weights (weights_for_w + l.all.lda)))
  let decay := min 1 (m.exp decay_component)
  for_loop l.all.lda (fun k a => store a (weights_for_w + k) (a (weights_for_w + k) * decay)) weights

/-- Function `end_examples`. -/
def end_examples (m : math_kernels α) (l : lda α) : lda α :=
  { l with all := { l.all with
      weight_vector := for_loop l.all.length (end_examples_row m l) l.all.weight_vector } }

/-! ## Set-up -/

/-- The `while` loop of `next_pow2`: `x` is halved and `i` counts the rounds. -/
def next_pow2_loop (x i : Nat) : Nat :=
  if h : x > 0 then next_pow2_loop (x >>> 1) (i + 1) else i
termination_by x
decreasing_by
  simp_wf
  rw [Nat.shiftRight_eq_div_pow]
  exact Nat.div_lt_self h (by norm_num)

/-- Function `next_pow2` on a 64-bit `size_t`.  The shift `((size_t)1) << i` is taken
as the machine's `shl` takes it, with the count modulo `64`: for `i = 64`, which the
loop reaches for `x > 2^63` and where C leaves the shift undefined, the value is `1`. -/
def next_pow2 (x : Nat) : Nat :=
  let x1 := if x > 0 then x - 1 else 0
  (1 <<< (next_pow2_loop x1 0 % 64)) % 2 ^ 64

/-- What the extraction `operator>>` leaves behind: the target `mmode`, and the
argument of the exception `invalid_option_value` when it is thrown. -/
structure extraction where
  mmode : lda_math_mode
  thrown : Option String

/-- The extraction `operator>>(std::istream &in, lda_math_mode &mmode)`, for the
token that `in >> token` reads and the mode that the target holds before the call. -/
def operator_rshift (token : String) (mmode : lda_math_mode) : extraction :=
  if token = "simd" then ⟨lda_math_mode.USE_SIMD, none⟩
  else if token = "accuracy" ∨ token = "precise" then ⟨lda_math_mode.USE_PRECISE, none⟩
  else if token = "fast-approx" ∨ token = "approx" then ⟨lda_math_mode.USE_FAST_APPROX, none⟩
  else ⟨mmode, some token⟩

/-- The command-line options read by `lda_setup`. -/
structure lda_options (α : Type) where
  lda : Nat
  lda_alpha : α
  lda_rho : α
  lda_D : α
  lda_epsilon : α
  minibatch : Nat
  math_mode : lda_math_mode

/-- The value `ceilf(logf((float)n) / logf(2.f))` of line 911, for `n = all.lda * 2 + 1`:
`logf` is the logarithm of the kernels rounded to single precision, and the quotient
of two floats is rounded to single precision. -/
def lda_setup_temp (m : math_kernels α) (n : Nat) : Int :=
  Int.ceil (to_float (to_float (m.log (to_float (n : α))) / to_float (m.log 2)))

/-- Function `lda_setup` (lines 895–928); `all` is the driver state it receives.  The
product `all.lda * 2 + 1` is taken for a topic count below `2^31`, where it fits the
`uint32_t`. -/
def lda_setup (m : math_kernels α) (all : vw α) (vm : lda_options α) : lda α :=
  let all1 : vw α := { all with lda := vm.lda }
  let temp : Int := lda_setup_temp m (all1.lda * 2 + 1)
  let all2 : vw α :=
    { all1 with stride_shift := Int.toNat temp, random_weights := true, add_constant := false }
  let all3 : vw α := if all2.eta > 1 then { all2 with eta := min all2.eta 1 } else all2
  let minibatch2 := next_pow2 vm.minibatch
  let all4 : vw α :=
    { all3 with ring_size := if all3.ring_size > minibatch2 then all3.ring_size else minibatch2 }
  { topics := all1.lda
    lda_alpha := vm.lda_alpha
    lda_rho := vm.lda_rho
    lda_D := vm.lda_D
    lda_epsilon := vm.lda_epsilon
    minibatch := vm.minibatch
    mmode := vm.math_mode
    Elogtheta := v_array.init
    decay_levels := (v_array.init).push_back 0
    total_new := v_array.init
    examples := []
    total_lambda := v_array.init
    doc_lengths := v_array.init
    digammas := v_array.init
    v := fun _ => 0
    v_end_array := all1.lda * vm.minibatch
    sorted_features := []
    total_lambda_init := false
    example_t := all.initial_t
    all := all4 }

/-- Lines 656–667 of `save_load`, the part run when reading: the rows get their
random start and every `t_last` slot gets `initial_t`.  `frand48 n` is the value of
the `n`-th call of the generator. -/
def save_load_read (m : math_kernels α) (frand48 : Nat → α) (l : lda α) : lda α :=
  let stride := 1 <<< l.all.stride_shift
  let weights := for_loop l.all.length (fun row w =>
    let j := row * stride
    let w1 := for_loop l.all.lda (fun k a =>
      if l.all.random_weights then
        let a1 := store a (j + k) (-m.log (frand48 (row * l.all.lda + k)) + 1)
        store a1 (j + k) (a1 (j + k) * (l.lda_D / (l.all.lda : α) / (l.all.length : α) * 200))
      else a) w
    store w1 (j + l.all.lda) l.all.initial_t) (fun _ => 0)
  { l with all := { l.all with weight_vector := weights } }

/-- What a call of `bin_text_read_write_fixed` puts in the model file: the four bytes
of the row index or of a weight (binary form), the characters that `sprintf` printed
with `"%d "` or `"%f "`, or the newline (text form).  `buffer` stands for the bytes of
`buff` passed with length `0`. -/
inductive model_item (α : Type)
  | bin_index (i : Nat)
  | bin_weight (x : α)
  | text_index (i : Nat)
  | text_weight (x : α)
  | text_newline
  | buffer

/-- The `io_buf` of the model: how many files it has and what was written to it. -/
structure io_buf (α : Type) where
  files : Nat
  written : List (model_item α)

/-- Modelled from the spec: `bin_text_read_write_fixed` is defined outside
`lda_core.cc`.  With `read` false it writes the `text_len` characters of `text_data`
in the text variant and the `len` bytes of `data` in the binary form, and returns the
number of bytes written. -/
def bin_text_read_write_fixed (io : io_buf α) (data : model_item α) (len : Nat)
    (text_data : model_item α) (text_len : Nat) (text : Bool) : io_buf α × Nat :=
  if text then ({ io with written := io.written ++ [text_data] }, text_len)
  else if len > 0 then ({ io with written := io.written ++ [data] }, len)
  else (io, 0)

/-- One round of the `do … while` of `save_load` with `read` false (lines 675–692),
for the row `i`; `d_len` and `f_len` are the values returned by `sprintf` for `"%d "`
and `"%f "`.  Returns the file and `brw`. -/
def save_load_write_row (d_len : Nat → Nat) (f_len : α → Nat) (l : lda α) (text : Bool) (i : Nat)
    (model_file : io_buf α) : io_buf α × Nat :=
  let stride := 1 <<< l.all.stride_shift
  let K := l.all.lda
  let r0 := bin_text_read_write_fixed model_file (model_item.bin_index i) 4
    (model_item.text_index i) (d_len i) text
  let r1 : io_buf α × Nat :=
    if r0.2 ≠ 0 then
      for_loop K (fun k r =>
        let ndx := stride * i + k
        let v := l.all.weight_vector ndx
        let w := bin_text_read_write_fixed r.1 (model_item.bin_weight v) 4
          (model_item.text_weight (v + l.lda_rho)) (f_len (v + l.lda_rho)) text
        (w.1, r.2 + w.2)) r0
    else r0
  if text then
    let w := bin_text_read_write_fixed r1.1 model_item.buffer 0 model_item.text_newline 1 text
    (w.1, r1.2 + w.2)
  else r1

/-- The `do … while` of `save_load` with `read` false: the round for row `i`, then
`i++`, as long as `i < length`. -/
def save_load_write_loop (d_len : Nat → Nat) (f_len : α → Nat) (l : lda α) (text : Bool) (i : Nat)
    (model_file : io_buf α) : io_buf α :=
  if i + 1 < l.all.length then
    save_load_write_loop d_len f_len l text (i + 1)
      (save_load_write_row d_len f_len l text i model_file).1
  else (save_load_write_row d_len f_len l text i model_file).1
termination_by l.all.length - i
decreasing_by
  simp_wf
  omega

/-- Lines 669–694 of `save_load` with `read` false: the model is written. -/
def save_load_write (d_len : Nat → Nat) (f_len : α → Nat) (l : lda α) (model_file : io_buf α)
    (text : Bool) : io_buf α :=
  if model_file.files > 0 then save_load_write_loop d_len f_len l text 0 model_file
  else model_file

/-! ## Rows, pending decay and the vocabulary of the invariants -/

/-- The row width `1 << stride_shift`. -/
def lda.stride (l : lda α) : Nat := 1 <<< l.all.stride_shift

/-- The first cell of `Row(w)`: `w << stride_shift`. -/
def lda.row (l : lda α) (w : Nat) : Nat := w <<< l.all.stride_shift

/-- The stored `lambda(w,k)`. -/
def lda.lambda (l : lda α) (w k : Nat) : α := l.all.weight_vector (l.row w + k)

/-- The slot `t_last(w)`. -/
def lda.t_last (l : lda α) (w : Nat) : α := l.all.weight_vector (l.row w + l.all.lda)

/-- The slot `u(w)[k]`. -/
def lda.u (l : lda α) (w k : Nat) : α := l.all.weight_vector (l.row w + l.all.lda + 1 + k)

/-- The entry `decay_levels[t_last(w)]`, read the way `learn_batch` and
`end_examples` read it: at the signed offset `-1 - example_t + t_last(w)` from the end. -/
def lda.level_of_row (l : lda α) (w : Nat) : α :=
  l.decay_levels.end_index (to_int (-1 - l.example_t + l.t_last w))

/-- The pending decay multiplier of a row, `exp(decay_levels.back - decay_levels[t_last(w)])`. -/
def lda.pending (m : math_kernels α) (l : lda α) (w : Nat) : α :=
  m.exp (l.decay_levels.last - l.level_of_row w)

/-- The factor `decay` that `end_examples` computes for row `w` (lines 841–843). -/
def lda.end_decay (m : math_kernels α) (l : lda α) (w : Nat) : α :=
  min 1 (m.exp (l.decay_levels.last - l.level_of_row w))

/-- The effective `lambda(w,k)`: the stored value times the pending multiplier. -/
def lda.effective (m : math_kernels α) (l : lda α) (w k : Nat) : α :=
  l.lambda w k * l.pending m w

/-- The layout set up by `lda_setup` and the regressor: `topics` is `all.lda`, a row
holds its `2K+1` slots, and `weight_mask` is `(length << stride_shift) - 1`. -/
def lda.config_ok (l : lda α) : Prop :=
  l.topics = l.all.lda ∧ 2 * l.all.lda + 1 ≤ l.stride ∧
    l.all.weight_mask = (l.all.length <<< l.all.stride_shift) - 1

/-- A term hash already within the mask: the `weight_index` is the first cell of a
row of the table. -/
def lda.within_mask (l : lda α) (weight_index : Nat) : Prop :=
  ∃ w, w < l.all.length ∧ weight_index = l.row w

/-- The rows addressed by two different indices that satisfy `ok` share no slot:
the `2K+1` cells from `a & weight_mask` and from `b & weight_mask` are apart. -/
def lda.rows_apart (l : lda α) (ok : Nat → Prop) : Prop :=
  ∀ a b : Nat, ok a → ok b → a ≠ b → ∀ i,
    (a &&& l.all.weight_mask) ≤ i → i < (a &&& l.all.weight_mask) + 2 * l.all.lda + 1 →
    (i < (b &&& l.all.weight_mask) ∨ (b &&& l.all.weight_mask) + 2 * l.all.lda + 1 ≤ i)

/-- The decay history of a learner whose shrink factors were all in `(0, 1]`:
`decay_levels` is not empty and non-increasing, and the `t_last` slot of every row
names one of its entries. -/
def lda.history_ok (l : lda α) : Prop :=
  1 ≤ l.decay_levels.size ∧
  (∀ i j, i ≤ j → j < l.decay_levels.size → l.decay_levels.data j ≤ l.decay_levels.data i) ∧
  ∀ w, w < l.all.length → ∃ j : Nat, j < l.decay_levels.size ∧
    l.t_last w = l.example_t - ((l.decay_levels.size - 1 - j : Nat) : α)

/-- The shrink factor `mu` of the next minibatch: `minuseta` of `learn_batch`. -/
def lda.mu (m : math_kernels α) (l : lda α) : α :=
  (learn_batch_locals m l (l.example_t + 1)).minuseta

/-- The step size of the next minibatch after scaling: `eta` of `learn_batch` after
line 736. -/
def lda.eta_scaled (m : math_kernels α) (l : lda α) : α :=
  (learn_batch_locals m l (l.example_t + 1)).eta

/-- The weight table as the first pass of `learn_batch` leaves it (lines 715–764). -/
def learn_batch_first_pass (m : math_kernels α) (l : lda α) : Nat → α :=
  first_pass m (learn_batch_prologue m l) none (learn_batch_prologue m l).all.weight_vector
    (learn_batch_prologue m l).sorted_features

/-- The factor `decay = min(1, exp(decay_levels[n-1] - decay_levels[t_last(w)]))` of the
minibatch about to be processed, for the row that starts at cell `a`: `n` is the index
of the entry that this minibatch appends, and `t_last(w)` is read before the pass. -/
def lda.spec_decay (m : math_kernels α) (l : lda α) (a : Nat) : α :=
  min 1 (m.exp ((learn_batch_prologue m l).decay_levels.data (l.decay_levels.size - 1)
    - (learn_batch_prologue m l).decay_levels.end_index
        (to_int (-1 - (l.example_t + 1) + l.all.weight_vector (a + l.all.lda)))))

/-- The step size as section 4.4 of the specification words it:
`η = learning_rate · example_t^(−power_t)`, then `η ← min(1, η) · lda_D / batch_size`,
for the counter `example_t` of the minibatch being processed. -/
def lda.spec_eta (m : math_kernels α) (l : lda α) : α :=
  min 1 (l.all.eta * l.powf m (l.example_t + 1) (-l.all.power_t)) * l.lda_D
    / (l.examples.length : α)

/-- The amount that entry `e` adds for topic `k`, as the specification words it:
`η · x · u[k] · v[d,k] / Σ_j u[j] · v[d,j]`, with the `u` slots and `v` of the state. -/
def lda.contribution (l : lda α) (eta : α) (e : index_feature α) (k : Nat) : α :=
  eta * e.f.x * l.all.weight_vector (e.f.weight_index + l.all.lda + 1 + k)
      * l.v (e.document * l.all.lda + k)
    / ∑ j in Finset.range l.all.lda,
        l.all.weight_vector (e.f.weight_index + l.all.lda + 1 + j) * l.v (e.document * l.all.lda + j)

/-- The invariant "total consistency": `total_lambda` has its `K` entries and entry
`k` is the sum over all rows of the effective `lambda(w,k)`. -/
def lda.total_consistent (m : math_kernels α) (l : lda α) : Prop :=
  l.total_lambda.size = l.all.lda ∧
  ∀ k, k < l.all.lda →
    l.total_lambda.data k = ∑ w in Finset.range l.all.length, l.effective m w k

/-- Two learners that differ at most in the three buffers of pending work
(`examples`, `sorted_features`, `doc_lengths`). -/
def lda.same_but_pending (l l' : lda α) : Prop :=
  l'.all = l.all ∧ l'.topics = l.topics ∧ l'.mmode = l.mmode ∧ l'.minibatch = l.minibatch ∧
  l'.v_end_array = l.v_end_array ∧ l'.decay_levels = l.decay_levels ∧
  l'.example_t = l.example_t ∧ l'.total_lambda = l.total_lambda ∧
  l'.lda_D = l.lda_D ∧ l'.lda_rho = l.lda_rho ∧ l'.lda_alpha = l.lda_alpha ∧
  l'.lda_epsilon = l.lda_epsilon ∧ l'.v = l.v ∧ l'.Elogtheta = l.Elogtheta ∧
  l'.total_new = l.total_new ∧ l'.digammas = l.digammas ∧
  l'.total_lambda_init = l.total_lambda_init

/-- The sum of `x` over the features of a document. -/
def Example.mass (ec : Example α) : α := (ec.features.map (fun f => f.x)).sum

/-- What `learn` accumulates in the entry of `doc_lengths` of a document: the `(int)x`
of its features, added up in an `int` that starts from `0`. -/
def Example.int_length (ec : Example α) : Int :=
  ec.features.foldl (fun s f => int_add s (float_to_int f.x)) 0

/-! ## Sequences of calls -/

/-- The learner as the driver starts it: `lda_setup`, then the reading part of
`save_load`. -/
def lda_start (m : math_kernels α) (frand48 : Nat → α) (all : vw α) (vm : lda_options α) : lda α :=
  save_load_read m frand48 (lda_setup m all vm)

/-- A call of the streaming interface: `learn` (accept) on an example, or `end_pass`. -/
inductive lda_call (α : Type)
  | learn (ec : Example α)
  | end_pass

/-- The effect of one call. -/
def lda_call.run (m : math_kernels α) (fuel : Nat) (l : lda α) : lda_call α → Option (lda α)
  | .learn ec => LDA.learn m fuel l ec
  | .end_pass => LDA.end_pass m fuel l

/-- The effect of a sequence of calls; `none` when one of them does not return. -/
def run_calls (m : math_kernels α) (fuel : Nat) : lda α → List (lda_call α) → Option (lda α)
  | l, [] => some l
  | l, c :: cs =>
    match c.run m fuel l with
    | none => none
    | some l1 => run_calls m fuel l1 cs

/-- A call whose example, if it has one, only carries term hashes within the mask of
the learner `l`. -/
def lda_call.within_mask (l : lda α) : lda_call α → Prop
  | .learn ec => ∀ f ∈ ec.features, l.within_mask f.weight_index
  | .end_pass => True

/-- The state that a call hands to `learn_batch`, when it calls it. -/
def lda_call.batch (l : lda α) : lda_call α → Option (lda α)
  | .learn ec => if l.examples.length + 1 = l.minibatch then some (learn_push l ec) else none
  | .end_pass => if l.examples.length ≠ 0 then some l else none

/-- Whether the minibatch pending in `b` has an entry for row `w`. -/
def lda.touches (b : lda α) (w : Nat) : Bool :=
  b.sorted_features.any (fun s => s.f.weight_index == b.row w)

/-- The bookkeeping "which entry of `decay_levels` was appended by the minibatch that
last touched row `w`" across one call: a non-empty minibatch appends the entry of
index `decay_levels.size` and touches the rows of its entries. -/
def lda_call.last_touch (l : lda α) (c : lda_call α) (g : Nat → Nat) : Nat → Nat :=
  match c.batch l with
  | none => g
  | some b =>
    if b.sorted_features.isEmpty then g
    else fun w => if b.touches w then b.decay_levels.size else g w

/-- The same bookkeeping across a sequence of calls, from the learner `l`; `none` when
a call does not return. -/
def run_last_touch (m : math_kernels α) (fuel : Nat) :
    lda α → (Nat → Nat) → List (lda_call α) → Option (Nat → Nat)
  | _, g, [] => some g
  | l, g, c :: cs =>
    match c.run m fuel l with
    | none => none
    | some l1 => run_last_touch m fuel l1 (c.last_touch l g) cs

/-- The learner after the part of a call that precedes `learn_batch`: `learn` has
pushed its example, `end_pass` has done nothing. -/
def lda_call.pushed (l : lda α) : lda_call α → lda α
  | .learn ec => learn_push l ec
  | .end_pass => l

/-- The minibatch that the call hands to `learn_batch`, if it does and the minibatch
is not empty, satisfies `P`. -/
def lda_call.batch_ok (P : lda α → Prop) (l : lda α) (c : lda_call α) : Prop :=
  match c.batch l with
  | none => True
  | some b => b.sorted_features ≠ [] → P b

/-- Every non-empty minibatch that the calls hand to `learn_batch`, from the learner
`l` on, satisfies `P`. -/
def run_batches_ok (P : lda α → Prop) (m : math_kernels α) (fuel : Nat) :
    lda α → List (lda_call α) → Prop
  | _, [] => True
  | l, c :: cs =>
    c.batch_ok P l ∧
    (match c.run m fuel l with
      | none => True
      | some l1 => run_batches_ok P m fuel l1 cs)

/-! ## The eager scheme of the specification

The specification compares the lazy decay of `learn_batch` with "an eager
implementation that multiplies every row by mu at every minibatch and adds the same
per-occurrence contributions to the touched rows".  The definitions below follow
these words; everything they do not mention is taken over from `learn_batch`. -/

/-- Eager scheme, one row of the first pass: no decay is pending and nothing is
stamped; the `u` slots are computed from the stored `lambda`. -/
def eager_first_pass_row (m : math_kernels α) (l : lda α) (weights : Nat → α)
    (s : index_feature α) : Nat → α :=
  let weights_for_w := s.f.weight_index &&& l.all.weight_mask
  let u_for_w := weights_for_w + l.all.lda + 1
  let w2 := for_loop l.all.lda
    (fun k a => store a (u_for_w + k) (a (weights_for_w + k) + l.lda_rho)) weights
  l.expdigammify_2 m m.weights_aligned16 w2 u_for_w l.digammas.data

/-- Eager scheme, first pass: the `u` slots of the rows of the minibatch. -/
def eager_first_pass (m : math_kernels α) (l : lda α) (weights : Nat → α)
    (feats : List (index_feature α)) : Nat → α :=
  feats.foldl (eager_first_pass_row m l) weights

/-- Eager scheme: the `lambda` slots of every row of the table are multiplied by `mu`. -/
def eager_decay_all (l : lda α) (mu : α) (weights : Nat → α) : Nat → α :=
  for_loop l.all.length (fun w W =>
    for_loop l.all.lda (fun k a => store a (l.row w + k) (mu * a (l.row w + k))) W) weights

/-- Eager scheme, second pass: every row is shrunk, then every entry adds its amount
to its row and to `total_new`, as in lines 789–798. -/
def eager_second_pass (l : lda α) (loc : batch_locals α) (feats : List (index_feature α))
    (st : pass_state α) : pass_state α :=
  feats.foldl (second_pass_entry l loc.eta)
    { st with weights := eager_decay_all l loc.minuseta st.weights }

/-- Eager scheme: the minibatch update. -/
def eager_learn_batch (m : math_kernels α) (fuel : Nat) (l : lda α) : Option (lda α) :=
  if l.sorted_features.isEmpty then
    some { l with all := l.examples.foldl return_simple_example l.all, examples := [] }
  else
    let loc := learn_batch_locals m l (l.example_t + 1)
    let l1 := learn_batch_prologue m l
    let weights1 := eager_first_pass m l1 l1.all.weight_vector l1.sorted_features
    let l2 : lda α := { l1 with all := { l1.all with weight_vector := weights1 } }
    match learn_batch_docs m fuel weights1 0 l2.examples l2 with
    | none => none
    | some l3 =>
      let st := eager_second_pass l3 loc l3.sorted_features ⟨l3.all.weight_vector, l3.total_new⟩
      let l4 : lda α :=
        { l3 with all := { l3.all with weight_vector := st.weights }, total_new := st.total_new }
      some (learn_batch_epilogue l4 loc.minuseta)

/-- Eager scheme: the effect of one call. -/
def lda_call.run_eager (m : math_kernels α) (fuel : Nat) (l : lda α) : lda_call α → Option (lda α)
  | .learn ec =>
    if l.examples.length + 1 = l.minibatch then eager_learn_batch m fuel (learn_push l ec)
    else some (learn_push l ec)
  | .end_pass => if l.examples.length ≠ 0 then eager_learn_batch m fuel l else some l

/-- Eager scheme: the effect of a sequence of calls. -/
def run_calls_eager (m : math_kernels α) (fuel : Nat) : lda α → List (lda_call α) → Option (lda α)
  | l, [] => some l
  | l, c :: cs =>
    match c.run_eager m fuel l with
    | none => none
    | some l1 => run_calls_eager m fuel l1 cs

/-- The lazy learner `l` and the eager learner `e` agree: they differ at most in the
weight table, the `lambda` slots of `e` hold the effective values of `l`, and the `u`
slots are the same. -/
def lda.eager_agrees (m : math_kernels α) (l e : lda α) : Prop :=
  e = { l with all := { l.all with weight_vector := e.all.weight_vector } } ∧
  (∀ w k, w < l.all.length → k < l.all.lda → e.lambda w k = l.effective m w k) ∧
  (∀ w k, w < l.all.length → k < l.all.lda → e.u w k = l.u w k)

/-! ## A small learner, used to instantiate the statements -/

/-- Kernels without SSE path, from given library functions. -/
def kernels_of (exp log : α → α) (pow : α → α → α) (digamma lgamma : α → α) : math_kernels α :=
  { exp := exp, log := log, pow := pow, boost_digamma := digamma, boost_lgamma := lgamma,
    bits := fun _ => 0, of_bits := fun _ => 0, have_simd := false,
    weights_aligned16 := fun _ => false, v_aligned16 := fun _ => false }

/-- A driver state: two rows, learning rate `1/2`, `power_t = 0`, `initial_t = 0`. -/
def demo_all : vw α :=
  { lda := 1, eta := 1 / 2, power_t := 0, initial_t := 0, num_bits := 1, stride_shift := 2,
    weight_mask := 7, weight_vector := fun i => if i = 0 then 3 else if i = 4 then 5 else 0,
    random_weights := true, add_constant := false, ring_size := 1, sum_loss := 0,
    sum_loss_since_last_dump := 0, returned := [] }

/-- A learner with one topic in precise mode, two rows holding `lambda = 3` and
`lambda = 5`, no minibatch processed yet and `total_lambda` already filled. -/
def demo_learner : lda α :=
  { topics := 1, lda_alpha := 0.1, lda_rho := 0.1, lda_D := 1, lda_epsilon := 0.001,
    minibatch := 2, mmode := lda_math_mode.USE_PRECISE,
    Elogtheta := v_array.init, decay_levels := (v_array.init).push_back 0,
    total_new := v_array.init, examples := [],
    total_lambda := (v_array.init).push_back 8, doc_lengths := v_array.init,
    digammas := v_array.init, v := fun _ => 0, v_end_array := 2,
    sorted_features := [], total_lambda_init := false, example_t := 0, all := demo_all }

/-- A document with the single word `0`, once. -/
def demo_doc : Example α := { features := [{ x := 1, weight_index := 0 }], topic_predictions := [] }

/-- The learner `demo_learner` with two copies of `demo_doc` pending. -/
def demo_batch : lda α := learn_push (learn_push demo_learner demo_doc) demo_doc

/-- Kernels that know the floats met when the fast logarithm is taken at `1.0` and at
`3.0`: the patterns `0x3f800000` of `1.0` and `0x40400000` of `3.0`, and the floats
`0.5` and `0.75` of the patterns `0x3f000000` and `0x3f400000`. -/
def float_kernels : math_kernels α :=
  { exp := fun x => x, log := fun x => x, pow := fun x _ => x, boost_digamma := fun x => x,
    boost_lgamma := fun x => x,
    bits := fun x => if x = 1 then 0x3f800000 else if x = 3 then 0x40400000 else 0,
    of_bits := fun n => if n = 0x3f000000 then 1 / 2 else if n = 0x3f400000 then 3 / 4 else 0,
    have_simd := true, weights_aligned16 := fun _ => false, v_aligned16 := fun _ => false }

/-- A document with the single word `0`, of value one half. -/
def half_doc : Example α := { features := [{ x := 1 / 2, weight_index := 0 }], topic_predictions := [] }

/-- A document without features. -/
def empty_doc : Example α := { features := [], topic_predictions := [] }

end kernels

end LDA

namespace LDA

/-! ## The vocabulary of the model file -/

section model_file

variable {α : Type} [LinearOrderedField α] [FloorRing α] [float_cast α]

/-- The entries of row `w` in the model file: in text form the index, the `K` values
`lambda(w,k) + rho` and a newline; in binary form the index and the `K` stored values
`lambda(w,k)`. -/
def model_row (l : lda α) (text : Bool) (w : Nat) : List (model_item α) :=
  if text then
    [model_item.text_index w]
      ++ (List.range l.all.lda).map (fun k => model_item.text_weight (l.lambda w k + l.lda_rho))
      ++ [model_item.text_newline]
  else
    [model_item.bin_index w]
      ++ (List.range l.all.lda).map (fun k => model_item.bin_weight (l.lambda w k))

/-- The entries of row `w` as the specification words them for both forms: the index
`w` followed by `K` values, the `k`-th being `lambda(w,k) + rho`; `index` and `value`
are the entries that carry an index and a value in the form at hand. -/
def spec_model_row (l : lda α) (index : Nat → model_item α) (value : α → model_item α)
    (w : Nat) : List (model_item α) :=
  [index w] ++ (List.range l.all.lda).map (fun k => value (l.lambda w k + l.lda_rho))

end model_file

/-! ## The vocabulary of the pending documents -/

section pending_documents

variable {α : Type} [LinearOrderedField α] [FloorRing α] [float_cast α]

/-- The buffers of pending work are in step: `doc_lengths` holds the sum of `(int)x`
for every pending document and `0` in the cells between the pending documents and its
end, and a pending document with a feature has left an entry in `sorted_features`. -/
def lda.doc_lengths_ok (l : lda α) : Prop :=
  l.examples.length ≤ l.doc_lengths.size ∧
  (∀ (d : Nat) (ec : Example α), l.examples[d]? = some ec →
    l.doc_lengths.data d = ec.int_length) ∧
  (∀ d, l.examples.length ≤ d → d < l.doc_lengths.size → l.doc_lengths.data d = 0) ∧
  ((∃ ec ∈ l.examples, ec.features ≠ []) → l.sorted_features ≠ [])

/-- The values of `score` that `lda_loop` returns in the loop over the documents
(lines 766–776), in the order of the documents. -/
def learn_batch_docs_scores (m : math_kernels α) (fuel : Nat) (weights : Nat → α) :
    Nat → List (Example α) → lda α → Option (List α)
  | _, [], _ => some []
  | d, ec :: rest, l =>
    match lda_loop m fuel l l.Elogtheta (d * l.all.lda) weights ec with
    | none => none
    | some r =>
      let all1 := if l.doc_lengths.data d > 0 then
          { l.all with sum_loss := l.all.sum_loss - r.score,
                       sum_loss_since_last_dump := l.all.sum_loss_since_last_dump - r.score }
        else l.all
      (learn_batch_docs_scores m fuel weights (d + 1) rest
        { l with v := r.varr, Elogtheta := r.Elogtheta, all := return_simple_example all1 r.ec }).map
        (fun t => r.score :: t)

/-- The values of `score` of the documents of the minibatch pending in `l`, as
`learn_batch` computes them. -/
def learn_batch_scores (m : math_kernels α) (fuel : Nat) (l : lda α) : Option (List α) :=
  learn_batch_docs_scores m fuel (learn_batch_first_pass m l) 0 (learn_batch_prologue m l).examples
    { learn_batch_prologue m l with
      all := { (learn_batch_prologue m l).all with weight_vector := learn_batch_first_pass m l } }

/-- What a document takes off the loss for the value `s` of `score`: the test of
`learn_batch` (line 771) with the sum of `(int)x` in the place of `doc_lengths[d]`. -/
def Example.loss_term (ec : Example α) (s : α) : α := if ec.int_length > 0 then s else 0

end pending_documents

/-! ## The vocabulary of the fast kernels and of the driver -/

section driver

variable {α : Type} [LinearOrderedField α] [FloorRing α] [float_cast α]

/-- The function `fastpow2` as the specification words it: clip `p >= -126`,
`offset = 1` if `p < 0` else `0`, `w = floor(clipp)`, `z = clipp - w + offset`, and the
float whose pattern is `(1 << 23) * (clipp + 121.2740838 + 27.7280233/(4.84252568 - z)
- 1.49012907 * z)`. -/
def spec_fastpow2 (m : math_kernels α) (p : α) : α :=
  let clipp : α := max p (-126)
  let offset : α := if p < 0 then 1 else 0
  let w : Int := Int.floor clipp
  let z : α := clipp - (w : α) + offset
  m.of_bits (Int.toNat (Int.floor
    (2 ^ 23 * (clipp + 121.2740838 + 27.7280233 / (4.84252568 - z) - 1.49012907 * z))))

/-- Kernels whose floats are their own bit patterns: `of_bits n` is the number `n`. -/
def pattern_kernels : math_kernels α :=
  { exp := fun x => x, log := fun x => x, pow := fun x _ => x, boost_digamma := fun x => x,
    boost_lgamma := fun x => x, bits := fun _ => 0, of_bits := fun n => (n : α),
    have_simd := false, weights_aligned16 := fun _ => false, v_aligned16 := fun _ => false }

/-- The binary32 number of a bit pattern whose biased exponent is from `1` to `254`:
one bit of sign, eight bits of exponent and 23 bits of fraction. -/
def float_of_bits (n : Nat) : ℚ :=
  (if n / 2 ^ 31 % 2 = 1 then -1 else 1) * (1 + ((n % 2 ^ 23 : Nat) : ℚ) / 2 ^ 23)
    * 2 ^ (((n / 2 ^ 23 % 256 : Nat) : Int) - 127)

/-- Kernels over the rationals that know the single-precision logarithm `logf` at
`2`, `3` and `2097153` (the floats `0x3f317218`, `0x3f8c9f54` and `0x4168e5c0`), and
that read a bit pattern as the binary32 number it encodes. -/
def logf_kernels : math_kernels ℚ :=
  { exp := fun x => x, pow := fun x _ => x, boost_digamma := fun x => x,
    boost_lgamma := fun x => x, bits := fun _ => 0, of_bits := float_of_bits,
    log := fun x =>
      if x = 2 then 11629080 / 2 ^ 24 else if x = 3 then 9215828 / 2 ^ 23
      else if x = 2097153 then 15263168 / 2 ^ 20 else 0,
    have_simd := false, weights_aligned16 := fun _ => false, v_aligned16 := fun _ => false }

/-- A call of the driver: one of the streaming interface, or `end_examples`. -/
inductive lda_op (α : Type)
  | call (c : lda_call α)
  | end_examples

/-- The effect of one call of the driver. -/
def lda_op.run (m : math_kernels α) (fuel : Nat) (l : lda α) : lda_op α → Option (lda α)
  | .call c => c.run m fuel l
  | .end_examples => some (LDA.end_examples m l)

/-- The effect of a sequence of calls of the driver; `none` when one of them does not
return. -/
def run_ops (m : math_kernels α) (fuel : Nat) : lda α → List (lda_op α) → Option (lda α)
  | l, [] => some l
  | l, o :: os =>
    match o.run m fuel l with
    | none => none
    | some l1 => run_ops m fuel l1 os

/-- A call of the driver whose example, if it has one, only carries term hashes within
the mask of the learner `l`. -/
def lda_op.within_mask (l : lda α) : lda_op α → Prop
  | .call c => c.within_mask l
  | .end_examples => True

/-- The decay table and the counters are in step, for the value `initial_t` that the
counters started from: `decay_levels` has `1 + (example_t - initial_t)` entries, and
the `t_last` slot of every row is `initial_t + j` for the index `j` of one of them. -/
def lda.decay_index_ok (l : lda α) (initial_t : α) : Prop :=
  (l.decay_levels.size : α) = 1 + (l.example_t - initial_t) ∧
  ∀ w, w < l.all.length → ∃ j : Nat, j < l.decay_levels.size ∧ l.t_last w = initial_t + (j : α)

end driver

end LDA

namespace LDA

/-! ## Basic facts about cells and loops -/

section basics

variable {α : Type}

theorem store_apply (mem : Nat → α) (i : Nat) (x : α) (j : Nat) :
    store mem i x j = if j = i then x else mem j := rfl

@[simp] theorem store_same (mem : Nat → α) (i : Nat) (x : α) : store mem i x i = x := by
  simp [store]

theorem store_ne (mem : Nat → α) {i j : Nat} (x : α) (h : j ≠ i) : store mem i x j = mem j := by
  simp [store, h]

@[simp] theorem for_loop_zero {σ : Type} (body : Nat → σ → σ) (st : σ) : for_loop 0 body st = st := rfl

theorem for_loop_succ {σ : Type} (n : Nat) (body : Nat → σ → σ) (st : σ) :
    for_loop (n + 1) body st = body n (for_loop n body st) := rfl

/-- A loop whose body preserves a property preserves it. -/
theorem for_loop_invariant {σ : Type} (P : σ → Prop) (body : Nat → σ → σ)
    (hbody : ∀ k st, P st → P (body k st)) (n : Nat) (st : σ) (h : P st) :
    P (for_loop n body st) := by
  induction n with
  | zero => exact h
  | succ n ih => exact hbody n _ ih

/-- A loop that rewrites cell `b + k` from the old content of that cell. -/
theorem for_loop_store_cell (g : Nat → α → α) (b n : Nat) (W : Nat → α) (i : Nat) :
    for_loop n (fun k a => store a (b + k) (g k (a (b + k)))) W i
      = if b ≤ i ∧ i < b + n then g (i - b) (W i) else W i := by
  induction n with
  | zero =>
    have h : ¬ (b ≤ i ∧ i < b + 0) := by omega
    rw [if_neg h]; rfl
  | succ n ih =>
    rw [for_loop_succ]
    by_cases hi : i = b + n
    · subst hi
      rw [store_same, ih]
      simp
    · rw [store_ne _ _ hi, ih]
      by_cases h1 : b ≤ i ∧ i < b + n
      · have h2 : b ≤ i ∧ i < b + (n + 1) := ⟨h1.1, by omega⟩
        rw [if_pos h1, if_pos h2]
      · have h2 : ¬ (b ≤ i ∧ i < b + (n + 1)) := by
          intro h; apply h1; exact ⟨h.1, by omega⟩
        rw [if_neg h1, if_neg h2]

/-- A loop that writes cell `c + k` from the content of another, untouched, array. -/
theorem for_loop_store_from (g : Nat → α) (c n : Nat) (W : Nat → α) (i : Nat) :
    for_loop n (fun k a => store a (c + k) (g k)) W i
      = if c ≤ i ∧ i < c + n then g (i - c) else W i := by
  have := for_loop_store_cell (fun k _ => g k) c n W i
  simpa using this

end basics

/-- In exact arithmetic the conversion to single precision changes nothing. -/
theorem to_float_real (x : ℝ) : to_float x = x := rfl

end LDA

namespace LDA

section single_precision

/-- The binary32 number nearest to a positive normal `x`, from its exponent `e` and
the floor `f` of its significand in units of `2^(e-23)`. -/
theorem binary32_of_pos (x : ℚ) (e f : Int) (hx : 0 < x) (he : -126 ≤ e)
    (h1 : (2 : ℚ) ^ e ≤ x) (h2 : x < (2 : ℚ) ^ (e + 1))
    (hf1 : (f : ℚ) ≤ x / 2 ^ (e - 23)) (hf2 : x / 2 ^ (e - 23) < (f : ℚ) + 1) :
    binary32 x
      = ((if x / 2 ^ (e - 23) - (f : ℚ) < 1 / 2 then f
          else if 1 / 2 < x / 2 ^ (e - 23) - (f : ℚ) then f + 1
          else if f % 2 = 0 then f else f + 1 : Int) : ℚ) * 2 ^ (e - 23) := by
  have hlog : Int.log 2 x = e := by
    apply le_antisymm
    · have := (Int.lt_zpow_iff_log_lt (b := 2) (by norm_num) hx).mp h2
      omega
    · exact (Int.zpow_le_iff_le_log (b := 2) (by norm_num) hx).mp (by exact_mod_cast h1)
  have hfl : ⌊x / 2 ^ (e - 23)⌋ = f := by
    rw [Int.floor_eq_iff]
    exact ⟨hf1, hf2⟩
  unfold binary32
  rw [if_neg (ne_of_gt hx)]
  simp only []
  rw [abs_of_pos hx, hlog, max_eq_left he, hfl, if_neg (not_lt.mpr (le_of_lt hx)), one_mul]

/-- The counter value `2^24 + 1` is not a float: the conversion gives `2^24`. -/
theorem to_float_16777217 : to_float (16777217 : ℚ) = 16777216 := by
  show binary32 16777217 = 16777216
  rw [binary32_of_pos 16777217 24 8388608 (by norm_num) (by norm_num) (by norm_num)
    (by norm_num) (by norm_num) (by norm_num)]
  norm_num

/-- The counter value `2^24 + 3` is not a float: the conversion gives `2^24 + 4`. -/
theorem to_float_16777219 : to_float (16777219 : ℚ) = 16777220 := by
  show binary32 16777219 = 16777220
  rw [binary32_of_pos 16777219 24 8388609 (by norm_num) (by norm_num) (by norm_num)
    (by norm_num) (by norm_num) (by norm_num)]
  norm_num

/-- The counter value `2^24 + 2` is a float. -/
theorem to_float_16777218 : to_float (16777218 : ℚ) = 16777218 := by
  show binary32 16777218 = 16777218
  rw [binary32_of_pos 16777218 24 8388609 (by norm_num) (by norm_num) (by norm_num)
    (by norm_num) (by norm_num) (by norm_num)]
  norm_num

/-- With the single-precision logarithms of `2` and `3`, line 911 gives `2` for one
topic, the exact ceiling of the binary logarithm of `3`. -/
theorem lda_setup_temp_three (m : math_kernels ℚ) (h2 : m.log 2 = 11629080 / 2 ^ 24)
    (h3 : m.log 3 = 9215828 / 2 ^ 23) :
    Int.toNat (lda_setup_temp m (1 * 2 + 1)) = Nat.clog 2 (1 * 2 + 1) := by
  have e3 : to_float (((1 * 2 + 1 : Nat)) : ℚ) = 3 := by
    show binary32 (((1 * 2 + 1 : Nat)) : ℚ) = 3
    rw [binary32_of_pos _ 1 12582912 (by norm_num) (by norm_num) (by norm_num)
      (by norm_num) (by norm_num) (by norm_num)]
    norm_num
  have el3 : to_float (9215828 / 2 ^ 23 : ℚ) = 9215828 / 2 ^ 23 := by
    show binary32 (9215828 / 2 ^ 23) = 9215828 / 2 ^ 23
    rw [binary32_of_pos _ 0 9215828 (by norm_num) (by norm_num) (by norm_num)
      (by norm_num) (by norm_num) (by norm_num)]
    norm_num
  have el2 : to_float (11629080 / 2 ^ 24 : ℚ) = 11629080 / 2 ^ 24 := by
    show binary32 (11629080 / 2 ^ 24) = 11629080 / 2 ^ 24
    rw [binary32_of_pos _ (-1) 11629080 (by norm_num) (by norm_num) (by norm_num)
      (by norm_num) (by norm_num) (by norm_num)]
    norm_num
  have eq : to_float ((9215828 / 2 ^ 23 : ℚ) / (11629080 / 2 ^ 24)) = 13295629 / 2 ^ 23 := by
    show binary32 ((9215828 / 2 ^ 23 : ℚ) / (11629080 / 2 ^ 24)) = 13295629 / 2 ^ 23
    rw [binary32_of_pos _ 0 13295629 (by norm_num) (by norm_num) (by norm_num)
      (by norm_num) (by norm_num) (by norm_num)]
    norm_num
  unfold lda_setup_temp
  rw [e3, h3, h2, el3, el2, eq]
  have hc : ⌈(13295629 / 2 ^ 23 : ℚ)⌉ = 2 := by
    rw [Int.ceil_eq_iff]
    constructor <;> norm_num
  rw [hc]
  simp [Nat.clog]

/-- With the single-precision logarithms of `2` and `2^21 + 1`, line 911 gives `21`
for `2^20` topics: the quotient of the two floats, `21.0000007`, is rounded to the
float `21`. -/
theorem lda_setup_temp_large (m : math_kernels ℚ) (h2 : m.log 2 = 11629080 / 2 ^ 24)
    (h : m.log 2097153 = 15263168 / 2 ^ 20) :
    lda_setup_temp m (2 ^ 20 * 2 + 1) = 21 := by
  have e3 : to_float (((2 ^ 20 * 2 + 1 : Nat)) : ℚ) = 2097153 := by
    show binary32 (((2 ^ 20 * 2 + 1 : Nat)) : ℚ) = 2097153
    rw [binary32_of_pos _ 21 8388612 (by norm_num) (by norm_num) (by norm_num)
      (by norm_num) (by norm_num) (by norm_num)]
    norm_num
  have el3 : to_float (15263168 / 2 ^ 20 : ℚ) = 15263168 / 2 ^ 20 := by
    show binary32 (15263168 / 2 ^ 20) = 15263168 / 2 ^ 20
    rw [binary32_of_pos _ 3 15263168 (by norm_num) (by norm_num) (by norm_num)
      (by norm_num) (by norm_num) (by norm_num)]
    norm_num
  have el2 : to_float (11629080 / 2 ^ 24 : ℚ) = 11629080 / 2 ^ 24 := by
    show binary32 (11629080 / 2 ^ 24) = 11629080 / 2 ^ 24
    rw [binary32_of_pos _ (-1) 11629080 (by norm_num) (by norm_num) (by norm_num)
      (by norm_num) (by norm_num) (by norm_num)]
    norm_num
  have eq : to_float ((15263168 / 2 ^ 20 : ℚ) / (11629080 / 2 ^ 24)) = 21 := by
    show binary32 ((15263168 / 2 ^ 20 : ℚ) / (11629080 / 2 ^ 24)) = 21
    rw [binary32_of_pos _ 4 11010048 (by norm_num) (by norm_num) (by norm_num)
      (by norm_num) (by norm_num) (by norm_num)]
    norm_num
  unfold lda_setup_temp
  rw [e3, h, h2, el3, el2, eq]
  exact Int.ceil_intCast 21

end single_precision

end LDA

namespace LDA

section docs

variable {α : Type} [LinearOrderedField α] [FloorRing α] [float_cast α]

/-- The loop over the documents only writes `v`, `Elogtheta`, the two loss sums and
the list of returned examples. -/
theorem learn_batch_docs_frame (m : math_kernels α) (fuel : Nat) (weights : Nat → α) :
    ∀ (exs : List (Example α)) (d : Nat) (l l' : lda α),
      learn_batch_docs m fuel weights d exs l = some l' →
      ∃ v E sl sd ret, l' =
        { l with
          v := v, Elogtheta := E,
          all := { l.all with sum_loss := sl, sum_loss_since_last_dump := sd, returned := ret } } := by
  intro exs
  induction exs with
  | nil =>
    intro d l l' h
    simp only [learn_batch_docs, Option.some.injEq] at h
    subst h
    exact ⟨l.v, l.Elogtheta, l.all.sum_loss, l.all.sum_loss_since_last_dump, l.all.returned, rfl⟩
  | cons ec rest ih =>
    intro d l l' h
    rw [learn_batch_docs] at h
    cases hl : lda_loop m fuel l l.Elogtheta (d * l.all.lda) weights ec with
    | none => rw [hl] at h; simp at h
    | some r =>
      rw [hl] at h
      simp only at h
      obtain ⟨v, E, sl, sd, ret, h'⟩ := ih _ _ _ h
      refine ⟨v, E, sl, sd, ret, ?_⟩
      rw [h']
      by_cases hd : l.doc_lengths.data d > 0 <;> simp [hd, return_simple_example]

/-- Unfolding `learn_batch` on a non-empty list of features. -/
theorem learn_batch_nonempty (m : math_kernels α) (fuel : Nat) (l l' : lda α)
    (hne : l.sorted_features ≠ []) (h : learn_batch m fuel l = some l') :
    ∃ l3 : lda α,
      learn_batch_docs m fuel
        (first_pass m (learn_batch_prologue m l) none (learn_batch_prologue m l).all.weight_vector
          (learn_batch_prologue m l).sorted_features) 0 (learn_batch_prologue m l).examples
        { learn_batch_prologue m l with
          all := { (learn_batch_prologue m l).all with
            weight_vector := first_pass m (learn_batch_prologue m l) none
              (learn_batch_prologue m l).all.weight_vector (learn_batch_prologue m l).sorted_features } }
        = some l3 ∧
      l' = learn_batch_epilogue
        { l3 with
          all := { l3.all with weight_vector :=
            (second_pass l3 (learn_batch_locals m l (l.example_t + 1)) l3.sorted_features
              ⟨l3.all.weight_vector, l3.total_new⟩).weights },
          total_new := (second_pass l3 (learn_batch_locals m l (l.example_t + 1)) l3.sorted_features
              ⟨l3.all.weight_vector, l3.total_new⟩).total_new }
        (learn_batch_locals m l (l.example_t + 1)).minuseta := by
  have hemp : l.sorted_features.isEmpty = false := by
    cases hs : l.sorted_features with
    | nil => exact absurd hs hne
    | cons a t => rfl
  unfold learn_batch at h
  rw [hemp] at h
  simp only [Bool.false_eq_true, if_false] at h
  split at h
  · simp at h
  · rename_i l3 hl3
    refine ⟨l3, hl3, ?_⟩
    simp only [Option.some.injEq] at h
    exact h.symm

end docs

end LDA

namespace LDA

/-! ## The gamma transform on the `u` slots -/

section sweep

open ldamath

variable {σ : Type}

theorem scalar_head_ind (aligned : Nat → Bool) (body : Nat → σ → σ) (P : σ → Prop) (hi : Nat) :
    ∀ (n fp : Nat) (st : σ), fp + n ≤ hi →
      (∀ fp1 st1, fp ≤ fp1 → fp1 < hi → P st1 → P (body fp1 st1)) → P st →
      P (scalar_head aligned body n fp st).2 ∧ fp ≤ (scalar_head aligned body n fp st).1 := by
  intro n
  induction n with
  | zero => intro fp st _ _ h; exact ⟨h, le_refl _⟩
  | succ n ih =>
    intro fp st hn hb h
    rw [scalar_head]
    by_cases ha : aligned fp = true
    · rw [if_pos ha]; exact ⟨h, le_refl _⟩
    · rw [if_neg ha]
      have := ih (fp + 1) (body fp st) (by omega)
        (fun fp1 st1 h1 h2 h3 => hb fp1 st1 (by omega) h2 h3) (hb fp st (le_refl _) (by omega) h)
      exact ⟨this.1, by omega⟩

theorem vector_body_ind (aligned : Nat → Bool) (body : Nat → σ → σ) (P : σ → Prop) (fpend : Nat) :
    ∀ (n fp : Nat) (st : σ),
      (∀ fp1 st1, fp ≤ fp1 → fp1 + 4 < fpend → P st1 → P (body fp1 st1)) → P st →
      P (vector_body aligned body fpend n fp st).2 ∧ fp ≤ (vector_body aligned body fpend n fp st).1 := by
  intro n
  induction n with
  | zero => intro fp st _ h; exact ⟨h, le_refl _⟩
  | succ n ih =>
    intro fp st hb h
    rw [vector_body]
    by_cases ha : (aligned fp && decide (fp + 4 < fpend)) = true
    · rw [if_pos ha]
      have hlt : fp + 4 < fpend := by
        simp only [Bool.and_eq_true, decide_eq_true_eq] at ha
        exact ha.2
      have := ih (fp + 4) (body fp st)
        (fun fp1 st1 h1 h2 h3 => hb fp1 st1 (by omega) h2 h3) (hb fp st (le_refl _) hlt h)
      exact ⟨this.1, by omega⟩
    · rw [if_neg ha]; exact ⟨h, le_refl _⟩

theorem scalar_tail_ind (body : Nat → σ → σ) (P : σ → Prop) :
    ∀ (n fp : Nat) (st : σ),
      (∀ fp1 st1, fp ≤ fp1 → fp1 < fp + n → P st1 → P (body fp1 st1)) → P st →
      P (scalar_tail body n fp st) := by
  intro n
  induction n with
  | zero => intro fp st _ h; exact h
  | succ n ih =>
    intro fp st hb h
    rw [scalar_tail]
    exact ih (fp + 1) (body fp st)
      (fun fp1 st1 h1 h2 h3 => hb fp1 st1 (by omega) (by omega) h3)
      (hb fp st (le_refl _) (by omega) h)

/-- A property kept by the scalar step on the cells `g ≤ fp < g + K` and by the
vector step on the groups `fp, …, fp+3` with `fp + 4 < g + K` is kept by the sweep. -/
theorem simd_sweep_ind (aligned : Nat → Bool) (scalar vector : Nat → σ → σ) (P : σ → Prop)
    (g K : Nat) (st : σ)
    (hs : ∀ fp st1, g ≤ fp → fp < g + K → P st1 → P (scalar fp st1))
    (hv : ∀ fp st1, g ≤ fp → fp + 4 < g + K → P st1 → P (vector fp st1))
    (h : P st) : P (simd_sweep aligned scalar vector g K st) := by
  unfold simd_sweep
  have h1 := scalar_head_ind aligned scalar P (g + K) K g st (le_refl _) hs h
  have h2 := vector_body_ind aligned vector P (g + K) K
    (scalar_head aligned scalar K g st).1 (scalar_head aligned scalar K g st).2
    (fun fp1 st1 hfp hlt hp => hv fp1 st1 (le_trans h1.2 hfp) hlt hp) h1.1
  apply scalar_tail_ind scalar P _ _ _ _ h2.1
  intro fp1 st1 hfp hlt hp
  exact hs fp1 st1 (le_trans h1.2 (le_trans h2.2 hfp)) (by omega) hp

theorem scalar_head_congr (aligned : Nat → Bool) (body : Nat → σ → σ) (R : σ → σ → Prop)
    (hb : ∀ fp s t, R s t → R (body fp s) (body fp t)) :
    ∀ (n fp : Nat) (s t : σ), R s t →
      (scalar_head aligned body n fp s).1 = (scalar_head aligned body n fp t).1 ∧
      R (scalar_head aligned body n fp s).2 (scalar_head aligned body n fp t).2 := by
  intro n
  induction n with
  | zero => intro fp s t h; exact ⟨rfl, h⟩
  | succ n ih =>
    intro fp s t h
    rw [scalar_head, scalar_head]
    by_cases ha : aligned fp = true
    · rw [if_pos ha, if_pos ha]; exact ⟨rfl, h⟩
    · rw [if_neg ha, if_neg ha]; exact ih _ _ _ (hb fp s t h)

theorem vector_body_congr (aligned : Nat → Bool) (body : Nat → σ → σ) (R : σ → σ → Prop)
    (fpend : Nat) (hb : ∀ fp s t, R s t → R (body fp s) (body fp t)) :
    ∀ (n fp : Nat) (s t : σ), R s t →
      (vector_body aligned body fpend n fp s).1 = (vector_body aligned body fpend n fp t).1 ∧
      R (vector_body aligned body fpend n fp s).2 (vector_body aligned body fpend n fp t).2 := by
  intro n
  induction n with
  | zero => intro fp s t h; exact ⟨rfl, h⟩
  | succ n ih =>
    intro fp s t h
    rw [vector_body, vector_body]
    by_cases ha : (aligned fp && decide (fp + 4 < fpend)) = true
    · rw [if_pos ha, if_pos ha]; exact ih _ _ _ (hb fp s t h)
    · rw [if_neg ha, if_neg ha]; exact ⟨rfl, h⟩

theorem scalar_tail_congr (body : Nat → σ → σ) (R : σ → σ → Prop)
    (hb : ∀ fp s t, R s t → R (body fp s) (body fp t)) :
    ∀ (n fp : Nat) (s t : σ), R s t → R (scalar_tail body n fp s) (scalar_tail body n fp t) := by
  intro n
  induction n with
  | zero => intro fp s t h; exact h
  | succ n ih =>
    intro fp s t h
    rw [scalar_tail, scalar_tail]
    exact ih _ _ _ (hb fp s t h)

/-- Two runs of a sweep from related states stay related, when both steps keep the
relation. -/
theorem simd_sweep_congr (aligned : Nat → Bool) (scalar vector : Nat → σ → σ) (R : σ → σ → Prop)
    (g K : Nat) (s t : σ)
    (hs : ∀ fp s1 t1, R s1 t1 → R (scalar fp s1) (scalar fp t1))
    (hv : ∀ fp s1 t1, R s1 t1 → R (vector fp s1) (vector fp t1))
    (h : R s t) :
    R (simd_sweep aligned scalar vector g K s) (simd_sweep aligned scalar vector g K t) := by
  unfold simd_sweep
  have h1 := scalar_head_congr aligned scalar R hs K g s t h
  have h2 := vector_body_congr aligned vector R (g + K) hv K
    (scalar_head aligned scalar K g s).1 (scalar_head aligned scalar K g s).2
    (scalar_head aligned scalar K g t).2 h1.2
  simp only []
  rw [← h1.1]
  have h3 : (vector_body aligned vector (g + K) K (scalar_head aligned scalar K g s).1
      (scalar_head aligned scalar K g t).2).1 =
      (vector_body aligned vector (g + K) K (scalar_head aligned scalar K g s).1
      (scalar_head aligned scalar K g s).2).1 := h2.1.symm
  rw [h3]
  exact scalar_tail_congr scalar R hs _ _ _ _ h2.2

end sweep

end LDA

namespace LDA

section transform

variable {α : Type} [LinearOrderedField α] [FloorRing α] [float_cast α]

open ldamath

/-- The template `expdigammify_2` cell by cell. -/
theorem expdigammify_2_template_apply (m : math_kernels α) (mtype : lda_math_mode) (K : Nat)
    (mem : Nat → α) (g : Nat) (norm : Nat → α) (threshold : α) (i : Nat) :
    ldamath.expdigammify_2 m mtype K mem g norm threshold i
      = if g ≤ i ∧ i < g + K then
          max threshold (exponential m mtype (digamma m mtype (mem i) - norm (i - g)))
        else mem i := by
  unfold ldamath.expdigammify_2
  exact for_loop_store_cell
    (fun k x => max threshold (exponential m mtype (digamma m mtype x - norm k))) g K mem i

theorem vexpdigammify_2_frame (m : math_kernels α) (aligned : Nat → Bool) (K : Nat)
    (mem : Nat → α) (g : Nat) (norm : Nat → α) (threshold : α) (i : Nat)
    (hi : i < g ∨ g + K ≤ i) :
    vexpdigammify_2 m aligned K mem g norm threshold i = mem i := by
  unfold vexpdigammify_2
  refine simd_sweep_ind aligned _ _ (fun st => st i = mem i) g K mem ?_ ?_ rfl
  · intro fp st1 h1 h2 h3
    show store st1 fp _ i = mem i
    rw [store_ne _ _ (by omega)]
    exact h3
  · intro fp st1 h1 h2 h3
    show for_loop 4 _ st1 i = mem i
    rw [for_loop_store_from]
    rw [if_neg (by omega)]
    exact h3

theorem vexpdigammify_2_congr (m : math_kernels α) (aligned : Nat → Bool) (K : Nat)
    (mem mem' : Nat → α) (g : Nat) (norm : Nat → α) (threshold : α)
    (h : ∀ i, g ≤ i → i < g + K → mem i = mem' i) :
    ∀ i, g ≤ i → i < g + K →
      vexpdigammify_2 m aligned K mem g norm threshold i
        = vexpdigammify_2 m aligned K mem' g norm threshold i := by
  unfold vexpdigammify_2
  refine simd_sweep_congr aligned _ _ (fun s t => ∀ i, g ≤ i → i < g + K → s i = t i)
    g K mem mem' ?_ ?_ h
  · intro fp s1 t1 hr i h1 h2
    show store s1 fp _ i = store t1 fp _ i
    by_cases hfp : i = fp
    · subst hfp
      rw [store_same, store_same, hr i h1 h2]
    · rw [store_ne _ _ hfp, store_ne _ _ hfp]
      exact hr i h1 h2
  · intro fp s1 t1 hr i h1 h2
    show for_loop 4 _ s1 i = for_loop 4 _ t1 i
    rw [for_loop_store_from, for_loop_store_from]
    by_cases hc : fp ≤ i ∧ i < fp + 4
    · rw [if_pos hc, if_pos hc]
      have hidx : fp + (i - fp) = i := by omega
      rw [hidx, hr i h1 h2]
    · rw [if_neg hc, if_neg hc]
      exact hr i h1 h2

/-- In every math mode `expdigammify_2` writes only the `all.lda` cells from `g`. -/
theorem expdigammify_2_frame (m : math_kernels α) (l : lda α) (aligned : Nat → Bool)
    (mem : Nat → α) (g : Nat) (norm : Nat → α) (i : Nat) (hi : i < g ∨ g + l.all.lda ≤ i) :
    l.expdigammify_2 m aligned mem g norm i = mem i := by
  have ht : ∀ mtype, ldamath.expdigammify_2 m mtype l.all.lda mem g norm underflow_threshold i
      = mem i := by
    intro mtype
    rw [expdigammify_2_template_apply, if_neg (by omega)]
  unfold lda.expdigammify_2
  cases l.mmode with
  | USE_FAST_APPROX => exact ht _
  | USE_PRECISE => exact ht _
  | USE_SIMD =>
    simp only
    by_cases hs : m.have_simd = true
    · rw [if_pos hs]; exact vexpdigammify_2_frame m aligned _ mem g norm _ i hi
    · rw [if_neg hs]; exact ht _

/-- In every math mode the cells written by `expdigammify_2` depend only on the
former content of those cells, on the normalisers and on the configuration. -/
theorem expdigammify_2_congr (m : math_kernels α) (l l' : lda α) (aligned : Nat → Bool)
    (mem mem' : Nat → α) (g : Nat) (norm : Nat → α)
    (hm : l'.mmode = l.mmode) (hK : l'.all.lda = l.all.lda)
    (h : ∀ i, g ≤ i → i < g + l.all.lda → mem i = mem' i) :
    ∀ i, g ≤ i → i < g + l.all.lda →
      l.expdigammify_2 m aligned mem g norm i = l'.expdigammify_2 m aligned mem' g norm i := by
  intro i h1 h2
  have ht : ∀ mtype, ldamath.expdigammify_2 m mtype l.all.lda mem g norm underflow_threshold i
      = ldamath.expdigammify_2 m mtype l.all.lda mem' g norm underflow_threshold i := by
    intro mtype
    rw [expdigammify_2_template_apply, expdigammify_2_template_apply, h i h1 h2]
  unfold lda.expdigammify_2
  rw [hm, hK]
  cases l.mmode with
  | USE_FAST_APPROX => exact ht _
  | USE_PRECISE => exact ht _
  | USE_SIMD =>
    simp only
    by_cases hs : m.have_simd = true
    · rw [if_pos hs, if_pos hs]
      exact vexpdigammify_2_congr m aligned _ mem mem' g norm _ h i h1 h2
    · rw [if_neg hs, if_neg hs]; exact ht _

/-- Outside the SSE specialisation `expdigammify_2` is the template. -/
theorem expdigammify_2_scalar (m : math_kernels α) (l : lda α) (aligned : Nat → Bool)
    (mem : Nat → α) (g : Nat) (norm : Nat → α)
    (hmode : l.mmode ≠ lda_math_mode.USE_SIMD ∨ m.have_simd = false) (i : Nat) :
    l.expdigammify_2 m aligned mem g norm i
      = if g ≤ i ∧ i < g + l.all.lda then
          max underflow_threshold
            (exponential m l.mmode (digamma m l.mmode (mem i) - norm (i - g)))
        else mem i := by
  unfold lda.expdigammify_2
  cases hmm : l.mmode with
  | USE_FAST_APPROX => simp only; rw [expdigammify_2_template_apply]
  | USE_PRECISE => simp only; rw [expdigammify_2_template_apply]
  | USE_SIMD =>
    have hs : m.have_simd = false := by
      rcases hmode with h | h
      · exact absurd hmm h
      · exact h
    simp only [hs, Bool.false_eq_true, if_false]
    rw [expdigammify_2_template_apply]
    rfl

end transform

end LDA

namespace LDA

section first_pass

variable {α : Type} [LinearOrderedField α] [FloorRing α] [float_cast α]

/-- The inner loop of the first pass (lines 759–762), cell by cell. -/
theorem first_pass_inner (b K : Nat) (decay rho : α) (w1 : Nat → α) :
    ∀ n, n ≤ K → ∀ i,
      for_loop n (fun k a =>
        let a1 := store a (b + k) (a (b + k) * decay)
        store a1 (b + K + 1 + k) (a1 (b + k) + rho)) w1 i
      = if b ≤ i ∧ i < b + n then w1 i * decay
        else if b + K + 1 ≤ i ∧ i < b + K + 1 + n then w1 (i - (K + 1)) * decay + rho
        else w1 i := by
  have hbody : (fun (k : Nat) (a : Nat → α) =>
        let a1 := store a (b + k) (a (b + k) * decay)
        store a1 (b + K + 1 + k) (a1 (b + k) + rho))
      = (fun k a => store (store a (b + k) (a (b + k) * decay)) (b + K + 1 + k)
          (a (b + k) * decay + rho)) := by
    funext k a
    simp only [store_same]
  rw [hbody]
  intro n
  induction n with
  | zero =>
    intro _ i
    have h1 : ¬ (b ≤ i ∧ i < b + 0) := by omega
    have h2 : ¬ (b + K + 1 ≤ i ∧ i < b + K + 1 + 0) := by omega
    rw [if_neg h1, if_neg h2]; rfl
  | succ n ih =>
    intro hn i
    rw [for_loop_succ]
    have ihn := ih (by omega)
    have hbn : for_loop n (fun k a => store (store a (b + k) (a (b + k) * decay)) (b + K + 1 + k)
          (a (b + k) * decay + rho)) w1 (b + n) = w1 (b + n) := by
      rw [ihn, if_neg (by omega), if_neg (by omega)]
    by_cases hu : i = b + K + 1 + n
    · subst hu
      rw [store_same, hbn, if_neg (by omega), if_pos (by omega)]
      have : b + K + 1 + n - (K + 1) = b + n := by omega
      rw [this]
    · rw [store_ne _ _ hu]
      by_cases hl : i = b + n
      · subst hl
        rw [store_same, hbn, if_pos (by omega)]
      · rw [store_ne _ _ hl, ihn]
        split_ifs <;> first | rfl | (exfalso; omega)

/-- The first pass leaves every cell outside the `2K+1` slots of the row alone. -/
theorem first_pass_row_frame (m : math_kernels α) (l : lda α) (W : Nat → α) (s : index_feature α)
    (i : Nat)
    (hi : i < (s.f.weight_index &&& l.all.weight_mask) ∨
      (s.f.weight_index &&& l.all.weight_mask) + 2 * l.all.lda + 1 ≤ i) :
    first_pass_row m l W s i = W i := by
  unfold first_pass_row
  simp only []
  rw [expdigammify_2_frame _ _ _ _ _ _ _ (by omega)]
  rw [first_pass_inner _ _ _ _ _ _ (le_refl _), if_neg (by omega), if_neg (by omega)]
  rw [store_ne _ _ (by omega)]

/-- The first pass multiplies the `lambda` slots of the row by `decay`. -/
theorem first_pass_row_lambda (m : math_kernels α) (l : lda α) (W : Nat → α) (s : index_feature α)
    (k : Nat) (hk : k < l.all.lda) :
    first_pass_row m l W s ((s.f.weight_index &&& l.all.weight_mask) + k)
      = W ((s.f.weight_index &&& l.all.weight_mask) + k)
        * first_pass_decay m l W (s.f.weight_index &&& l.all.weight_mask) := by
  unfold first_pass_row
  simp only []
  rw [expdigammify_2_frame _ _ _ _ _ _ _ (by omega)]
  rw [first_pass_inner _ _ _ _ _ _ (le_refl _), if_pos (by omega)]
  rw [store_ne _ _ (by omega)]
  rfl

/-- The first pass sets the `t_last` slot of the row to `(float)example_t`. -/
theorem first_pass_row_t_last (m : math_kernels α) (l : lda α) (W : Nat → α) (s : index_feature α) :
    first_pass_row m l W s ((s.f.weight_index &&& l.all.weight_mask) + l.all.lda)
      = to_float l.example_t := by
  unfold first_pass_row
  simp only []
  rw [expdigammify_2_frame _ _ _ _ _ _ _ (by omega)]
  rw [first_pass_inner _ _ _ _ _ _ (le_refl _), if_neg (by omega), if_neg (by omega)]
  rw [store_same]

/-- The first pass fills the `u` slots of the row; outside the SSE specialisation
the value is the one of the template. -/
theorem first_pass_row_u (m : math_kernels α) (l : lda α) (W : Nat → α) (s : index_feature α)
    (hmode : l.mmode ≠ lda_math_mode.USE_SIMD ∨ m.have_simd = false)
    (k : Nat) (hk : k < l.all.lda) :
    first_pass_row m l W s ((s.f.weight_index &&& l.all.weight_mask) + l.all.lda + 1 + k)
      = max underflow_threshold (ldamath.exponential m l.mmode
          (ldamath.digamma m l.mmode
            (W ((s.f.weight_index &&& l.all.weight_mask) + k)
              * first_pass_decay m l W (s.f.weight_index &&& l.all.weight_mask) + l.lda_rho)
            - l.digammas.data k)) := by
  unfold first_pass_row
  simp only []
  rw [expdigammify_2_scalar _ _ _ _ _ _ hmode, if_pos (by omega)]
  rw [first_pass_inner _ _ _ _ _ _ (le_refl _), if_neg (by omega), if_pos (by omega)]
  have h1 : (s.f.weight_index &&& l.all.weight_mask) + l.all.lda + 1 + k - (l.all.lda + 1)
      = (s.f.weight_index &&& l.all.weight_mask) + k := by omega
  have h2 : (s.f.weight_index &&& l.all.weight_mask) + l.all.lda + 1 + k
      - ((s.f.weight_index &&& l.all.weight_mask) + l.all.lda + 1) = k := by omega
  rw [h1, h2, store_ne _ _ (by omega)]
  rfl

/-- The cells of the row after the first pass depend only on the cells of the row
before it. -/
theorem first_pass_row_congr (m : math_kernels α) (l : lda α) (W W' : Nat → α)
    (s : index_feature α)
    (h : ∀ i, (s.f.weight_index &&& l.all.weight_mask) ≤ i →
      i < (s.f.weight_index &&& l.all.weight_mask) + 2 * l.all.lda + 1 → W i = W' i) :
    ∀ i, (s.f.weight_index &&& l.all.weight_mask) ≤ i →
      i < (s.f.weight_index &&& l.all.weight_mask) + 2 * l.all.lda + 1 →
      first_pass_row m l W s i = first_pass_row m l W' s i := by
  intro i h1 h2
  have hin : ∀ W0 : Nat → α, ∀ j,
      for_loop l.all.lda (fun k a =>
        let a1 := store a ((s.f.weight_index &&& l.all.weight_mask) + k)
          (a ((s.f.weight_index &&& l.all.weight_mask) + k)
            * first_pass_decay m l W0 (s.f.weight_index &&& l.all.weight_mask))
        store a1 ((s.f.weight_index &&& l.all.weight_mask) + l.all.lda + 1 + k)
          (a1 ((s.f.weight_index &&& l.all.weight_mask) + k) + l.lda_rho))
        (store W0 ((s.f.weight_index &&& l.all.weight_mask) + l.all.lda) (to_float l.example_t)) j = _ :=
    fun W0 j => first_pass_inner _ _ _ _ _ _ (le_refl _) j
  have hd : first_pass_decay m l W (s.f.weight_index &&& l.all.weight_mask)
      = first_pass_decay m l W' (s.f.weight_index &&& l.all.weight_mask) := by
    unfold first_pass_decay
    rw [h _ (by omega) (by omega)]
  have hw2 : ∀ j, (s.f.weight_index &&& l.all.weight_mask) ≤ j →
      j < (s.f.weight_index &&& l.all.weight_mask) + 2 * l.all.lda + 1 →
      for_loop l.all.lda (fun k a =>
        let a1 := store a ((s.f.weight_index &&& l.all.weight_mask) + k)
          (a ((s.f.weight_index &&& l.all.weight_mask) + k)
            * first_pass_decay m l W (s.f.weight_index &&& l.all.weight_mask))
        store a1 ((s.f.weight_index &&& l.all.weight_mask) + l.all.lda + 1 + k)
          (a1 ((s.f.weight_index &&& l.all.weight_mask) + k) + l.lda_rho))
        (store W ((s.f.weight_index &&& l.all.weight_mask) + l.all.lda) (to_float l.example_t)) j
      = for_loop l.all.lda (fun k a =>
        let a1 := store a ((s.f.weight_index &&& l.all.weight_mask) + k)
          (a ((s.f.weight_index &&& l.all.weight_mask) + k)
            * first_pass_decay m l W' (s.f.weight_index &&& l.all.weight_mask))
        store a1 ((s.f.weight_index &&& l.all.weight_mask) + l.all.lda + 1 + k)
          (a1 ((s.f.weight_index &&& l.all.weight_mask) + k) + l.lda_rho))
        (store W' ((s.f.weight_index &&& l.all.weight_mask) + l.all.lda) (to_float l.example_t)) j := by
    intro j hj1 hj2
    rw [hin W j, hin W' j, hd]
    simp only [store_apply]
    have e1 := h j hj1 hj2
    split_ifs with c1 c2 c3 c4 c5
    · exfalso; omega
    · rw [e1]
    · exfalso; omega
    · rw [h _ (by omega) (by omega)]
    · rfl
    · exact e1
  unfold first_pass_row
  simp only []
  by_cases hu : (s.f.weight_index &&& l.all.weight_mask) + l.all.lda + 1 ≤ i
  · exact expdigammify_2_congr m l l _ _ _ _ _ rfl rfl
      (fun j hj1 hj2 => hw2 j (by omega) (by omega)) i hu (by omega)
  · rw [expdigammify_2_frame _ _ _ _ _ _ _ (by omega),
      expdigammify_2_frame _ _ _ _ _ _ _ (by omega)]
    exact hw2 i h1 h2

end first_pass

end LDA

namespace LDA

section first_pass_list

variable {α : Type} [LinearOrderedField α] [FloorRing α] [float_cast α]

theorem first_pass_row_same_index (m : math_kernels α) (l : lda α) (W : Nat → α)
    (s s' : index_feature α) (h : s'.f.weight_index = s.f.weight_index) :
    first_pass_row m l W s' = first_pass_row m l W s := by
  unfold first_pass_row
  rw [h]

/-- The first loop over a sorted list, with the running `last_weight_index`: every
row whose index differs from `last` is processed once, from the table the loop
started with, and no other cell changes. -/
theorem first_pass_sorted (m : math_kernels α) (l : lda α) (ok : Nat → Prop)
    (hdisj : l.rows_apart ok) :
    ∀ (feats : List (index_feature α)) (last : Option Nat) (W : Nat → α),
      (∀ s ∈ feats, ok s.f.weight_index) →
      feats.Sorted index_feature.le →
      (∀ a, last = some a → ∀ s ∈ feats, a ≤ s.f.weight_index) →
      (∀ s ∈ feats, some s.f.weight_index ≠ last → ∀ i,
        (s.f.weight_index &&& l.all.weight_mask) ≤ i →
        i < (s.f.weight_index &&& l.all.weight_mask) + 2 * l.all.lda + 1 →
        first_pass m l last W feats i = first_pass_row m l W s i) ∧
      (∀ i, (∀ s ∈ feats, some s.f.weight_index ≠ last →
          (i < (s.f.weight_index &&& l.all.weight_mask) ∨
            (s.f.weight_index &&& l.all.weight_mask) + 2 * l.all.lda + 1 ≤ i)) →
        first_pass m l last W feats i = W i) := by
  intro feats
  induction feats with
  | nil =>
    intro last W _ _ _
    exact ⟨fun s hs => absurd hs (List.not_mem_nil s), fun i _ => rfl⟩
  | cons s rest ih =>
    intro last W hok hsorted hlast
    have hs' := List.sorted_cons.mp hsorted
    have hokr : ∀ t ∈ rest, ok t.f.weight_index := fun t ht => hok t (List.mem_cons_of_mem _ ht)
    have hoks : ok s.f.weight_index := hok s (List.mem_cons_self _ _)
    by_cases hl : last = some s.f.weight_index
    · -- the entry is skipped
      have hstep : first_pass m l last W (s :: rest) = first_pass m l last W rest := by
        rw [first_pass, if_pos hl]
      rw [hstep]
      have ihr := ih last W hokr hs'.2 (fun a ha t ht => hlast a ha t (List.mem_cons_of_mem _ ht))
      constructor
      · intro t ht hne i h1 h2
        rcases List.mem_cons.mp ht with rfl | ht'
        · exact absurd hl.symm hne
        · exact ihr.1 t ht' hne i h1 h2
      · intro i hi
        exact ihr.2 i (fun t ht hne => hi t (List.mem_cons_of_mem _ ht) hne)
    · -- the row of the entry is processed
      have hstep : first_pass m l last W (s :: rest)
          = first_pass m l (some s.f.weight_index) (first_pass_row m l W s) rest := by
        rw [first_pass, if_neg hl]
      rw [hstep]
      have ihr := ih (some s.f.weight_index) (first_pass_row m l W s) hokr hs'.2
        (fun a ha t ht => by
          simp only [Option.some.injEq] at ha
          subst ha
          exact hs'.1 t ht)
      constructor
      · intro t ht hne i h1 h2
        by_cases hts : t.f.weight_index = s.f.weight_index
        · rw [first_pass_row_same_index m l W s t hts]
          rw [hts] at h1 h2
          apply ihr.2 i
          intro t' ht' hne'
          have : s.f.weight_index ≠ t'.f.weight_index := by
            intro h; apply hne'; rw [h]
          exact hdisj _ _ hoks (hokr t' ht') this i h1 h2
        · have ht' : t ∈ rest := by
            rcases List.mem_cons.mp ht with h | h
            · exact absurd (by rw [h]) hts
            · exact h
          have hne' : some t.f.weight_index ≠ some s.f.weight_index := by
            intro h; apply hts; exact Option.some.inj h
          rw [ihr.1 t ht' hne' i h1 h2]
          apply first_pass_row_congr m l _ _ t _ i h1 h2
          intro j hj1 hj2
          exact first_pass_row_frame m l W s j (hdisj _ _ (hokr t ht') hoks hts j hj1 hj2)
      · intro i hi
        have h1 : first_pass m l (some s.f.weight_index) (first_pass_row m l W s) rest i
            = first_pass_row m l W s i := by
          apply ihr.2 i
          intro t ht hne
          apply hi t (List.mem_cons_of_mem _ ht)
          intro h
          -- `last` is below `s`, which is below `t`
          have ha := hlast t.f.weight_index h.symm s (List.mem_cons_self _ _)
          have hb : s.f.weight_index ≤ t.f.weight_index := hs'.1 t ht
          have : t.f.weight_index = s.f.weight_index := le_antisymm ha hb
          exact hne (by rw [this])
        rw [h1]
        exact first_pass_row_frame m l W s i
          (hi s (List.mem_cons_self _ _) (fun h => hl h.symm))

end first_pass_list

end LDA

namespace LDA

section second_pass

variable {α : Type} [LinearOrderedField α] [FloorRing α] [float_cast α]

theorem for_loop_congr {σ : Type} (n : Nat) (f g : Nat → σ → σ) (st : σ)
    (h : ∀ k, k < n → ∀ s, f k s = g k s) : for_loop n f st = for_loop n g st := by
  induction n with
  | zero => rfl
  | succ n ih =>
    rw [for_loop_succ, for_loop_succ, ih (fun k hk s => h k (by omega) s)]
    exact h n (by omega) _

theorem inner_product_congr (K : Nat) (a a' b : Nat → α) (init : α)
    (h : ∀ k, k < K → a k = a' k) :
    ldamath.inner_product K a b init = ldamath.inner_product K a' b init := by
  unfold ldamath.inner_product
  apply for_loop_congr
  intro k hk s
  rw [h k hk]

/-- The amount `new_value` only reads the `u` slots of the row. -/
theorem new_value_congr (l : lda α) (eta : α) (W W' : Nat → α) (s : index_feature α) (k : Nat)
    (ht : l.topics = l.all.lda) (hk : k < l.all.lda)
    (h : ∀ j, j < l.all.lda →
      W ((s.f.weight_index &&& l.all.weight_mask) + l.all.lda + 1 + j)
        = W' ((s.f.weight_index &&& l.all.weight_mask) + l.all.lda + 1 + j)) :
    new_value l eta W s k = new_value l eta W' s k := by
  unfold new_value find_cw
  rw [h k hk, ht]
  rw [inner_product_congr l.all.lda _ (fun k => W' ((s.f.weight_index &&& l.all.weight_mask)
    + l.all.lda + 1 + k)) _ 0 (fun j hj => h j hj)]

/-- A loop that adds `weights[u+k] * f k` to cell `b+k` and to `total_new[k]`, the
cells `u+k` lying beyond the cells `b+k`. -/
theorem accumulate_row (b u : Nat) (f : Nat → α) (st : pass_state α) :
    ∀ n, b + n ≤ u →
      (∀ i, (for_loop n (fun k (st1 : pass_state α) =>
          (⟨store st1.weights (b + k) (st1.weights (b + k) + st1.weights (u + k) * f k),
            st1.total_new.set k (st1.total_new.data k + st1.weights (u + k) * f k)⟩ :
              pass_state α)) st).weights i
        = if b ≤ i ∧ i < b + n then st.weights i + st.weights (u + (i - b)) * f (i - b)
          else st.weights i) ∧
      (∀ j, (for_loop n (fun k (st1 : pass_state α) =>
          (⟨store st1.weights (b + k) (st1.weights (b + k) + st1.weights (u + k) * f k),
            st1.total_new.set k (st1.total_new.data k + st1.weights (u + k) * f k)⟩ :
              pass_state α)) st).total_new.data j
        = if j < n then st.total_new.data j + st.weights (u + j) * f j
          else st.total_new.data j) ∧
      (for_loop n (fun k (st1 : pass_state α) =>
          (⟨store st1.weights (b + k) (st1.weights (b + k) + st1.weights (u + k) * f k),
            st1.total_new.set k (st1.total_new.data k + st1.weights (u + k) * f k)⟩ :
              pass_state α)) st).total_new.size = st.total_new.size := by
  intro n
  induction n with
  | zero =>
    intro _
    refine ⟨fun i => ?_, fun k => ?_, rfl⟩
    · rw [if_neg (by omega)]; rfl
    · rw [if_neg (by omega)]; rfl
  | succ n ih =>
    intro hn
    obtain ⟨ihw, iht, ihs⟩ := ih (by omega)
    rw [for_loop_succ]
    generalize for_loop n (fun k (st1 : pass_state α) =>
          (⟨store st1.weights (b + k) (st1.weights (b + k) + st1.weights (u + k) * f k),
            st1.total_new.set k (st1.total_new.data k + st1.weights (u + k) * f k)⟩ :
              pass_state α)) st = mid at ihw iht ihs
    have hb : mid.weights (b + n) = st.weights (b + n) := by
      rw [ihw, if_neg (by omega)]
    have hu : mid.weights (u + n) = st.weights (u + n) := by
      rw [ihw, if_neg (by omega)]
    have ht : mid.total_new.data n = st.total_new.data n := by
      rw [iht, if_neg (by omega)]
    refine ⟨fun i => ?_, fun j => ?_, ?_⟩
    · show store mid.weights (b + n) _ i = _
      rw [store_apply, hb, hu, ihw]
      have e : b + n - b = n := by omega
      split_ifs <;> first | rfl | (exfalso; omega) | (subst_vars; rw [e])
    · show store mid.total_new.data n _ j = _
      rw [store_apply, ht, hu, iht]
      split_ifs <;> first | rfl | (exfalso; omega) | (subst_vars; rfl)
    · exact ihs

/-- Lines 793–797 for one entry: the `lambda` slots of its row and `total_new`
receive the amounts `new_value`. -/
theorem second_pass_entry_apply (l : lda α) (eta : α) (st : pass_state α) (s : index_feature α) :
    (∀ i, (second_pass_entry l eta st s).weights i
      = if (s.f.weight_index &&& l.all.weight_mask) ≤ i ∧
            i < (s.f.weight_index &&& l.all.weight_mask) + l.all.lda then
          st.weights i + new_value l eta st.weights s (i - (s.f.weight_index &&& l.all.weight_mask))
        else st.weights i) ∧
    (∀ k, (second_pass_entry l eta st s).total_new.data k
      = if k < l.all.lda then st.total_new.data k + new_value l eta st.weights s k
        else st.total_new.data k) ∧
    (second_pass_entry l eta st s).total_new.size = st.total_new.size := by
  have key := accumulate_row (s.f.weight_index &&& l.all.weight_mask)
    ((s.f.weight_index &&& l.all.weight_mask) + l.all.lda + 1)
    (fun k => l.v (s.document * l.all.lda + k)
      * (eta * find_cw l st.weights ((s.f.weight_index &&& l.all.weight_mask) + l.all.lda + 1) l.v
        (s.document * l.all.lda) * s.f.x)) st l.all.lda (by omega)
  have hloop : second_pass_entry l eta st s = for_loop l.all.lda (fun k (st1 : pass_state α) =>
      (⟨store st1.weights ((s.f.weight_index &&& l.all.weight_mask) + k)
          (st1.weights ((s.f.weight_index &&& l.all.weight_mask) + k)
            + st1.weights ((s.f.weight_index &&& l.all.weight_mask) + l.all.lda + 1 + k)
              * (fun k => l.v (s.document * l.all.lda + k)
                * (eta * find_cw l st.weights ((s.f.weight_index &&& l.all.weight_mask)
                    + l.all.lda + 1) l.v (s.document * l.all.lda) * s.f.x)) k),
        st1.total_new.set k (st1.total_new.data k
            + st1.weights ((s.f.weight_index &&& l.all.weight_mask) + l.all.lda + 1 + k)
              * (fun k => l.v (s.document * l.all.lda + k)
                * (eta * find_cw l st.weights ((s.f.weight_index &&& l.all.weight_mask)
                    + l.all.lda + 1) l.v (s.document * l.all.lda) * s.f.x)) k)⟩ :
          pass_state α)) st := by
    unfold second_pass_entry
    simp only [mul_assoc]
  rw [hloop]
  obtain ⟨kw, kt, ks⟩ := key
  refine ⟨fun i => ?_, fun k => ?_, ks⟩
  · rw [kw i]
    unfold new_value
    simp only [mul_assoc]
  · rw [kt k]
    unfold new_value
    simp only [mul_assoc]

end second_pass

end LDA

namespace LDA

section second_pass_list

variable {α : Type} [LinearOrderedField α] [FloorRing α] [float_cast α]

theorem gain_nil (l : lda α) (eta : α) (W : Nat → α) (i : Nat) : gain l eta W [] i = 0 := by
  simp [gain]

theorem gain_cons (l : lda α) (eta : α) (W : Nat → α) (e : index_feature α)
    (es : List (index_feature α)) (i : Nat) :
    gain l eta W (e :: es) i
      = (if (e.f.weight_index &&& l.all.weight_mask) ≤ i ∧
            i < (e.f.weight_index &&& l.all.weight_mask) + l.all.lda then
          new_value l eta W e (i - (e.f.weight_index &&& l.all.weight_mask)) else 0)
        + gain l eta W es i := by
  unfold gain
  by_cases h : (e.f.weight_index &&& l.all.weight_mask) ≤ i ∧
      i < (e.f.weight_index &&& l.all.weight_mask) + l.all.lda
  · rw [List.filter_cons_of_pos (by simpa using h), if_pos h]
    simp
  · rw [List.filter_cons_of_neg (by simpa using h), if_neg h]
    simp

theorem gain_append (l : lda α) (eta : α) (W : Nat → α) (xs ys : List (index_feature α)) (i : Nat) :
    gain l eta W (xs ++ ys) i = gain l eta W xs i + gain l eta W ys i := by
  unfold gain
  simp

theorem gain_congr (l : lda α) (eta : α) (W W' : Nat → α) (es : List (index_feature α)) (i : Nat)
    (h : ∀ e ∈ es, ∀ k, k < l.all.lda → new_value l eta W e k = new_value l eta W' e k) :
    gain l eta W es i = gain l eta W' es i := by
  induction es with
  | nil => rw [gain_nil, gain_nil]
  | cons e es ih =>
    rw [gain_cons, gain_cons, ih (fun t ht => h t (List.mem_cons_of_mem _ ht))]
    by_cases hc : (e.f.weight_index &&& l.all.weight_mask) ≤ i ∧
        i < (e.f.weight_index &&& l.all.weight_mask) + l.all.lda
    · rw [if_pos hc, if_pos hc, h e (List.mem_cons_self _ _) _ (by omega)]
    · rw [if_neg hc, if_neg hc]

theorem gain_eq_zero (l : lda α) (eta : α) (W : Nat → α) (es : List (index_feature α)) (i : Nat)
    (h : ∀ e ∈ es, ¬ ((e.f.weight_index &&& l.all.weight_mask) ≤ i ∧
        i < (e.f.weight_index &&& l.all.weight_mask) + l.all.lda)) :
    gain l eta W es i = 0 := by
  induction es with
  | nil => rw [gain_nil]
  | cons e es ih =>
    rw [gain_cons, ih (fun t ht => h t (List.mem_cons_of_mem _ ht)),
      if_neg (h e (List.mem_cons_self _ _)), add_zero]

/-- A `u` cell of one row is never a `lambda` cell of a row. -/
theorem u_cell_apart (l : lda α) (ok : Nat → Prop) (hdisj : l.rows_apart ok) (a b : Nat)
    (ha : ok a) (hb : ok b) (j : Nat) (hj : j < l.all.lda) :
    ¬ ((b &&& l.all.weight_mask) ≤ (a &&& l.all.weight_mask) + l.all.lda + 1 + j ∧
        (a &&& l.all.weight_mask) + l.all.lda + 1 + j < (b &&& l.all.weight_mask) + l.all.lda) := by
  by_cases hab : a = b
  · subst hab; omega
  · have := hdisj a b ha hb hab ((a &&& l.all.weight_mask) + l.all.lda + 1 + j)
      (by omega) (by omega)
    omega

/-- The entries of a list, taken one after the other (lines 789–798), add their
amounts `new_value` to the `lambda` cells and to `total_new`. -/
theorem entries_fold (l : lda α) (eta : α) (ok : Nat → Prop) (hdisj : l.rows_apart ok)
    (ht : l.topics = l.all.lda) :
    ∀ (es : List (index_feature α)) (st : pass_state α), (∀ e ∈ es, ok e.f.weight_index) →
      (∀ i, (es.foldl (second_pass_entry l eta) st).weights i
        = st.weights i + gain l eta st.weights es i) ∧
      (∀ k, (es.foldl (second_pass_entry l eta) st).total_new.data k
        = if k < l.all.lda then
            st.total_new.data k + (es.map (fun e => new_value l eta st.weights e k)).sum
          else st.total_new.data k) ∧
      (es.foldl (second_pass_entry l eta) st).total_new.size = st.total_new.size := by
  intro es
  induction es with
  | nil =>
    intro st _
    refine ⟨fun i => ?_, fun k => ?_, rfl⟩
    · rw [gain_nil, add_zero]; rfl
    · simp
  | cons e es ih =>
    intro st hok
    have hoke := hok e (List.mem_cons_self _ _)
    have hokr : ∀ t ∈ es, ok t.f.weight_index := fun t ht => hok t (List.mem_cons_of_mem _ ht)
    obtain ⟨ew, et, esz⟩ := second_pass_entry_apply l eta st e
    obtain ⟨iw, it, isz⟩ := ih (second_pass_entry l eta st e) hokr
    have hnv : ∀ t ∈ es, ∀ k, k < l.all.lda →
        new_value l eta (second_pass_entry l eta st e).weights t k = new_value l eta st.weights t k := by
      intro t htm k hk
      apply new_value_congr l eta _ _ t k ht hk
      intro j hj
      rw [ew, if_neg (u_cell_apart l ok hdisj _ _ (hokr t htm) hoke j hj)]
    rw [List.foldl_cons]
    refine ⟨fun i => ?_, fun k => ?_, ?_⟩
    · rw [iw, gain_congr l eta _ st.weights es i hnv, ew, gain_cons]
      split_ifs <;> ring
    · rw [it k, et]
      by_cases hk : k < l.all.lda
      · simp only [if_pos hk, List.map_cons, List.sum_cons]
        have : (es.map (fun t => new_value l eta (second_pass_entry l eta st e).weights t k))
            = es.map (fun t => new_value l eta st.weights t k) := by
          apply List.map_congr_left
          intro t htm
          exact hnv t htm k hk
        rw [this]
        ring
      · simp only [if_neg hk]
    · rw [isz, esz]

theorem dropWhile_ne_of_sorted (a : Nat) :
    ∀ rest : List (index_feature α), (∀ t ∈ rest, a ≤ t.f.weight_index) →
      rest.Sorted index_feature.le →
      ∀ t ∈ rest.dropWhile (fun next => next.f.weight_index == a), t.f.weight_index ≠ a := by
  intro rest
  induction rest with
  | nil => intro _ _ t ht; simp at ht
  | cons r rs ih =>
    intro hle hs t ht
    have hs' := List.sorted_cons.mp hs
    by_cases hr : r.f.weight_index = a
    · rw [List.dropWhile_cons_of_pos (by simpa using hr)] at ht
      exact ih (fun t ht => hle t (List.mem_cons_of_mem _ ht)) hs'.2 t ht
    · rw [List.dropWhile_cons_of_neg (by simpa using hr)] at ht
      have h1 : a ≤ r.f.weight_index := hle r (List.mem_cons_self _ _)
      rcases List.mem_cons.mp ht with rfl | ht'
      · exact hr
      · have h2 : r.f.weight_index ≤ t.f.weight_index := hs'.1 t ht'
        omega

end second_pass_list

end LDA

namespace LDA

section second_pass_whole

variable {α : Type} [LinearOrderedField α] [FloorRing α] [float_cast α]

theorem second_pass_shrink_apply (l : lda α) (minuseta : α) (W : Nat → α) (s : index_feature α)
    (i : Nat) :
    second_pass_shrink l minuseta W s i
      = if (s.f.weight_index &&& l.all.weight_mask) ≤ i ∧
            i < (s.f.weight_index &&& l.all.weight_mask) + l.all.lda then minuseta * W i
        else W i := by
  unfold second_pass_shrink
  exact for_loop_store_cell (fun _ x => minuseta * x) _ _ W i

/-- The second loop over a sorted list: the `lambda` cells of every row of the list
are shrunk once and receive the amounts of their entries; `total_new` receives the
amounts of all entries. -/
theorem second_pass_sorted (l : lda α) (loc : batch_locals α) (ok : Nat → Prop)
    (hdisj : l.rows_apart ok) (ht : l.topics = l.all.lda) :
    ∀ (n : Nat) (feats : List (index_feature α)) (st : pass_state α), feats.length ≤ n →
      (∀ s ∈ feats, ok s.f.weight_index) → feats.Sorted index_feature.le →
      (∀ i, (second_pass l loc feats st).weights i
        = (if ∃ s ∈ feats, (s.f.weight_index &&& l.all.weight_mask) ≤ i ∧
              i < (s.f.weight_index &&& l.all.weight_mask) + l.all.lda
            then loc.minuseta * st.weights i else st.weights i)
          + gain l loc.eta st.weights feats i) ∧
      (∀ k, (second_pass l loc feats st).total_new.data k
        = if k < l.all.lda then
            st.total_new.data k + (feats.map (fun e => new_value l loc.eta st.weights e k)).sum
          else st.total_new.data k) ∧
      (second_pass l loc feats st).total_new.size = st.total_new.size := by
  intro n
  induction n with
  | zero =>
    intro feats st hlen _ _
    have : feats = [] := List.length_eq_zero.mp (by omega)
    subst this
    rw [second_pass]
    refine ⟨fun i => ?_, fun k => ?_, rfl⟩
    · rw [gain_nil]; simp
    · simp
  | succ n ih =>
    intro feats st hlen hok hsorted
    cases feats with
    | nil =>
      rw [second_pass]
      refine ⟨fun i => ?_, fun k => ?_, rfl⟩
      · rw [gain_nil]; simp
      · simp
    | cons s rest =>
      rw [second_pass]
      have hs' := List.sorted_cons.mp hsorted
      have hoks := hok s (List.mem_cons_self _ _)
      have hokr : ∀ t ∈ rest, ok t.f.weight_index := fun t ht => hok t (List.mem_cons_of_mem _ ht)
      -- the run and what follows it
      have hsplit : rest.takeWhile (fun next => next.f.weight_index == s.f.weight_index)
          ++ rest.dropWhile (fun next => next.f.weight_index == s.f.weight_index) = rest :=
        List.takeWhile_append_dropWhile _ _
      generalize hrun : rest.takeWhile (fun next => next.f.weight_index == s.f.weight_index) = run
        at hsplit
      generalize hrest : rest.dropWhile (fun next => next.f.weight_index == s.f.weight_index) = rest'
        at hsplit
      have hrun_eq : ∀ e ∈ run, e.f.weight_index = s.f.weight_index := by
        intro e he
        rw [← hrun] at he
        simpa using List.mem_takeWhile_imp he
      have hrest_ne : ∀ e ∈ rest', e.f.weight_index ≠ s.f.weight_index := by
        intro e he
        rw [← hrest] at he
        exact dropWhile_ne_of_sorted s.f.weight_index rest hs'.1 hs'.2 e he
      have hrun_mem : ∀ e ∈ run, e ∈ rest := fun e he => by
        rw [← hsplit]; exact List.mem_append_left _ he
      have hrest_mem : ∀ e ∈ rest', e ∈ rest := fun e he => by
        rw [← hsplit]; exact List.mem_append_right _ he
      have hlen' : rest'.length ≤ n := by
        have : (run ++ rest').length = rest.length := by rw [hsplit]
        rw [List.length_append] at this
        simp only [List.length_cons] at hlen
        omega
      have hsorted' : rest'.Sorted index_feature.le := by
        rw [← hrest]
        exact hs'.2.sublist (List.dropWhile_sublist _)
      -- the state after the run
      set st1 : pass_state α :=
        { st with weights := second_pass_shrink l loc.minuseta st.weights s } with hst1
      have hokrun : ∀ e ∈ s :: run, ok e.f.weight_index := by
        intro e he
        rcases List.mem_cons.mp he with rfl | he'
        · exact hoks
        · exact hokr e (hrun_mem e he')
      obtain ⟨fw, ft, fsz⟩ := entries_fold l loc.eta ok hdisj ht (s :: run) st1 hokrun
      have hst1w : ∀ i, st1.weights i = if (s.f.weight_index &&& l.all.weight_mask) ≤ i ∧
            i < (s.f.weight_index &&& l.all.weight_mask) + l.all.lda then loc.minuseta * st.weights i
          else st.weights i := fun i => second_pass_shrink_apply l loc.minuseta st.weights s i
      -- the amounts do not see the shrink
      have hnv1 : ∀ e, ok e.f.weight_index → ∀ k, k < l.all.lda →
          new_value l loc.eta st1.weights e k = new_value l loc.eta st.weights e k := by
        intro e hoke k hk
        apply new_value_congr l loc.eta _ _ e k ht hk
        intro j hj
        rw [hst1w, if_neg (u_cell_apart l ok hdisj _ _ hoke hoks j hj)]
      generalize hst2 : (s :: run).foldl (second_pass_entry l loc.eta) st1 = st2 at fw ft fsz
      have hgain_run : ∀ i, gain l loc.eta st1.weights (s :: run) i
          = gain l loc.eta st.weights (s :: run) i := fun i =>
        gain_congr l loc.eta _ _ _ i (fun e he k hk => hnv1 e (hokrun e he) k hk)
      have hrun_base : ∀ e ∈ s :: run, e.f.weight_index = s.f.weight_index := by
        intro e he
        rcases List.mem_cons.mp he with rfl | he'
        · rfl
        · exact hrun_eq e he'
      -- the amounts of the later entries do not see the run
      have hnv2 : ∀ e ∈ rest', ∀ k, k < l.all.lda →
          new_value l loc.eta st2.weights e k = new_value l loc.eta st.weights e k := by
        intro e he k hk
        have hoke := hokr e (hrest_mem e he)
        rw [← hnv1 e hoke k hk]
        apply new_value_congr l loc.eta _ _ e k ht hk
        intro j hj
        rw [fw, gain_eq_zero, add_zero]
        intro t htm
        rw [hrun_base t htm]
        exact u_cell_apart l ok hdisj _ _ hoke hoks j hj
      obtain ⟨iw, it, isz⟩ := ih rest' st2 hlen' (fun e he => hokr e (hrest_mem e he)) hsorted'
      have hfeats : s :: rest = (s :: run) ++ rest' := by rw [← hsplit]; rfl
      refine ⟨fun i => ?_, fun k => ?_, ?_⟩
      · rw [iw, gain_congr l loc.eta st2.weights st.weights rest' i hnv2, fw, hgain_run, hst1w,
          hfeats, gain_append]
        by_cases hin : (s.f.weight_index &&& l.all.weight_mask) ≤ i ∧
            i < (s.f.weight_index &&& l.all.weight_mask) + l.all.lda
        · -- a cell of the row of the run
          have hnot : ¬ ∃ t ∈ rest', (t.f.weight_index &&& l.all.weight_mask) ≤ i ∧
              i < (t.f.weight_index &&& l.all.weight_mask) + l.all.lda := by
            rintro ⟨t, htm, h1, h2⟩
            have := hdisj _ _ (hokr t (hrest_mem t htm)) hoks (hrest_ne t htm) i h1 (by omega)
            omega
          have hyes : ∃ t ∈ (s :: run) ++ rest', (t.f.weight_index &&& l.all.weight_mask) ≤ i ∧
              i < (t.f.weight_index &&& l.all.weight_mask) + l.all.lda :=
            ⟨s, by simp, hin⟩
          rw [if_neg hnot, if_pos hin, if_pos hyes]
          ring
        · rw [if_neg hin]
          by_cases hin' : ∃ t ∈ rest', (t.f.weight_index &&& l.all.weight_mask) ≤ i ∧
              i < (t.f.weight_index &&& l.all.weight_mask) + l.all.lda
          · have hyes : ∃ t ∈ (s :: run) ++ rest', (t.f.weight_index &&& l.all.weight_mask) ≤ i ∧
                i < (t.f.weight_index &&& l.all.weight_mask) + l.all.lda := by
              obtain ⟨t, htm, h⟩ := hin'
              exact ⟨t, List.mem_append_right _ htm, h⟩
            have hz : gain l loc.eta st.weights (s :: run) i = 0 := by
              apply gain_eq_zero
              intro t htm
              rw [hrun_base t htm]
              exact hin
            rw [if_pos hin', if_pos hyes, hz]
            ring
          · have hno : ¬ ∃ t ∈ (s :: run) ++ rest', (t.f.weight_index &&& l.all.weight_mask) ≤ i ∧
                i < (t.f.weight_index &&& l.all.weight_mask) + l.all.lda := by
              rintro ⟨t, htm, h⟩
              rcases List.mem_append.mp htm with h1 | h1
              · rw [hrun_base t h1] at h
                exact hin h
              · exact hin' ⟨t, h1, h⟩
            rw [if_neg hin', if_neg hno]
            ring
      · rw [it k, ft k]
        have hst1t : st1.total_new = st.total_new := rfl
        by_cases hk : k < l.all.lda
        · simp only [if_pos hk]
          rw [hfeats, List.map_append, List.sum_append]
          have e1 : (rest'.map (fun e => new_value l loc.eta st2.weights e k))
              = rest'.map (fun e => new_value l loc.eta st.weights e k) :=
            List.map_congr_left (fun e he => hnv2 e he k hk)
          have e2 : ((s :: run).map (fun e => new_value l loc.eta st1.weights e k))
              = (s :: run).map (fun e => new_value l loc.eta st.weights e k) :=
            List.map_congr_left (fun e he => hnv1 e (hokrun e he) k hk)
          rw [e1, e2, hst1t]
          ring
        · simp only [if_neg hk, hst1t]
      · rw [isz, fsz]

end second_pass_whole

end LDA

namespace LDA

section rows

variable {α : Type} [LinearOrderedField α] [FloorRing α] [float_cast α]

theorem row_eq (l : lda α) (w : Nat) : l.row w = w * l.stride := by
  unfold lda.row lda.stride
  rw [Nat.shiftLeft_eq, Nat.shiftLeft_eq, one_mul]

theorem stride_pos (l : lda α) : 0 < l.stride := by
  unfold lda.stride
  rw [Nat.shiftLeft_eq, one_mul]
  exact Nat.pow_pos (by norm_num)

theorem weight_mask_eq (l : lda α) (hc : l.config_ok) :
    l.all.weight_mask = 2 ^ (l.all.num_bits + l.all.stride_shift) - 1 := by
  rw [hc.2.2]
  unfold vw.length
  rw [Nat.shiftLeft_eq, Nat.shiftLeft_eq, one_mul, pow_add]

/-- The first cell of a row of the table is not changed by the mask. -/
theorem row_and_mask (l : lda α) (hc : l.config_ok) (w : Nat) (hw : w < l.all.length) :
    l.row w &&& l.all.weight_mask = l.row w := by
  rw [weight_mask_eq l hc, Nat.and_pow_two_sub_one_eq_mod]
  apply Nat.mod_eq_of_lt
  unfold lda.row
  unfold vw.length at hw
  rw [Nat.shiftLeft_eq] at hw ⊢
  rw [one_mul] at hw
  rw [pow_add]
  exact Nat.mul_lt_mul_of_pos_right hw (Nat.pow_pos (by norm_num))

theorem within_mask_and (l : lda α) (hc : l.config_ok) (a : Nat) (ha : l.within_mask a) :
    a &&& l.all.weight_mask = a := by
  obtain ⟨w, hw, rfl⟩ := ha
  exact row_and_mask l hc w hw

/-- Two different rows are `stride` cells apart. -/
theorem row_apart (l : lda α) (w w' : Nat) (h : w ≠ w') :
    l.row w + l.stride ≤ l.row w' ∨ l.row w' + l.stride ≤ l.row w := by
  rw [row_eq, row_eq]
  rcases Nat.lt_or_gt_of_ne h with h1 | h1
  · left
    have : (w + 1) * l.stride ≤ w' * l.stride := Nat.mul_le_mul_right _ h1
    rw [Nat.add_mul, one_mul] at this
    exact this
  · right
    have : (w' + 1) * l.stride ≤ w * l.stride := Nat.mul_le_mul_right _ h1
    rw [Nat.add_mul, one_mul] at this
    exact this

theorem row_injective (l : lda α) (w w' : Nat) (h : l.row w = l.row w') : w = w' := by
  by_contra hne
  have hp := stride_pos l
  rcases row_apart l w w' hne with h1 | h1 <;> omega

/-- The rows of hashes within the mask do not overlap. -/
theorem rows_apart_within_mask (l : lda α) (hc : l.config_ok) : l.rows_apart l.within_mask := by
  intro a b ha hb hab i h1 h2
  rw [within_mask_and l hc a ha] at h1 h2
  rw [within_mask_and l hc b hb]
  obtain ⟨w, _, rfl⟩ := ha
  obtain ⟨w', _, rfl⟩ := hb
  have hne : w ≠ w' := fun h => hab (by rw [h])
  have hs := hc.2.1
  rcases row_apart l w w' hne with h | h <;> omega

end rows

end LDA

namespace LDA

section stages

variable {α : Type} [LinearOrderedField α] [FloorRing α] [float_cast α]

/-- A loop of `push_back`. -/
theorem push_back_loop (f : Nat → α) (a : v_array α) (n : Nat) :
    (for_loop n (fun i b => b.push_back (f i)) a).size = a.size + n ∧
    ∀ j, (for_loop n (fun i b => b.push_back (f i)) a).data j
      = if a.size ≤ j ∧ j < a.size + n then f (j - a.size) else a.data j := by
  induction n with
  | zero =>
    refine ⟨rfl, fun j => ?_⟩
    rw [if_neg (by omega)]; rfl
  | succ n ih =>
    rw [for_loop_succ]
    obtain ⟨ihs, ihd⟩ := ih
    constructor
    · show (for_loop n (fun i b => b.push_back (f i)) a).size + 1 = _
      rw [ihs]; omega
    · intro j
      show store _ (for_loop n (fun i b => b.push_back (f i)) a).size (f n) j = _
      rw [store_apply, ihs, ihd]
      have e : a.size + n - a.size = n := by omega
      split_ifs <;> first | rfl | (exfalso; omega) | (subst_vars; rw [e])

theorem for_loop_id {σ : Type} (n : Nat) (st : σ) : for_loop n (fun _ s => s) st = st := by
  induction n with
  | zero => rfl
  | succ n ih => rw [for_loop_succ, ih]

/-- Once `total_lambda` has its `all.lda` entries, lines 715–723 leave it alone. -/
theorem learn_batch_total_lambda_of_size (l : lda α) (h : l.total_lambda.size = l.all.lda) :
    learn_batch_total_lambda l = l.total_lambda := by
  unfold learn_batch_total_lambda
  by_cases h0 : l.total_lambda.size = 0
  · rw [if_pos h0]
    have hK : l.all.lda = 0 := by omega
    simp only [hK, for_loop_zero]
    exact for_loop_id _ _
  · rw [if_neg h0]

/-- The loop of lines 800–803 on `total_lambda`. -/
theorem epilogue_total_lambda (minuseta : α) (tn : Nat → α) (t : v_array α) (n : Nat) :
    (for_loop n (fun k (t0 : v_array α) =>
        let t1 := t0.set k (t0.data k * minuseta); t1.set k (t1.data k + tn k)) t).size = t.size ∧
    ∀ j, (for_loop n (fun k (t0 : v_array α) =>
        let t1 := t0.set k (t0.data k * minuseta); t1.set k (t1.data k + tn k)) t).data j
      = if j < n then t.data j * minuseta + tn j else t.data j := by
  induction n with
  | zero =>
    refine ⟨rfl, fun j => ?_⟩
    rw [if_neg (by omega)]; rfl
  | succ n ih =>
    rw [for_loop_succ]
    obtain ⟨ihs, ihd⟩ := ih
    generalize for_loop n (fun k (t0 : v_array α) =>
        let t1 := t0.set k (t0.data k * minuseta); t1.set k (t1.data k + tn k)) t = mid at ihs ihd
    constructor
    · exact ihs
    · intro j
      simp only [v_array.set, store_apply, if_true]
      rw [ihd, ihd]
      split_ifs <;> first | rfl | (exfalso; omega) | (subst_vars; rfl)

/-- What a returning `learn_batch` on a non-empty minibatch leaves behind, in terms
of the table `W1` left by the first pass. -/
theorem learn_batch_result (m : math_kernels α) (fuel : Nat) (l l' : lda α)
    (hne : l.sorted_features ≠ []) (hc : l.config_ok)
    (hmask : ∀ s ∈ l.sorted_features, l.within_mask s.f.weight_index)
    (h : learn_batch m fuel l = some l') :
    (∀ i, l'.all.weight_vector i
      = (if ∃ s ∈ l.sorted_features, (s.f.weight_index &&& l.all.weight_mask) ≤ i ∧
            i < (s.f.weight_index &&& l.all.weight_mask) + l.all.lda
          then l.mu m * first_pass m (learn_batch_prologue m l) none l.all.weight_vector
            (learn_batch_prologue m l).sorted_features i
          else first_pass m (learn_batch_prologue m l) none l.all.weight_vector
            (learn_batch_prologue m l).sorted_features i)
        + gain l' (learn_batch_locals m l (l.example_t + 1)).eta
            (first_pass m (learn_batch_prologue m l) none l.all.weight_vector
              (learn_batch_prologue m l).sorted_features) l.sorted_features i) ∧
    (∀ k, k < l.all.lda → l'.total_lambda.data k
      = (learn_batch_total_lambda l).data k * l.mu m
        + (l.sorted_features.map (fun e => new_value l' (learn_batch_locals m l (l.example_t + 1)).eta
            (first_pass m (learn_batch_prologue m l) none l.all.weight_vector
              (learn_batch_prologue m l).sorted_features) e k)).sum) ∧
    l'.total_lambda.size = (learn_batch_total_lambda l).size ∧
    l'.decay_levels = l.decay_levels.push_back (l.decay_levels.last + m.log (l.mu m)) ∧
    l'.example_t = l.example_t + 1 ∧
    l'.all.lda = l.all.lda ∧ l'.all.weight_mask = l.all.weight_mask ∧
    l'.all.stride_shift = l.all.stride_shift ∧ l'.all.num_bits = l.all.num_bits ∧
    l'.topics = l.topics ∧ l'.mmode = l.mmode ∧
    l'.all.eta = l.all.eta ∧ l'.all.power_t = l.all.power_t ∧ l'.all.initial_t = l.all.initial_t ∧
    l'.lda_D = l.lda_D ∧ l'.lda_rho = l.lda_rho ∧ l'.lda_alpha = l.lda_alpha ∧
    l'.lda_epsilon = l.lda_epsilon ∧ l'.minibatch = l.minibatch ∧ l'.v_end_array = l.v_end_array ∧
    l'.examples = [] ∧ l'.sorted_features = [] ∧ l'.doc_lengths.size = 0 ∧
    (∀ k, l.all.lda ≤ k → l'.total_lambda.data k = (learn_batch_total_lambda l).data k) ∧
    (∀ k, l'.total_new.data k
      = if k < l.all.lda then
          (l.sorted_features.map (fun e => new_value l' (learn_batch_locals m l (l.example_t + 1)).eta
            (first_pass m (learn_batch_prologue m l) none l.all.weight_vector
              (learn_batch_prologue m l).sorted_features) e k)).sum
        else (learn_batch_prologue m l).total_new.data k) := by
  obtain ⟨l3, hdocs, hl'⟩ := learn_batch_nonempty m fuel l l' hne h
  obtain ⟨v, E, sl, sd, ret, hl3⟩ := learn_batch_docs_frame m fuel _ _ _ _ _ hdocs
  -- the sorted list
  have hperm := List.perm_insertionSort index_feature.le l.sorted_features
  have hsorted : (l.sorted_features.insertionSort index_feature.le).Sorted index_feature.le := by
    haveI : IsTotal (index_feature α) index_feature.le := ⟨fun a b => Nat.le_total _ _⟩
    haveI : IsTrans (index_feature α) index_feature.le := ⟨fun a b c => Nat.le_trans⟩
    exact List.sorted_insertionSort _ _
  have hps : (learn_batch_prologue m l).sorted_features
      = l.sorted_features.insertionSort index_feature.le := rfl
  generalize hW1 : first_pass m (learn_batch_prologue m l) none l.all.weight_vector
    (learn_batch_prologue m l).sorted_features = W1 at hl3 ⊢
  -- the fields of the state after the loop over the documents
  have e_mask : l3.all.weight_mask = l.all.weight_mask := by rw [hl3]; rfl
  have e_lda : l3.all.lda = l.all.lda := by rw [hl3]; rfl
  have e_topics : l3.topics = l.topics := by rw [hl3]; rfl
  have e_sorted : l3.sorted_features = l.sorted_features.insertionSort index_feature.le := by
    rw [hl3]; rfl
  have e_W : l3.all.weight_vector = W1 := by rw [hl3]; exact hW1
  have e_tn : l3.total_new = (learn_batch_prologue m l).total_new := by rw [hl3]
  have e_tl : l3.total_lambda = learn_batch_total_lambda l := by rw [hl3]; rfl
  have hdisj3 : l3.rows_apart l.within_mask := by
    unfold lda.rows_apart
    rw [e_mask, e_lda]
    exact rows_apart_within_mask l hc
  have hok : ∀ s ∈ l3.sorted_features, l.within_mask s.f.weight_index := by
    intro s hs
    rw [e_sorted] at hs
    exact hmask s (hperm.mem_iff.mp hs)
  obtain ⟨pw, pt, _⟩ := second_pass_sorted l3 (learn_batch_locals m l (l.example_t + 1))
    l.within_mask hdisj3 (by rw [e_topics, e_lda]; exact hc.1) l3.sorted_features.length
    l3.sorted_features ⟨l3.all.weight_vector, l3.total_new⟩ (le_refl _) hok
    (by rw [e_sorted]; exact hsorted)
  have hgain : ∀ W i, gain l' (learn_batch_locals m l (l.example_t + 1)).eta W l.sorted_features i
      = gain l3 (learn_batch_locals m l (l.example_t + 1)).eta W l3.sorted_features i := by
    intro W i
    have e1 : gain l' (learn_batch_locals m l (l.example_t + 1)).eta W l.sorted_features i
        = gain l3 (learn_batch_locals m l (l.example_t + 1)).eta W l.sorted_features i := by
      rw [hl']; rfl
    rw [e1, e_sorted]
    unfold gain
    exact ((hperm.symm.filter _).map _).sum_eq
  have hnv : ∀ W e k, new_value l' (learn_batch_locals m l (l.example_t + 1)).eta W e k
      = new_value l3 (learn_batch_locals m l (l.example_t + 1)).eta W e k := by
    intro W e k
    rw [hl']; rfl
  have htn : ∀ k, k < l.all.lda → (learn_batch_prologue m l).total_new.data k = 0 := by
    intro k hk
    show (for_loop l.all.lda (fun _ a => a.push_back 0) l.total_new.erase).data k = 0
    rw [(push_back_loop (fun _ => (0 : α)) l.total_new.erase l.all.lda).2 k]
    rw [if_pos]
    exact ⟨Nat.zero_le _, by simpa [v_array.erase] using hk⟩
  have hsum : ∀ k, (l.sorted_features.map (fun e => new_value l'
        (learn_batch_locals m l (l.example_t + 1)).eta W1 e k)).sum
      = (l3.sorted_features.map (fun e => new_value l3
        (learn_batch_locals m l (l.example_t + 1)).eta W1 e k)).sum := by
    intro k
    have : (l.sorted_features.map (fun e => new_value l'
        (learn_batch_locals m l (l.example_t + 1)).eta W1 e k))
        = l.sorted_features.map (fun e => new_value l3
        (learn_batch_locals m l (l.example_t + 1)).eta W1 e k) :=
      List.map_congr_left (fun e _ => hnv W1 e k)
    rw [this, e_sorted]
    exact ((hperm.map _).sum_eq).symm
  refine ⟨fun i => ?_, fun k hk => ?_, ?_, ?_, ?_, ?_, ?_, ?_, ?_, ?_, ?_, ?_, ?_, ?_, ?_, ?_, ?_,
    ?_, ?_, ?_, ?_, ?_, ?_, fun k hk => ?_, fun k => ?_⟩
  · have hwv : l'.all.weight_vector i = (second_pass l3 (learn_batch_locals m l (l.example_t + 1))
        l3.sorted_features ⟨l3.all.weight_vector, l3.total_new⟩).weights i := by
      rw [hl']; rfl
    rw [hwv, pw i, hgain, e_W]
    have hex : (∃ s ∈ l3.sorted_features, (s.f.weight_index &&& l3.all.weight_mask) ≤ i ∧
          i < (s.f.weight_index &&& l3.all.weight_mask) + l3.all.lda)
        ↔ (∃ s ∈ l.sorted_features, (s.f.weight_index &&& l.all.weight_mask) ≤ i ∧
          i < (s.f.weight_index &&& l.all.weight_mask) + l.all.lda) := by
      rw [e_sorted, e_mask, e_lda]
      constructor
      · rintro ⟨s, hs, h⟩; exact ⟨s, hperm.mem_iff.mp hs, h⟩
      · rintro ⟨s, hs, h⟩; exact ⟨s, hperm.mem_iff.mpr hs, h⟩
    by_cases hx : ∃ s ∈ l.sorted_features, (s.f.weight_index &&& l.all.weight_mask) ≤ i ∧
          i < (s.f.weight_index &&& l.all.weight_mask) + l.all.lda
    · rw [if_pos hx, if_pos (hex.mpr hx)]; rfl
    · rw [if_neg hx, if_neg (fun h => hx (hex.mp h))]
  · have htl : l'.total_lambda.data k = (for_loop l.all.lda (fun k (t0 : v_array α) =>
        let t1 := t0.set k (t0.data k * l.mu m)
        t1.set k (t1.data k + (second_pass l3 (learn_batch_locals m l (l.example_t + 1))
          l3.sorted_features ⟨l3.all.weight_vector, l3.total_new⟩).total_new.data k))
        (learn_batch_total_lambda l)).data k := by
      rw [hl', ← e_tl, ← e_lda]; rfl
    rw [htl, (epilogue_total_lambda _ _ _ _).2 k, if_pos hk, pt k, if_pos (by rw [e_lda]; exact hk)]
    have hz : l3.total_new.data k = 0 := by rw [e_tn]; exact htn k hk
    simp only [hz, zero_add, e_W]
    rw [hsum k]
  · have htl : l'.total_lambda.size = (for_loop l.all.lda (fun k (t0 : v_array α) =>
        let t1 := t0.set k (t0.data k * l.mu m)
        t1.set k (t1.data k + (second_pass l3 (learn_batch_locals m l (l.example_t + 1))
          l3.sorted_features ⟨l3.all.weight_vector, l3.total_new⟩).total_new.data k))
        (learn_batch_total_lambda l)).size := by
      rw [hl', ← e_tl, ← e_lda]; rfl
    rw [htl, (epilogue_total_lambda _ _ _ _).1]
  rotate_right 2
  · have htl : l'.total_lambda.data k = (for_loop l.all.lda (fun k (t0 : v_array α) =>
        let t1 := t0.set k (t0.data k * l.mu m)
        t1.set k (t1.data k + (second_pass l3 (learn_batch_locals m l (l.example_t + 1))
          l3.sorted_features ⟨l3.all.weight_vector, l3.total_new⟩).total_new.data k))
        (learn_batch_total_lambda l)).data k := by
      rw [hl', ← e_tl, ← e_lda]; rfl
    rw [htl, (epilogue_total_lambda _ _ _ _).2 k, if_neg (by omega)]
  · have htn' : l'.total_new.data k = (second_pass l3 (learn_batch_locals m l (l.example_t + 1))
        l3.sorted_features ⟨l3.all.weight_vector, l3.total_new⟩).total_new.data k := by
      rw [hl']; rfl
    rw [htn', pt k, e_lda]
    by_cases hk : k < l.all.lda
    · have hz : l3.total_new.data k = 0 := by rw [e_tn]; exact htn k hk
      simp only [if_pos hk, hz, zero_add, e_W]
      rw [hsum k]
    · simp only [if_neg hk, e_tn]
  all_goals (rw [hl', hl3]; rfl)

end stages

end LDA

namespace LDA

section levels

variable {α : Type} [LinearOrderedField α] [FloorRing α] [float_cast α]

theorem to_int_intCast (z : Int) : to_int ((z : Int) : α) = z := by
  unfold to_int
  split_ifs
  · exact Int.floor_intCast z
  · exact Int.ceil_intCast z

/-- The entry read at offset `-1 - example_t + t_last` from the end is entry `j`, when
`t_last` is `example_t - (size - 1 - j)`. -/
theorem end_index_level (dl : v_array α) (t tl : α) (j : Nat) (hj : j < dl.size)
    (htl : tl = t - ((dl.size - 1 - j : Nat) : α)) :
    dl.end_index (to_int (-1 - t + tl)) = dl.data j := by
  have h1 : (-1 - t + tl : α) = ((-1 - ((dl.size - 1 - j : Nat) : Int) : Int) : α) := by
    rw [htl]; push_cast; ring
  rw [h1, to_int_intCast]
  unfold v_array.end_index
  congr 1
  omega

theorem push_back_size (a : v_array α) (x : α) : (a.push_back x).size = a.size + 1 := rfl

theorem push_back_data_lt (a : v_array α) (x : α) (j : Nat) (hj : j < a.size) :
    (a.push_back x).data j = a.data j := by
  show store a.data a.size x j = a.data j
  rw [store_ne _ _ (by omega)]

theorem push_back_data_size (a : v_array α) (x : α) : (a.push_back x).data a.size = x := by
  show store a.data a.size x a.size = x
  rw [store_same]

theorem push_back_last (a : v_array α) (x : α) : (a.push_back x).last = x := by
  unfold v_array.last
  rw [push_back_size, Nat.add_sub_cancel, push_back_data_size]

theorem push_back_end_index_two (a : v_array α) (x : α) (h : 1 ≤ a.size) :
    (a.push_back x).end_index (-2) = a.last := by
  unfold v_array.end_index v_array.last
  rw [push_back_size]
  have : Int.toNat (((a.size + 1 : Nat) : Int) + -2) = a.size - 1 := by omega
  rw [this, push_back_data_lt _ _ _ (by omega)]

end levels

end LDA

namespace LDA

section rows_after

variable {α : Type} [LinearOrderedField α] [FloorRing α] [float_cast α]

/-- No `t_last` or `u` cell of a row is a `lambda` cell of a row. -/
theorem not_lambda_cell (l : lda α) (hc : l.config_ok) (w w' : Nat) (j : Nat)
    (hj1 : l.all.lda ≤ j) (hj2 : j < l.stride) :
    ¬ (l.row w' ≤ l.row w + j ∧ l.row w + j < l.row w' + l.all.lda) := by
  have hs := hc.2.1
  by_cases h : w = w'
  · subst h; omega
  · rcases row_apart l w w' h with h1 | h1 <;> omega

/-- A cell of a row lies in the `2K+1` slots of another row only if the rows are the same. -/
theorem row_of_cell (l : lda α) (hc : l.config_ok) (w w' : Nat) (j : Nat) (hj : j < l.stride)
    (h : l.row w' ≤ l.row w + j ∧ l.row w + j < l.row w' + 2 * l.all.lda + 1) : w' = w := by
  have hs := hc.2.1
  by_contra hne
  rcases row_apart l w' w hne with h1 | h1 <;> omega

/-- The table left by the first pass of a non-empty minibatch. -/
theorem first_pass_table (m : math_kernels α) (l : lda α) (hc : l.config_ok)
    (hmask : ∀ s ∈ l.sorted_features, l.within_mask s.f.weight_index) :
    (∀ s ∈ l.sorted_features, ∀ i, s.f.weight_index ≤ i →
      i < s.f.weight_index + 2 * l.all.lda + 1 →
      first_pass m (learn_batch_prologue m l) none l.all.weight_vector
        (learn_batch_prologue m l).sorted_features i
        = first_pass_row m (learn_batch_prologue m l) l.all.weight_vector s i) ∧
    (∀ i, (∀ s ∈ l.sorted_features,
        i < s.f.weight_index ∨ s.f.weight_index + 2 * l.all.lda + 1 ≤ i) →
      first_pass m (learn_batch_prologue m l) none l.all.weight_vector
        (learn_batch_prologue m l).sorted_features i = l.all.weight_vector i) := by
  have hperm := List.perm_insertionSort index_feature.le l.sorted_features
  have hsorted : (l.sorted_features.insertionSort index_feature.le).Sorted index_feature.le := by
    haveI : IsTotal (index_feature α) index_feature.le := ⟨fun a b => Nat.le_total _ _⟩
    haveI : IsTrans (index_feature α) index_feature.le := ⟨fun a b c => Nat.le_trans⟩
    exact List.sorted_insertionSort _ _
  have hdisj : (learn_batch_prologue m l).rows_apart l.within_mask := rows_apart_within_mask l hc
  have hok : ∀ s ∈ (learn_batch_prologue m l).sorted_features, l.within_mask s.f.weight_index :=
    fun s hs => hmask s (hperm.mem_iff.mp hs)
  obtain ⟨ha, hb⟩ := first_pass_sorted m (learn_batch_prologue m l) l.within_mask hdisj
    (learn_batch_prologue m l).sorted_features none l.all.weight_vector hok hsorted
    (fun a h => by simp at h)
  have hand : ∀ s ∈ l.sorted_features,
      s.f.weight_index &&& (learn_batch_prologue m l).all.weight_mask = s.f.weight_index :=
    fun s hs => within_mask_and l hc _ (hmask s hs)
  constructor
  · intro s hs i h1 h2
    have := ha s (hperm.mem_iff.mpr hs) (by simp) i
    rw [hand s hs] at this
    exact this h1 h2
  · intro i hi
    apply hb i
    intro s hs _
    have := hi s (hperm.mem_iff.mp hs)
    rw [hand s (hperm.mem_iff.mp hs)]
    exact this

end rows_after

end LDA

namespace LDA

section rows_after

variable {α : Type} [LinearOrderedField α] [FloorRing α] [float_cast α]

/-- The rows of the table after a returning `learn_batch` on a non-empty minibatch:
a row of the minibatch is decayed, stamped, shrunk and receives its amounts; every
other row is left as it was. -/
theorem learn_batch_rows (m : math_kernels α) (fuel : Nat) (l l' : lda α)
    (hne : l.sorted_features ≠ []) (hc : l.config_ok)
    (hmask : ∀ s ∈ l.sorted_features, l.within_mask s.f.weight_index)
    (h : learn_batch m fuel l = some l') (w : Nat) (hw : w < l.all.length) :
    ((∃ s ∈ l.sorted_features, s.f.weight_index = l.row w) →
      (∀ k, k < l.all.lda → l'.lambda w k
        = l.mu m * (l.lambda w k
            * first_pass_decay m (learn_batch_prologue m l) l.all.weight_vector (l.row w))
          + gain l' (l.eta_scaled m) (learn_batch_first_pass m l) l.sorted_features (l.row w + k)) ∧
      l'.t_last w = to_float (l.example_t + 1) ∧
      (∀ k, k < l.all.lda → l'.u w k = learn_batch_first_pass m l (l.row w + l.all.lda + 1 + k))) ∧
    ((∀ s ∈ l.sorted_features, s.f.weight_index ≠ l.row w) →
      (∀ i, l.row w ≤ i → i < l.row w + l.stride →
        l'.all.weight_vector i = l.all.weight_vector i) ∧
      (∀ i, l.row w ≤ i → i < l.row w + l.stride →
        learn_batch_first_pass m l i = l.all.weight_vector i) ∧
      (∀ k, k < l.all.lda →
        gain l' (l.eta_scaled m) (learn_batch_first_pass m l) l.sorted_features (l.row w + k) = 0)) := by
  obtain ⟨rw0, _, _, _, _, e_lda, e_mask, e_ss, _⟩ := learn_batch_result m fuel l l' hne hc hmask h
  obtain ⟨fa0, fb0⟩ := first_pass_table m l hc hmask
  have rw_ : ∀ i, l'.all.weight_vector i
      = (if ∃ s ∈ l.sorted_features, (s.f.weight_index &&& l.all.weight_mask) ≤ i ∧
            i < (s.f.weight_index &&& l.all.weight_mask) + l.all.lda
          then l.mu m * learn_batch_first_pass m l i else learn_batch_first_pass m l i)
        + gain l' (l.eta_scaled m) (learn_batch_first_pass m l) l.sorted_features i := rw0
  have fa : ∀ s ∈ l.sorted_features, ∀ i, s.f.weight_index ≤ i →
      i < s.f.weight_index + 2 * l.all.lda + 1 →
      learn_batch_first_pass m l i
        = first_pass_row m (learn_batch_prologue m l) l.all.weight_vector s i := fa0
  have fb : ∀ i, (∀ s ∈ l.sorted_features,
        i < s.f.weight_index ∨ s.f.weight_index + 2 * l.all.lda + 1 ≤ i) →
      learn_batch_first_pass m l i = l.all.weight_vector i := fb0
  clear rw0 fa0 fb0
  have hs := hc.2.1
  have hrow : l'.row w = l.row w := by unfold lda.row; rw [e_ss]
  have hand : ∀ s ∈ l.sorted_features, s.f.weight_index &&& l.all.weight_mask = s.f.weight_index :=
    fun s hs => within_mask_and l hc _ (hmask s hs)
  -- cells beyond the `lambda` slots are outside the second pass
  have hbeyond : ∀ j, l.all.lda ≤ j → j < l.stride →
      l'.all.weight_vector (l.row w + j) = learn_batch_first_pass m l (l.row w + j) := by
    intro j hj1 hj2
    have hno : ¬ ∃ s ∈ l.sorted_features, (s.f.weight_index &&& l.all.weight_mask) ≤ l.row w + j ∧
        l.row w + j < (s.f.weight_index &&& l.all.weight_mask) + l.all.lda := by
      rintro ⟨s, hsm, hh⟩
      rw [hand s hsm] at hh
      obtain ⟨w', _, hw'⟩ := hmask s hsm
      rw [hw'] at hh
      exact not_lambda_cell l hc w w' j hj1 hj2 hh
    rw [rw_, if_neg hno, gain_eq_zero, add_zero]
    intro e he hh
    rw [e_mask, e_lda] at hh
    exact hno ⟨e, he, hh⟩
  constructor
  · rintro ⟨s, hsm, hsw⟩
    refine ⟨fun k hk => ?_, ?_, fun k hk => ?_⟩
    · have hyes : ∃ s ∈ l.sorted_features, (s.f.weight_index &&& l.all.weight_mask) ≤ l.row w + k ∧
          l.row w + k < (s.f.weight_index &&& l.all.weight_mask) + l.all.lda :=
        ⟨s, hsm, by rw [hand s hsm, hsw]; omega⟩
      unfold lda.lambda
      rw [hrow, rw_, if_pos hyes]
      have e1 := fa s hsm (l.row w + k) (by rw [hsw]; omega) (by rw [hsw]; omega)
      have e2 := first_pass_row_lambda m (learn_batch_prologue m l) l.all.weight_vector s k hk
      have hand' : s.f.weight_index &&& (learn_batch_prologue m l).all.weight_mask = l.row w := by
        rw [← hsw]; exact hand s hsm
      rw [hand'] at e2
      rw [e1, e2]
    · unfold lda.t_last
      rw [hrow, e_lda, hbeyond _ (le_refl _) (by omega)]
      have e1 := fa s hsm (l.row w + l.all.lda) (by rw [hsw]; omega) (by rw [hsw]; omega)
      have e2 := first_pass_row_t_last m (learn_batch_prologue m l) l.all.weight_vector s
      have hand' : s.f.weight_index &&& (learn_batch_prologue m l).all.weight_mask = l.row w := by
        rw [← hsw]; exact hand s hsm
      rw [hand'] at e2
      exact e1.trans e2
    · unfold lda.u
      rw [hrow, e_lda]
      have := hbeyond (l.all.lda + 1 + k) (by omega) (by omega)
      rw [← add_assoc, ← add_assoc] at this
      exact this
  · intro hun
    have hfar : ∀ i, l.row w ≤ i → i < l.row w + l.stride → ∀ s ∈ l.sorted_features,
        i < s.f.weight_index ∨ s.f.weight_index + 2 * l.all.lda + 1 ≤ i := by
      intro i h1 h2 s hsm
      obtain ⟨w', _, hw'⟩ := hmask s hsm
      by_contra hcon
      have hj : l.row w + (i - l.row w) = i := by omega
      have := row_of_cell l hc w w' (i - l.row w) (by omega)
        (by rw [hj, ← hw']; omega)
      subst this
      exact hun s hsm hw'
    have hW1 : ∀ i, l.row w ≤ i → i < l.row w + l.stride →
        learn_batch_first_pass m l i = l.all.weight_vector i :=
      fun i h1 h2 => fb i (hfar i h1 h2)
    have hno : ∀ i, l.row w ≤ i → i < l.row w + l.stride →
        ¬ ∃ s ∈ l.sorted_features, (s.f.weight_index &&& l.all.weight_mask) ≤ i ∧
          i < (s.f.weight_index &&& l.all.weight_mask) + l.all.lda := by
      rintro i h1 h2 ⟨s, hsm, hh⟩
      rw [hand s hsm] at hh
      have := hfar i h1 h2 s hsm
      omega
    have hgz : ∀ i, l.row w ≤ i → i < l.row w + l.stride →
        gain l' (l.eta_scaled m) (learn_batch_first_pass m l) l.sorted_features i = 0 := by
      intro i h1 h2
      apply gain_eq_zero
      intro e he hh
      rw [e_mask, e_lda] at hh
      exact hno i h1 h2 ⟨e, he, hh⟩
    refine ⟨fun i h1 h2 => ?_, hW1, fun k hk => hgz _ (by omega) (by omega)⟩
    rw [rw_, if_neg (hno i h1 h2)]
    rw [hgz i h1 h2, add_zero]
    exact hW1 i h1 h2

end rows_after

end LDA

namespace LDA

section sums

variable {α : Type} [LinearOrderedField α] [FloorRing α] [float_cast α]

/-- Summed over the rows of the table, the amounts received by the `lambda` cells of
topic `k` are the amounts of all entries. -/
theorem gain_sum_rows (l : lda α) (hc : l.config_ok) (eta : α) (W : Nat → α) (k : Nat)
    (hk : k < l.all.lda) :
    ∀ feats : List (index_feature α), (∀ e ∈ feats, l.within_mask e.f.weight_index) →
      ∑ w in Finset.range l.all.length, gain l eta W feats (l.row w + k)
        = (feats.map (fun e => new_value l eta W e k)).sum := by
  intro feats
  induction feats with
  | nil =>
    intro _
    simp [gain_nil]
  | cons e es ih =>
    intro hm
    have hme := hm e (List.mem_cons_self _ _)
    have hand := within_mask_and l hc _ hme
    obtain ⟨we, hwe, hrow⟩ := hme
    simp only [gain_cons, Finset.sum_add_distrib, List.map_cons, List.sum_cons]
    rw [ih (fun t ht => hm t (List.mem_cons_of_mem _ ht))]
    congr 1
    rw [Finset.sum_eq_single we]
    · rw [hand, hrow, if_pos (by omega)]
      congr 1
      omega
    · intro w _ hne
      rw [hand, hrow, if_neg]
      intro hh
      have hs := hc.2.1
      exact hne (row_of_cell l hc w we k (by omega) (by omega)).symm
    · intro hnot
      exact absurd (Finset.mem_range.mpr hwe) hnot

/-- The call `return_simple_example` on a list of examples only extends `returned`. -/
theorem return_all_frame (all : vw α) (exs : List (Example α)) :
    exs.foldl return_simple_example all = { all with returned := all.returned ++ exs } := by
  induction exs generalizing all with
  | nil => simp
  | cons ec rest ih =>
    rw [List.foldl_cons, ih]
    simp [return_simple_example]

/-- The configuration is not changed by `learn_batch`, and the lists of pending
examples and features are empty after it. -/
theorem learn_batch_frame (m : math_kernels α) (fuel : Nat) (l l' : lda α)
    (h : learn_batch m fuel l = some l') :
    l'.all.lda = l.all.lda ∧ l'.all.weight_mask = l.all.weight_mask ∧
    l'.all.stride_shift = l.all.stride_shift ∧ l'.all.num_bits = l.all.num_bits ∧
    l'.topics = l.topics ∧ l'.mmode = l.mmode ∧
    l'.all.eta = l.all.eta ∧ l'.all.power_t = l.all.power_t ∧ l'.all.initial_t = l.all.initial_t ∧
    l'.lda_D = l.lda_D ∧ l'.lda_rho = l.lda_rho ∧ l'.lda_alpha = l.lda_alpha ∧
    l'.lda_epsilon = l.lda_epsilon ∧ l'.minibatch = l.minibatch ∧ l'.v_end_array = l.v_end_array ∧
    l'.examples = [] ∧ l'.sorted_features = [] := by
  by_cases hne : l.sorted_features = []
  · unfold learn_batch at h
    rw [hne] at h
    simp only [List.isEmpty_nil, if_true, Option.some.injEq] at h
    subst h
    rw [return_all_frame]
    simp [hne]
  · obtain ⟨l3, hdocs, hl'⟩ := learn_batch_nonempty m fuel l l' hne h
    obtain ⟨v, E, sl, sd, ret, hl3⟩ := learn_batch_docs_frame m fuel _ _ _ _ _ hdocs
    refine ⟨?_, ?_, ?_, ?_, ?_, ?_, ?_, ?_, ?_, ?_, ?_, ?_, ?_, ?_, ?_, ?_, ?_⟩
    all_goals (rw [hl', hl3]; rfl)

theorem learn_batch_config_ok (m : math_kernels α) (fuel : Nat) (l l' : lda α)
    (h : learn_batch m fuel l = some l') (hc : l.config_ok) : l'.config_ok := by
  obtain ⟨e1, e2, e3, e4, e5, _⟩ := learn_batch_frame m fuel l l' h
  unfold lda.config_ok lda.stride vw.length at hc ⊢
  rw [e1, e2, e3, e4, e5]
  exact hc

end sums

end LDA

namespace LDA

section real_decay

/-- With a non-increasing history the factor `decay` of the first pass is the
pending multiplier of the row. -/
theorem first_pass_decay_eq_pending (m : math_kernels ℝ) (hexp : m.exp = Real.exp) (l : lda ℝ)
    (hh : l.history_ok) (w : Nat) (hw : w < l.all.length) :
    first_pass_decay m (learn_batch_prologue m l) l.all.weight_vector (l.row w) = l.pending m w := by
  obtain ⟨hn, hmono, hrows⟩ := hh
  obtain ⟨j, hj, htl⟩ := hrows w hw
  unfold lda.t_last at htl
  have hlev : l.level_of_row w = l.decay_levels.data j := by
    unfold lda.level_of_row lda.t_last
    exact end_index_level l.decay_levels l.example_t _ j hj htl
  have h1 : (learn_batch_prologue m l).decay_levels.end_index (-2) = l.decay_levels.last :=
    push_back_end_index_two _ _ hn
  have h2 : (learn_batch_prologue m l).decay_levels.end_index
      (to_int (-1 - (learn_batch_prologue m l).example_t
        + l.all.weight_vector (l.row w + (learn_batch_prologue m l).all.lda)))
      = l.decay_levels.data j := by
    have hsz : (learn_batch_prologue m l).decay_levels.size = l.decay_levels.size + 1 := rfl
    have := end_index_level (learn_batch_prologue m l).decay_levels
      (learn_batch_prologue m l).example_t
      (l.all.weight_vector (l.row w + (learn_batch_prologue m l).all.lda)) j
      (by rw [hsz]; omega)
      (by
        rw [hsz]
        have e : l.decay_levels.size + 1 - 1 - j = (l.decay_levels.size - 1 - j) + 1 := by omega
        rw [e]
        show l.all.weight_vector (l.row w + l.all.lda) = l.example_t + 1 - _
        rw [htl]; push_cast; ring)
    rw [this]
    exact push_back_data_lt _ _ _ hj
  unfold first_pass_decay lda.pending
  rw [h1, h2, hlev, hexp]
  apply min_eq_right
  rw [Real.exp_le_one_iff]
  have : l.decay_levels.last ≤ l.decay_levels.data j := by
    unfold v_array.last
    exact hmono j (l.decay_levels.size - 1) (by omega) (by omega)
  linarith

/-- A row stamped with the new `example_t` has no pending decay. -/
theorem pending_of_stamped (m : math_kernels ℝ) (hexp : m.exp = Real.exp) (l' : lda ℝ)
    (dl : v_array ℝ) (x : ℝ) (hdl : l'.decay_levels = dl.push_back x) (w : Nat)
    (hst : l'.t_last w = l'.example_t) : l'.pending m w = 1 := by
  have hlev : l'.level_of_row w = l'.decay_levels.last := by
    unfold lda.level_of_row
    rw [hdl, push_back_last]
    have := end_index_level (dl.push_back x) l'.example_t (l'.t_last w) dl.size
      (by rw [push_back_size]; omega)
      (by rw [push_back_size, hst]; simp)
    rw [this, push_back_data_size]
  unfold lda.pending
  rw [hlev, hexp, sub_self, Real.exp_zero]

/-- A row that the minibatch leaves alone has its pending multiplier scaled by `mu`. -/
theorem pending_of_untouched (m : math_kernels ℝ) (hexp : m.exp = Real.exp) (l l' : lda ℝ)
    (hh : l.history_ok) (mu : ℝ) (hmu : 0 < mu)
    (hdl : l'.decay_levels = l.decay_levels.push_back (l.decay_levels.last + Real.log mu))
    (ht : l'.example_t = l.example_t + 1) (w : Nat) (hw : w < l.all.length)
    (hst : l'.t_last w = l.t_last w) : l'.pending m w = mu * l.pending m w := by
  obtain ⟨hn, hmono, hrows⟩ := hh
  obtain ⟨j, hj, htl⟩ := hrows w hw
  have hlev : l.level_of_row w = l.decay_levels.data j := by
    unfold lda.level_of_row
    exact end_index_level l.decay_levels l.example_t _ j hj htl
  have hlev' : l'.level_of_row w = l.decay_levels.data j := by
    unfold lda.level_of_row
    rw [hdl, ht, hst]
    have := end_index_level (l.decay_levels.push_back (l.decay_levels.last + Real.log mu))
      (l.example_t + 1) (l.t_last w) j (by rw [push_back_size]; omega)
      (by
        rw [push_back_size]
        have e : l.decay_levels.size + 1 - 1 - j = (l.decay_levels.size - 1 - j) + 1 := by omega
        rw [e, htl]; push_cast; ring)
    rw [this]
    exact push_back_data_lt _ _ _ hj
  unfold lda.pending
  rw [hlev, hlev', hdl, push_back_last, hexp]
  have : l.decay_levels.last + Real.log mu - l.decay_levels.data j
      = Real.log mu + (l.decay_levels.last - l.decay_levels.data j) := by ring
  rw [this, Real.exp_add, Real.exp_log hmu]

end real_decay

end LDA

namespace LDA

section real_rows

/-- The effective value of every cell after a returning `learn_batch` on a non-empty
minibatch: the former effective value shrunk by `mu`, plus the amounts received. -/
theorem effective_after (m : math_kernels ℝ) (hexp : m.exp = Real.exp) (hlog : m.log = Real.log)
    (fuel : Nat) (l l' : lda ℝ) (hne : l.sorted_features ≠ []) (hc : l.config_ok)
    (hh : l.history_ok)
    (hmask : ∀ s ∈ l.sorted_features, l.within_mask s.f.weight_index)
    (hmu : 0 < l.mu m) (h : learn_batch m fuel l = some l')
    (w : Nat) (hw : w < l.all.length) (k : Nat) (hk : k < l.all.lda) :
    l'.effective m w k = l.mu m * l.effective m w k
      + gain l' (l.eta_scaled m) (learn_batch_first_pass m l) l.sorted_features (l.row w + k) := by
  obtain ⟨_, _, _, hdl, ht, e_lda, e_mask, e_ss, _⟩ := learn_batch_result m fuel l l' hne hc hmask h
  obtain ⟨hT, hU⟩ := learn_batch_rows m fuel l l' hne hc hmask h w hw
  have hrow : l'.row w = l.row w := by unfold lda.row; rw [e_ss]
  have hs := hc.2.1
  by_cases htouched : ∃ s ∈ l.sorted_features, s.f.weight_index = l.row w
  · obtain ⟨hlam, hst, _⟩ := hT htouched
    have hp : l'.pending m w = 1 :=
      pending_of_stamped m hexp l' _ _ hdl w (by rw [hst, ht, to_float_real])
    unfold lda.effective
    rw [hp, hlam k hk, first_pass_decay_eq_pending m hexp l hh w hw, mul_one]
  · have hun : ∀ s ∈ l.sorted_features, s.f.weight_index ≠ l.row w := by
      intro s hs hh
      exact htouched ⟨s, hs, hh⟩
    obtain ⟨hsame, _, hg⟩ := hU hun
    have hst : l'.t_last w = l.t_last w := by
      unfold lda.t_last
      rw [hrow, e_lda]
      exact hsame _ (by omega) (by omega)
    rw [hlog] at hdl
    have hp := pending_of_untouched m hexp l l' hh (l.mu m) hmu hdl ht w hw hst
    have hlam : l'.lambda w k = l.lambda w k := by
      unfold lda.lambda
      rw [hrow]
      exact hsame _ (by omega) (by omega)
    unfold lda.effective
    rw [hp, hlam, hg k hk]
    ring

end real_rows

end LDA

namespace LDA

section single_topic

variable {α : Type} [LinearOrderedField α] [FloorRing α] [float_cast α]

theorem underflow_threshold_pos : (0 : α) < underflow_threshold := by
  unfold underflow_threshold
  norm_num

/-- The template `expdigammify` cell by cell. -/
theorem expdigammify_template_apply (m : math_kernels α) (mtype : lda_math_mode) (K : Nat)
    (mem : Nat → α) (g : Nat) (threshold initial : α) (i : Nat) :
    ldamath.expdigammify m mtype K mem g threshold initial i
      = if g ≤ i ∧ i < g + K then
          max threshold (ldamath.exponential m mtype (ldamath.digamma m mtype (mem i)
            - ldamath.digamma m mtype (ldamath.accumulate K mem g initial)))
        else mem i := by
  unfold ldamath.expdigammify
  exact for_loop_store_cell
    (fun _ x => max threshold (ldamath.exponential m mtype (ldamath.digamma m mtype x
      - ldamath.digamma m mtype (ldamath.accumulate K mem g initial)))) g K mem i

/-- Outside the SSE specialisation every cell written by `expdigammify` is at least
the underflow threshold. -/
theorem expdigammify_scalar_ge (m : math_kernels α) (l : lda α) (aligned : Nat → Bool)
    (mem : Nat → α) (g : Nat)
    (hmode : l.mmode ≠ lda_math_mode.USE_SIMD ∨ m.have_simd = false) (i : Nat)
    (h1 : g ≤ i) (h2 : i < g + l.all.lda) :
    underflow_threshold ≤ l.expdigammify m aligned mem g i := by
  unfold lda.expdigammify
  cases hmm : l.mmode with
  | USE_FAST_APPROX =>
    simp only
    rw [expdigammify_template_apply, if_pos ⟨h1, h2⟩]
    exact le_max_left _ _
  | USE_PRECISE =>
    simp only
    rw [expdigammify_template_apply, if_pos ⟨h1, h2⟩]
    exact le_max_left _ _
  | USE_SIMD =>
    have hs : m.have_simd = false := by
      rcases hmode with h | h
      · exact absurd hmm h
      · exact h
    simp only [hs, Bool.false_eq_true, if_false]
    rw [expdigammify_template_apply, if_pos ⟨h1, h2⟩]
    exact le_max_left _ _

/-- With a single topic every feature adds `x / v` to `new_gamma[0]`. -/
theorem lda_loop_features_single (m : math_kernels α) (l : lda α) (hK : l.topics = 1)
    (W varr : Nat → α) (v : Nat) (hv : varr v ≠ 0) :
    ∀ (feats : List (feature α)) (st : (Nat → α) × α × α),
      (∀ f ∈ feats, W ((f.weight_index &&& l.all.weight_mask) + 1 + 1) ≠ 0) →
      (feats.foldl (lda_loop_feature m l W varr v) st).1 0
        = st.1 0 + (feats.map (fun f => f.x)).sum / varr v := by
  intro feats
  induction feats with
  | nil => intro st _; simp
  | cons f rest ih =>
    intro st hu
    rw [List.foldl_cons, ih _ (fun t ht => hu t (List.mem_cons_of_mem _ ht))]
    have hf := hu f (List.mem_cons_self _ _)
    have h1 : (lda_loop_feature m l W varr v st f).1 0 = st.1 0 + f.x / varr v := by
      unfold lda_loop_feature find_cw ldamath.inner_product
      simp only [hK, for_loop_succ, for_loop_zero, store_same, add_zero, zero_add]
      field_simp
      ring
    rw [h1, List.map_cons, List.sum_cons]
    ring

/-- With a single topic one round of `lda_loop` sets `new_gamma[0]` to the mass of
the document plus `alpha`, whatever it was before. -/
theorem lda_loop_body_single (m : math_kernels α) (l : lda α) (hK : l.topics = 1)
    (hK' : l.all.lda = 1) (hmode : l.mmode ≠ lda_math_mode.USE_SIMD ∨ m.have_simd = false)
    (v : Nat) (W : Nat → α) (ec : Example α)
    (hu : ∀ f ∈ ec.features, W ((f.weight_index &&& l.all.weight_mask) + 1 + 1) ≠ 0)
    (st : loop_state α) :
    (lda_loop_body m l v W ec st).new_gamma 0 = (ec.features.map (fun f => f.x)).sum + l.lda_alpha ∧
    (lda_loop_body m l v W ec st).old_gamma 0 = st.new_gamma 0 := by
  unfold lda_loop_body
  simp only [hK, for_loop_succ, for_loop_zero, store_same, add_zero]
  have hpos : underflow_threshold ≤ l.expdigammify m m.v_aligned16 (store st.varr v (st.new_gamma 0)) v v :=
    expdigammify_scalar_ge m l _ _ v hmode v (le_refl _) (by omega)
  have hv : l.expdigammify m m.v_aligned16 (store st.varr v (st.new_gamma 0)) v v ≠ 0 :=
    ne_of_gt (lt_of_lt_of_le underflow_threshold_pos hpos)
  refine ⟨?_, trivial⟩
  rw [lda_loop_features_single m l hK W _ v hv ec.features _ hu]
  simp only [store_same, zero_add]
  field_simp

/-- With a single topic `lda_loop` returns within two rounds. -/
theorem lda_loop_single (m : math_kernels α) (l : lda α) (hK : l.topics = 1)
    (hK' : l.all.lda = 1) (hmode : l.mmode ≠ lda_math_mode.USE_SIMD ∨ m.have_simd = false)
    (heps : 0 ≤ l.lda_epsilon)
    (E : v_array α) (v : Nat) (W : Nat → α) (ec : Example α)
    (hu : ∀ f ∈ ec.features, W ((f.weight_index &&& l.all.weight_mask) + 1 + 1) ≠ 0) :
    ∃ r, lda_loop m 2 l E v W ec = some r := by
  have hrounds : ∀ st, ∃ st', lda_loop_rounds m l v W ec 2 st = some st' := by
    intro st
    rw [lda_loop_rounds]
    split_ifs with h1
    · rw [lda_loop_rounds]
      have hb1 := lda_loop_body_single m l hK hK' hmode v W ec hu st
      have hb2 := lda_loop_body_single m l hK hK' hmode v W ec hu (lda_loop_body m l v W ec st)
      have hd : average_diff l.all (lda_loop_body m l v W ec (lda_loop_body m l v W ec st)).old_gamma
          (lda_loop_body m l v W ec (lda_loop_body m l v W ec st)).new_gamma = 0 := by
        unfold average_diff
        simp only [hK', for_loop_succ, for_loop_zero, zero_add]
        rw [hb2.1, hb2.2, hb1.1]
        simp
      rw [hd, if_neg (not_lt.mpr heps)]
      exact ⟨_, rfl⟩
    · exact ⟨_, rfl⟩
  unfold lda_loop
  obtain ⟨st', hst'⟩ := hrounds ⟨l.v, for_loop l.topics (fun k a => store a k 1) (fun _ => 0),
    for_loop l.topics (fun k a => store a k 0) (fun _ => 0), 0, 0⟩
  simp only [hst']
  exact ⟨_, rfl⟩

end single_topic

end LDA

namespace LDA

section single_topic_batch

variable {α : Type} [LinearOrderedField α] [FloorRing α] [float_cast α]

theorem learn_batch_docs_single (m : math_kernels α) (W : Nat → α) (mask : Nat) :
    ∀ (exs : List (Example α)) (d : Nat) (l : lda α),
      l.topics = 1 → l.all.lda = 1 →
      (l.mmode ≠ lda_math_mode.USE_SIMD ∨ m.have_simd = false) → 0 ≤ l.lda_epsilon →
      l.all.weight_mask = mask →
      (∀ ec ∈ exs, ∀ f ∈ ec.features, W ((f.weight_index &&& mask) + 1 + 1) ≠ 0) →
      ∃ l', learn_batch_docs m 2 W d exs l = some l' := by
  intro exs
  induction exs with
  | nil => intro d l _ _ _ _ _ _; exact ⟨l, rfl⟩
  | cons ec rest ih =>
    intro d l hK hK' hmode heps hmask hu
    obtain ⟨r, hr⟩ := lda_loop_single m l hK hK' hmode heps l.Elogtheta (d * l.all.lda) W ec
      (by rw [hmask]; exact hu ec (List.mem_cons_self _ _))
    rw [learn_batch_docs, hr]
    simp only []
    apply ih
    · exact hK
    · by_cases hd : l.doc_lengths.data d > 0 <;> simp [hd, return_simple_example, hK']
    · exact hmode
    · exact heps
    · by_cases hd : l.doc_lengths.data d > 0 <;> simp [hd, return_simple_example, hmask]
    · exact fun ec' h' => hu ec' (List.mem_cons_of_mem _ h')

/-- A learner with a single topic, outside the SSE specialisation, returns from
`learn_batch` with two rounds per document, when every feature of the pending
documents is among the pending features and these are within the mask. -/
theorem learn_batch_single_returns (m : math_kernels α) (l : lda α) (hc : l.config_ok)
    (hK : l.all.lda = 1) (hmode : l.mmode ≠ lda_math_mode.USE_SIMD ∨ m.have_simd = false)
    (heps : 0 ≤ l.lda_epsilon)
    (hmask : ∀ s ∈ l.sorted_features, l.within_mask s.f.weight_index)
    (hdocs : ∀ ec ∈ l.examples, ∀ f ∈ ec.features,
      ∃ s ∈ l.sorted_features, s.f.weight_index = f.weight_index) :
    ∃ l', learn_batch m 2 l = some l' := by
  by_cases hne : l.sorted_features = []
  · unfold learn_batch
    rw [hne]
    exact ⟨_, rfl⟩
  · have hemp : l.sorted_features.isEmpty = false := by
      cases hs : l.sorted_features with
      | nil => exact absurd hs hne
      | cons a t => rfl
    obtain ⟨fa, _⟩ := first_pass_table m l hc hmask
    have hu : ∀ ec ∈ l.examples, ∀ f ∈ ec.features,
        learn_batch_first_pass m l ((f.weight_index &&& l.all.weight_mask) + 1 + 1) ≠ 0 := by
      intro ec hec f hf
      obtain ⟨s, hs, hsf⟩ := hdocs ec hec f hf
      have hand := within_mask_and l hc _ (hmask s hs)
      rw [← hsf, hand]
      have e1 := fa s hs (s.f.weight_index + 1 + 1) (by omega) (by omega)
      have e2 := first_pass_row_u m (learn_batch_prologue m l) l.all.weight_vector s hmode 0
        (by show 0 < l.all.lda; omega)
      have hand' : s.f.weight_index &&& (learn_batch_prologue m l).all.weight_mask
          = s.f.weight_index := hand
      have hK1 : (learn_batch_prologue m l).all.lda = 1 := hK
      rw [hand', hK1, add_zero] at e2
      have e1' : learn_batch_first_pass m l (s.f.weight_index + 1 + 1)
          = first_pass_row m (learn_batch_prologue m l) l.all.weight_vector s
            (s.f.weight_index + 1 + 1) := e1
      rw [e1', e2]
      exact ne_of_gt (lt_of_lt_of_le underflow_threshold_pos (le_max_left _ _))
    obtain ⟨l3, hl3⟩ := learn_batch_docs_single m (learn_batch_first_pass m l) l.all.weight_mask
      (learn_batch_prologue m l).examples 0
      { learn_batch_prologue m l with
        all := { (learn_batch_prologue m l).all with
          weight_vector := learn_batch_first_pass m l } }
      (by show l.topics = 1; rw [hc.1]; exact hK) hK hmode heps rfl hu
    unfold learn_batch
    rw [hemp]
    simp only [Bool.false_eq_true, if_false]
    have hl3' : learn_batch_docs m 2
        (first_pass m (learn_batch_prologue m l) none (learn_batch_prologue m l).all.weight_vector
          (learn_batch_prologue m l).sorted_features) 0 (learn_batch_prologue m l).examples
        { learn_batch_prologue m l with
          all := { (learn_batch_prologue m l).all with
            weight_vector := first_pass m (learn_batch_prologue m l) none
              (learn_batch_prologue m l).all.weight_vector
              (learn_batch_prologue m l).sorted_features } } = some l3 := hl3
    rw [hl3']
    exact ⟨_, rfl⟩

end single_topic_batch

end LDA

namespace LDA

section demo

theorem demo_batch_config : (demo_batch : lda ℝ).config_ok := by
  refine ⟨rfl, ?_, ?_⟩
  · show 2 * 1 + 1 ≤ 1 <<< 2
    decide
  · show 7 = ((1 <<< 1) <<< 2) - 1
    decide

theorem demo_batch_sorted : (demo_batch : lda ℝ).sorted_features
    = [⟨0, ⟨1, 0⟩⟩, ⟨1, ⟨1, 0⟩⟩] := rfl

theorem demo_batch_examples : (demo_batch : lda ℝ).examples = [demo_doc, demo_doc] := rfl

theorem demo_batch_history : (demo_batch : lda ℝ).history_ok := by
  refine ⟨by decide, ?_, ?_⟩
  · intro i j hij hj
    have hj' : j < 1 := hj
    have : j = 0 := by omega
    have : i = 0 := by omega
    subst_vars
    exact le_refl _
  · intro w hw
    refine ⟨0, by decide, ?_⟩
    have hw' : w < 2 := hw
    interval_cases w
    · simp [lda.t_last, lda.row, demo_batch, learn_push, demo_learner, demo_all, demo_doc, v_array.push_back, v_array.init]
    · simp [lda.t_last, lda.row, demo_batch, learn_push, demo_learner, demo_all, demo_doc, v_array.push_back, v_array.init]

end demo
end LDA

namespace LDA

section c1

/-- C1 (total consistency): in exact arithmetic, for a learner with the layout of
`lda_setup` and a non-increasing decay history, if `total_lambda[k]` is the sum over
all rows of the effective `lambda(w,k)` before a `learn_batch` on a non-empty
minibatch whose term hashes are within the mask and whose shrink factor `mu` is
positive, then the same holds after that `learn_batch`, for every topic `k`. -/
theorem learn_batch_total_consistent (m : math_kernels ℝ) (fuel : Nat) (l l' : lda ℝ)
    (hexp : m.exp = Real.exp) (hlog : m.log = Real.log)
    (hc : l.config_ok) (hh : l.history_ok) (hne : l.sorted_features ≠ [])
    (hmask : ∀ s ∈ l.sorted_features, l.within_mask s.f.weight_index)
    (hmu : 0 < l.mu m ∧ l.mu m ≤ 1)
    (hpre : l.total_consistent m)
    (hrun : learn_batch m fuel l = some l') :
    l'.total_consistent m := by
  obtain ⟨_, htl, hsz, _, _, e_lda, e_mask, e_ss, e_nb, _⟩ :=
    learn_batch_result m fuel l l' hne hc hmask hrun
  have hc' := learn_batch_config_ok m fuel l l' hrun hc
  have hT := learn_batch_total_lambda_of_size l hpre.1
  have hlen : l'.all.length = l.all.length := by unfold vw.length; rw [e_nb]
  have hrow : ∀ w, l'.row w = l.row w := fun w => by unfold lda.row; rw [e_ss]
  constructor
  · rw [hsz, hT, e_lda]; exact hpre.1
  · intro k hk
    rw [e_lda] at hk
    rw [htl k hk, hT, hpre.2 k hk, hlen]
    have hsum : ∑ w in Finset.range l.all.length, l'.effective m w k
        = ∑ w in Finset.range l.all.length, (l.mu m * l.effective m w k
          + gain l' (l.eta_scaled m) (learn_batch_first_pass m l) l.sorted_features (l'.row w + k)) := by
      apply Finset.sum_congr rfl
      intro w hw
      rw [hrow]
      exact effective_after m hexp hlog fuel l l' hne hc hh hmask hmu.1 hrun w
        (Finset.mem_range.mp hw) k hk
    rw [hsum, Finset.sum_add_distrib, ← Finset.mul_sum, ← hlen]
    have hg := gain_sum_rows l' hc' (l.eta_scaled m) (learn_batch_first_pass m l) k
      (by rw [e_lda]; exact hk) l.sorted_features
      (by
        intro e he
        obtain ⟨w, hw, hwe⟩ := hmask e he
        exact ⟨w, by rw [hlen]; exact hw, by rw [hrow]; exact hwe⟩)
    rw [hg]
    rw [mul_comm]
    rfl

theorem learn_batch_total_consistent_witness :
    (demo_batch : lda ℝ).total_consistent
        (kernels_of Real.exp Real.log (fun x p => x ^ p)
          (deriv (fun y => Real.log (Real.Gamma y))) (fun y => Real.log (Real.Gamma y))) ∧
      ∃ l', learn_batch (kernels_of Real.exp Real.log (fun x p => x ^ p)
          (deriv (fun y => Real.log (Real.Gamma y))) (fun y => Real.log (Real.Gamma y)))
          2 demo_batch = some l' ∧
        l'.total_consistent (kernels_of Real.exp Real.log (fun x p => x ^ p)
          (deriv (fun y => Real.log (Real.Gamma y))) (fun y => Real.log (Real.Gamma y))) := by
  have hmask : ∀ s ∈ (demo_batch : lda ℝ).sorted_features,
      (demo_batch : lda ℝ).within_mask s.f.weight_index := by
    intro s hs
    rw [demo_batch_sorted] at hs
    refine ⟨0, by decide, ?_⟩
    simp only [List.mem_cons, List.mem_singleton, List.not_mem_nil, or_false] at hs
    rcases hs with rfl | rfl <;> rfl
  have hpre : (demo_batch : lda ℝ).total_consistent
      (kernels_of Real.exp Real.log (fun x p => x ^ p)
        (deriv (fun y => Real.log (Real.Gamma y))) (fun y => Real.log (Real.Gamma y))) := by
    refine ⟨rfl, ?_⟩
    intro k hk
    have hk' : k < 1 := hk
    have : k = 0 := by omega
    subst this
    show _ = ∑ w in Finset.range 2, _
    simp [Finset.sum_range_succ, lda.effective, lda.lambda, lda.pending, lda.level_of_row,
      lda.t_last, lda.row, demo_batch, learn_push, demo_learner, demo_all, demo_doc,
      v_array.push_back, v_array.init, v_array.last, v_array.end_index, kernels_of, store, to_int,
      v_array.set]
    norm_num
  obtain ⟨l', hl'⟩ := learn_batch_single_returns
    (kernels_of Real.exp Real.log (fun x p => x ^ p)
      (deriv (fun y => Real.log (Real.Gamma y))) (fun y => Real.log (Real.Gamma y)))
    (demo_batch : lda ℝ) demo_batch_config rfl (Or.inl (by decide))
    (by show (0:ℝ) ≤ 0.001; norm_num) hmask
    (by
      intro ec hec f hf
      rw [demo_batch_examples] at hec
      rw [demo_batch_sorted]
      simp only [List.mem_cons, List.mem_singleton, List.not_mem_nil, or_false, or_self] at hec
      subst hec
      simp only [demo_doc, List.mem_singleton] at hf
      subst hf
      exact ⟨_, List.mem_cons_self _ _, rfl⟩)
  refine ⟨hpre, l', hl', ?_⟩
  exact learn_batch_total_consistent _ 2 demo_batch l' rfl rfl demo_batch_config
    demo_batch_history (by rw [demo_batch_sorted]; simp) hmask
    (by
      show (0:ℝ) < 1 - 1 / 2 * ((0 + 1 : ℝ) ^ (-(0:ℝ))) ∧ 1 - 1 / 2 * ((0 + 1 : ℝ) ^ (-(0:ℝ))) ≤ 1
      norm_num)
    hpre hl'

end c1
end LDA

namespace LDA

section contributions

variable {α : Type} [LinearOrderedField α] [FloorRing α] [float_cast α]

theorem inner_product_eq_sum (K : Nat) (a b : Nat → α) :
    ldamath.inner_product K a b 0 = ∑ j in Finset.range K, a j * b j := by
  unfold ldamath.inner_product
  induction K with
  | zero => simp
  | succ n ih => rw [for_loop_succ, ih, Finset.sum_range_succ]

/-- The amounts received by a `lambda` cell of a row are those of the entries of the row. -/
theorem gain_row (l : lda α) (hc : l.config_ok) (eta : α) (W : Nat → α) (w k : Nat)
    (hk : k < l.all.lda) :
    ∀ feats : List (index_feature α), (∀ e ∈ feats, l.within_mask e.f.weight_index) →
      gain l eta W feats (l.row w + k)
        = ((feats.filter (fun e => decide (e.f.weight_index = l.row w))).map
            (fun e => new_value l eta W e k)).sum := by
  intro feats
  induction feats with
  | nil => intro _; simp [gain_nil]
  | cons e es ih =>
    intro hm
    have hme := hm e (List.mem_cons_self _ _)
    have hand := within_mask_and l hc _ hme
    obtain ⟨we, hwe, hrow⟩ := hme
    rw [gain_cons, ih (fun t ht => hm t (List.mem_cons_of_mem _ ht)), hand]
    have hs := hc.2.1
    by_cases heq : e.f.weight_index = l.row w
    · rw [List.filter_cons_of_pos (by simpa using heq), List.map_cons, List.sum_cons,
        if_pos (by omega)]
      congr 2
      omega
    · rw [List.filter_cons_of_neg (by simpa using heq), if_neg, zero_add]
      intro hh
      rw [hrow] at hh heq
      have := row_of_cell l hc w we k (by omega) (by omega)
      exact heq (by rw [this])

/-- The amount `new_value` in the wording of the specification. -/
theorem new_value_eq_contribution (l : lda α) (hc : l.config_ok) (eta : α) (e : index_feature α)
    (he : l.within_mask e.f.weight_index) (k : Nat) :
    new_value l eta l.all.weight_vector e k = l.contribution eta e k := by
  unfold new_value lda.contribution find_cw
  rw [within_mask_and l hc _ he, hc.1, inner_product_eq_sum]
  simp only [div_eq_mul_inv]
  ring

end contributions

end LDA

namespace LDA

section sweep_positions

open ldamath

variable {σ : Type}

theorem scalar_head_pos (aligned : Nat → Bool) (body : Nat → σ → σ) (P : Nat → σ → Prop)
    (hi : Nat) :
    ∀ (n fp : Nat) (st : σ), fp + n ≤ hi →
      (∀ fp1 st1, fp ≤ fp1 → fp1 < hi → P fp1 st1 → P (fp1 + 1) (body fp1 st1)) → P fp st →
      P (scalar_head aligned body n fp st).1 (scalar_head aligned body n fp st).2 ∧
        fp ≤ (scalar_head aligned body n fp st).1 ∧ (scalar_head aligned body n fp st).1 ≤ fp + n := by
  intro n
  induction n with
  | zero => intro fp st _ _ h; exact ⟨h, le_refl _, le_refl _⟩
  | succ n ih =>
    intro fp st hn hb h
    rw [scalar_head]
    by_cases ha : aligned fp = true
    · rw [if_pos ha]; exact ⟨h, le_refl _, by omega⟩
    · rw [if_neg ha]
      obtain ⟨r1, r2, r3⟩ := ih (fp + 1) (body fp st) (by omega)
        (fun fp1 st1 h1 h2 h3 => hb fp1 st1 (by omega) h2 h3) (hb fp st (le_refl _) (by omega) h)
      exact ⟨r1, by omega, by omega⟩

theorem vector_body_pos (aligned : Nat → Bool) (body : Nat → σ → σ) (P : Nat → σ → Prop)
    (fpend : Nat) :
    ∀ (n fp : Nat) (st : σ), fp ≤ fpend →
      (∀ fp1 st1, fp ≤ fp1 → fp1 + 4 < fpend → P fp1 st1 → P (fp1 + 4) (body fp1 st1)) → P fp st →
      P (vector_body aligned body fpend n fp st).1 (vector_body aligned body fpend n fp st).2 ∧
        fp ≤ (vector_body aligned body fpend n fp st).1 ∧
        (vector_body aligned body fpend n fp st).1 ≤ fpend := by
  intro n
  induction n with
  | zero => intro fp st hle _ h; exact ⟨h, le_refl _, hle⟩
  | succ n ih =>
    intro fp st hle hb h
    rw [vector_body]
    by_cases ha : (aligned fp && decide (fp + 4 < fpend)) = true
    · rw [if_pos ha]
      have hlt : fp + 4 < fpend := by
        simp only [Bool.and_eq_true, decide_eq_true_eq] at ha
        exact ha.2
      obtain ⟨r1, r2, r3⟩ := ih (fp + 4) (body fp st) (by omega)
        (fun fp1 st1 h1 h2 h3 => hb fp1 st1 (by omega) h2 h3) (hb fp st (le_refl _) hlt h)
      exact ⟨r1, by omega, r3⟩
    · rw [if_neg ha]; exact ⟨h, le_refl _, hle⟩

theorem scalar_tail_pos (body : Nat → σ → σ) (P : Nat → σ → Prop) :
    ∀ (n fp : Nat) (st : σ),
      (∀ fp1 st1, fp ≤ fp1 → fp1 < fp + n → P fp1 st1 → P (fp1 + 1) (body fp1 st1)) → P fp st →
      P (fp + n) (scalar_tail body n fp st) := by
  intro n
  induction n with
  | zero => intro fp st _ h; exact h
  | succ n ih =>
    intro fp st hb h
    rw [scalar_tail]
    have := ih (fp + 1) (body fp st)
      (fun fp1 st1 h1 h2 h3 => hb fp1 st1 (by omega) (by omega) h3)
      (hb fp st (le_refl _) (by omega) h)
    have e : fp + 1 + n = fp + (n + 1) := by omega
    rw [e] at this
    exact this

/-- The three loops of a sweep carry a property of the position and the state from
`g` to `g + K`. -/
theorem simd_sweep_pos (aligned : Nat → Bool) (scalar vector : Nat → σ → σ)
    (P : Nat → σ → Prop) (g K : Nat) (st : σ)
    (hs : ∀ fp1 st1, g ≤ fp1 → fp1 < g + K → P fp1 st1 → P (fp1 + 1) (scalar fp1 st1))
    (hv : ∀ fp1 st1, g ≤ fp1 → fp1 + 4 < g + K → P fp1 st1 → P (fp1 + 4) (vector fp1 st1))
    (h : P g st) : P (g + K) (simd_sweep aligned scalar vector g K st) := by
  unfold simd_sweep
  obtain ⟨a1, a2, a3⟩ := scalar_head_pos aligned scalar P (g + K) K g st (le_refl _) hs h
  obtain ⟨b1, b2, b3⟩ := vector_body_pos aligned vector P (g + K) K
    (scalar_head aligned scalar K g st).1 (scalar_head aligned scalar K g st).2 a3
    (fun fp1 st1 h1 h2 h3 => hv fp1 st1 (by omega) h2 h3) a1
  have := scalar_tail_pos scalar P
    (g + K - (vector_body aligned vector (g + K) K (scalar_head aligned scalar K g st).1
      (scalar_head aligned scalar K g st).2).1)
    (vector_body aligned vector (g + K) K (scalar_head aligned scalar K g st).1
      (scalar_head aligned scalar K g st).2).1
    (vector_body aligned vector (g + K) K (scalar_head aligned scalar K g st).1
      (scalar_head aligned scalar K g st).2).2
    (fun fp1 st1 h1 h2 h3 => hs fp1 st1 (by omega) (by omega) h3) b1
  have e : (vector_body aligned vector (g + K) K (scalar_head aligned scalar K g st).1
      (scalar_head aligned scalar K g st).2).1
      + (g + K - (vector_body aligned vector (g + K) K (scalar_head aligned scalar K g st).1
      (scalar_head aligned scalar K g st).2).1) = g + K := by omega
  rw [e] at this
  exact this

end sweep_positions

section simd_values

variable {α : Type} [LinearOrderedField α] [FloorRing α] [float_cast α]

open ldamath

/-- The SSE specialisation `vexpdigammify_2` cell by cell: every cell from `g` holds
the transform of its former content, computed by the scalar kernels (prologue and
rest) or by the vector kernels (aligned groups of four). -/
theorem vexpdigammify_2_apply (m : math_kernels α) (aligned : Nat → Bool) (K : Nat)
    (mem : Nat → α) (g : Nat) (norm : Nat → α) (threshold : α) (i : Nat)
    (h1 : g ≤ i) (h2 : i < g + K) :
    vexpdigammify_2 m aligned K mem g norm threshold i
        = max threshold (fastexp m (fastdigamma m (mem i) - norm (i - g))) ∨
      vexpdigammify_2 m aligned K mem g norm threshold i
        = max threshold (vfastexp m (vfastdigamma m (mem i) - norm (i - g))) := by
  unfold vexpdigammify_2
  have key := simd_sweep_pos aligned
    (fun fp mem1 => store mem1 fp (max threshold (fastexp m (fastdigamma m (mem1 fp) - norm (fp - g)))))
    (fun fp mem1 => for_loop 4 (fun j mem2 =>
      store mem2 (fp + j)
        (max threshold (vfastexp m (vfastdigamma m (mem1 (fp + j)) - norm (fp + j - g))))) mem1)
    (fun fp st => (∀ j, fp ≤ j → st j = mem j) ∧
      (∀ j, g ≤ j → j < fp →
        st j = max threshold (fastexp m (fastdigamma m (mem j) - norm (j - g))) ∨
        st j = max threshold (vfastexp m (vfastdigamma m (mem j) - norm (j - g)))))
    g K mem ?_ ?_ ⟨fun _ _ => rfl, fun j hj1 hj2 => by omega⟩
  · exact key.2 i h1 h2
  · intro fp st1 hf1 hf2 ⟨p1, p2⟩
    refine ⟨fun j hj => ?_, fun j hj1 hj2 => ?_⟩
    · show store st1 fp _ j = mem j
      rw [store_ne _ _ (by omega)]
      exact p1 j (by omega)
    · show store st1 fp _ j = _ ∨ store st1 fp _ j = _
      by_cases hj : j = fp
      · subst hj
        left
        rw [store_same, p1 j (le_refl _)]
      · rw [store_ne _ _ hj]
        exact p2 j hj1 (by omega)
  · intro fp st1 hf1 hf2 ⟨p1, p2⟩
    refine ⟨fun j hj => ?_, fun j hj1 hj2 => ?_⟩
    · show for_loop 4 _ st1 j = mem j
      rw [for_loop_store_from, if_neg (by omega)]
      exact p1 j (by omega)
    · show for_loop 4 _ st1 j = _ ∨ for_loop 4 _ st1 j = _
      rw [for_loop_store_from]
      by_cases hc : fp ≤ j ∧ j < fp + 4
      · right
        rw [if_pos hc]
        have hidx : fp + (j - fp) = j := by omega
        rw [hidx, p1 j hc.1]
      · rw [if_neg hc]
        exact p2 j hj1 (by omega)

/-- The first pass fills the `u` slots of the row in the SSE specialisation too: the
value is the transform computed by the scalar or by the vector kernels. -/
theorem first_pass_row_u_simd (m : math_kernels α) (l : lda α) (W : Nat → α)
    (s : index_feature α) (hmode : l.mmode = lda_math_mode.USE_SIMD) (hsimd : m.have_simd = true)
    (k : Nat) (hk : k < l.all.lda) :
    first_pass_row m l W s ((s.f.weight_index &&& l.all.weight_mask) + l.all.lda + 1 + k)
        = max underflow_threshold (fastexp m (fastdigamma m
            (W ((s.f.weight_index &&& l.all.weight_mask) + k)
              * first_pass_decay m l W (s.f.weight_index &&& l.all.weight_mask) + l.lda_rho)
            - l.digammas.data k)) ∨
      first_pass_row m l W s ((s.f.weight_index &&& l.all.weight_mask) + l.all.lda + 1 + k)
        = max underflow_threshold (vfastexp m (vfastdigamma m
            (W ((s.f.weight_index &&& l.all.weight_mask) + k)
              * first_pass_decay m l W (s.f.weight_index &&& l.all.weight_mask) + l.lda_rho)
            - l.digammas.data k)) := by
  have h1 : (s.f.weight_index &&& l.all.weight_mask) + l.all.lda + 1 + k - (l.all.lda + 1)
      = (s.f.weight_index &&& l.all.weight_mask) + k := by omega
  have h2 : (s.f.weight_index &&& l.all.weight_mask) + l.all.lda + 1 + k
      - ((s.f.weight_index &&& l.all.weight_mask) + l.all.lda + 1) = k := by omega
  have hexp2 : ∀ (mem : Nat → α) (g : Nat) (norm : Nat → α),
      l.expdigammify_2 m m.weights_aligned16 mem g norm
        = vexpdigammify_2 m m.weights_aligned16 l.all.lda mem g norm underflow_threshold := by
    intro mem g norm
    unfold lda.expdigammify_2
    rw [hmode]
    simp only [hsimd, if_true]
  have key : ∀ (w2 : Nat → α) (x : α),
      w2 ((s.f.weight_index &&& l.all.weight_mask) + l.all.lda + 1 + k) = x →
      (vexpdigammify_2 m m.weights_aligned16 l.all.lda w2
          ((s.f.weight_index &&& l.all.weight_mask) + l.all.lda + 1) l.digammas.data
          underflow_threshold ((s.f.weight_index &&& l.all.weight_mask) + l.all.lda + 1 + k)
        = max underflow_threshold (fastexp m (fastdigamma m x - l.digammas.data k)) ∨
      vexpdigammify_2 m m.weights_aligned16 l.all.lda w2
          ((s.f.weight_index &&& l.all.weight_mask) + l.all.lda + 1) l.digammas.data
          underflow_threshold ((s.f.weight_index &&& l.all.weight_mask) + l.all.lda + 1 + k)
        = max underflow_threshold (vfastexp m (vfastdigamma m x - l.digammas.data k))) := by
    intro w2 x hx
    have := vexpdigammify_2_apply m m.weights_aligned16 l.all.lda w2
      ((s.f.weight_index &&& l.all.weight_mask) + l.all.lda + 1) l.digammas.data underflow_threshold
      ((s.f.weight_index &&& l.all.weight_mask) + l.all.lda + 1 + k) (by omega) (by omega)
    rw [h2, hx] at this
    exact this
  unfold first_pass_row
  simp only []
  rw [hexp2]
  apply key
  rw [first_pass_inner _ _ _ _ _ _ (le_refl _), if_neg (by omega), if_pos (by omega), h1,
    store_ne _ _ (by omega)]
  rfl

end simd_values

end LDA

namespace LDA

section claims_passes

variable {α : Type} [LinearOrderedField α] [FloorRing α] [float_cast α]

theorem demo_batch_mask : ∀ s ∈ (demo_batch : lda ℝ).sorted_features,
    (demo_batch : lda ℝ).within_mask s.f.weight_index := by
  intro s hs
  rw [demo_batch_sorted] at hs
  refine ⟨0, by decide, ?_⟩
  simp only [List.mem_cons, List.mem_singleton, List.not_mem_nil, or_false] at hs
  rcases hs with rfl | rfl <;> rfl

theorem demo_batch_returns : ∃ l', learn_batch (kernels_of Real.exp Real.log (fun x p => x ^ p)
      (deriv (fun y => Real.log (Real.Gamma y))) (fun y => Real.log (Real.Gamma y))) 2 (demo_batch : lda ℝ) = some l' :=
  learn_batch_single_returns _ (demo_batch : lda ℝ) demo_batch_config rfl (Or.inl (by decide))
    (by show (0:ℝ) ≤ 0.001; norm_num) demo_batch_mask
    (by
      intro ec hec f hf
      rw [demo_batch_examples] at hec
      rw [demo_batch_sorted]
      simp only [List.mem_cons, List.mem_singleton, List.not_mem_nil, or_false, or_self] at hec
      subst hec
      simp only [demo_doc, List.mem_singleton] at hf
      subst hf
      exact ⟨_, List.mem_cons_self _ _, rfl⟩)

theorem first_pass_decay_eq_spec (m : math_kernels α) (l : lda α) (a : Nat) :
    first_pass_decay m (learn_batch_prologue m l) l.all.weight_vector a = l.spec_decay m a := by
  unfold first_pass_decay lda.spec_decay
  have h : (learn_batch_prologue m l).decay_levels.end_index (-2)
      = (learn_batch_prologue m l).decay_levels.data (l.decay_levels.size - 1) := by
    unfold v_array.end_index
    have hsz : (learn_batch_prologue m l).decay_levels.size = l.decay_levels.size + 1 := rfl
    rw [hsz]
    congr 1
    omega
  rw [h]
  rfl

/-- The table that the first pass of `learn_batch` leaves: for every entry `s` of
`sorted_features`, however many entries carry its term hash and in whichever
documents, the row of the hash has its `lambda` slots multiplied once by
`decay = min(1, exp(decay_levels[n-1] - decay_levels[t_last(w)]))`, its `t_last` slot
set to `(float)example_t` for the incremented counter, and its `u` slots set from
`decay*lambda(w,k) + rho` and `digammas[k] = digamma(total_lambda[k] + W*rho)` by the
kernels of the math mode, in the SSE specialisation of the simd mode by the scalar or
the vector fast kernels, according to the place of the cell in the sweep. -/
theorem learn_batch_first_pass_row (m : math_kernels α) (l : lda α) (hc : l.config_ok)
    (hmask : ∀ s ∈ l.sorted_features, l.within_mask s.f.weight_index)
    (s : index_feature α) (hs : s ∈ l.sorted_features) :
    (learn_batch_prologue m l).decay_levels.size = l.decay_levels.size + 1 ∧
    (∀ k, k < l.all.lda →
      learn_batch_first_pass m l (s.f.weight_index + k)
        = l.all.weight_vector (s.f.weight_index + k) * l.spec_decay m s.f.weight_index) ∧
    learn_batch_first_pass m l (s.f.weight_index + l.all.lda) = to_float (l.example_t + 1) ∧
    (∀ k, k < l.all.lda → (learn_batch_prologue m l).digammas.data k
        = l.digamma m ((learn_batch_total_lambda l).data k + (l.all.length : α) * l.lda_rho)) ∧
    ((l.mmode ≠ lda_math_mode.USE_SIMD ∨ m.have_simd = false) → ∀ k, k < l.all.lda →
      learn_batch_first_pass m l (s.f.weight_index + l.all.lda + 1 + k)
        = max underflow_threshold (ldamath.exponential m l.mmode
            (ldamath.digamma m l.mmode
              (l.spec_decay m s.f.weight_index * l.all.weight_vector (s.f.weight_index + k)
                + l.lda_rho)
              - (learn_batch_prologue m l).digammas.data k))) ∧
    ((l.mmode = lda_math_mode.USE_SIMD ∧ m.have_simd = true) → ∀ k, k < l.all.lda →
      learn_batch_first_pass m l (s.f.weight_index + l.all.lda + 1 + k)
          = max underflow_threshold (ldamath.fastexp m (ldamath.fastdigamma m
              (l.spec_decay m s.f.weight_index * l.all.weight_vector (s.f.weight_index + k)
                + l.lda_rho)
              - (learn_batch_prologue m l).digammas.data k)) ∨
        learn_batch_first_pass m l (s.f.weight_index + l.all.lda + 1 + k)
          = max underflow_threshold (ldamath.vfastexp m (ldamath.vfastdigamma m
              (l.spec_decay m s.f.weight_index * l.all.weight_vector (s.f.weight_index + k)
                + l.lda_rho)
              - (learn_batch_prologue m l).digammas.data k))) := by
  obtain ⟨fa, _⟩ := first_pass_table m l hc hmask
  have hand : s.f.weight_index &&& (learn_batch_prologue m l).all.weight_mask = s.f.weight_index :=
    within_mask_and l hc _ (hmask s hs)
  refine ⟨rfl, fun k hk => ?_, ?_, fun k hk => ?_, fun hmode k hk => ?_, fun hsse k hk => ?_⟩
  · have e1 := fa s hs (s.f.weight_index + k) (by omega) (by omega)
    have e2 := first_pass_row_lambda m (learn_batch_prologue m l) l.all.weight_vector s k hk
    rw [hand, first_pass_decay_eq_spec] at e2
    exact e1.trans e2
  · have e1 := fa s hs (s.f.weight_index + l.all.lda) (by omega) (by omega)
    have e2 := first_pass_row_t_last m (learn_batch_prologue m l) l.all.weight_vector s
    rw [hand] at e2
    exact e1.trans e2
  · show (for_loop l.all.lda (fun i a => a.push_back (l.digamma m
        ((learn_batch_total_lambda l).data i + (l.all.length : α) * l.lda_rho)))
        l.digammas.erase).data k = _
    rw [(push_back_loop (fun i => l.digamma m
        ((learn_batch_total_lambda l).data i + (l.all.length : α) * l.lda_rho))
        l.digammas.erase l.all.lda).2 k, if_pos ⟨Nat.zero_le _, by simpa [v_array.erase] using hk⟩]
    simp [v_array.erase]
  · have e1 := fa s hs (s.f.weight_index + l.all.lda + 1 + k) (by omega) (by omega)
    have e2 := first_pass_row_u m (learn_batch_prologue m l) l.all.weight_vector s hmode k hk
    rw [hand, first_pass_decay_eq_spec] at e2
    rw [mul_comm (l.spec_decay m s.f.weight_index)]
    exact e1.trans e2
  · have e1 := fa s hs (s.f.weight_index + l.all.lda + 1 + k) (by omega) (by omega)
    have e2 := first_pass_row_u_simd m (learn_batch_prologue m l) l.all.weight_vector s
      hsse.1 hsse.2 k hk
    rw [hand, first_pass_decay_eq_spec] at e2
    rw [mul_comm (l.spec_decay m s.f.weight_index)]
    rcases e2 with h | h
    · left; exact e1.trans h
    · right; exact e1.trans h

/-- C9 (empty minibatch): `learn_batch` on an empty `sorted_features` returns, without
running any `lda_loop`; it changes neither the weight table, `total_lambda`,
`decay_levels` nor `example_t`, adds nothing to the two loss sums, hands every pending
example to `return_simple_example` in order and leaves the pending list empty. -/
theorem learn_batch_empty_minibatch (m : math_kernels α) (fuel : Nat) (l : lda α)
    (h : l.sorted_features = []) :
    ∃ l', learn_batch m fuel l = some l' ∧
      l'.all.weight_vector = l.all.weight_vector ∧ l'.total_lambda = l.total_lambda ∧
      l'.decay_levels = l.decay_levels ∧ l'.decay_levels.size = l.decay_levels.size ∧
      l'.example_t = l.example_t ∧
      l'.all.sum_loss = l.all.sum_loss ∧
      l'.all.sum_loss_since_last_dump = l.all.sum_loss_since_last_dump ∧
      l'.all.returned = l.all.returned ++ l.examples ∧ l'.examples = [] := by
  refine ⟨{ l with all := l.examples.foldl return_simple_example l.all, examples := [] }, ?_, ?_⟩
  · unfold learn_batch
    rw [h]
    rfl
  · have hall := return_all_frame l.all l.examples
    refine ⟨?_, rfl, rfl, rfl, rfl, ?_, ?_, ?_, rfl⟩
    · show (l.examples.foldl return_simple_example l.all).weight_vector = _
      rw [hall]
    · show (l.examples.foldl return_simple_example l.all).sum_loss = _
      rw [hall]
    · show (l.examples.foldl return_simple_example l.all).sum_loss_since_last_dump = _
      rw [hall]
    · show (l.examples.foldl return_simple_example l.all).returned = _
      rw [hall]

theorem learn_batch_empty_minibatch_witness :
    ∃ l', learn_batch (kernels_of Real.exp Real.log (fun x p => x ^ p)
      (deriv (fun y => Real.log (Real.Gamma y))) (fun y => Real.log (Real.Gamma y))) 0
        (learn_push (learn_push (demo_learner : lda ℝ) ⟨[], []⟩) ⟨[], []⟩) = some l' ∧
      l'.decay_levels.size = 1 ∧ l'.examples = [] ∧
      l'.all.returned = [⟨[], []⟩, ⟨[], []⟩] := by
  obtain ⟨l', h1, _, _, _, h5, _, _, _, h9, h10⟩ := learn_batch_empty_minibatch (kernels_of Real.exp Real.log (fun x p => x ^ p)
      (deriv (fun y => Real.log (Real.Gamma y))) (fun y => Real.log (Real.Gamma y))) 0
    (learn_push (learn_push (demo_learner : lda ℝ) ⟨[], []⟩) ⟨[], []⟩) rfl
  exact ⟨l', h1, h5, h10, h9⟩

end claims_passes

end LDA

namespace LDA

section claims_second_pass

variable {α : Type} [LinearOrderedField α] [FloorRing α] [float_cast α]

/-- After a returning `learn_batch` the amounts computed from the table of the first
pass are the contributions computed from the final state. -/
theorem new_value_first_pass (m : math_kernels α) (fuel : Nat) (l l' : lda α)
    (hne : l.sorted_features ≠ []) (hc : l.config_ok)
    (hmask : ∀ s ∈ l.sorted_features, l.within_mask s.f.weight_index)
    (h : learn_batch m fuel l = some l') (eta : α) (e : index_feature α)
    (he : e ∈ l.sorted_features) (k : Nat) (hk : k < l.all.lda) :
    new_value l' eta (learn_batch_first_pass m l) e k = l'.contribution eta e k := by
  obtain ⟨_, _, _, _, _, e_lda, e_mask, e_ss, e_nb, e_top, _⟩ :=
    learn_batch_result m fuel l l' hne hc hmask h
  have hc' := learn_batch_config_ok m fuel l l' h hc
  obtain ⟨w, hw, hwe⟩ := hmask e he
  have hrow : l'.row w = l.row w := by unfold lda.row; rw [e_ss]
  have hlen : l'.all.length = l.all.length := by unfold vw.length; rw [e_nb]
  have hme : l'.within_mask e.f.weight_index := ⟨w, by rw [hlen]; exact hw, by rw [hrow]; exact hwe⟩
  obtain ⟨hT, _⟩ := learn_batch_rows m fuel l l' hne hc hmask h w hw
  obtain ⟨_, _, hu⟩ := hT ⟨e, he, hwe⟩
  rw [← new_value_eq_contribution l' hc' eta e hme k]
  apply new_value_congr l' eta _ _ e k hc'.1 (by rw [e_lda]; exact hk)
  intro j hj
  rw [e_lda] at hj
  have := hu j hj
  unfold lda.u at this
  rw [within_mask_and l' hc' _ hme, hwe, ← hrow, e_lda]
  rw [hrow, e_lda] at this
  rw [hrow]
  exact this.symm

/-- C8 (second pass of `learn_batch`): for every row `w` of the minibatch and every
topic `k`, the final `lambda(w,k)` is `mu` times the value left by the first pass plus
the sum over the entries `(d, x)` of `w` of `eta*x*u(w)[k]*v[d,k] / sum_j u(w)[j]*v[d,j]`
(the shrink is applied once per row, not once per entry); the `u` slots are those left
by the first pass; and `total_new[k]` is the sum of the same contributions over all
entries. -/
theorem learn_batch_second_pass_row (m : math_kernels α) (fuel : Nat) (l l' : lda α)
    (hne : l.sorted_features ≠ []) (hc : l.config_ok)
    (hmask : ∀ s ∈ l.sorted_features, l.within_mask s.f.weight_index)
    (hrun : learn_batch m fuel l = some l') (w : Nat) (hw : w < l.all.length)
    (htouched : ∃ s ∈ l.sorted_features, s.f.weight_index = l.row w) :
    (∀ k, k < l.all.lda →
      l'.lambda w k = l.mu m * learn_batch_first_pass m l (l.row w + k)
        + ((l.sorted_features.filter (fun e => decide (e.f.weight_index = l.row w))).map
            (fun e => l'.contribution (l.eta_scaled m) e k)).sum) ∧
    (∀ k, k < l.all.lda → l'.u w k = learn_batch_first_pass m l (l.row w + l.all.lda + 1 + k)) ∧
    (∀ k, k < l.all.lda →
      l'.total_new.data k
        = (l.sorted_features.map (fun e => l'.contribution (l.eta_scaled m) e k)).sum) := by
  obtain ⟨_, _, _, _, _, e_lda, e_mask, e_ss, e_nb, _, _, _, _, _, _, _, _, _, _, _, _, _, _, _,
    htn⟩ := learn_batch_result m fuel l l' hne hc hmask hrun
  have hc' := learn_batch_config_ok m fuel l l' hrun hc
  have hrow : ∀ w, l'.row w = l.row w := fun w => by unfold lda.row; rw [e_ss]
  have hlen : l'.all.length = l.all.length := by unfold vw.length; rw [e_nb]
  have hmask' : ∀ e ∈ l.sorted_features, l'.within_mask e.f.weight_index := by
    intro e he
    obtain ⟨w, hw, hwe⟩ := hmask e he
    exact ⟨w, by rw [hlen]; exact hw, by rw [hrow]; exact hwe⟩
  obtain ⟨hT, _⟩ := learn_batch_rows m fuel l l' hne hc hmask hrun w hw
  obtain ⟨hlam, _, hu⟩ := hT htouched
  obtain ⟨fa, _⟩ := first_pass_table m l hc hmask
  obtain ⟨s, hs, hsw⟩ := htouched
  refine ⟨fun k hk => ?_, hu, fun k hk => ?_⟩
  · rw [hlam k hk]
    have e1 : learn_batch_first_pass m l (l.row w + k)
        = l.lambda w k * first_pass_decay m (learn_batch_prologue m l) l.all.weight_vector
          (l.row w) := by
      have a1 := fa s hs (l.row w + k) (by rw [hsw]; omega) (by rw [hsw]; omega)
      have a2 := first_pass_row_lambda m (learn_batch_prologue m l) l.all.weight_vector s k hk
      have hand : s.f.weight_index &&& (learn_batch_prologue m l).all.weight_mask = l.row w := by
        rw [← hsw]; exact within_mask_and l hc _ (hmask s hs)
      rw [hand] at a2
      exact a1.trans a2
    rw [e1]
    congr 1
    have hg := gain_row l' hc' (l.eta_scaled m) (learn_batch_first_pass m l) w k
      (by rw [e_lda]; exact hk) l.sorted_features hmask'
    rw [hrow] at hg
    rw [hg]
    congr 1
    apply List.map_congr_left
    intro e he
    exact new_value_first_pass m fuel l l' hne hc hmask hrun _ e (List.mem_of_mem_filter he) k hk
  · rw [htn k, if_pos hk]
    congr 1
    apply List.map_congr_left
    intro e he
    exact new_value_first_pass m fuel l l' hne hc hmask hrun _ e he k hk

theorem learn_batch_second_pass_row_witness :
    ∃ l', learn_batch (kernels_of Real.exp Real.log (fun x p => x ^ p)
      (deriv (fun y => Real.log (Real.Gamma y))) (fun y => Real.log (Real.Gamma y))) 2 (demo_batch : lda ℝ) = some l' ∧
      l'.lambda 0 0 = (demo_batch : lda ℝ).mu (kernels_of Real.exp Real.log (fun x p => x ^ p)
      (deriv (fun y => Real.log (Real.Gamma y))) (fun y => Real.log (Real.Gamma y)))
          * learn_batch_first_pass (kernels_of Real.exp Real.log (fun x p => x ^ p)
      (deriv (fun y => Real.log (Real.Gamma y))) (fun y => Real.log (Real.Gamma y))) (demo_batch : lda ℝ) ((demo_batch : lda ℝ).row 0 + 0)
        + (((demo_batch : lda ℝ).sorted_features.filter
            (fun e => decide (e.f.weight_index = (demo_batch : lda ℝ).row 0))).map
              (fun e => l'.contribution ((demo_batch : lda ℝ).eta_scaled (kernels_of Real.exp Real.log (fun x p => x ^ p)
      (deriv (fun y => Real.log (Real.Gamma y))) (fun y => Real.log (Real.Gamma y)))) e 0)).sum := by
  obtain ⟨l', hl'⟩ := demo_batch_returns
  refine ⟨l', hl', ?_⟩
  exact (learn_batch_second_pass_row (kernels_of Real.exp Real.log (fun x p => x ^ p)
      (deriv (fun y => Real.log (Real.Gamma y))) (fun y => Real.log (Real.Gamma y))) 2 demo_batch l' (by rw [demo_batch_sorted]; simp)
    demo_batch_config demo_batch_mask hl' 0 (by decide)
    ⟨⟨0, ⟨1, 0⟩⟩, by rw [demo_batch_sorted]; exact List.mem_cons_self _ _, rfl⟩).1 0 (by decide)

/-- C5, as amended: on every non-empty `learn_batch` the entry appended to
`decay_levels` is `decay_levels.back + log(mu)` with `mu = 1 - eta0`, where
`eta0 = learning_rate * example_t^(-power_t)` is the step size before it is scaled
(no minimum is taken, `example_t` already incremented); the contributions of the
minibatch are multiplied by `eta0 * lda_D / batch_size`, and `mu` is the factor by
which the rows of the minibatch and `total_lambda` are shrunk. -/
theorem learn_batch_step_size (m : math_kernels α) (fuel : Nat) (l l' : lda α)
    (hne : l.sorted_features ≠ []) (hc : l.config_ok)
    (hmask : ∀ s ∈ l.sorted_features, l.within_mask s.f.weight_index)
    (hrun : learn_batch m fuel l = some l') :
    l'.decay_levels = l.decay_levels.push_back (l.decay_levels.last
      + m.log (1 - l.all.eta * l.powf m (l.example_t + 1) (-l.all.power_t))) ∧
    l.mu m = 1 - l.all.eta * l.powf m (l.example_t + 1) (-l.all.power_t) ∧
    l.eta_scaled m = l.all.eta * l.powf m (l.example_t + 1) (-l.all.power_t)
      * (l.lda_D / (l.examples.length : α)) ∧
    (∀ k, k < l.all.lda → l'.total_lambda.data k
      = (learn_batch_total_lambda l).data k
          * (1 - l.all.eta * l.powf m (l.example_t + 1) (-l.all.power_t))
        + l'.total_new.data k) ∧
    (∀ w, w < l.all.length → (∃ s ∈ l.sorted_features, s.f.weight_index = l.row w) →
      ∀ k, k < l.all.lda → l'.lambda w k
        = (1 - l.all.eta * l.powf m (l.example_t + 1) (-l.all.power_t))
            * learn_batch_first_pass m l (l.row w + k)
          + ((l.sorted_features.filter (fun e => decide (e.f.weight_index = l.row w))).map
            (fun e => l'.contribution (l.all.eta * l.powf m (l.example_t + 1) (-l.all.power_t)
              * (l.lda_D / (l.examples.length : α))) e k)).sum) := by
  obtain ⟨_, htl, _, hdl, _, e_lda, e_mask, e_ss, e_nb, _, _, _, _, _, _, _, _, _, _, _, _, _, _,
    _, htn⟩ := learn_batch_result m fuel l l' hne hc hmask hrun
  have hc' := learn_batch_config_ok m fuel l l' hrun hc
  have hrow : ∀ w, l'.row w = l.row w := fun w => by unfold lda.row; rw [e_ss]
  have hlen : l'.all.length = l.all.length := by unfold vw.length; rw [e_nb]
  have hmask' : ∀ e ∈ l.sorted_features, l'.within_mask e.f.weight_index := by
    intro e he
    obtain ⟨w, hw, hwe⟩ := hmask e he
    exact ⟨w, by rw [hlen]; exact hw, by rw [hrow]; exact hwe⟩
  obtain ⟨fa, _⟩ := first_pass_table m l hc hmask
  refine ⟨hdl, rfl, rfl, fun k hk => ?_, fun w hw htouched k hk => ?_⟩
  · rw [htl k hk, htn k, if_pos hk]
    rfl
  · obtain ⟨hT, _⟩ := learn_batch_rows m fuel l l' hne hc hmask hrun w hw
    obtain ⟨hlam, _, _⟩ := hT htouched
    obtain ⟨s, hs, hsw⟩ := htouched
    rw [hlam k hk]
    have e1 : learn_batch_first_pass m l (l.row w + k)
        = l.lambda w k * first_pass_decay m (learn_batch_prologue m l) l.all.weight_vector
          (l.row w) := by
      have a1 := fa s hs (l.row w + k) (by rw [hsw]; omega) (by rw [hsw]; omega)
      have a2 := first_pass_row_lambda m (learn_batch_prologue m l) l.all.weight_vector s k hk
      have hand : s.f.weight_index &&& (learn_batch_prologue m l).all.weight_mask = l.row w := by
        rw [← hsw]; exact within_mask_and l hc _ (hmask s hs)
      rw [hand] at a2
      exact a1.trans a2
    rw [e1]
    have hg := gain_row l' hc' (l.eta_scaled m) (learn_batch_first_pass m l) w k
      (by rw [e_lda]; exact hk) l.sorted_features hmask'
    rw [hrow] at hg
    rw [hg]
    have hmap : ((l.sorted_features.filter (fun e => decide (e.f.weight_index = l.row w))).map
        (fun e => new_value l' (l.eta_scaled m) (learn_batch_first_pass m l) e k))
        = (l.sorted_features.filter (fun e => decide (e.f.weight_index = l.row w))).map
        (fun e => l'.contribution (l.eta_scaled m) e k) := by
      apply List.map_congr_left
      intro e he
      exact new_value_first_pass m fuel l l' hne hc hmask hrun _ e (List.mem_of_mem_filter he) k hk
    rw [hmap]
    rfl

theorem learn_batch_step_size_witness :
    ∃ l', learn_batch (kernels_of Real.exp Real.log (fun x p => x ^ p)
      (deriv (fun y => Real.log (Real.Gamma y))) (fun y => Real.log (Real.Gamma y))) 2 (demo_batch : lda ℝ) = some l' ∧
      l'.decay_levels = (demo_batch : lda ℝ).decay_levels.push_back
        ((demo_batch : lda ℝ).decay_levels.last + Real.log (1 - (demo_batch : lda ℝ).all.eta
          * (demo_batch : lda ℝ).powf (kernels_of Real.exp Real.log (fun x p => x ^ p)
      (deriv (fun y => Real.log (Real.Gamma y))) (fun y => Real.log (Real.Gamma y))) ((demo_batch : lda ℝ).example_t + 1)
              (-(demo_batch : lda ℝ).all.power_t))) := by
  obtain ⟨l', hl'⟩ := demo_batch_returns
  refine ⟨l', hl', ?_⟩
  exact (learn_batch_step_size (kernels_of Real.exp Real.log (fun x p => x ^ p)
      (deriv (fun y => Real.log (Real.Gamma y))) (fun y => Real.log (Real.Gamma y))) 2 demo_batch l' (by rw [demo_batch_sorted]; simp)
    demo_batch_config demo_batch_mask hl').1

/-- C5 as stated fails: with learning rate `1/2`, `power_t = 0`, `lda_D = 1` and two
pending documents the specification's step size is `1/4`, but the entry appended by
`learn_batch` is `log(1/2)`, not `log(3/4)`. -/
theorem spec_eta_counterexample :
    ∃ l', learn_batch (kernels_of Real.exp Real.log (fun x p => x ^ p)
      (deriv (fun y => Real.log (Real.Gamma y))) (fun y => Real.log (Real.Gamma y))) 2 (demo_batch : lda ℝ) = some l' ∧
      (demo_batch : lda ℝ).spec_eta (kernels_of Real.exp Real.log (fun x p => x ^ p)
      (deriv (fun y => Real.log (Real.Gamma y))) (fun y => Real.log (Real.Gamma y))) = 1 / 4 ∧
      l'.decay_levels.last = Real.log (1 / 2) ∧
      l'.decay_levels.last ≠ (demo_batch : lda ℝ).decay_levels.last
        + Real.log (1 - (demo_batch : lda ℝ).spec_eta (kernels_of Real.exp Real.log (fun x p => x ^ p)
      (deriv (fun y => Real.log (Real.Gamma y))) (fun y => Real.log (Real.Gamma y)))) := by
  obtain ⟨l', hl'⟩ := demo_batch_returns
  obtain ⟨_, _, _, hdl, _⟩ := learn_batch_result _ 2 demo_batch l'
    (by rw [demo_batch_sorted]; simp) demo_batch_config demo_batch_mask hl'
  have hspec : (demo_batch : lda ℝ).spec_eta (kernels_of Real.exp Real.log (fun x p => x ^ p)
      (deriv (fun y => Real.log (Real.Gamma y))) (fun y => Real.log (Real.Gamma y))) = 1 / 4 := by
    show min 1 ((1 / 2 : ℝ) * ((0 + 1 : ℝ) ^ (-(0 : ℝ)))) * 1 / ((2 : ℕ) : ℝ) = 1 / 4
    norm_num
  have hlast : l'.decay_levels.last = Real.log (1 / 2) := by
    rw [hdl, push_back_last]
    show (0 : ℝ) + Real.log (1 - 1 / 2 * ((0 + 1 : ℝ) ^ (-(0 : ℝ)))) = Real.log (1 / 2)
    norm_num
  refine ⟨l', hl', hspec, hlast, ?_⟩
  rw [hlast, hspec]
  have h0 : (demo_batch : lda ℝ).decay_levels.last = 0 := rfl
  rw [h0, zero_add]
  intro h
  have := Real.log_injOn_pos (by norm_num : (1 / 2 : ℝ) ∈ Set.Ioi 0)
    (by norm_num : (1 - 1 / 4 : ℝ) ∈ Set.Ioi 0) h
  norm_num at this

end claims_second_pass

end LDA

namespace LDA

section traces

variable {α : Type} [LinearOrderedField α] [FloorRing α] [float_cast α]

theorem learn_push_fold (num_ex : Nat) :
    ∀ (fs : List (feature α)) (l1 : lda α),
      (fs.foldl (fun (l2 : lda α) f =>
          { l2 with
            sorted_features := l2.sorted_features ++ [⟨num_ex, f⟩],
            doc_lengths := l2.doc_lengths.set num_ex (int_add (l2.doc_lengths.data num_ex) (float_to_int f.x)) })
        l1).examples = l1.examples ∧
      (fs.foldl (fun (l2 : lda α) f =>
          { l2 with
            sorted_features := l2.sorted_features ++ [⟨num_ex, f⟩],
            doc_lengths := l2.doc_lengths.set num_ex (int_add (l2.doc_lengths.data num_ex) (float_to_int f.x)) })
        l1).sorted_features = l1.sorted_features ++ fs.map (fun f => ⟨num_ex, f⟩) ∧
      l1.same_but_pending (fs.foldl (fun (l2 : lda α) f =>
          { l2 with
            sorted_features := l2.sorted_features ++ [⟨num_ex, f⟩],
            doc_lengths := l2.doc_lengths.set num_ex (int_add (l2.doc_lengths.data num_ex) (float_to_int f.x)) })
        l1) := by
  intro fs
  induction fs with
  | nil =>
    intro l1
    refine ⟨rfl, by simp, ?_⟩
    unfold lda.same_but_pending
    simp
  | cons f rest ih =>
    intro l1
    rw [List.foldl_cons]
    obtain ⟨h1, h2, h3⟩ := ih
      { l1 with
        sorted_features := l1.sorted_features ++ [⟨num_ex, f⟩],
        doc_lengths := l1.doc_lengths.set num_ex (int_add (l1.doc_lengths.data num_ex) (float_to_int f.x)) }
    refine ⟨h1, ?_, h3⟩
    rw [h2]
    simp

/-- What `learn` does before it may call `learn_batch`: the example and its features
are appended; nothing but the three pending buffers changes. -/
theorem learn_push_fields (l : lda α) (ec : Example α) :
    (learn_push l ec).examples = l.examples ++ [ec] ∧
    (learn_push l ec).sorted_features
      = l.sorted_features ++ ec.features.map (fun f => ⟨l.examples.length, f⟩) ∧
    l.same_but_pending (learn_push l ec) := by
  unfold learn_push
  exact learn_push_fold l.examples.length ec.features _

/-- The bookkeeping of a returning `learn_batch` on a non-empty minibatch; no
assumption on the hashes. -/
theorem learn_batch_bookkeeping (m : math_kernels α) (fuel : Nat) (l l' : lda α)
    (hne : l.sorted_features ≠ []) (h : learn_batch m fuel l = some l') :
    l'.decay_levels = l.decay_levels.push_back (l.decay_levels.last + m.log (l.mu m)) ∧
    l'.example_t = l.example_t + 1 := by
  obtain ⟨l3, hdocs, hl'⟩ := learn_batch_nonempty m fuel l l' hne h
  obtain ⟨v, E, sl, sd, ret, hl3⟩ := learn_batch_docs_frame m fuel _ _ _ _ _ hdocs
  constructor <;> (rw [hl', hl3]; rfl)

/-- The early return of `learn_batch` on an empty minibatch. -/
theorem learn_batch_of_empty (m : math_kernels α) (fuel : Nat) (l l' : lda α)
    (he : l.sorted_features = []) (h : learn_batch m fuel l = some l') :
    l' = { l with all := { l.all with returned := l.all.returned ++ l.examples }, examples := [] } := by
  unfold learn_batch at h
  rw [he] at h
  simp only [List.isEmpty_nil, if_true, Option.some.injEq] at h
  rw [← h, return_all_frame, he]

end traces

end LDA

namespace LDA

section claim_pending

variable {α : Type} [LinearOrderedField α] [FloorRing α] [float_cast α]

/-- A property of the learner that every returning call keeps holds after every
returning sequence of calls. -/
theorem run_calls_invariant (m : math_kernels α) (fuel : Nat) (P : lda α → Prop)
    (hstep : ∀ l c l', P l → lda_call.run m fuel l c = some l' → P l') :
    ∀ (calls : List (lda_call α)) (l l' : lda α), P l → run_calls m fuel l calls = some l' → P l' := by
  intro calls
  induction calls with
  | nil =>
    intro l l' hp h
    simp only [run_calls, Option.some.injEq] at h
    rw [← h]; exact hp
  | cons c cs ih =>
    intro l l' hp h
    rw [run_calls] at h
    cases hc : lda_call.run m fuel l c with
    | none => rw [hc] at h; simp at h
    | some l1 =>
      rw [hc] at h
      exact ih l1 l' (hstep l c l1 hp hc) h

/-- The bounds kept by `learn` and `end_pass`: fewer than `minibatch` pending examples,
and every pending feature belongs to a pending example. -/
theorem pending_step (m : math_kernels α) (fuel : Nat) (M K : Nat) (l : lda α) (c : lda_call α)
    (l' : lda α)
    (hp : l.minibatch = M ∧ l.all.lda = K ∧ l.v_end_array = K * M ∧ l.examples.length < M ∧
      ∀ s ∈ l.sorted_features, s.document < l.examples.length)
    (h : lda_call.run m fuel l c = some l') :
    l'.minibatch = M ∧ l'.all.lda = K ∧ l'.v_end_array = K * M ∧ l'.examples.length < M ∧
      ∀ s ∈ l'.sorted_features, s.document < l'.examples.length := by
  obtain ⟨h1, h2, h3, h4, h5⟩ := hp
  have hbatch : ∀ b b' : lda α, b.minibatch = M → b.all.lda = K → b.v_end_array = K * M →
      learn_batch m fuel b = some b' →
      b'.minibatch = M ∧ b'.all.lda = K ∧ b'.v_end_array = K * M ∧ b'.examples.length < M ∧
        ∀ s ∈ b'.sorted_features, s.document < b'.examples.length := by
    intro b b' b1 b2 b3 hb
    obtain ⟨e1, _, _, _, _, _, _, _, _, _, _, _, _, e14, e15, e16, e17⟩ :=
      learn_batch_frame m fuel b b' hb
    refine ⟨by rw [e14, b1], by rw [e1, b2], by rw [e15, b3], ?_, ?_⟩
    · rw [e16]; simp only [List.length_nil]; omega
    · rw [e17]; intro s hs; simp at hs
  cases c with
  | learn ec =>
    obtain ⟨p1, p2, p3⟩ := learn_push_fields l ec
    obtain ⟨q1, _, _, q4, q5, _⟩ := p3
    have hlen : (learn_push l ec).examples.length = l.examples.length + 1 := by
      rw [p1]; simp
    have hrun : learn m fuel l ec = some l' := h
    unfold learn at hrun
    simp only [] at hrun
    split_ifs at hrun with hfull
    · exact hbatch _ _ (by rw [q4, h1]) (by rw [q1, h2]) (by rw [q5, h3]) hrun
    · simp only [Option.some.injEq] at hrun
      subst hrun
      refine ⟨by rw [q4, h1], by rw [q1, h2], by rw [q5, h3], ?_, ?_⟩
      · rw [hlen]; omega
      · intro s hs
        rw [p2] at hs
        rw [hlen]
        rcases List.mem_append.mp hs with hs1 | hs1
        · have := h5 s hs1; omega
        · obtain ⟨f, _, hf⟩ := List.mem_map.mp hs1
          rw [← hf]; exact Nat.lt_succ_self _
  | end_pass =>
    have hrun : end_pass m fuel l = some l' := h
    unfold end_pass at hrun
    split_ifs at hrun with hsome
    · exact hbatch _ _ h1 h2 h3 hrun
    · simp only [Option.some.injEq] at hrun
      subst hrun
      exact ⟨h1, h2, h3, h4, h5⟩

/-- C10: from the start of the learner with `minibatch >= 1`, after every returning
sequence of `learn` (accept) and `end_pass` calls fewer than `minibatch` examples are
pending; `learn` runs `learn_batch` exactly when the number of pending examples,
counting the one just pushed, equals `minibatch`; every batch handed to `learn_batch`
(by `learn` or by `end_pass`) has at most `minibatch` documents; and every index
`d*K + k` used into `v`, by the loop over the documents or through the `document` of
a pending feature, is below the `K*minibatch` cells `lda_setup` gives to `v`. -/
theorem pending_below_minibatch (m : math_kernels α) (fuel : Nat) (frand48 : Nat → α)
    (all : vw α) (vm : lda_options α) (hmb : 1 ≤ vm.minibatch)
    (calls : List (lda_call α)) (l : lda α)
    (hrun : run_calls m fuel (lda_start m frand48 all vm) calls = some l) :
    l.minibatch = vm.minibatch ∧ l.all.lda = vm.lda ∧
    l.v_end_array = vm.lda * vm.minibatch ∧
    l.examples.length < l.minibatch ∧
    (∀ ec, learn m fuel l ec
      = if (learn_push l ec).examples.length = l.minibatch then learn_batch m fuel (learn_push l ec)
        else some (learn_push l ec)) ∧
    (∀ ec, (learn_push l ec).examples.length ≤ l.minibatch ∧
      (∀ d k, d < (learn_push l ec).examples.length → k < l.all.lda →
        d * l.all.lda + k < l.v_end_array) ∧
      (∀ s ∈ (learn_push l ec).sorted_features, ∀ k, k < l.all.lda →
        s.document * l.all.lda + k < l.v_end_array)) ∧
    (∀ d k, d < l.examples.length → k < l.all.lda → d * l.all.lda + k < l.v_end_array) ∧
    (∀ s ∈ l.sorted_features, ∀ k, k < l.all.lda →
      s.document * l.all.lda + k < l.v_end_array) := by
  have hstart : (lda_start m frand48 all vm).minibatch = vm.minibatch ∧
      (lda_start m frand48 all vm).all.lda = vm.lda ∧
      (lda_start m frand48 all vm).v_end_array = vm.lda * vm.minibatch ∧
      (lda_start m frand48 all vm).examples.length < vm.minibatch ∧
      ∀ s ∈ (lda_start m frand48 all vm).sorted_features,
        s.document < (lda_start m frand48 all vm).examples.length := by
    refine ⟨rfl, ?_, rfl, hmb, ?_⟩
    · unfold lda_start save_load_read lda_setup
      simp only []
      split_ifs <;> rfl
    · intro s hs
      exact absurd hs (List.not_mem_nil s)
  obtain ⟨h1, h2, h3, h4, h5⟩ := run_calls_invariant m fuel
    (fun l => l.minibatch = vm.minibatch ∧ l.all.lda = vm.lda ∧
      l.v_end_array = vm.lda * vm.minibatch ∧ l.examples.length < vm.minibatch ∧
      ∀ s ∈ l.sorted_features, s.document < l.examples.length)
    (fun l c l' hp h => pending_step m fuel vm.minibatch vm.lda l c l' hp h)
    calls _ l hstart hrun
  have hidx : ∀ d k n, d < n → n ≤ vm.minibatch → k < vm.lda →
      d * vm.lda + k < vm.lda * vm.minibatch := by
    intro d k n hd hn hk
    have h1 : (d + 1) * vm.lda ≤ vm.minibatch * vm.lda := Nat.mul_le_mul_right _ (by omega)
    rw [Nat.add_mul, one_mul] at h1
    rw [Nat.mul_comm vm.lda]
    omega
  refine ⟨h1, h2, h3, by rw [h1]; exact h4, fun ec => ?_, fun ec => ?_, ?_, ?_⟩
  · obtain ⟨p1, _, _⟩ := learn_push_fields l ec
    unfold learn
    simp only []
    rw [p1]
    simp
  · obtain ⟨p1, p2, p3⟩ := learn_push_fields l ec
    have hlen : (learn_push l ec).examples.length = l.examples.length + 1 := by
      rw [p1]; simp
    refine ⟨by rw [hlen, h1]; omega, ?_, ?_⟩
    · intro d k hd hk
      rw [h2] at hk ⊢
      rw [h3]
      exact hidx d k _ hd (by rw [hlen]; omega) hk
    · intro s hs k hk
      rw [h2] at hk ⊢
      rw [h3]
      apply hidx s.document k (l.examples.length + 1) _ (by omega) hk
      rw [p2] at hs
      rcases List.mem_append.mp hs with hs1 | hs1
      · have := h5 s hs1; omega
      · obtain ⟨f, _, hf⟩ := List.mem_map.mp hs1
        rw [← hf]; exact Nat.lt_succ_self _
  · intro d k hd hk
    rw [h2] at hk ⊢
    rw [h3]
    exact hidx d k _ hd (by omega) hk
  · intro s hs k hk
    rw [h2] at hk ⊢
    rw [h3]
    exact hidx s.document k _ (h5 s hs) (by omega) hk

theorem pending_below_minibatch_witness :
    (1 : Nat) ≤ 2 ∧
    ∃ l, run_calls (kernels_of Real.exp Real.log (fun x p => x ^ p)
      (deriv (fun y => Real.log (Real.Gamma y))) (fun y => Real.log (Real.Gamma y))) 0
        (lda_start (kernels_of Real.exp Real.log (fun x p => x ^ p)
      (deriv (fun y => Real.log (Real.Gamma y))) (fun y => Real.log (Real.Gamma y))) (fun _ => 1) (demo_all : vw ℝ)
          ⟨1, 0.1, 0.1, 1, 0.001, 2, lda_math_mode.USE_PRECISE⟩)
        [lda_call.learn ⟨[], []⟩, lda_call.end_pass, lda_call.learn ⟨[], []⟩] = some l ∧
      l.examples.length < l.minibatch ∧ l.v_end_array = 1 * 2 := by
  have hrun : ∃ l, run_calls (kernels_of Real.exp Real.log (fun x p => x ^ p)
      (deriv (fun y => Real.log (Real.Gamma y))) (fun y => Real.log (Real.Gamma y))) 0
        (lda_start (kernels_of Real.exp Real.log (fun x p => x ^ p)
      (deriv (fun y => Real.log (Real.Gamma y))) (fun y => Real.log (Real.Gamma y))) (fun _ => 1) (demo_all : vw ℝ)
          ⟨1, 0.1, 0.1, 1, 0.001, 2, lda_math_mode.USE_PRECISE⟩)
        [lda_call.learn ⟨[], []⟩, lda_call.end_pass, lda_call.learn ⟨[], []⟩] = some l :=
    ⟨_, rfl⟩
  obtain ⟨l, hl⟩ := hrun
  have h := pending_below_minibatch (kernels_of Real.exp Real.log (fun x p => x ^ p)
      (deriv (fun y => Real.log (Real.Gamma y))) (fun y => Real.log (Real.Gamma y))) 0 (fun _ => 1) (demo_all : vw ℝ)
    ⟨1, 0.1, 0.1, 1, 0.001, 2, lda_math_mode.USE_PRECISE⟩ (by decide) _ l hl
  exact ⟨by decide, l, hl, h.2.2.2.1, h.2.2.1⟩

end claim_pending

end LDA

namespace LDA

section start

variable {α : Type} [LinearOrderedField α] [FloorRing α] [float_cast α]

/-- The fields of the learner at its start. -/
theorem lda_start_fields (m : math_kernels α) (frand48 : Nat → α) (all : vw α)
    (vm : lda_options α) :
    (lda_start m frand48 all vm).all.lda = vm.lda ∧
    (lda_start m frand48 all vm).topics = vm.lda ∧
    (lda_start m frand48 all vm).all.stride_shift
      = Int.toNat (lda_setup_temp m (vm.lda * 2 + 1)) ∧
    (lda_start m frand48 all vm).all.num_bits = all.num_bits ∧
    (lda_start m frand48 all vm).all.weight_mask = all.weight_mask ∧
    (lda_start m frand48 all vm).all.power_t = all.power_t ∧
    (lda_start m frand48 all vm).all.initial_t = all.initial_t ∧
    (lda_start m frand48 all vm).all.eta = (if all.eta > 1 then min all.eta 1 else all.eta) ∧
    (lda_start m frand48 all vm).all.random_weights = true ∧
    (lda_start m frand48 all vm).mmode = vm.math_mode ∧
    (lda_start m frand48 all vm).minibatch = vm.minibatch ∧
    (lda_start m frand48 all vm).decay_levels = (v_array.init).push_back 0 ∧
    (lda_start m frand48 all vm).example_t = all.initial_t ∧
    (lda_start m frand48 all vm).examples = [] ∧
    (lda_start m frand48 all vm).sorted_features = [] ∧
    (lda_start m frand48 all vm).total_lambda = v_array.init ∧
    (lda_start m frand48 all vm).lda_D = vm.lda_D ∧
    (lda_start m frand48 all vm).lda_rho = vm.lda_rho ∧
    (lda_start m frand48 all vm).lda_alpha = vm.lda_alpha ∧
    (lda_start m frand48 all vm).lda_epsilon = vm.lda_epsilon := by
  unfold lda_start save_load_read lda_setup
  by_cases h : all.eta > 1
  · simp [h]
  · simp [h]

/-- The exact ceiling of the binary logarithm, as the expression
`ceil(log(2K+1) / log 2)` over the reals. -/
theorem clog_eq_ceil_log (K : Nat) :
    (Nat.clog 2 (K * 2 + 1) : Int) = ⌈Real.log ((K * 2 + 1 : Nat) : ℝ) / Real.log 2⌉ := by
  have h := Real.ceil_logb_natCast (b := 2) (r := ((K * 2 + 1 : Nat) : ℝ))
    (Nat.cast_nonneg _)
  rw [Int.clog_natCast] at h
  rw [← h]
  unfold Real.logb
  norm_num

/-- In exact arithmetic, with the real logarithm, the value of line 911 is the exact
ceiling of the binary logarithm. -/
theorem lda_setup_temp_real (m : math_kernels ℝ) (hlog : m.log = Real.log) (K : Nat) :
    Int.toNat (lda_setup_temp m (K * 2 + 1)) = Nat.clog 2 (K * 2 + 1) := by
  unfold lda_setup_temp
  rw [hlog]
  simp only [to_float_real]
  rw [← clog_eq_ceil_log K]
  rfl

/-- The layout at the start, given the mask computed by the regressor for the
stride that `lda_setup` chooses, when line 911 gives the exact ceiling of the binary
logarithm. -/
theorem lda_start_config (m : math_kernels α) (frand48 : Nat → α) (all : vw α)
    (vm : lda_options α)
    (hshift : Int.toNat (lda_setup_temp m (vm.lda * 2 + 1)) = Nat.clog 2 (vm.lda * 2 + 1))
    (hmask : all.weight_mask = ((1 <<< all.num_bits) <<< Nat.clog 2 (vm.lda * 2 + 1)) - 1) :
    (lda_start m frand48 all vm).config_ok := by
  obtain ⟨h1, h2, h3, h4, h5, _⟩ := lda_start_fields m frand48 all vm
  rw [hshift] at h3
  refine ⟨by rw [h1, h2], ?_, ?_⟩
  · unfold lda.stride
    rw [h1, h3, Nat.shiftLeft_eq, one_mul]
    have := Nat.le_pow_clog (by norm_num : 1 < 2) (vm.lda * 2 + 1)
    omega
  · unfold vw.length
    rw [h5, h4, h3, hmask]

/-- The inner loop of `save_load` on one row. -/
theorem save_load_row (rw_ : Bool) (j K : Nat) (x : Nat → α) (c : α) (W : Nat → α) (i : Nat) :
    for_loop K (fun k a =>
      if rw_ then
        let a1 := store a (j + k) (x k)
        store a1 (j + k) (a1 (j + k) * c)
      else a) W i
    = if j ≤ i ∧ i < j + K then (if rw_ then x (i - j) * c else W i) else W i := by
  cases rw_ with
  | false =>
    simp only [Bool.false_eq_true, if_false]
    rw [for_loop_id]
    split_ifs <;> rfl
  | true =>
    simp only [if_true, store_same]
    have hbody : (fun (k : Nat) (a : Nat → α) => store (store a (j + k) (x k)) (j + k) (x k * c))
        = (fun k a => store a (j + k) (x k * c)) := by
      funext k a t
      simp only [store_apply]
      split_ifs <;> rfl
    rw [hbody, for_loop_store_from]

/-- The table after the reading part of `save_load`: every `t_last` slot holds
`initial_t`, every `lambda` slot its random start. -/
theorem save_load_read_cells (m : math_kernels α) (frand48 : Nat → α) (l : lda α)
    (hs : l.all.lda + 1 ≤ l.stride) (hr : l.all.random_weights = true)
    (w : Nat) (hw : w < l.all.length) :
    (save_load_read m frand48 l).all.weight_vector (l.row w + l.all.lda) = l.all.initial_t ∧
    ∀ k, k < l.all.lda → (save_load_read m frand48 l).all.weight_vector (l.row w + k)
      = (-m.log (frand48 (w * l.all.lda + k)) + 1)
          * (l.lda_D / (l.all.lda : α) / (l.all.length : α) * 200) := by
  have key : ∀ n, ∀ w, w < n →
      (for_loop n (fun row (W : Nat → α) =>
        let j := row * (1 <<< l.all.stride_shift)
        let w1 := for_loop l.all.lda (fun k a =>
          if l.all.random_weights then
            let a1 := store a (j + k) (-m.log (frand48 (row * l.all.lda + k)) + 1)
            store a1 (j + k) (a1 (j + k) * (l.lda_D / (l.all.lda : α) / (l.all.length : α) * 200))
          else a) W
        store w1 (j + l.all.lda) l.all.initial_t) (fun _ => 0)) (l.row w + l.all.lda)
        = l.all.initial_t ∧
      ∀ k, k < l.all.lda →
        (for_loop n (fun row (W : Nat → α) =>
          let j := row * (1 <<< l.all.stride_shift)
          let w1 := for_loop l.all.lda (fun k a =>
            if l.all.random_weights then
              let a1 := store a (j + k) (-m.log (frand48 (row * l.all.lda + k)) + 1)
              store a1 (j + k) (a1 (j + k) * (l.lda_D / (l.all.lda : α) / (l.all.length : α) * 200))
            else a) W
          store w1 (j + l.all.lda) l.all.initial_t) (fun _ => 0)) (l.row w + k)
        = (-m.log (frand48 (w * l.all.lda + k)) + 1)
            * (l.lda_D / (l.all.lda : α) / (l.all.length : α) * 200) := by
    intro n
    induction n with
    | zero => intro w hw; omega
    | succ n ih =>
      intro w hw
      rw [for_loop_succ]
      generalize for_loop n (fun row (W : Nat → α) =>
          let j := row * (1 <<< l.all.stride_shift)
          let w1 := for_loop l.all.lda (fun k a =>
            if l.all.random_weights then
              let a1 := store a (j + k) (-m.log (frand48 (row * l.all.lda + k)) + 1)
              store a1 (j + k) (a1 (j + k) * (l.lda_D / (l.all.lda : α) / (l.all.length : α) * 200))
            else a) W
          store w1 (j + l.all.lda) l.all.initial_t) (fun _ => 0) = mid at ih
      have hstride : n * (1 <<< l.all.stride_shift) = l.row n := (row_eq l n).symm
      simp only []
      rw [hstride]
      by_cases hwn : w = n
      · subst hwn
        refine ⟨store_same _ _ _, fun k hk => ?_⟩
        rw [store_ne _ _ (by omega), save_load_row, if_pos (by omega)]
        have : l.row w + k - l.row w = k := by omega
        rw [this, hr]
        simp
      · have hlt : w < n := by omega
        obtain ⟨ih1, ih2⟩ := ih w hlt
        have hap := row_apart l w n hwn
        have hsp := stride_pos l
        have hrow : l.row w + l.stride ≤ l.row n := by
          rcases hap with h | h
          · exact h
          · rw [row_eq, row_eq] at h
            have : w * l.stride ≤ n * l.stride := Nat.mul_le_mul_right _ (by omega)
            rw [row_eq, row_eq]
            omega
        refine ⟨?_, fun k hk => ?_⟩
        · rw [store_ne _ _ (by omega), save_load_row, if_neg (by omega)]
          exact ih1
        · rw [store_ne _ _ (by omega), save_load_row, if_neg (by omega)]
          exact ih2 k hk
  unfold save_load_read
  exact key l.all.length w hw

end start

end LDA

namespace LDA

section progress

variable {α : Type} [LinearOrderedField α] [FloorRing α] [float_cast α]

theorem within_mask_congr (l l' : lda α) (h1 : l'.all.num_bits = l.all.num_bits)
    (h2 : l'.all.stride_shift = l.all.stride_shift) (x : Nat) :
    l'.within_mask x ↔ l.within_mask x := by
  unfold lda.within_mask lda.row vw.length
  rw [h1, h2]

theorem config_ok_congr (l l' : lda α) (h : l'.all = l.all) (ht : l'.topics = l.topics)
    (hc : l.config_ok) : l'.config_ok := by
  unfold lda.config_ok lda.stride at hc ⊢
  rw [h, ht]
  exact hc

/-- The state of a single-topic learner from which every call returns within two
rounds per document. -/
theorem single_step (m : math_kernels α) (l : lda α) (c : lda_call α)
    (hc : l.config_ok) (hK : l.all.lda = 1)
    (hmode : l.mmode ≠ lda_math_mode.USE_SIMD ∨ m.have_simd = false)
    (heps : 0 ≤ l.lda_epsilon)
    (hmask : ∀ s ∈ l.sorted_features, l.within_mask s.f.weight_index)
    (hdocs : ∀ ec ∈ l.examples, ∀ f ∈ ec.features,
      ∃ s ∈ l.sorted_features, s.f.weight_index = f.weight_index)
    (hcall : c.within_mask l) :
    ∃ l', c.run m 2 l = some l' ∧ l'.config_ok ∧ l'.all.lda = 1 ∧
      (l'.mmode ≠ lda_math_mode.USE_SIMD ∨ m.have_simd = false) ∧ 0 ≤ l'.lda_epsilon ∧
      (∀ s ∈ l'.sorted_features, l'.within_mask s.f.weight_index) ∧
      (∀ ec ∈ l'.examples, ∀ f ∈ ec.features,
        ∃ s ∈ l'.sorted_features, s.f.weight_index = f.weight_index) ∧
      l'.all.num_bits = l.all.num_bits ∧ l'.all.stride_shift = l.all.stride_shift := by
  have hbatch : ∀ b : lda α, b.config_ok → b.all.lda = 1 →
      (b.mmode ≠ lda_math_mode.USE_SIMD ∨ m.have_simd = false) → 0 ≤ b.lda_epsilon →
      (∀ s ∈ b.sorted_features, b.within_mask s.f.weight_index) →
      (∀ ec ∈ b.examples, ∀ f ∈ ec.features,
        ∃ s ∈ b.sorted_features, s.f.weight_index = f.weight_index) →
      ∃ l', learn_batch m 2 b = some l' ∧ l'.config_ok ∧ l'.all.lda = 1 ∧
        (l'.mmode ≠ lda_math_mode.USE_SIMD ∨ m.have_simd = false) ∧ 0 ≤ l'.lda_epsilon ∧
        (∀ s ∈ l'.sorted_features, l'.within_mask s.f.weight_index) ∧
        (∀ ec ∈ l'.examples, ∀ f ∈ ec.features,
          ∃ s ∈ l'.sorted_features, s.f.weight_index = f.weight_index) ∧
        l'.all.num_bits = b.all.num_bits ∧ l'.all.stride_shift = b.all.stride_shift := by
    intro b b1 b2 b3 b4 b5 b6
    obtain ⟨l', hl'⟩ := learn_batch_single_returns m b b1 b2 b3 b4 b5 b6
    obtain ⟨e1, e2, e3, e4, e5, e6, _, _, _, _, _, _, e13, _, _, e16, e17⟩ :=
      learn_batch_frame m 2 b l' hl'
    refine ⟨l', hl', learn_batch_config_ok m 2 b l' hl' b1, by rw [e1, b2], by rw [e6]; exact b3,
      by rw [e13]; exact b4, ?_, ?_, e4, e3⟩
    · rw [e17]; intro s hs; exact absurd hs (List.not_mem_nil s)
    · rw [e16]; intro ec hec; exact absurd hec (List.not_mem_nil ec)
  cases c with
  | learn ec =>
    obtain ⟨p1, p2, p3⟩ := learn_push_fields l ec
    obtain ⟨q1, q2, q3, _, _, _, _, _, _, _, _, q12, _⟩ := p3
    have hwm : ∀ x, (learn_push l ec).within_mask x ↔ l.within_mask x :=
      fun x => within_mask_congr l _ (by rw [q1]) (by rw [q1]) x
    have c1 : (learn_push l ec).config_ok := config_ok_congr l _ q1 q2 hc
    have c2 : (learn_push l ec).all.lda = 1 := by rw [q1]; exact hK
    have c3 : (learn_push l ec).mmode ≠ lda_math_mode.USE_SIMD ∨ m.have_simd = false := by
      rw [q3]; exact hmode
    have c4 : 0 ≤ (learn_push l ec).lda_epsilon := by rw [q12]; exact heps
    have c5 : ∀ s ∈ (learn_push l ec).sorted_features,
        (learn_push l ec).within_mask s.f.weight_index := by
      intro s hs
      rw [hwm]
      rw [p2] at hs
      rcases List.mem_append.mp hs with hs1 | hs1
      · exact hmask s hs1
      · obtain ⟨f, hf, hfs⟩ := List.mem_map.mp hs1
        rw [← hfs]
        exact hcall f hf
    have c6 : ∀ e ∈ (learn_push l ec).examples, ∀ f ∈ e.features,
        ∃ s ∈ (learn_push l ec).sorted_features, s.f.weight_index = f.weight_index := by
      intro e he f hf
      rw [p1] at he
      rw [p2]
      rcases List.mem_append.mp he with he1 | he1
      · obtain ⟨s, hs, hsf⟩ := hdocs e he1 f hf
        exact ⟨s, List.mem_append_left _ hs, hsf⟩
      · rw [List.mem_singleton] at he1
        subst he1
        exact ⟨⟨l.examples.length, f⟩, List.mem_append_right _ (List.mem_map.mpr ⟨f, hf, rfl⟩), rfl⟩
    show ∃ l', learn m 2 l ec = some l' ∧ _
    unfold learn
    simp only []
    split_ifs with hfull
    · obtain ⟨l', r0, r1, r2, r3, r4, r5, r6, r7, r8⟩ := hbatch _ c1 c2 c3 c4 c5 c6
      exact ⟨l', r0, r1, r2, r3, r4, r5, r6, by rw [r7, q1], by rw [r8, q1]⟩
    · exact ⟨_, rfl, c1, c2, c3, c4, c5, c6, by rw [q1], by rw [q1]⟩
  | end_pass =>
    show ∃ l', end_pass m 2 l = some l' ∧ _
    unfold end_pass
    split_ifs with hsome
    · exact hbatch l hc hK hmode heps hmask hdocs
    · exact ⟨l, rfl, hc, hK, hmode, heps, hmask, hdocs, rfl, rfl⟩

/-- A single-topic learner returns from every sequence of calls whose hashes are
within the mask, with two rounds per document. -/
theorem run_calls_single_returns (m : math_kernels α) :
    ∀ (calls : List (lda_call α)) (l : lda α), l.config_ok → l.all.lda = 1 →
      (l.mmode ≠ lda_math_mode.USE_SIMD ∨ m.have_simd = false) → 0 ≤ l.lda_epsilon →
      (∀ s ∈ l.sorted_features, l.within_mask s.f.weight_index) →
      (∀ ec ∈ l.examples, ∀ f ∈ ec.features,
        ∃ s ∈ l.sorted_features, s.f.weight_index = f.weight_index) →
      (∀ c ∈ calls, c.within_mask l) →
      ∃ l', run_calls m 2 l calls = some l' := by
  intro calls
  induction calls with
  | nil => intro l _ _ _ _ _ _ _; exact ⟨l, rfl⟩
  | cons c cs ih =>
    intro l hc hK hmode heps hmask hdocs hcalls
    obtain ⟨l1, r0, r1, r2, r3, r4, r5, r6, r7, r8⟩ :=
      single_step m l c hc hK hmode heps hmask hdocs (hcalls c (List.mem_cons_self _ _))
    have hcs : ∀ c' ∈ cs, c'.within_mask l1 := by
      intro c' hc'
      have := hcalls c' (List.mem_cons_of_mem _ hc')
      cases c' with
      | learn ec => exact fun f hf => (within_mask_congr l l1 r7 r8 _).mpr (this f hf)
      | end_pass => trivial
    obtain ⟨l', hl'⟩ := ih l1 r1 r2 r3 r4 r5 r6 hcs
    refine ⟨l', ?_⟩
    rw [run_calls, r0]
    exact hl'

/-- The start of the small learner returns from every sequence of calls on the
document `demo_doc`, whatever the size of the minibatch. -/
theorem demo_start_returns (mb : Nat) (calls : List (lda_call ℝ))
    (hcalls : ∀ c ∈ calls, c = lda_call.learn demo_doc ∨ c = lda_call.end_pass) :
    ∃ l, run_calls (kernels_of Real.exp Real.log (fun x p => x ^ p)
      (deriv (fun y => Real.log (Real.Gamma y))) (fun y => Real.log (Real.Gamma y))) 2
      (lda_start (kernels_of Real.exp Real.log (fun x p => x ^ p)
      (deriv (fun y => Real.log (Real.Gamma y))) (fun y => Real.log (Real.Gamma y))) (fun _ => 1) (demo_all : vw ℝ)
        ⟨1, 0.1, 0.1, 1, 0.001, mb, lda_math_mode.USE_PRECISE⟩) calls = some l := by
  obtain ⟨s1, _, s3, s4, _, _, _, _, _, s10, _, _, _, s14, s15, _, _, _, _, s20⟩ :=
    lda_start_fields (kernels_of Real.exp Real.log (fun x p => x ^ p)
      (deriv (fun y => Real.log (Real.Gamma y))) (fun y => Real.log (Real.Gamma y))) (fun _ => 1) (demo_all : vw ℝ)
      ⟨1, 0.1, 0.1, 1, 0.001, mb, lda_math_mode.USE_PRECISE⟩
  apply run_calls_single_returns
  · apply lda_start_config
    · exact lda_setup_temp_real _ rfl 1
    · show 7 = ((1 <<< 1) <<< Nat.clog 2 (1 * 2 + 1)) - 1
      simp [Nat.clog]
  · exact s1
  · left; rw [s10]; intro hh; cases hh
  · rw [s20]; norm_num
  · rw [s15]; intro s hs; exact absurd hs (List.not_mem_nil s)
  · rw [s14]; intro ec hec; exact absurd hec (List.not_mem_nil ec)
  · intro c hc
    rcases hcalls c hc with rfl | rfl
    · intro f hf
      simp only [demo_doc, List.mem_singleton] at hf
      subst hf
      refine ⟨0, ?_, ?_⟩
      · unfold vw.length; rw [s4]; decide
      · unfold lda.row; simp
    · trivial

end progress

end LDA

namespace LDA

section claim_history

variable {α : Type} [LinearOrderedField α] [FloorRing α] [float_cast α]

/-- One returning `learn_batch` keeps the decay history non-increasing. -/
theorem decay_batch_step (m : math_kernels α) (fuel : Nat) (e p : α) (mode : lda_math_mode)
    (hlog : ∀ x : α, 0 ≤ x → x ≤ 1 → m.log x ≤ 0)
    (hpow : ∀ x q : α, 1 ≤ x → q ≤ 0 →
      0 < ldamath.powf m mode x q ∧ ldamath.powf m mode x q ≤ 1)
    (he : 0 < e) (he1 : e ≤ 1) (hp : 0 ≤ p) (b b' : lda α)
    (hb : b.all.eta = e ∧ b.all.power_t = p ∧ b.mmode = mode ∧ 0 ≤ b.example_t ∧
      1 ≤ b.decay_levels.size ∧ b.decay_levels.data 0 = 0 ∧
      ∀ i, i + 1 < b.decay_levels.size → b.decay_levels.data (i + 1) ≤ b.decay_levels.data i)
    (h : learn_batch m fuel b = some b') :
    b'.all.eta = e ∧ b'.all.power_t = p ∧ b'.mmode = mode ∧ 0 ≤ b'.example_t ∧
      1 ≤ b'.decay_levels.size ∧ b'.decay_levels.data 0 = 0 ∧
      ∀ i, i + 1 < b'.decay_levels.size → b'.decay_levels.data (i + 1) ≤ b'.decay_levels.data i := by
  obtain ⟨h1, h2, h3, h4, h5, h6, h7⟩ := hb
  by_cases hne : b.sorted_features = []
  · have := learn_batch_of_empty m fuel b b' hne h
    subst this
    exact ⟨h1, h2, h3, h4, h5, h6, h7⟩
  · obtain ⟨_, _, _, _, _, e6, e7, e8, _⟩ := learn_batch_frame m fuel b b' h
    obtain ⟨d1, d2⟩ := learn_batch_bookkeeping m fuel b b' hne h
    have hmu : m.log (b.mu m) ≤ 0 := by
      have hx : (1 : α) ≤ b.example_t + 1 := by linarith
      have hq : -b.all.power_t ≤ 0 := by rw [h2]; linarith
      obtain ⟨p1, p2⟩ := hpow (b.example_t + 1) (-b.all.power_t) hx hq
      have hmu_eq : b.mu m = 1 - e * ldamath.powf m mode (b.example_t + 1) (-b.all.power_t) := by
        show 1 - b.all.eta * ldamath.powf m b.mmode (b.example_t + 1) (-b.all.power_t) = _
        rw [h1, h3]
      rw [hmu_eq]
      have q1 : 0 < e * ldamath.powf m mode (b.example_t + 1) (-b.all.power_t) := mul_pos he p1
      have q2 : e * ldamath.powf m mode (b.example_t + 1) (-b.all.power_t) ≤ 1 := by
        calc e * ldamath.powf m mode (b.example_t + 1) (-b.all.power_t) ≤ 1 * 1 :=
              mul_le_mul he1 p2 (le_of_lt p1) zero_le_one
          _ = 1 := one_mul 1
      exact hlog _ (by linarith) (by linarith)
    refine ⟨by rw [e7, h1], by rw [e8, h2], by rw [e6, h3], by rw [d2]; linarith, ?_, ?_, ?_⟩
    · rw [d1, push_back_size]; omega
    · rw [d1, push_back_data_lt _ _ _ (by omega)]; exact h6
    · intro i hi
      rw [d1, push_back_size] at hi
      rw [d1]
      by_cases hlast : i + 1 = b.decay_levels.size
      · rw [hlast, push_back_data_size, push_back_data_lt _ _ _ (by omega)]
        have : b.decay_levels.last = b.decay_levels.data i := by
          unfold v_array.last
          congr 1
          omega
        rw [this]
        linarith
      · rw [push_back_data_lt _ _ _ (by omega), push_back_data_lt _ _ _ (by omega)]
        exact h7 i (by omega)

/-- The decay history along a returning sequence of calls from the start. -/
theorem decay_run (m : math_kernels α) (fuel : Nat) (frand48 : Nat → α)
    (all : vw α) (vm : lda_options α)
    (hlog : ∀ x : α, 0 ≤ x → x ≤ 1 → m.log x ≤ 0)
    (hpow : ∀ x q : α, 1 ≤ x → q ≤ 0 →
      0 < ldamath.powf m vm.math_mode x q ∧ ldamath.powf m vm.math_mode x q ≤ 1)
    (heta : 0 < all.eta) (hp : 0 ≤ all.power_t) (hi : 0 ≤ all.initial_t)
    (calls : List (lda_call α)) (l : lda α)
    (hrun : run_calls m fuel (lda_start m frand48 all vm) calls = some l) :
    (lda_start m frand48 all vm).decay_levels.size = 1 ∧
    (lda_start m frand48 all vm).decay_levels.data 0 = 0 ∧
    1 ≤ l.decay_levels.size ∧ l.decay_levels.data 0 = 0 ∧
    ∀ i, i + 1 < l.decay_levels.size → l.decay_levels.data (i + 1) ≤ l.decay_levels.data i := by
  obtain ⟨_, _, _, _, _, s6, s7, s8, _, s10, _, s12, s13, _⟩ := lda_start_fields m frand48 all vm
  have he : 0 < (lda_start m frand48 all vm).all.eta ∧ (lda_start m frand48 all vm).all.eta ≤ 1 := by
    rw [s8]
    split_ifs with hgt
    · rw [min_eq_right (le_of_lt hgt)]
      exact ⟨zero_lt_one, le_refl 1⟩
    · exact ⟨heta, not_lt.mp hgt⟩
  have hsz : (lda_start m frand48 all vm).decay_levels.size = 1 := by rw [s12]; rfl
  have hd0 : (lda_start m frand48 all vm).decay_levels.data 0 = 0 := by
    rw [s12]
    exact push_back_data_size _ _
  have hstart : (lda_start m frand48 all vm).all.eta = (lda_start m frand48 all vm).all.eta ∧
      (lda_start m frand48 all vm).all.power_t = all.power_t ∧
      (lda_start m frand48 all vm).mmode = vm.math_mode ∧
      0 ≤ (lda_start m frand48 all vm).example_t ∧
      1 ≤ (lda_start m frand48 all vm).decay_levels.size ∧
      (lda_start m frand48 all vm).decay_levels.data 0 = 0 ∧
      ∀ i, i + 1 < (lda_start m frand48 all vm).decay_levels.size →
        (lda_start m frand48 all vm).decay_levels.data (i + 1)
          ≤ (lda_start m frand48 all vm).decay_levels.data i := by
    refine ⟨rfl, s6, s10, by rw [s13]; exact hi, by rw [hsz], hd0, ?_⟩
    intro i hlt
    rw [hsz] at hlt
    omega
  have hfin := run_calls_invariant m fuel
    (fun l => l.all.eta = (lda_start m frand48 all vm).all.eta ∧ l.all.power_t = all.power_t ∧
      l.mmode = vm.math_mode ∧ 0 ≤ l.example_t ∧ 1 ≤ l.decay_levels.size ∧
      l.decay_levels.data 0 = 0 ∧
      ∀ i, i + 1 < l.decay_levels.size → l.decay_levels.data (i + 1) ≤ l.decay_levels.data i)
    (by
      intro l0 c l1 hp0 hc
      cases c with
      | learn ec =>
        obtain ⟨_, _, p3⟩ := learn_push_fields l0 ec
        obtain ⟨q1, _, q3, _, _, q6, q7, _⟩ := p3
        have hpush : (learn_push l0 ec).all.eta = (lda_start m frand48 all vm).all.eta ∧
            (learn_push l0 ec).all.power_t = all.power_t ∧
            (learn_push l0 ec).mmode = vm.math_mode ∧ 0 ≤ (learn_push l0 ec).example_t ∧
            1 ≤ (learn_push l0 ec).decay_levels.size ∧
            (learn_push l0 ec).decay_levels.data 0 = 0 ∧
            ∀ i, i + 1 < (learn_push l0 ec).decay_levels.size →
              (learn_push l0 ec).decay_levels.data (i + 1) ≤ (learn_push l0 ec).decay_levels.data i := by
          rw [q1, q3, q6, q7]
          exact hp0
        have hrun1 : learn m fuel l0 ec = some l1 := hc
        unfold learn at hrun1
        simp only [] at hrun1
        split_ifs at hrun1 with hfull
        · exact decay_batch_step m fuel _ _ _ hlog hpow he.1 he.2 hp _ _ hpush hrun1
        · simp only [Option.some.injEq] at hrun1
          rw [← hrun1]
          exact hpush
      | end_pass =>
        have hrun1 : end_pass m fuel l0 = some l1 := hc
        unfold end_pass at hrun1
        split_ifs at hrun1 with hsome
        · exact decay_batch_step m fuel _ _ _ hlog hpow he.1 he.2 hp _ _ hp0 hrun1
        · simp only [Option.some.injEq] at hrun1
          rw [← hrun1]
          exact hp0)
    calls _ l hstart hrun
  exact ⟨hsz, hd0, hfin.2.2.2.2.1, hfin.2.2.2.2.2.1, hfin.2.2.2.2.2.2⟩

/-- The decay history for kernels whose `powf` stays in `(0, 1]`: the learner starts
with `decay_levels = [0]`, and after every returning sequence of `learn` and `end_pass` calls, with a positive
learning rate (which `lda_setup` caps at 1), `power_t >= 0` and `initial_t >= 0`,
`decay_levels` still begins with `0` and every entry is less than or equal to its
predecessor.  The kernels are taken with `log x <= 0` on `[0, 1]` and with the
mode's `powf` in `(0, 1]` for a base `>= 1` and an exponent `<= 0`. -/
theorem decay_levels_non_increasing (m : math_kernels α) (fuel : Nat) (frand48 : Nat → α)
    (all : vw α) (vm : lda_options α)
    (hlog : ∀ x : α, 0 ≤ x → x ≤ 1 → m.log x ≤ 0)
    (hpow : ∀ x q : α, 1 ≤ x → q ≤ 0 →
      0 < ldamath.powf m vm.math_mode x q ∧ ldamath.powf m vm.math_mode x q ≤ 1)
    (heta : 0 < all.eta) (hp : 0 ≤ all.power_t) (hi : 0 ≤ all.initial_t)
    (calls : List (lda_call α)) (l : lda α)
    (hrun : run_calls m fuel (lda_start m frand48 all vm) calls = some l) :
    (lda_start m frand48 all vm).decay_levels.size = 1 ∧
    (lda_start m frand48 all vm).decay_levels.data 0 = 0 ∧
    1 ≤ l.decay_levels.size ∧ l.decay_levels.data 0 = 0 ∧
    ∀ i, i + 1 < l.decay_levels.size → l.decay_levels.data (i + 1) ≤ l.decay_levels.data i :=
  decay_run m fuel frand48 all vm hlog hpow heta hp hi calls l hrun

theorem decay_levels_non_increasing_witness :
    (0 : ℝ) < (demo_all : vw ℝ).eta ∧
    ∃ l, run_calls (kernels_of Real.exp Real.log (fun x p => x ^ p)
      (deriv (fun y => Real.log (Real.Gamma y))) (fun y => Real.log (Real.Gamma y))) 2
      (lda_start (kernels_of Real.exp Real.log (fun x p => x ^ p)
      (deriv (fun y => Real.log (Real.Gamma y))) (fun y => Real.log (Real.Gamma y))) (fun _ => 1) (demo_all : vw ℝ)
        ⟨1, 0.1, 0.1, 1, 0.001, 1, lda_math_mode.USE_PRECISE⟩)
      [lda_call.learn demo_doc, lda_call.learn demo_doc] = some l ∧
      1 ≤ l.decay_levels.size ∧ l.decay_levels.data 0 = 0 ∧
      ∀ i, i + 1 < l.decay_levels.size → l.decay_levels.data (i + 1) ≤ l.decay_levels.data i := by
  have heta : (0 : ℝ) < (demo_all : vw ℝ).eta := by
    show (0 : ℝ) < 1 / 2
    norm_num
  obtain ⟨l, hl⟩ := demo_start_returns 1 [lda_call.learn demo_doc, lda_call.learn demo_doc]
    (by intro c hc; simp only [List.mem_cons, List.mem_singleton, List.not_mem_nil, or_false, or_self] at hc; exact Or.inl hc)
  have h := decay_levels_non_increasing (kernels_of Real.exp Real.log (fun x p => x ^ p)
      (deriv (fun y => Real.log (Real.Gamma y))) (fun y => Real.log (Real.Gamma y))) 2 (fun _ => 1) (demo_all : vw ℝ)
    ⟨1, 0.1, 0.1, 1, 0.001, 1, lda_math_mode.USE_PRECISE⟩
    (fun x h0 h1 => Real.log_nonpos h0 h1)
    (fun x q hx hq => ⟨Real.rpow_pos_of_pos (by linarith) q,
      Real.rpow_le_one_of_one_le_of_nonpos hx hq⟩)
    heta (le_refl (0 : ℝ)) (le_refl (0 : ℝ)) _ l hl
  exact ⟨heta, l, hl, h.2.2⟩

end claim_history

end LDA

namespace LDA

section finish

variable {α : Type} [LinearOrderedField α] [FloorRing α] [float_cast α]

theorem row_lt (l : lda α) (w w' : Nat) (h : w < w') : l.row w + l.stride ≤ l.row w' := by
  have hp := stride_pos l
  rcases row_apart l w w' (by omega) with h1 | h1
  · exact h1
  · rw [row_eq, row_eq] at h1
    have : w * l.stride ≤ w' * l.stride := Nat.mul_le_mul_right _ (by omega)
    omega

/-- The body of the loop of `end_examples` on one row. -/
theorem end_examples_row_apply (m : math_kernels α) (l : lda α) (w : Nat) (W : Nat → α) (i : Nat) :
    end_examples_row m l w W i
      = if l.row w ≤ i ∧ i < l.row w + l.all.lda then
          W i * min 1 (m.exp (l.decay_levels.last -
            l.decay_levels.end_index (to_int (-1 - l.example_t + W (l.row w + l.all.lda)))))
        else W i := by
  unfold end_examples_row
  exact for_loop_store_cell (fun _ x => x * min 1 (m.exp (l.decay_levels.last -
    l.decay_levels.end_index (to_int (-1 - l.example_t + W (l.row w + l.all.lda)))))) _ _ W i

/-- The table after the first `n` rounds of the loop of `end_examples`. -/
theorem end_examples_cells (m : math_kernels α) (l : lda α) (hs : l.all.lda + 1 ≤ l.stride) :
    ∀ n,
      (∀ w k, w < n → k < l.all.lda →
        for_loop n (end_examples_row m l) l.all.weight_vector (l.row w + k)
          = l.all.weight_vector (l.row w + k) * l.end_decay m w) ∧
      (∀ i, (∀ w, w < n → ¬ (l.row w ≤ i ∧ i < l.row w + l.all.lda)) →
        for_loop n (end_examples_row m l) l.all.weight_vector i = l.all.weight_vector i) := by
  intro n
  induction n with
  | zero =>
    refine ⟨fun w k hw _ => by omega, fun i _ => rfl⟩
  | succ n ih =>
    obtain ⟨ih1, ih2⟩ := ih
    have hrow_n : ∀ i, l.row n ≤ i → i < l.row n + l.stride →
        for_loop n (end_examples_row m l) l.all.weight_vector i = l.all.weight_vector i := by
      intro i h1 h2
      apply ih2
      intro w hw hh
      have := row_lt l w n hw
      omega
    refine ⟨fun w k hw hk => ?_, fun i hi => ?_⟩
    · rw [for_loop_succ, end_examples_row_apply]
      by_cases hwn : w = n
      · subst hwn
        rw [if_pos (by omega), hrow_n _ (by omega) (by omega), hrow_n _ (by omega) (by omega)]
        rfl
      · have hlt : w < n := by omega
        have := row_lt l w n hlt
        rw [if_neg (by omega)]
        exact ih1 w k hlt hk
    · rw [for_loop_succ, end_examples_row_apply, if_neg (hi n (Nat.lt_succ_self n))]
      exact ih2 i (fun w hw => hi w (by omega))

/-- Function `end_examples` in closed form: the `lambda` slots of every row are
multiplied by the factor `decay` of the row, no other cell of the table is written
and no other field of the learner changes. -/
theorem end_examples_apply (m : math_kernels α) (l : lda α) (hs : l.all.lda + 1 ≤ l.stride) :
    (∀ w k, w < l.all.length → k < l.all.lda →
      (end_examples m l).lambda w k = l.lambda w k * l.end_decay m w) ∧
    (∀ i, (∀ w, w < l.all.length → ¬ (l.row w ≤ i ∧ i < l.row w + l.all.lda)) →
      (end_examples m l).all.weight_vector i = l.all.weight_vector i) ∧
    end_examples m l
      = { l with all := { l.all with weight_vector := (end_examples m l).all.weight_vector } } := by
  obtain ⟨h1, h2⟩ := end_examples_cells m l hs l.all.length
  exact ⟨fun w k hw hk => h1 w k hw hk, fun i hi => h2 i hi, rfl⟩

/-- The fields that `end_examples` reads to compute the factor of a row are not
changed by it. -/
theorem end_examples_end_decay (m : math_kernels α) (l : lda α) (hs : l.all.lda + 1 ≤ l.stride)
    (w : Nat) (hw : w < l.all.length) :
    (end_examples m l).end_decay m w = l.end_decay m w := by
  obtain ⟨_, h2, _⟩ := end_examples_apply m l hs
  have ht : (end_examples m l).t_last w = l.t_last w := by
    show (end_examples m l).all.weight_vector (l.row w + l.all.lda)
      = l.all.weight_vector (l.row w + l.all.lda)
    apply h2
    intro w' hw' hh
    by_cases hww : w' = w
    · subst hww; omega
    · rcases row_apart l w' w hww with h | h <;> omega
  unfold lda.end_decay lda.level_of_row
  rw [ht]
  rfl

end finish

end LDA

namespace LDA

section stamps

variable {α : Type} [LinearOrderedField α] [FloorRing α] [float_cast α]

theorem touches_iff (b : lda α) (w : Nat) :
    b.touches w = true ↔ ∃ s ∈ b.sorted_features, s.f.weight_index = b.row w := by
  unfold lda.touches
  rw [List.any_eq_true]
  constructor
  · rintro ⟨s, hs, h⟩
    exact ⟨s, hs, by simpa using h⟩
  · rintro ⟨s, hs, h⟩
    exact ⟨s, hs, by simpa using h⟩

/-- The `t_last` slots across one returning `learn_batch`, when the conversion to
single precision is exact: the rows of a non-empty minibatch name the entry that it
appends, the other rows the entry they named. -/
theorem rows_batch_step (m : math_kernels α) (fuel : Nat) (b b' : lda α) (g : Nat → Nat)
    (hf : ∀ x : α, to_float x = x) (hc : b.config_ok) (hmask : ∀ s ∈ b.sorted_features, b.within_mask s.f.weight_index)
    (hRI : ∀ w, w < b.all.length → g w < b.decay_levels.size ∧
      b.t_last w = b.example_t - ((b.decay_levels.size - 1 - g w : Nat) : α))
    (h : learn_batch m fuel b = some b') :
    ∀ w, w < b'.all.length →
      (if b.sorted_features.isEmpty then g
        else fun w => if b.touches w then b.decay_levels.size else g w) w < b'.decay_levels.size ∧
      b'.t_last w = b'.example_t - ((b'.decay_levels.size - 1 -
        (if b.sorted_features.isEmpty then g
          else fun w => if b.touches w then b.decay_levels.size else g w) w : Nat) : α) := by
  by_cases hne : b.sorted_features = []
  · have := learn_batch_of_empty m fuel b b' hne h
    subst this
    rw [hne]
    simp only [List.isEmpty_nil, if_true]
    exact hRI
  · have hemp : b.sorted_features.isEmpty = false := by
      cases hs : b.sorted_features with
      | nil => exact absurd hs hne
      | cons a t => rfl
    rw [hemp]
    simp only [Bool.false_eq_true, if_false]
    obtain ⟨e1, _, e3, e4, _⟩ := learn_batch_frame m fuel b b' h
    obtain ⟨d1, d2⟩ := learn_batch_bookkeeping m fuel b b' hne h
    have hlen : b'.all.length = b.all.length := by unfold vw.length; rw [e4]
    intro w hw
    rw [hlen] at hw
    obtain ⟨hT, hU⟩ := learn_batch_rows m fuel b b' hne hc hmask h w hw
    obtain ⟨r1, r2⟩ := hRI w hw
    rw [d1, d2, push_back_size]
    by_cases ht : b.touches w = true
    · rw [if_pos ht]
      obtain ⟨_, hst, _⟩ := hT ((touches_iff b w).mp ht)
      refine ⟨by omega, ?_⟩
      rw [hst, hf]
      have : b.decay_levels.size + 1 - 1 - b.decay_levels.size = 0 := by omega
      rw [this]
      simp
    · rw [if_neg ht]
      have hun : ∀ s ∈ b.sorted_features, s.f.weight_index ≠ b.row w := by
        intro s hs hh
        exact ht ((touches_iff b w).mpr ⟨s, hs, hh⟩)
      obtain ⟨hsame, _, _⟩ := hU hun
      have hs := hc.2.1
      have hst : b'.t_last w = b.t_last w := by
        show b'.all.weight_vector (b'.row w + b'.all.lda) = b.all.weight_vector (b.row w + b.all.lda)
        have hrow : b'.row w = b.row w := by unfold lda.row; rw [e3]
        rw [hrow, e1]
        exact hsame _ (by omega) (by omega)
      refine ⟨by omega, ?_⟩
      rw [hst, r2]
      have : b.decay_levels.size + 1 - 1 - g w = (b.decay_levels.size - 1 - g w) + 1 := by omega
      rw [this]
      push_cast
      ring

theorem last_touch_of_batch (l b : lda α) (c : lda_call α) (g : Nat → Nat)
    (h : c.batch l = some b) :
    c.last_touch l g = if b.sorted_features.isEmpty then g
      else fun w => if b.touches w then b.decay_levels.size else g w := by
  unfold lda_call.last_touch
  rw [h]

theorem last_touch_of_none (l : lda α) (c : lda_call α) (g : Nat → Nat)
    (h : c.batch l = none) : c.last_touch l g = g := by
  unfold lda_call.last_touch
  rw [h]

/-- The layout, the hashes of the pending features and the `t_last` slots across one
returning call, when the conversion to single precision is exact. -/
theorem rows_call_step (m : math_kernels α) (fuel : Nat) (l l' : lda α) (c : lda_call α)
    (g : Nat → Nat) (hf : ∀ x : α, to_float x = x) (hc : l.config_ok)
    (hmask : ∀ s ∈ l.sorted_features, l.within_mask s.f.weight_index)
    (hcall : c.within_mask l)
    (hRI : ∀ w, w < l.all.length → g w < l.decay_levels.size ∧
      l.t_last w = l.example_t - ((l.decay_levels.size - 1 - g w : Nat) : α))
    (h : c.run m fuel l = some l') :
    l'.config_ok ∧ (∀ s ∈ l'.sorted_features, l'.within_mask s.f.weight_index) ∧
    l'.all.num_bits = l.all.num_bits ∧ l'.all.stride_shift = l.all.stride_shift ∧
    ∀ w, w < l'.all.length → c.last_touch l g w < l'.decay_levels.size ∧
      l'.t_last w = l'.example_t - ((l'.decay_levels.size - 1 - c.last_touch l g w : Nat) : α) := by
  have hbatch : ∀ b b' : lda α, b.config_ok →
      (∀ s ∈ b.sorted_features, b.within_mask s.f.weight_index) →
      learn_batch m fuel b = some b' →
      b'.config_ok ∧ (∀ s ∈ b'.sorted_features, b'.within_mask s.f.weight_index) ∧
      b'.all.num_bits = b.all.num_bits ∧ b'.all.stride_shift = b.all.stride_shift := by
    intro b b' b1 b2 hb
    obtain ⟨_, _, e3, e4, _, _, _, _, _, _, _, _, _, _, _, _, e17⟩ := learn_batch_frame m fuel b b' hb
    refine ⟨learn_batch_config_ok m fuel b b' hb b1, ?_, e4, e3⟩
    rw [e17]; intro s hs; exact absurd hs (List.not_mem_nil s)
  cases c with
  | learn ec =>
    obtain ⟨p1, p2, p3⟩ := learn_push_fields l ec
    obtain ⟨q1, q2, _, _, _, q6, q7, _⟩ := p3
    have hwm : ∀ x, (learn_push l ec).within_mask x ↔ l.within_mask x :=
      fun x => within_mask_congr l _ (by rw [q1]) (by rw [q1]) x
    have c1 : (learn_push l ec).config_ok := config_ok_congr l _ q1 q2 hc
    have c5 : ∀ s ∈ (learn_push l ec).sorted_features,
        (learn_push l ec).within_mask s.f.weight_index := by
      intro s hs
      rw [hwm]
      rw [p2] at hs
      rcases List.mem_append.mp hs with hs1 | hs1
      · exact hmask s hs1
      · obtain ⟨f, hf, hfs⟩ := List.mem_map.mp hs1
        rw [← hfs]
        exact hcall f hf
    have cRI : ∀ w, w < (learn_push l ec).all.length → g w < (learn_push l ec).decay_levels.size ∧
        (learn_push l ec).t_last w = (learn_push l ec).example_t
          - (((learn_push l ec).decay_levels.size - 1 - g w : Nat) : α) := by
      unfold lda.t_last lda.row
      rw [q1, q6, q7]
      exact hRI
    have hrun : learn m fuel l ec = some l' := h
    unfold learn at hrun
    simp only [] at hrun
    split_ifs at hrun with hfull
    · rw [last_touch_of_batch l (learn_push l ec) (lda_call.learn ec) g (if_pos hfull)]
      obtain ⟨r1, r2, r3, r4⟩ := hbatch _ _ c1 c5 hrun
      exact ⟨r1, r2, by rw [r3, q1], by rw [r4, q1],
        rows_batch_step m fuel _ _ g hf c1 c5 cRI hrun⟩
    · rw [last_touch_of_none l (lda_call.learn ec) g (if_neg hfull)]
      simp only [Option.some.injEq] at hrun
      subst hrun
      exact ⟨c1, c5, by rw [q1], by rw [q1], cRI⟩
  | end_pass =>
    have hrun : end_pass m fuel l = some l' := h
    unfold end_pass at hrun
    split_ifs at hrun with hsome
    · rw [last_touch_of_batch l l lda_call.end_pass g (if_pos hsome)]
      obtain ⟨r1, r2, r3, r4⟩ := hbatch _ _ hc hmask hrun
      exact ⟨r1, r2, r3, r4, rows_batch_step m fuel _ _ g hf hc hmask hRI hrun⟩
    · rw [last_touch_of_none l lda_call.end_pass g (if_neg hsome)]
      simp only [Option.some.injEq] at hrun
      subst hrun
      exact ⟨hc, hmask, rfl, rfl, hRI⟩

/-- The bookkeeping of the last touch is defined whenever the calls return. -/
theorem run_last_touch_some (m : math_kernels α) (fuel : Nat) :
    ∀ (calls : List (lda_call α)) (l l' : lda α) (g : Nat → Nat),
      run_calls m fuel l calls = some l' → ∃ g', run_last_touch m fuel l g calls = some g' := by
  intro calls
  induction calls with
  | nil => intro l l' g _; exact ⟨g, rfl⟩
  | cons c cs ih =>
    intro l l' g h
    rw [run_calls] at h
    rw [run_last_touch]
    cases hc : lda_call.run m fuel l c with
    | none => rw [hc] at h; simp at h
    | some l1 =>
      rw [hc] at h
      exact ih l1 l' _ h

/-- The layout and the `t_last` slots after a returning sequence of calls whose
hashes are within the mask. -/
theorem rows_run (m : math_kernels α) (fuel : Nat) :
    ∀ (calls : List (lda_call α)) (l l' : lda α) (g g' : Nat → Nat),
      (∀ x : α, to_float x = x) → l.config_ok →
      (∀ s ∈ l.sorted_features, l.within_mask s.f.weight_index) →
      (∀ c ∈ calls, c.within_mask l) →
      (∀ w, w < l.all.length → g w < l.decay_levels.size ∧
        l.t_last w = l.example_t - ((l.decay_levels.size - 1 - g w : Nat) : α)) →
      run_calls m fuel l calls = some l' → run_last_touch m fuel l g calls = some g' →
      l'.config_ok ∧ (∀ s ∈ l'.sorted_features, l'.within_mask s.f.weight_index) ∧
      l'.all.num_bits = l.all.num_bits ∧ l'.all.stride_shift = l.all.stride_shift ∧
      ∀ w, w < l'.all.length → g' w < l'.decay_levels.size ∧
        l'.t_last w = l'.example_t - ((l'.decay_levels.size - 1 - g' w : Nat) : α) := by
  intro calls
  induction calls with
  | nil =>
    intro l l' g g' _ hc hmask _ hRI h hg
    simp only [run_calls, Option.some.injEq] at h
    simp only [run_last_touch, Option.some.injEq] at hg
    subst h
    subst hg
    exact ⟨hc, hmask, rfl, rfl, hRI⟩
  | cons c cs ih =>
    intro l l' g g' hf hc hmask hcalls hRI h hg
    rw [run_calls] at h
    rw [run_last_touch] at hg
    cases hrun : lda_call.run m fuel l c with
    | none => rw [hrun] at h; simp at h
    | some l1 =>
      rw [hrun] at h hg
      obtain ⟨r1, r2, r3, r4, r5⟩ := rows_call_step m fuel l l1 c g hf hc hmask
        (hcalls c (List.mem_cons_self _ _)) hRI hrun
      have hcs : ∀ c' ∈ cs, c'.within_mask l1 := by
        intro c' hc'
        have := hcalls c' (List.mem_cons_of_mem _ hc')
        cases c' with
        | learn ec => exact fun f hf => (within_mask_congr l l1 r3 r4 _).mpr (this f hf)
        | end_pass => trivial
      obtain ⟨t1, t2, t3, t4, t5⟩ := ih l1 l' _ g' hf r1 r2 hcs r5 h hg
      exact ⟨t1, t2, by rw [t3, r3], by rw [t4, r4], t5⟩

/-- The start of the learner: every row names entry 0 of `decay_levels`. -/
theorem rows_start (m : math_kernels α) (frand48 : Nat → α) (all : vw α) (vm : lda_options α)
    (hshift : Int.toNat (lda_setup_temp m (vm.lda * 2 + 1)) = Nat.clog 2 (vm.lda * 2 + 1))
    (hmask : all.weight_mask = ((1 <<< all.num_bits) <<< Nat.clog 2 (vm.lda * 2 + 1)) - 1) :
    ∀ w, w < (lda_start m frand48 all vm).all.length →
      (fun _ : Nat => 0) w < (lda_start m frand48 all vm).decay_levels.size ∧
      (lda_start m frand48 all vm).t_last w = (lda_start m frand48 all vm).example_t
        - (((lda_start m frand48 all vm).decay_levels.size - 1 - (fun _ : Nat => 0) w : Nat) : α) := by
  have hc := lda_start_config m frand48 all vm hshift hmask
  obtain ⟨_, _, _, _, _, _, s7, _, s9, _, _, s12, s13, _⟩ := lda_start_fields m frand48 all vm
  intro w hw
  have hsz : (lda_start m frand48 all vm).decay_levels.size = 1 := by rw [s12]; rfl
  have hs : (lda_setup m all vm).all.lda + 1 ≤ (lda_setup m all vm).stride := by
    have := hc.2.1
    have e1 : (lda_start m frand48 all vm).stride = (lda_setup m all vm).stride := rfl
    have e2 : (lda_start m frand48 all vm).all.lda = (lda_setup m all vm).all.lda := rfl
    rw [e1, e2] at this
    omega
  obtain ⟨h1, _⟩ := save_load_read_cells m frand48 (lda_setup m all vm) hs s9 w hw
  refine ⟨by rw [hsz]; exact Nat.zero_lt_one, ?_⟩
  rw [hsz, s13]
  have : (lda_start m frand48 all vm).t_last w = all.initial_t := by
    rw [← s7]
    exact h1
  rw [this]
  simp

end stamps

end LDA

namespace LDA

section claim_freshness

variable {α : Type} [LinearOrderedField α] [FloorRing α] [float_cast α]

theorem adjacent_antitone (d : Nat → α) (n : Nat)
    (h : ∀ i, i + 1 < n → d (i + 1) ≤ d i) : ∀ i j, i ≤ j → j < n → d j ≤ d i := by
  intro i j hij hj
  induction j with
  | zero =>
    have : i = 0 := by omega
    rw [this]
  | succ j ih =>
    by_cases hi : i = j + 1
    · rw [hi]
    · exact le_trans (h j hj) (ih (by omega) (by omega))

/-- The factor of `end_examples` for a row whose `t_last` slot names entry `j` of a
non-increasing `decay_levels`: it is the pending multiplier of the row. -/
theorem end_decay_of_entry (m : math_kernels α) (l : lda α) (hexp : ∀ d : α, d ≤ 0 → m.exp d ≤ 1)
    (hmono : ∀ i j, i ≤ j → j < l.decay_levels.size → l.decay_levels.data j ≤ l.decay_levels.data i)
    (w j : Nat) (hj : j < l.decay_levels.size)
    (ht : l.t_last w = l.example_t - ((l.decay_levels.size - 1 - j : Nat) : α)) :
    l.level_of_row w = l.decay_levels.data j ∧ l.end_decay m w = l.pending m w := by
  have hlev : l.level_of_row w = l.decay_levels.data j := by
    unfold lda.level_of_row
    exact end_index_level l.decay_levels l.example_t _ j hj ht
  refine ⟨hlev, ?_⟩
  unfold lda.end_decay lda.pending
  apply min_eq_right
  apply hexp
  rw [hlev]
  unfold v_array.last
  have := hmono j (l.decay_levels.size - 1) (by omega) (by omega)
  linarith

/-- Row freshness when the conversions to single precision are exact.  For a learner
reached from the start by `learn` and `end_pass` calls on hashes within the mask
(positive learning rate, `power_t >= 0`, `initial_t >= 0`, kernels with `log <= 0` on
`[0,1]`, `powf` in `(0,1]` and `exp <= 1` on non-positive arguments, line 911 giving the
exact ceiling of the binary logarithm), `end_examples` multiplies the `K` `lambda`
slots of every row `w` by `min(1, exp(decay_levels.back - decay_levels[g w]))`,
where `g w` is the index of the entry appended by the minibatch that last touched
`w` (`0` for a row never touched), it writes no other cell and changes no other
field; so every stored `lambda(w,k)` after the call is the effective value that the
row had before the call. -/
theorem end_examples_row_freshness (m : math_kernels α) (fuel : Nat) (frand48 : Nat → α)
    (all : vw α) (vm : lda_options α)
    (hf : ∀ x : α, to_float x = x)
    (hshift : Int.toNat (lda_setup_temp m (vm.lda * 2 + 1)) = Nat.clog 2 (vm.lda * 2 + 1))
    (hmask : all.weight_mask = ((1 <<< all.num_bits) <<< Nat.clog 2 (vm.lda * 2 + 1)) - 1)
    (hlog : ∀ x : α, 0 ≤ x → x ≤ 1 → m.log x ≤ 0)
    (hpow : ∀ x q : α, 1 ≤ x → q ≤ 0 →
      0 < ldamath.powf m vm.math_mode x q ∧ ldamath.powf m vm.math_mode x q ≤ 1)
    (hexp : ∀ d : α, d ≤ 0 → m.exp d ≤ 1)
    (heta : 0 < all.eta) (hp : 0 ≤ all.power_t) (hi : 0 ≤ all.initial_t)
    (calls : List (lda_call α))
    (hcalls : ∀ c ∈ calls, c.within_mask (lda_start m frand48 all vm))
    (l : lda α) (g : Nat → Nat)
    (hrun : run_calls m fuel (lda_start m frand48 all vm) calls = some l)
    (hg : run_last_touch m fuel (lda_start m frand48 all vm) (fun _ => 0) calls = some g) :
    (∀ w k, w < l.all.length → k < l.all.lda →
      g w < l.decay_levels.size ∧
      l.level_of_row w = l.decay_levels.data (g w) ∧
      (end_examples m l).lambda w k
        = l.lambda w k * min 1 (m.exp (l.decay_levels.last - l.decay_levels.data (g w))) ∧
      (end_examples m l).lambda w k = l.effective m w k) ∧
    (∀ i, (∀ w k, w < l.all.length → k < l.all.lda → i ≠ l.row w + k) →
      (end_examples m l).all.weight_vector i = l.all.weight_vector i) ∧
    end_examples m l
      = { l with all := { l.all with weight_vector := (end_examples m l).all.weight_vector } } := by
  obtain ⟨hc, _, _, _, hRI⟩ := rows_run m fuel calls _ l _ g hf
    (lda_start_config m frand48 all vm hshift hmask)
    (by
      intro s hs
      have : (lda_start m frand48 all vm).sorted_features = [] :=
        (lda_start_fields m frand48 all vm).2.2.2.2.2.2.2.2.2.2.2.2.2.2.1
      rw [this] at hs
      exact absurd hs (List.not_mem_nil s))
    hcalls (rows_start m frand48 all vm hshift hmask) hrun hg
  obtain ⟨_, _, hsz, _, hadj⟩ := decay_run m fuel frand48 all vm hlog hpow heta hp hi calls l hrun
  have hmono := adjacent_antitone l.decay_levels.data l.decay_levels.size hadj
  have hs : l.all.lda + 1 ≤ l.stride := by have := hc.2.1; omega
  obtain ⟨a1, a2, a3⟩ := end_examples_apply m l hs
  refine ⟨fun w k hw hk => ?_, fun i hi => ?_, a3⟩
  · obtain ⟨r1, r2⟩ := hRI w hw
    obtain ⟨e1, e2⟩ := end_decay_of_entry m l hexp hmono w (g w) r1 r2
    refine ⟨r1, e1, ?_, ?_⟩
    · rw [a1 w k hw hk, ← e1]
      rfl
    · rw [a1 w k hw hk, e2]
      rfl
  · apply a2
    intro w hw hh
    exact hi w (i - l.row w) hw (by omega) (by omega)

theorem end_examples_row_freshness_witness :
    (0 : ℝ) < (demo_all : vw ℝ).eta ∧
    ∃ l, run_calls (kernels_of Real.exp Real.log (fun x p => x ^ p)
      (deriv (fun y => Real.log (Real.Gamma y))) (fun y => Real.log (Real.Gamma y))) 2
      (lda_start (kernels_of Real.exp Real.log (fun x p => x ^ p)
      (deriv (fun y => Real.log (Real.Gamma y))) (fun y => Real.log (Real.Gamma y))) (fun _ => 1) (demo_all : vw ℝ)
        ⟨1, 0.1, 0.1, 1, 0.001, 1, lda_math_mode.USE_PRECISE⟩)
      [lda_call.learn demo_doc, lda_call.learn demo_doc] = some l ∧
      ∀ w k, w < l.all.length → k < l.all.lda →
        (end_examples (kernels_of Real.exp Real.log (fun x p => x ^ p)
      (deriv (fun y => Real.log (Real.Gamma y))) (fun y => Real.log (Real.Gamma y))) l).lambda w k = l.effective (kernels_of Real.exp Real.log (fun x p => x ^ p)
      (deriv (fun y => Real.log (Real.Gamma y))) (fun y => Real.log (Real.Gamma y))) w k := by
  have heta : (0 : ℝ) < (demo_all : vw ℝ).eta := by
    show (0 : ℝ) < 1 / 2
    norm_num
  have hcs : ∀ c ∈ [lda_call.learn (demo_doc : Example ℝ), lda_call.learn demo_doc],
      c = lda_call.learn demo_doc ∨ c = lda_call.end_pass := by
    intro c hc
    simp only [List.mem_cons, List.mem_singleton, List.not_mem_nil, or_false, or_self] at hc
    exact Or.inl hc
  obtain ⟨l, hl⟩ := demo_start_returns 1 [lda_call.learn demo_doc, lda_call.learn demo_doc] hcs
  obtain ⟨g, hg⟩ := run_last_touch_some (kernels_of Real.exp Real.log (fun x p => x ^ p)
      (deriv (fun y => Real.log (Real.Gamma y))) (fun y => Real.log (Real.Gamma y))) 2 _ _ l (fun _ => 0) hl
  have h := end_examples_row_freshness (kernels_of Real.exp Real.log (fun x p => x ^ p)
      (deriv (fun y => Real.log (Real.Gamma y))) (fun y => Real.log (Real.Gamma y))) 2 (fun _ => 1) (demo_all : vw ℝ)
    ⟨1, 0.1, 0.1, 1, 0.001, 1, lda_math_mode.USE_PRECISE⟩
    to_float_real (lda_setup_temp_real _ rfl 1)
    (by show 7 = ((1 <<< 1) <<< Nat.clog 2 (1 * 2 + 1)) - 1; simp [Nat.clog])
    (fun x h0 h1 => Real.log_nonpos h0 h1)
    (fun x q hx hq => ⟨Real.rpow_pos_of_pos (by linarith) q,
      Real.rpow_le_one_of_one_le_of_nonpos hx hq⟩)
    (fun d hd => Real.exp_le_one_iff.mpr hd)
    heta (le_refl (0 : ℝ)) (le_refl (0 : ℝ)) _
    (by
      intro c hc
      rcases hcs c hc with rfl | rfl
      · intro f hf
        simp only [demo_doc, List.mem_singleton] at hf
        subst hf
        refine ⟨0, ?_, ?_⟩
        · unfold vw.length
          rw [(lda_start_fields _ _ _ _).2.2.2.1]
          decide
        · unfold lda.row; simp
      · trivial)
    l g hl hg
  exact ⟨heta, l, hl, fun w k hw hk => (h.1 w k hw hk).2.2.2⟩

end claim_freshness

end LDA

namespace LDA

section claim_idempotent

variable {α : Type} [LinearOrderedField α] [FloorRing α] [float_cast α]

/-- A second call of `end_examples` multiplies every row by the same factor again:
the first call leaves `t_last`, `example_t` and `decay_levels` as they were. -/
theorem end_examples_twice (m : math_kernels α) (l : lda α) (hs : l.all.lda + 1 ≤ l.stride)
    (w k : Nat) (hw : w < l.all.length) (hk : k < l.all.lda) :
    (end_examples m (end_examples m l)).lambda w k
      = l.lambda w k * l.end_decay m w * l.end_decay m w := by
  obtain ⟨a1, _, _⟩ := end_examples_apply m l hs
  obtain ⟨b1, _, _⟩ := end_examples_apply m (end_examples m l) hs
  rw [b1 w k hw hk, a1 w k hw hk, end_examples_end_decay m l hs w hw]

/-- The single call of a sequence of one call. -/
theorem run_calls_single (m : math_kernels α) (fuel : Nat) (l l' : lda α) (c : lda_call α)
    (h : run_calls m fuel l [c] = some l') : c.run m fuel l = some l' := by
  rw [run_calls] at h
  cases hc : lda_call.run m fuel l c with
  | none => rw [hc] at h; simp at h
  | some l1 =>
    rw [hc] at h
    simp only [run_calls] at h
    exact h

end claim_idempotent

section claim_idempotent_real

/-- The start of the small learner, whatever the size of the minibatch: one topic, two
rows of four cells, `lambda = 100` in both rows, `t_last = 0`, learning rate `1/2`. -/
theorem demo_start_facts (mb : Nat) :
    (lda_start (kernels_of Real.exp Real.log (fun x p => x ^ p)
      (deriv (fun y => Real.log (Real.Gamma y))) (fun y => Real.log (Real.Gamma y))) (fun _ => 1) (demo_all : vw ℝ) ⟨1, 0.1, 0.1, 1, 0.001, mb, lda_math_mode.USE_PRECISE⟩).config_ok ∧
    (lda_start (kernels_of Real.exp Real.log (fun x p => x ^ p)
      (deriv (fun y => Real.log (Real.Gamma y))) (fun y => Real.log (Real.Gamma y))) (fun _ => 1) (demo_all : vw ℝ) ⟨1, 0.1, 0.1, 1, 0.001, mb, lda_math_mode.USE_PRECISE⟩).all.lda = 1 ∧
    (lda_start (kernels_of Real.exp Real.log (fun x p => x ^ p)
      (deriv (fun y => Real.log (Real.Gamma y))) (fun y => Real.log (Real.Gamma y))) (fun _ => 1) (demo_all : vw ℝ) ⟨1, 0.1, 0.1, 1, 0.001, mb, lda_math_mode.USE_PRECISE⟩).all.stride_shift = 2 ∧
    (lda_start (kernels_of Real.exp Real.log (fun x p => x ^ p)
      (deriv (fun y => Real.log (Real.Gamma y))) (fun y => Real.log (Real.Gamma y))) (fun _ => 1) (demo_all : vw ℝ) ⟨1, 0.1, 0.1, 1, 0.001, mb, lda_math_mode.USE_PRECISE⟩).all.num_bits = 1 ∧
    (lda_start (kernels_of Real.exp Real.log (fun x p => x ^ p)
      (deriv (fun y => Real.log (Real.Gamma y))) (fun y => Real.log (Real.Gamma y))) (fun _ => 1) (demo_all : vw ℝ) ⟨1, 0.1, 0.1, 1, 0.001, mb, lda_math_mode.USE_PRECISE⟩).all.eta = 1 / 2 ∧
    (lda_start (kernels_of Real.exp Real.log (fun x p => x ^ p)
      (deriv (fun y => Real.log (Real.Gamma y))) (fun y => Real.log (Real.Gamma y))) (fun _ => 1) (demo_all : vw ℝ) ⟨1, 0.1, 0.1, 1, 0.001, mb, lda_math_mode.USE_PRECISE⟩).all.power_t = 0 ∧
    (lda_start (kernels_of Real.exp Real.log (fun x p => x ^ p)
      (deriv (fun y => Real.log (Real.Gamma y))) (fun y => Real.log (Real.Gamma y))) (fun _ => 1) (demo_all : vw ℝ) ⟨1, 0.1, 0.1, 1, 0.001, mb, lda_math_mode.USE_PRECISE⟩).mmode = lda_math_mode.USE_PRECISE ∧
    (lda_start (kernels_of Real.exp Real.log (fun x p => x ^ p)
      (deriv (fun y => Real.log (Real.Gamma y))) (fun y => Real.log (Real.Gamma y))) (fun _ => 1) (demo_all : vw ℝ) ⟨1, 0.1, 0.1, 1, 0.001, mb, lda_math_mode.USE_PRECISE⟩).minibatch = mb ∧
    (lda_start (kernels_of Real.exp Real.log (fun x p => x ^ p)
      (deriv (fun y => Real.log (Real.Gamma y))) (fun y => Real.log (Real.Gamma y))) (fun _ => 1) (demo_all : vw ℝ) ⟨1, 0.1, 0.1, 1, 0.001, mb, lda_math_mode.USE_PRECISE⟩).decay_levels
      = (v_array.init).push_back 0 ∧
    (lda_start (kernels_of Real.exp Real.log (fun x p => x ^ p)
      (deriv (fun y => Real.log (Real.Gamma y))) (fun y => Real.log (Real.Gamma y))) (fun _ => 1) (demo_all : vw ℝ) ⟨1, 0.1, 0.1, 1, 0.001, mb, lda_math_mode.USE_PRECISE⟩).example_t = 0 ∧
    (lda_start (kernels_of Real.exp Real.log (fun x p => x ^ p)
      (deriv (fun y => Real.log (Real.Gamma y))) (fun y => Real.log (Real.Gamma y))) (fun _ => 1) (demo_all : vw ℝ) ⟨1, 0.1, 0.1, 1, 0.001, mb, lda_math_mode.USE_PRECISE⟩).examples = [] ∧
    (lda_start (kernels_of Real.exp Real.log (fun x p => x ^ p)
      (deriv (fun y => Real.log (Real.Gamma y))) (fun y => Real.log (Real.Gamma y))) (fun _ => 1) (demo_all : vw ℝ) ⟨1, 0.1, 0.1, 1, 0.001, mb, lda_math_mode.USE_PRECISE⟩).sorted_features = [] ∧
    (∀ w, w < 2 →
      (lda_start (kernels_of Real.exp Real.log (fun x p => x ^ p)
      (deriv (fun y => Real.log (Real.Gamma y))) (fun y => Real.log (Real.Gamma y))) (fun _ => 1) (demo_all : vw ℝ) ⟨1, 0.1, 0.1, 1, 0.001, mb, lda_math_mode.USE_PRECISE⟩).all.weight_vector (4 * w) = 100 ∧
      (lda_start (kernels_of Real.exp Real.log (fun x p => x ^ p)
      (deriv (fun y => Real.log (Real.Gamma y))) (fun y => Real.log (Real.Gamma y))) (fun _ => 1) (demo_all : vw ℝ) ⟨1, 0.1, 0.1, 1, 0.001, mb, lda_math_mode.USE_PRECISE⟩).all.weight_vector (4 * w + 1) = 0) := by
  obtain ⟨s1, s2, s3, s4, s5, s6, s7, s8, s9, s10, s11, s12, s13, s14, s15, s16, s17, _⟩ :=
    lda_start_fields (kernels_of Real.exp Real.log (fun x p => x ^ p)
      (deriv (fun y => Real.log (Real.Gamma y))) (fun y => Real.log (Real.Gamma y))) (fun _ => 1) (demo_all : vw ℝ) ⟨1, 0.1, 0.1, 1, 0.001, mb, lda_math_mode.USE_PRECISE⟩
  have hcfg := lda_start_config (kernels_of Real.exp Real.log (fun x p => x ^ p)
      (deriv (fun y => Real.log (Real.Gamma y))) (fun y => Real.log (Real.Gamma y))) (fun _ => 1) (demo_all : vw ℝ) ⟨1, 0.1, 0.1, 1, 0.001, mb, lda_math_mode.USE_PRECISE⟩
    (lda_setup_temp_real _ rfl 1)
    (by show 7 = ((1 <<< 1) <<< Nat.clog 2 (1 * 2 + 1)) - 1; simp [Nat.clog])
  have hclog : Nat.clog 2 (1 * 2 + 1) = 2 := by simp [Nat.clog]
  have h3 : (lda_start (kernels_of Real.exp Real.log (fun x p => x ^ p)
      (deriv (fun y => Real.log (Real.Gamma y))) (fun y => Real.log (Real.Gamma y))) (fun _ => 1) (demo_all : vw ℝ) ⟨1, 0.1, 0.1, 1, 0.001, mb, lda_math_mode.USE_PRECISE⟩).all.stride_shift = 2 :=
    s3.trans ((lda_setup_temp_real _ rfl 1).trans hclog)
  have h8 : (lda_start (kernels_of Real.exp Real.log (fun x p => x ^ p)
      (deriv (fun y => Real.log (Real.Gamma y))) (fun y => Real.log (Real.Gamma y))) (fun _ => 1) (demo_all : vw ℝ) ⟨1, 0.1, 0.1, 1, 0.001, mb, lda_math_mode.USE_PRECISE⟩).all.eta = 1 / 2 := by
    rw [s8]
    show (if (1 / 2 : ℝ) > 1 then min (1 / 2 : ℝ) 1 else 1 / 2) = 1 / 2
    rw [if_neg (by norm_num)]
  refine ⟨hcfg, s1, h3, s4, h8, s6, s10, s11, s12, s13, s14, s15, ?_⟩
  intro w hw
  have hs : (lda_setup (kernels_of Real.exp Real.log (fun x p => x ^ p)
      (deriv (fun y => Real.log (Real.Gamma y))) (fun y => Real.log (Real.Gamma y))) (demo_all : vw ℝ) ⟨1, 0.1, 0.1, 1, 0.001, mb, lda_math_mode.USE_PRECISE⟩).all.lda + 1
      ≤ (lda_setup (kernels_of Real.exp Real.log (fun x p => x ^ p)
      (deriv (fun y => Real.log (Real.Gamma y))) (fun y => Real.log (Real.Gamma y))) (demo_all : vw ℝ) ⟨1, 0.1, 0.1, 1, 0.001, mb, lda_math_mode.USE_PRECISE⟩).stride := by
    have := hcfg.2.1
    have e1 : (lda_start (kernels_of Real.exp Real.log (fun x p => x ^ p)
      (deriv (fun y => Real.log (Real.Gamma y))) (fun y => Real.log (Real.Gamma y))) (fun _ => 1) (demo_all : vw ℝ) ⟨1, 0.1, 0.1, 1, 0.001, mb, lda_math_mode.USE_PRECISE⟩).stride
        = (lda_setup (kernels_of Real.exp Real.log (fun x p => x ^ p)
      (deriv (fun y => Real.log (Real.Gamma y))) (fun y => Real.log (Real.Gamma y))) (demo_all : vw ℝ) ⟨1, 0.1, 0.1, 1, 0.001, mb, lda_math_mode.USE_PRECISE⟩).stride := rfl
    have e2 : (lda_start (kernels_of Real.exp Real.log (fun x p => x ^ p)
      (deriv (fun y => Real.log (Real.Gamma y))) (fun y => Real.log (Real.Gamma y))) (fun _ => 1) (demo_all : vw ℝ) ⟨1, 0.1, 0.1, 1, 0.001, mb, lda_math_mode.USE_PRECISE⟩).all.lda
        = (lda_setup (kernels_of Real.exp Real.log (fun x p => x ^ p)
      (deriv (fun y => Real.log (Real.Gamma y))) (fun y => Real.log (Real.Gamma y))) (demo_all : vw ℝ) ⟨1, 0.1, 0.1, 1, 0.001, mb, lda_math_mode.USE_PRECISE⟩).all.lda := rfl
    rw [e1, e2] at this
    omega
  have hlen : (lda_setup (kernels_of Real.exp Real.log (fun x p => x ^ p)
      (deriv (fun y => Real.log (Real.Gamma y))) (fun y => Real.log (Real.Gamma y))) (demo_all : vw ℝ) ⟨1, 0.1, 0.1, 1, 0.001, mb, lda_math_mode.USE_PRECISE⟩).all.length = 2 := by
    show (lda_start (kernels_of Real.exp Real.log (fun x p => x ^ p)
      (deriv (fun y => Real.log (Real.Gamma y))) (fun y => Real.log (Real.Gamma y))) (fun _ => 1) (demo_all : vw ℝ) ⟨1, 0.1, 0.1, 1, 0.001, mb, lda_math_mode.USE_PRECISE⟩).all.length = 2
    unfold vw.length
    rw [s4]
    rfl
  have hK : (lda_setup (kernels_of Real.exp Real.log (fun x p => x ^ p)
      (deriv (fun y => Real.log (Real.Gamma y))) (fun y => Real.log (Real.Gamma y))) (demo_all : vw ℝ) ⟨1, 0.1, 0.1, 1, 0.001, mb, lda_math_mode.USE_PRECISE⟩).all.lda = 1 := s1
  have hrow : (lda_setup (kernels_of Real.exp Real.log (fun x p => x ^ p)
      (deriv (fun y => Real.log (Real.Gamma y))) (fun y => Real.log (Real.Gamma y))) (demo_all : vw ℝ) ⟨1, 0.1, 0.1, 1, 0.001, mb, lda_math_mode.USE_PRECISE⟩).row w = 4 * w := by
    unfold lda.row
    have : (lda_setup (kernels_of Real.exp Real.log (fun x p => x ^ p)
      (deriv (fun y => Real.log (Real.Gamma y))) (fun y => Real.log (Real.Gamma y))) (demo_all : vw ℝ) ⟨1, 0.1, 0.1, 1, 0.001, mb, lda_math_mode.USE_PRECISE⟩).all.stride_shift = 2 := h3
    rw [this, Nat.shiftLeft_eq]
    omega
  have hD : (lda_setup (kernels_of Real.exp Real.log (fun x p => x ^ p)
      (deriv (fun y => Real.log (Real.Gamma y))) (fun y => Real.log (Real.Gamma y))) (demo_all : vw ℝ) ⟨1, 0.1, 0.1, 1, 0.001, mb, lda_math_mode.USE_PRECISE⟩).lda_D = 1 := s17
  have hi : (lda_setup (kernels_of Real.exp Real.log (fun x p => x ^ p)
      (deriv (fun y => Real.log (Real.Gamma y))) (fun y => Real.log (Real.Gamma y))) (demo_all : vw ℝ) ⟨1, 0.1, 0.1, 1, 0.001, mb, lda_math_mode.USE_PRECISE⟩).all.initial_t = 0 := s7
  obtain ⟨t1, t2⟩ := save_load_read_cells (kernels_of Real.exp Real.log (fun x p => x ^ p)
      (deriv (fun y => Real.log (Real.Gamma y))) (fun y => Real.log (Real.Gamma y))) (fun _ => 1) (lda_setup (kernels_of Real.exp Real.log (fun x p => x ^ p)
      (deriv (fun y => Real.log (Real.Gamma y))) (fun y => Real.log (Real.Gamma y))) (demo_all : vw ℝ) ⟨1, 0.1, 0.1, 1, 0.001, mb, lda_math_mode.USE_PRECISE⟩)
    hs s9 w (by rw [hlen]; exact hw)
  have t3 := t2 0 (by rw [hK]; exact Nat.zero_lt_one)
  rw [hrow, hK, hlen, hD] at t3
  rw [hrow, hK, hi] at t1
  refine ⟨?_, t1⟩
  have : (lda_start (kernels_of Real.exp Real.log (fun x p => x ^ p)
      (deriv (fun y => Real.log (Real.Gamma y))) (fun y => Real.log (Real.Gamma y))) (fun _ => 1) (demo_all : vw ℝ) ⟨1, 0.1, 0.1, 1, 0.001, mb, lda_math_mode.USE_PRECISE⟩).all.weight_vector (4 * w)
      = (-Real.log 1 + 1) * ((1 : ℝ) / ((1 : Nat) : ℝ) / ((2 : Nat) : ℝ) * 200) := t3
  rw [this, Real.log_one]
  norm_num

/-- The learner after one minibatch holding the word `0`, from the start of the small
learner with `minibatch = 1`: row 1 was not touched, holds `lambda = 100` and has the
factor `1/2` pending. -/
theorem demo_after_one (l : lda ℝ)
    (hl : run_calls (kernels_of Real.exp Real.log (fun x p => x ^ p)
      (deriv (fun y => Real.log (Real.Gamma y))) (fun y => Real.log (Real.Gamma y))) 2
      (lda_start (kernels_of Real.exp Real.log (fun x p => x ^ p)
      (deriv (fun y => Real.log (Real.Gamma y))) (fun y => Real.log (Real.Gamma y))) (fun _ => 1) (demo_all : vw ℝ)
        ⟨1, 0.1, 0.1, 1, 0.001, 1, lda_math_mode.USE_PRECISE⟩)
      [lda_call.learn demo_doc] = some l) :
    l.all.lda = 1 ∧ l.all.length = 2 ∧ l.stride = 4 ∧ l.lambda 1 0 = 100 ∧
      l.end_decay (kernels_of Real.exp Real.log (fun x p => x ^ p)
      (deriv (fun y => Real.log (Real.Gamma y))) (fun y => Real.log (Real.Gamma y))) 1 = 1 / 2 := by
  obtain ⟨hcfg, s1, s3, s4, s8, s6, s10, s11, s12, s13, s14, s15, sW⟩ := demo_start_facts 1
  generalize hst : lda_start (kernels_of Real.exp Real.log (fun x p => x ^ p)
      (deriv (fun y => Real.log (Real.Gamma y))) (fun y => Real.log (Real.Gamma y))) (fun _ => 1) (demo_all : vw ℝ)
    ⟨1, 0.1, 0.1, 1, 0.001, 1, lda_math_mode.USE_PRECISE⟩ = st at *
  have hlearn : learn (kernels_of Real.exp Real.log (fun x p => x ^ p)
      (deriv (fun y => Real.log (Real.Gamma y))) (fun y => Real.log (Real.Gamma y))) 2 st demo_doc = some l := run_calls_single _ _ _ _ _ hl
  obtain ⟨p1, p2, p3⟩ := learn_push_fields st (demo_doc : Example ℝ)
  obtain ⟨q1, q2, q3, _, _, q6, q7, _⟩ := p3
  unfold learn at hlearn
  simp only [] at hlearn
  rw [s14, s11] at hlearn
  simp only [List.length_nil, Nat.zero_add, if_true] at hlearn
  have hsf : (learn_push st demo_doc).sorted_features = [⟨0, ⟨1, 0⟩⟩] := by
    rw [p2, s15, s14]
    rfl
  have hne : (learn_push st demo_doc).sorted_features ≠ [] := by rw [hsf]; simp
  have c1 : (learn_push st demo_doc).config_ok := config_ok_congr st _ q1 q2 hcfg
  have hlen : st.all.length = 2 := by unfold vw.length; rw [s4]; rfl
  have hstride : st.stride = 4 := by unfold lda.stride; rw [s3]; rfl
  have hrow1 : st.row 1 = 4 := by unfold lda.row; rw [s3]; rfl
  have c5 : ∀ s ∈ (learn_push st demo_doc).sorted_features,
      (learn_push st demo_doc).within_mask s.f.weight_index := by
    intro s hs
    rw [hsf, List.mem_singleton] at hs
    subst hs
    rw [within_mask_congr st _ (by rw [q1]) (by rw [q1])]
    exact ⟨0, by rw [hlen]; decide, by unfold lda.row; simp⟩
  obtain ⟨e1, _, e3, e4, _⟩ := learn_batch_frame _ _ _ _ hlearn
  obtain ⟨d1, d2⟩ := learn_batch_bookkeeping _ _ _ _ hne hlearn
  obtain ⟨_, hU⟩ := learn_batch_rows _ _ _ _ hne c1 c5 hlearn 1 (by rw [q1, hlen]; decide)
  have hbrow : (learn_push st demo_doc).row 1 = 4 := by unfold lda.row; rw [q1]; exact hrow1
  have hlrow : l.row 1 = 4 := by unfold lda.row; rw [e3, q1]; exact hrow1
  obtain ⟨hsame, _, _⟩ := hU (by
    intro s hs
    rw [hsf, List.mem_singleton] at hs
    subst hs
    rw [hbrow]
    decide)
  rw [hbrow] at hsame
  have hbstride : (learn_push st demo_doc).stride = 4 := by unfold lda.stride; rw [q1]; exact hstride
  rw [hbstride, q1] at hsame
  obtain ⟨hstW4, hstW5⟩ := sW 1 (by decide)
  have hlam : l.lambda 1 0 = 100 := by
    show l.all.weight_vector (l.row 1 + 0) = 100
    rw [hlrow, hsame 4 (by omega) (by omega)]
    exact hstW4
  have hK : l.all.lda = 1 := by rw [e1, q1]; exact s1
  have hlt : l.t_last 1 = 0 := by
    show l.all.weight_vector (l.row 1 + l.all.lda) = 0
    rw [hlrow, hK, hsame 5 (by omega) (by omega)]
    exact hstW5
  have hmu : (learn_push st demo_doc).mu (kernels_of Real.exp Real.log (fun x p => x ^ p)
      (deriv (fun y => Real.log (Real.Gamma y))) (fun y => Real.log (Real.Gamma y))) = 1 / 2 := by
    have : (learn_push st demo_doc).mu (kernels_of Real.exp Real.log (fun x p => x ^ p)
      (deriv (fun y => Real.log (Real.Gamma y))) (fun y => Real.log (Real.Gamma y)))
        = 1 - (learn_push st demo_doc).all.eta
          * ldamath.powf (kernels_of Real.exp Real.log (fun x p => x ^ p)
      (deriv (fun y => Real.log (Real.Gamma y))) (fun y => Real.log (Real.Gamma y))) (learn_push st demo_doc).mmode
              ((learn_push st demo_doc).example_t + 1) (-(learn_push st demo_doc).all.power_t) := rfl
    rw [this, q3, s10, q1, q7, s8, s6, s13]
    show 1 - (1 / 2 : ℝ) * ((0 : ℝ) + 1) ^ (-(0 : ℝ)) = 1 / 2
    rw [neg_zero, Real.rpow_zero]
    norm_num
  have hdl : l.decay_levels = ((v_array.init : v_array ℝ).push_back 0).push_back (0 + Real.log (1 / 2)) := by
    rw [d1, q6, s12, hmu, push_back_last]
    rfl
  have hdecay : l.end_decay (kernels_of Real.exp Real.log (fun x p => x ^ p)
      (deriv (fun y => Real.log (Real.Gamma y))) (fun y => Real.log (Real.Gamma y))) 1 = 1 / 2 := by
    unfold lda.end_decay lda.level_of_row
    rw [hlt, d2, q7, s13, hdl, push_back_last]
    have hidx : to_int (-1 - ((0 : ℝ) + 1) + 0) = -2 := by
      have : (-1 - ((0 : ℝ) + 1) + 0) = ((-2 : Int) : ℝ) := by norm_num
      rw [this, to_int_intCast]
    rw [hidx, push_back_end_index_two _ _ (by rw [push_back_size]; omega), push_back_last]
    show min 1 (Real.exp (0 + Real.log (1 / 2) - 0)) = 1 / 2
    rw [zero_add, sub_zero, Real.exp_log (by norm_num)]
    exact min_eq_right (by norm_num)
  refine ⟨hK, ?_, ?_, hlam, hdecay⟩
  · unfold vw.length; rw [e4, q1, s4]; rfl
  · unfold lda.stride; rw [e3, q1, s3]; rfl

/-- C4 (failing input): from the start of the small learner with `minibatch = 1`, one
document holding the word `0` is learned; row 1, never touched, holds `lambda = 100`
with the factor `1/2` pending.  The first `end_examples` brings it to `50`, and a
second call, instead of leaving it, multiplies it again and brings it to `25`. -/
theorem end_examples_twice_differs :
    ∃ l, run_calls (kernels_of Real.exp Real.log (fun x p => x ^ p)
      (deriv (fun y => Real.log (Real.Gamma y))) (fun y => Real.log (Real.Gamma y))) 2
      (lda_start (kernels_of Real.exp Real.log (fun x p => x ^ p)
      (deriv (fun y => Real.log (Real.Gamma y))) (fun y => Real.log (Real.Gamma y))) (fun _ => 1) (demo_all : vw ℝ)
        ⟨1, 0.1, 0.1, 1, 0.001, 1, lda_math_mode.USE_PRECISE⟩)
      [lda_call.learn demo_doc] = some l ∧
      l.lambda 1 0 = 100 ∧
      (end_examples (kernels_of Real.exp Real.log (fun x p => x ^ p)
      (deriv (fun y => Real.log (Real.Gamma y))) (fun y => Real.log (Real.Gamma y))) l).lambda 1 0 = 50 ∧
      (end_examples (kernels_of Real.exp Real.log (fun x p => x ^ p)
      (deriv (fun y => Real.log (Real.Gamma y))) (fun y => Real.log (Real.Gamma y))) (end_examples (kernels_of Real.exp Real.log (fun x p => x ^ p)
      (deriv (fun y => Real.log (Real.Gamma y))) (fun y => Real.log (Real.Gamma y))) l)).lambda 1 0 = 25 := by
  obtain ⟨l, hl⟩ := demo_start_returns 1 [lda_call.learn demo_doc]
    (by
      intro c hc
      rw [List.mem_singleton] at hc
      exact Or.inl hc)
  obtain ⟨hK, hlen, hstride, hlam, hdecay⟩ := demo_after_one l hl
  have hs : l.all.lda + 1 ≤ l.stride := by rw [hK, hstride]; decide
  obtain ⟨a1, _, _⟩ := end_examples_apply (kernels_of Real.exp Real.log (fun x p => x ^ p)
      (deriv (fun y => Real.log (Real.Gamma y))) (fun y => Real.log (Real.Gamma y))) l hs
  refine ⟨l, hl, hlam, ?_, ?_⟩
  · rw [a1 1 0 (by rw [hlen]; decide) (by rw [hK]; decide), hlam, hdecay]
    norm_num
  · rw [end_examples_twice (kernels_of Real.exp Real.log (fun x p => x ^ p)
      (deriv (fun y => Real.log (Real.Gamma y))) (fun y => Real.log (Real.Gamma y))) l hs 1 0 (by rw [hlen]; decide) (by rw [hK]; decide), hlam, hdecay]
    norm_num

end claim_idempotent_real

end LDA

namespace LDA

section loop_congr

variable {α : Type} [LinearOrderedField α] [FloorRing α] [float_cast α]

theorem lda_loop_body_table (m : math_kernels α) (l : lda α) (T : Nat → α) (v : Nat)
    (W : Nat → α) (ec : Example α) (st : loop_state α) :
    lda_loop_body m { l with all := { l.all with weight_vector := T } } v W ec st
      = lda_loop_body m l v W ec st := rfl

theorem lda_loop_rounds_table (m : math_kernels α) (l : lda α) (T : Nat → α) (v : Nat)
    (W : Nat → α) (ec : Example α) :
    ∀ (fuel : Nat) (st : loop_state α),
      lda_loop_rounds m { l with all := { l.all with weight_vector := T } } v W ec fuel st
        = lda_loop_rounds m l v W ec fuel st := by
  intro fuel
  induction fuel with
  | zero => intro st; rfl
  | succ n ih =>
    intro st
    rw [lda_loop_rounds, lda_loop_rounds]
    simp only []
    rw [lda_loop_body_table, ih]
    rfl

theorem theta_kl_table (m : math_kernels α) (l : lda α) (T : Nat → α) (E : v_array α)
    (gamma : Nat → α) :
    theta_kl m { l with all := { l.all with weight_vector := T } } E gamma = theta_kl m l E gamma :=
  rfl

/-- The per-document loop does not read the table of the learner it is given, only
the table `weights` handed to it. -/
theorem lda_loop_table (m : math_kernels α) (fuel : Nat) (l : lda α) (T : Nat → α)
    (E : v_array α) (v : Nat) (W : Nat → α) (ec : Example α) :
    lda_loop m fuel { l with all := { l.all with weight_vector := T } } E v W ec
      = lda_loop m fuel l E v W ec := by
  unfold lda_loop
  simp only []
  rw [lda_loop_rounds_table]
  rfl

theorem lda_loop_feature_congr (m : math_kernels α) (l : lda α) (W W' : Nat → α)
    (varr : Nat → α) (v : Nat) (st : (Nat → α) × α × α) (f : feature α)
    (h : ∀ k, k < l.topics → W ((f.weight_index &&& l.all.weight_mask) + l.topics + 1 + k)
      = W' ((f.weight_index &&& l.all.weight_mask) + l.topics + 1 + k)) :
    lda_loop_feature m l W varr v st f = lda_loop_feature m l W' varr v st f := by
  unfold lda_loop_feature find_cw
  simp only []
  rw [inner_product_congr l.topics _ (fun k => W' ((f.weight_index &&& l.all.weight_mask)
    + l.topics + 1 + k)) _ 0 (fun j hj => h j hj)]
  congr 1
  apply for_loop_congr
  intro k hk g
  rw [h k hk]

theorem lda_loop_features_congr (m : math_kernels α) (l : lda α) (W W' : Nat → α)
    (varr : Nat → α) (v : Nat) :
    ∀ (fs : List (feature α)) (st : (Nat → α) × α × α),
      (∀ f ∈ fs, ∀ k, k < l.topics → W ((f.weight_index &&& l.all.weight_mask) + l.topics + 1 + k)
        = W' ((f.weight_index &&& l.all.weight_mask) + l.topics + 1 + k)) →
      fs.foldl (lda_loop_feature m l W varr v) st = fs.foldl (lda_loop_feature m l W' varr v) st := by
  intro fs
  induction fs with
  | nil => intro st _; rfl
  | cons f rest ih =>
    intro st h
    rw [List.foldl_cons, List.foldl_cons,
      lda_loop_feature_congr m l W W' varr v st f (h f (List.mem_cons_self _ _))]
    exact ih _ (fun f' hf' => h f' (List.mem_cons_of_mem _ hf'))

theorem lda_loop_body_congr (m : math_kernels α) (l : lda α) (v : Nat) (W W' : Nat → α)
    (ec : Example α) (st : loop_state α)
    (h : ∀ f ∈ ec.features, ∀ k, k < l.topics →
      W ((f.weight_index &&& l.all.weight_mask) + l.topics + 1 + k)
        = W' ((f.weight_index &&& l.all.weight_mask) + l.topics + 1 + k)) :
    lda_loop_body m l v W ec st = lda_loop_body m l v W' ec st := by
  unfold lda_loop_body
  simp only []
  rw [lda_loop_features_congr m l W W' _ v ec.features _ h]

theorem lda_loop_rounds_congr (m : math_kernels α) (l : lda α) (v : Nat) (W W' : Nat → α)
    (ec : Example α)
    (h : ∀ f ∈ ec.features, ∀ k, k < l.topics →
      W ((f.weight_index &&& l.all.weight_mask) + l.topics + 1 + k)
        = W' ((f.weight_index &&& l.all.weight_mask) + l.topics + 1 + k)) :
    ∀ (fuel : Nat) (st : loop_state α),
      lda_loop_rounds m l v W ec fuel st = lda_loop_rounds m l v W' ec fuel st := by
  intro fuel
  induction fuel with
  | zero => intro st; rfl
  | succ n ih =>
    intro st
    rw [lda_loop_rounds, lda_loop_rounds, lda_loop_body_congr m l v W W' ec st h]
    simp only [ih]

/-- The per-document loop reads the table only at the `u` slots of the features of
the document. -/
theorem lda_loop_congr (m : math_kernels α) (fuel : Nat) (l : lda α) (E : v_array α) (v : Nat)
    (W W' : Nat → α) (ec : Example α)
    (h : ∀ f ∈ ec.features, ∀ k, k < l.topics →
      W ((f.weight_index &&& l.all.weight_mask) + l.topics + 1 + k)
        = W' ((f.weight_index &&& l.all.weight_mask) + l.topics + 1 + k)) :
    lda_loop m fuel l E v W ec = lda_loop m fuel l E v W' ec := by
  unfold lda_loop
  simp only []
  rw [lda_loop_rounds_congr m l v W W' ec h]

/-- The loop over the documents, run by a learner that differs in its table and on a
table that agrees on the `u` slots of the features of the documents. -/
theorem learn_batch_docs_congr (m : math_kernels α) (fuel : Nat) (W W' : Nat → α) (T : Nat → α) :
    ∀ (exs : List (Example α)) (d : Nat) (l : lda α),
      (∀ ec ∈ exs, ∀ f ∈ ec.features, ∀ k, k < l.topics →
        W ((f.weight_index &&& l.all.weight_mask) + l.topics + 1 + k)
          = W' ((f.weight_index &&& l.all.weight_mask) + l.topics + 1 + k)) →
      learn_batch_docs m fuel W' d exs { l with all := { l.all with weight_vector := T } }
        = (learn_batch_docs m fuel W d exs l).map
            (fun r => { r with all := { r.all with weight_vector := T } }) := by
  intro exs
  induction exs with
  | nil => intro d l _; rfl
  | cons ec rest ih =>
    intro d l h
    rw [learn_batch_docs, learn_batch_docs]
    rw [lda_loop_table, ← lda_loop_congr m fuel l l.Elogtheta (d * l.all.lda) W W' ec
      (h ec (List.mem_cons_self _ _))]
    cases hr : lda_loop m fuel l l.Elogtheta (d * l.all.lda) W ec with
    | none => rfl
    | some r =>
      by_cases hd : l.doc_lengths.data d > 0
      · have := ih (d + 1)
          { l with
            v := r.varr, Elogtheta := r.Elogtheta,
            all := return_simple_example
              { l.all with sum_loss := l.all.sum_loss - r.score,
                           sum_loss_since_last_dump := l.all.sum_loss_since_last_dump - r.score } r.ec }
          (fun ec' hec' => h ec' (List.mem_cons_of_mem _ hec'))
        simp only [hd, if_true]
        exact this
      · have := ih (d + 1)
          { l with
            v := r.varr, Elogtheta := r.Elogtheta,
            all := return_simple_example l.all r.ec }
          (fun ec' hec' => h ec' (List.mem_cons_of_mem _ hec'))
        simp only [hd, if_false]
        exact this

end loop_congr

end LDA

namespace LDA

section eager_first

variable {α : Type} [LinearOrderedField α] [FloorRing α] [float_cast α]

/-- A loop that writes cell `u + k` from cell `b + k`, the cells `b + k` lying before
the cells `u + k`. -/
theorem for_loop_copy (b u : Nat) (rho : α) (W : Nat → α) :
    ∀ n, b + n ≤ u → ∀ i,
      for_loop n (fun k a => store a (u + k) (a (b + k) + rho)) W i
        = if u ≤ i ∧ i < u + n then W (b + (i - u)) + rho else W i := by
  intro n
  induction n with
  | zero =>
    intro _ i
    rw [if_neg (by omega)]
    rfl
  | succ n ih =>
    intro hb i
    rw [for_loop_succ]
    by_cases hi : i = u + n
    · subst hi
      rw [store_same, ih (by omega), if_neg (by omega), if_pos (by omega)]
      congr 2
      omega
    · rw [store_ne _ _ hi, ih (by omega)]
      by_cases h1 : u ≤ i ∧ i < u + n
      · rw [if_pos h1, if_pos (by omega)]
      · rw [if_neg h1, if_neg (by omega)]

/-- The eager first pass on one row leaves every cell but the `u` slots of the row. -/
theorem eager_first_pass_row_frame (m : math_kernels α) (l : lda α) (W : Nat → α)
    (s : index_feature α) (i : Nat)
    (hi : i < (s.f.weight_index &&& l.all.weight_mask) + l.all.lda + 1 ∨
      (s.f.weight_index &&& l.all.weight_mask) + l.all.lda + 1 + l.all.lda ≤ i) :
    eager_first_pass_row m l W s i = W i := by
  unfold eager_first_pass_row
  rw [expdigammify_2_frame _ _ _ _ _ _ _ (by omega), for_loop_copy _ _ _ _ _ (by omega),
    if_neg (by omega)]

/-- The `u` slots computed by the eager first pass on one row only depend on the
`lambda` slots of the row. -/
theorem eager_first_pass_row_congr (m : math_kernels α) (l : lda α) (W W' : Nat → α)
    (s : index_feature α)
    (h : ∀ k, k < l.all.lda → W ((s.f.weight_index &&& l.all.weight_mask) + k)
      = W' ((s.f.weight_index &&& l.all.weight_mask) + k)) :
    ∀ i, (s.f.weight_index &&& l.all.weight_mask) + l.all.lda + 1 ≤ i →
      i < (s.f.weight_index &&& l.all.weight_mask) + l.all.lda + 1 + l.all.lda →
      eager_first_pass_row m l W s i = eager_first_pass_row m l W' s i := by
  intro i h1 h2
  unfold eager_first_pass_row
  apply expdigammify_2_congr m l l _ _ _ _ _ rfl rfl _ i h1 h2
  intro j hj1 hj2
  rw [for_loop_copy _ _ _ _ _ (by omega), for_loop_copy _ _ _ _ _ (by omega),
    if_pos (by omega), if_pos (by omega), h _ (by omega)]

/-- The eager first pass on one row only depends on the row of the entry. -/
theorem eager_first_pass_row_index (m : math_kernels α) (l : lda α) (W : Nat → α)
    (s s' : index_feature α) (h : s.f.weight_index = s'.f.weight_index) :
    eager_first_pass_row m l W s = eager_first_pass_row m l W s' := by
  unfold eager_first_pass_row
  rw [h]

/-- The table left by the eager first pass: the `u` slots of the rows of the entries
are computed from the `lambda` slots, every other cell is left alone. -/
theorem eager_first_pass_apply (m : math_kernels α) (l : lda α) (ok : Nat → Prop)
    (hdisj : l.rows_apart ok) :
    ∀ (feats : List (index_feature α)) (W : Nat → α), (∀ s ∈ feats, ok s.f.weight_index) →
      (∀ i, (∀ s ∈ feats, ¬ ((s.f.weight_index &&& l.all.weight_mask) + l.all.lda + 1 ≤ i ∧
          i < (s.f.weight_index &&& l.all.weight_mask) + l.all.lda + 1 + l.all.lda)) →
        eager_first_pass m l W feats i = W i) ∧
      (∀ s ∈ feats, ∀ i, (s.f.weight_index &&& l.all.weight_mask) + l.all.lda + 1 ≤ i →
        i < (s.f.weight_index &&& l.all.weight_mask) + l.all.lda + 1 + l.all.lda →
        eager_first_pass m l W feats i = eager_first_pass_row m l W s i) := by
  intro feats
  induction feats with
  | nil =>
    intro W _
    exact ⟨fun i _ => rfl, fun s hs => absurd hs (List.not_mem_nil s)⟩
  | cons s0 rest ih =>
    intro W hok
    have hstep : eager_first_pass m l W (s0 :: rest)
        = eager_first_pass m l (eager_first_pass_row m l W s0) rest := rfl
    obtain ⟨ih1, ih2⟩ := ih (eager_first_pass_row m l W s0)
      (fun s hs => hok s (List.mem_cons_of_mem _ hs))
    have hrest : ∀ s' ∈ rest, ∀ i,
        (s'.f.weight_index &&& l.all.weight_mask) + l.all.lda + 1 ≤ i →
        i < (s'.f.weight_index &&& l.all.weight_mask) + l.all.lda + 1 + l.all.lda →
        eager_first_pass m l W (s0 :: rest) i = eager_first_pass_row m l W s' i := by
      intro s' hs' i h1 h2
      rw [hstep, ih2 s' hs' i h1 h2]
      apply eager_first_pass_row_congr m l _ _ s' _ i h1 h2
      intro k hk
      apply eager_first_pass_row_frame
      by_cases hidx : s'.f.weight_index = s0.f.weight_index
      · rw [hidx]; omega
      · have := hdisj _ _ (hok s' (List.mem_cons_of_mem _ hs')) (hok s0 (List.mem_cons_self _ _))
          hidx ((s'.f.weight_index &&& l.all.weight_mask) + k) (by omega) (by omega)
        omega
    refine ⟨fun i hi => ?_, fun s hs i h1 h2 => ?_⟩
    · rw [hstep, ih1 i (fun s hs => hi s (List.mem_cons_of_mem _ hs))]
      apply eager_first_pass_row_frame
      have := hi s0 (List.mem_cons_self _ _)
      omega
    · by_cases hex : ∃ s' ∈ rest,
          (s'.f.weight_index &&& l.all.weight_mask) + l.all.lda + 1 ≤ i ∧
          i < (s'.f.weight_index &&& l.all.weight_mask) + l.all.lda + 1 + l.all.lda
      · obtain ⟨s', hs', g1, g2⟩ := hex
        rw [hrest s' hs' i g1 g2]
        have hidx : s'.f.weight_index = s.f.weight_index := by
          by_contra hne
          have := hdisj _ _ (hok s' (List.mem_cons_of_mem _ hs')) (hok s hs) hne i
            (by omega) (by omega)
          omega
        rw [eager_first_pass_row_index m l W s' s hidx]
      · have hs0 : s = s0 := by
          rcases List.mem_cons.mp hs with h | h
          · exact h
          · exact absurd ⟨s, h, h1, h2⟩ hex
        subst hs0
        rw [hstep, ih1 i (fun s' hs' hh => hex ⟨s', hs', hh⟩)]

end eager_first

end LDA

namespace LDA

section eager_second

variable {α : Type} [LinearOrderedField α] [FloorRing α] [float_cast α]

/-- The column sums of lines 715–723 only read the `lambda` slots, and only when
`total_lambda` is still empty. -/
theorem learn_batch_total_lambda_congr (l : lda α) (T : Nat → α)
    (h : l.total_lambda.size = 0 → ∀ j k, j < l.all.weight_mask / (1 <<< l.all.stride_shift) + 1 →
      k < l.all.lda →
      T (j * (1 <<< l.all.stride_shift) + k)
        = l.all.weight_vector (j * (1 <<< l.all.stride_shift) + k)) :
    learn_batch_total_lambda { l with all := { l.all with weight_vector := T } }
      = learn_batch_total_lambda l := by
  unfold learn_batch_total_lambda
  by_cases h0 : l.total_lambda.size = 0
  · rw [if_pos h0, if_pos h0]
    simp only []
    apply for_loop_congr
    intro j hj t
    apply for_loop_congr
    intro k hk t1
    rw [h h0 j k hj hk]
  · rw [if_neg h0, if_neg h0]

/-- The number of rows summed by lines 718–722 is the number of rows of the table. -/
theorem rows_of_mask (l : lda α) (hc : l.config_ok) :
    l.all.weight_mask / (1 <<< l.all.stride_shift) + 1 = l.all.length := by
  have hs := stride_pos l
  have hlen : 0 < l.all.length := by
    unfold vw.length
    rw [Nat.shiftLeft_eq, one_mul]
    exact Nat.pow_pos (by norm_num)
  have hm : l.all.weight_mask = l.all.length * l.stride - 1 := by
    rw [hc.2.2, Nat.shiftLeft_eq]
    unfold lda.stride
    rw [Nat.shiftLeft_eq, one_mul]
  show l.all.weight_mask / l.stride + 1 = l.all.length
  rw [hm]
  have h1 : l.all.length * l.stride - 1 = (l.all.length - 1) * l.stride + (l.stride - 1) := by
    have : l.all.length = (l.all.length - 1) + 1 := by omega
    conv_lhs => rw [this, Nat.add_mul, one_mul]
    omega
  rw [h1, Nat.add_comm ((l.all.length - 1) * l.stride), Nat.add_mul_div_right _ _ hs,
    Nat.div_eq_of_lt (by omega)]
  omega

/-- The prologue of `learn_batch` for a learner that differs in its table, when the
column sums are the same. -/
theorem learn_batch_prologue_table (m : math_kernels α) (l : lda α) (T : Nat → α)
    (h : learn_batch_total_lambda { l with all := { l.all with weight_vector := T } }
      = learn_batch_total_lambda l) :
    learn_batch_prologue m { l with all := { l.all with weight_vector := T } }
      = { learn_batch_prologue m l with
          all := { (learn_batch_prologue m l).all with weight_vector := T } } := by
  unfold learn_batch_prologue
  simp only []
  rw [h]
  rfl

/-- The eager shrink of the first `n` rows. -/
theorem eager_decay_rows (l : lda α) (hs : l.all.lda ≤ l.stride) (mu : α) (W : Nat → α) :
    ∀ n,
      (∀ w k, w < n → k < l.all.lda →
        for_loop n (fun w W0 =>
          for_loop l.all.lda (fun k a => store a (l.row w + k) (mu * a (l.row w + k))) W0) W
          (l.row w + k) = mu * W (l.row w + k)) ∧
      (∀ i, (∀ w, w < n → ¬ (l.row w ≤ i ∧ i < l.row w + l.all.lda)) →
        for_loop n (fun w W0 =>
          for_loop l.all.lda (fun k a => store a (l.row w + k) (mu * a (l.row w + k))) W0) W i
          = W i) := by
  intro n
  induction n with
  | zero => exact ⟨fun w k hw _ => by omega, fun i _ => rfl⟩
  | succ n ih =>
    obtain ⟨ih1, ih2⟩ := ih
    have hrow : ∀ (W0 : Nat → α) (w i : Nat),
        for_loop l.all.lda (fun k a => store a (l.row w + k) (mu * a (l.row w + k))) W0 i
          = if l.row w ≤ i ∧ i < l.row w + l.all.lda then mu * W0 i else W0 i :=
      fun W0 w i => for_loop_store_cell (fun _ x => mu * x) _ _ W0 i
    refine ⟨fun w k hw hk => ?_, fun i hi => ?_⟩
    · rw [for_loop_succ, hrow]
      by_cases hwn : w = n
      · subst hwn
        rw [if_pos (by omega)]
        congr 1
        apply ih2
        intro w' hw' hh
        have := row_lt l w' w hw'
        omega
      · have hlt : w < n := by omega
        have := row_lt l w n hlt
        rw [if_neg (by omega)]
        exact ih1 w k hlt hk
    · rw [for_loop_succ, hrow, if_neg (hi n (Nat.lt_succ_self n))]
      exact ih2 i (fun w hw => hi w (by omega))

/-- The eager shrink: the `lambda` slots of every row are multiplied by `mu`, no
other cell is written. -/
theorem eager_decay_all_apply (l : lda α) (hs : l.all.lda ≤ l.stride) (mu : α) (W : Nat → α) :
    (∀ w k, w < l.all.length → k < l.all.lda →
      eager_decay_all l mu W (l.row w + k) = mu * W (l.row w + k)) ∧
    (∀ i, (∀ w, w < l.all.length → ¬ (l.row w ≤ i ∧ i < l.row w + l.all.lda)) →
      eager_decay_all l mu W i = W i) :=
  eager_decay_rows l hs mu W l.all.length

/-- The amounts received by a cell do not depend on the order of the entries. -/
theorem gain_perm (l : lda α) (eta : α) (W : Nat → α) (es es' : List (index_feature α))
    (h : es.Perm es') (i : Nat) : gain l eta W es i = gain l eta W es' i := by
  unfold gain
  exact ((h.filter _).map _).sum_eq

theorem v_array_ext (a b : v_array α) (hd : ∀ k, a.data k = b.data k) (hs : a.size = b.size) :
    a = b := by
  cases a with
  | mk da sa =>
    cases b with
    | mk db sb =>
      have : da = db := funext hd
      simp only [] at hs
      subst this
      subst hs
      rfl

end eager_second

end LDA

namespace LDA

section agree_first

variable {α : Type} [LinearOrderedField α] [FloorRing α] [float_cast α]

/-- The eager first pass does not read the table of the learner it is given. -/
theorem eager_first_pass_table (m : math_kernels α) (l : lda α) (T W : Nat → α)
    (feats : List (index_feature α)) :
    eager_first_pass m { l with all := { l.all with weight_vector := T } } W feats
      = eager_first_pass m l W feats := rfl

/-- On the `u` slots of its row, the first pass of `learn_batch` computes what the
eager first pass computes from a table whose `lambda` slots are already decayed. -/
theorem first_pass_row_u_eager (m : math_kernels α) (l : lda α) (W T : Nat → α)
    (s : index_feature α)
    (h : ∀ k, k < l.all.lda → T ((s.f.weight_index &&& l.all.weight_mask) + k)
      = W ((s.f.weight_index &&& l.all.weight_mask) + k)
        * first_pass_decay m l W (s.f.weight_index &&& l.all.weight_mask)) :
    ∀ i, (s.f.weight_index &&& l.all.weight_mask) + l.all.lda + 1 ≤ i →
      i < (s.f.weight_index &&& l.all.weight_mask) + l.all.lda + 1 + l.all.lda →
      first_pass_row m l W s i = eager_first_pass_row m l T s i := by
  intro i h1 h2
  unfold first_pass_row eager_first_pass_row
  apply expdigammify_2_congr m l l _ _ _ _ _ rfl rfl _ i h1 h2
  intro j hj1 hj2
  rw [first_pass_inner _ _ _ _ _ _ (le_refl _), if_neg (by omega), if_pos (by omega),
    for_loop_copy _ _ _ _ _ (by omega), if_pos (by omega), store_ne _ _ (by omega)]
  have e1 : j - (l.all.lda + 1) = (s.f.weight_index &&& l.all.weight_mask)
      + (j - ((s.f.weight_index &&& l.all.weight_mask) + l.all.lda + 1)) := by omega
  rw [e1, h _ (by omega)]
  rfl

end agree_first

section agree_first_real

/-- The tables that the two schemes hand to the per-document loop agree on the `u`
slots of every row. -/
theorem first_pass_u_agree (m : math_kernels ℝ) (hexp : m.exp = Real.exp) (b : lda ℝ)
    (T : Nat → ℝ) (hc : b.config_ok) (hh : b.history_ok)
    (hmask : ∀ s ∈ b.sorted_features, b.within_mask s.f.weight_index)
    (hlam : ∀ w k, w < b.all.length → k < b.all.lda → T (b.row w + k) = b.effective m w k)
    (hu : ∀ w k, w < b.all.length → k < b.all.lda →
      T (b.row w + b.all.lda + 1 + k) = b.all.weight_vector (b.row w + b.all.lda + 1 + k))
    (w k : Nat) (hw : w < b.all.length) (hk : k < b.all.lda) :
    eager_first_pass m (learn_batch_prologue m b) T (learn_batch_prologue m b).sorted_features
        (b.row w + b.all.lda + 1 + k)
      = learn_batch_first_pass m b (b.row w + b.all.lda + 1 + k) := by
  have hperm := List.perm_insertionSort index_feature.le b.sorted_features
  have hps : (learn_batch_prologue m b).sorted_features
      = b.sorted_features.insertionSort index_feature.le := rfl
  have hdisj : (learn_batch_prologue m b).rows_apart b.within_mask := rows_apart_within_mask b hc
  have hok : ∀ s ∈ (learn_batch_prologue m b).sorted_features, b.within_mask s.f.weight_index := by
    intro s hs
    rw [hps] at hs
    exact hmask s (hperm.mem_iff.mp hs)
  obtain ⟨ea, eb⟩ := eager_first_pass_apply m (learn_batch_prologue m b) b.within_mask hdisj
    (learn_batch_prologue m b).sorted_features T hok
  obtain ⟨fa0, fb0⟩ := first_pass_table m b hc hmask
  have fa : ∀ s ∈ b.sorted_features, ∀ i, s.f.weight_index ≤ i →
      i < s.f.weight_index + 2 * b.all.lda + 1 →
      learn_batch_first_pass m b i
        = first_pass_row m (learn_batch_prologue m b) b.all.weight_vector s i := fa0
  have fb : ∀ i, (∀ s ∈ b.sorted_features,
        i < s.f.weight_index ∨ s.f.weight_index + 2 * b.all.lda + 1 ≤ i) →
      learn_batch_first_pass m b i = b.all.weight_vector i := fb0
  have hs := hc.2.1
  have hand : ∀ s ∈ b.sorted_features, s.f.weight_index &&& b.all.weight_mask = s.f.weight_index :=
    fun s hs => within_mask_and b hc _ (hmask s hs)
  by_cases htouched : ∃ s ∈ b.sorted_features, s.f.weight_index = b.row w
  · obtain ⟨s, hsm, hsw⟩ := htouched
    have hand' : s.f.weight_index &&& (learn_batch_prologue m b).all.weight_mask = b.row w := by
      show s.f.weight_index &&& b.all.weight_mask = b.row w
      rw [hand s hsm, hsw]
    have hK : (learn_batch_prologue m b).all.lda = b.all.lda := rfl
    rw [eb s (hperm.mem_iff.mpr hsm) _ (by rw [hand', hK]; omega) (by rw [hand', hK]; omega),
      fa s hsm _ (by rw [hsw]; omega) (by rw [hsw]; omega)]
    symm
    apply first_pass_row_u_eager m (learn_batch_prologue m b) b.all.weight_vector T s _ _
      (by rw [hand', hK]; omega) (by rw [hand', hK]; omega)
    intro j hj
    rw [hand', hlam w j hw hj, first_pass_decay_eq_pending m hexp b hh w hw]
    rfl
  · have hun : ∀ s ∈ b.sorted_features, s.f.weight_index ≠ b.row w :=
      fun s hs hh => htouched ⟨s, hs, hh⟩
    have hcell : ∀ s ∈ b.sorted_features, b.row w + b.all.lda + 1 + k < s.f.weight_index ∨
        s.f.weight_index + 2 * b.all.lda + 1 ≤ b.row w + b.all.lda + 1 + k := by
      intro s hsm
      obtain ⟨w', hw', hrow⟩ := hmask s hsm
      by_contra hcon
      have := row_of_cell b hc w w' (b.all.lda + 1 + k) (by omega) (by rw [← hrow]; omega)
      exact hun s hsm (by rw [hrow, this])
    rw [fb _ hcell, ea, hu w k hw hk]
    intro s hsm hh2
    have hsm' := hperm.mem_iff.mp (by rw [← hps]; exact hsm)
    have hand2 : s.f.weight_index &&& (learn_batch_prologue m b).all.weight_mask
        = s.f.weight_index := hand s hsm'
    have hK : (learn_batch_prologue m b).all.lda = b.all.lda := rfl
    rw [hand2, hK] at hh2
    have := hcell s hsm'
    omega

end agree_first_real

end LDA

namespace LDA

section unfoldings

variable {α : Type} [LinearOrderedField α] [FloorRing α] [float_cast α]

/-- The result of `learn_batch` on a non-empty minibatch, from the result of the loop
over the documents. -/
theorem learn_batch_of_docs (m : math_kernels α) (fuel : Nat) (l : lda α)
    (hne : l.sorted_features ≠ []) :
    learn_batch m fuel l
      = (learn_batch_docs m fuel (learn_batch_first_pass m l) 0 (learn_batch_prologue m l).examples
          { learn_batch_prologue m l with
            all := { (learn_batch_prologue m l).all with
              weight_vector := learn_batch_first_pass m l } }).map
        (fun l3 => learn_batch_epilogue
          { l3 with
            all := { l3.all with weight_vector :=
              (second_pass l3 (learn_batch_locals m l (l.example_t + 1)) l3.sorted_features
                ⟨l3.all.weight_vector, l3.total_new⟩).weights },
            total_new := (second_pass l3 (learn_batch_locals m l (l.example_t + 1))
                l3.sorted_features ⟨l3.all.weight_vector, l3.total_new⟩).total_new }
          (learn_batch_locals m l (l.example_t + 1)).minuseta) := by
  have hemp : l.sorted_features.isEmpty = false := by
    cases hs : l.sorted_features with
    | nil => exact absurd hs hne
    | cons a t => rfl
  unfold learn_batch
  rw [hemp]
  simp only [Bool.false_eq_true, if_false]
  unfold learn_batch_first_pass
  cases learn_batch_docs m fuel
      (first_pass m (learn_batch_prologue m l) none (learn_batch_prologue m l).all.weight_vector
        (learn_batch_prologue m l).sorted_features) 0 (learn_batch_prologue m l).examples
      { learn_batch_prologue m l with
        all := { (learn_batch_prologue m l).all with
          weight_vector := first_pass m (learn_batch_prologue m l) none
            (learn_batch_prologue m l).all.weight_vector
            (learn_batch_prologue m l).sorted_features } } with
  | none => rfl
  | some l3 => rfl

/-- The result of `eager_learn_batch` on a non-empty minibatch, from the result of
the loop over the documents. -/
theorem eager_learn_batch_of_docs (m : math_kernels α) (fuel : Nat) (l : lda α)
    (hne : l.sorted_features ≠ []) :
    eager_learn_batch m fuel l
      = (learn_batch_docs m fuel
          (eager_first_pass m (learn_batch_prologue m l) (learn_batch_prologue m l).all.weight_vector
            (learn_batch_prologue m l).sorted_features) 0 (learn_batch_prologue m l).examples
          { learn_batch_prologue m l with
            all := { (learn_batch_prologue m l).all with
              weight_vector := eager_first_pass m (learn_batch_prologue m l)
                (learn_batch_prologue m l).all.weight_vector
                (learn_batch_prologue m l).sorted_features } }).map
        (fun l3 => learn_batch_epilogue
          { l3 with
            all := { l3.all with weight_vector :=
              (eager_second_pass l3 (learn_batch_locals m l (l.example_t + 1)) l3.sorted_features
                ⟨l3.all.weight_vector, l3.total_new⟩).weights },
            total_new := (eager_second_pass l3 (learn_batch_locals m l (l.example_t + 1))
                l3.sorted_features ⟨l3.all.weight_vector, l3.total_new⟩).total_new }
          (learn_batch_locals m l (l.example_t + 1)).minuseta) := by
  have hemp : l.sorted_features.isEmpty = false := by
    cases hs : l.sorted_features with
    | nil => exact absurd hs hne
    | cons a t => rfl
  unfold eager_learn_batch
  rw [hemp]
  simp only [Bool.false_eq_true, if_false]
  cases learn_batch_docs m fuel
      (eager_first_pass m (learn_batch_prologue m l) (learn_batch_prologue m l).all.weight_vector
        (learn_batch_prologue m l).sorted_features) 0 (learn_batch_prologue m l).examples
      { learn_batch_prologue m l with
        all := { (learn_batch_prologue m l).all with
          weight_vector := eager_first_pass m (learn_batch_prologue m l)
            (learn_batch_prologue m l).all.weight_vector
            (learn_batch_prologue m l).sorted_features } } with
  | none => rfl
  | some l3 => rfl

/-- The eager second pass in closed form. -/
theorem eager_second_pass_apply (l : lda α) (hc : l.config_ok) (loc : batch_locals α)
    (feats : List (index_feature α)) (hok : ∀ s ∈ feats, l.within_mask s.f.weight_index)
    (st : pass_state α) :
    (∀ w k, w < l.all.length → k < l.all.lda →
      (eager_second_pass l loc feats st).weights (l.row w + k)
        = loc.minuseta * st.weights (l.row w + k) + gain l loc.eta st.weights feats (l.row w + k)) ∧
    (∀ w k, w < l.all.length → k < l.all.lda →
      (eager_second_pass l loc feats st).weights (l.row w + l.all.lda + 1 + k)
        = st.weights (l.row w + l.all.lda + 1 + k)) ∧
    (∀ k, (eager_second_pass l loc feats st).total_new.data k
      = if k < l.all.lda then
          st.total_new.data k + (feats.map (fun e => new_value l loc.eta st.weights e k)).sum
        else st.total_new.data k) ∧
    (eager_second_pass l loc feats st).total_new.size = st.total_new.size := by
  have hs := hc.2.1
  obtain ⟨d1, d2⟩ := eager_decay_all_apply l (by omega) loc.minuseta st.weights
  obtain ⟨g1, g2, f3⟩ := entries_fold l loc.eta l.within_mask (rows_apart_within_mask l hc) hc.1
    feats { st with weights := eager_decay_all l loc.minuseta st.weights } hok
  have f1 : ∀ i, (eager_second_pass l loc feats st).weights i
      = eager_decay_all l loc.minuseta st.weights i
        + gain l loc.eta (eager_decay_all l loc.minuseta st.weights) feats i := g1
  have f2 : ∀ k, (eager_second_pass l loc feats st).total_new.data k
      = if k < l.all.lda then
          st.total_new.data k + (feats.map (fun e =>
            new_value l loc.eta (eager_decay_all l loc.minuseta st.weights) e k)).sum
        else st.total_new.data k := g2
  have hucell : ∀ w k, w < l.all.length → k < l.all.lda →
      eager_decay_all l loc.minuseta st.weights (l.row w + l.all.lda + 1 + k)
        = st.weights (l.row w + l.all.lda + 1 + k) := by
    intro w k hw hk
    apply d2
    intro w' hw' hh
    have := not_lambda_cell l hc w w' (l.all.lda + 1 + k) (by omega) (by omega)
    apply this
    constructor <;> omega
  have hnv : ∀ e ∈ feats, ∀ k, k < l.all.lda →
      new_value l loc.eta (eager_decay_all l loc.minuseta st.weights) e k
        = new_value l loc.eta st.weights e k := by
    intro e he k hk
    apply new_value_congr l loc.eta _ _ e k hc.1 hk
    intro j hj
    have hand := within_mask_and l hc _ (hok e he)
    obtain ⟨w, hw, hrow⟩ := hok e he
    rw [hand, hrow]
    exact hucell w j hw hj
  refine ⟨fun w k hw hk => ?_, fun w k hw hk => ?_, fun k => ?_, f3⟩
  · rw [f1, d1 w k hw hk, gain_congr l loc.eta _ st.weights feats _ hnv]
  · rw [f1, hucell w k hw hk, gain_eq_zero, add_zero]
    intro e he hh
    have hand := within_mask_and l hc _ (hok e he)
    obtain ⟨w', hw', hrow⟩ := hok e he
    rw [hand, hrow] at hh
    exact not_lambda_cell l hc w w' (l.all.lda + 1 + k) (by omega) (by omega)
      ⟨by omega, by omega⟩
  · rw [f2 k]
    by_cases hk : k < l.all.lda
    · rw [if_pos hk, if_pos hk]
      congr 2
      exact List.map_congr_left (fun e he => hnv e he k hk)
    · rw [if_neg hk, if_neg hk]

end unfoldings

end LDA

namespace LDA

section batch_step

/-- One non-empty minibatch, processed by `learn_batch` on the learner `b` and by the
eager scheme on a learner that differs from `b` in its table `T` only: when the
`lambda` slots of `T` hold the effective values of `b` and the `u` slots are those
of `b`, both return or neither does, and the same holds of the results. -/
theorem batch_agrees (m : math_kernels ℝ) (hexp : m.exp = Real.exp) (hlog : m.log = Real.log)
    (fuel : Nat) (b : lda ℝ) (T : Nat → ℝ)
    (hne : b.sorted_features ≠ []) (hc : b.config_ok) (hh : b.history_ok)
    (hmask : ∀ s ∈ b.sorted_features, b.within_mask s.f.weight_index)
    (hdocs : ∀ ec ∈ b.examples, ∀ f ∈ ec.features, b.within_mask f.weight_index)
    (hmu : 0 < b.mu m)
    (hlam : ∀ w k, w < b.all.length → k < b.all.lda → T (b.row w + k) = b.effective m w k)
    (hu : ∀ w k, w < b.all.length → k < b.all.lda →
      T (b.row w + b.all.lda + 1 + k) = b.all.weight_vector (b.row w + b.all.lda + 1 + k))
    (h0 : b.total_lambda.size = 0 → ∀ w k, w < b.all.length → k < b.all.lda →
      T (b.row w + k) = b.all.weight_vector (b.row w + k)) :
    (learn_batch m fuel b = none ∧
      eager_learn_batch m fuel { b with all := { b.all with weight_vector := T } } = none) ∨
    ∃ b' e', learn_batch m fuel b = some b' ∧
      eager_learn_batch m fuel { b with all := { b.all with weight_vector := T } } = some e' ∧
      e' = { b' with all := { b'.all with weight_vector := e'.all.weight_vector } } ∧
      (∀ w k, w < b'.all.length → k < b'.all.lda → e'.lambda w k = b'.effective m w k) ∧
      (∀ w k, w < b'.all.length → k < b'.all.lda → e'.u w k = b'.u w k) := by
  have hs := hc.2.1
  have hTL : learn_batch_total_lambda { b with all := { b.all with weight_vector := T } }
      = learn_batch_total_lambda b := by
    apply learn_batch_total_lambda_congr
    intro hz j k hj hk
    rw [rows_of_mask b hc] at hj
    have := h0 hz j k hj hk
    rw [row_eq] at this
    exact this
  have hpro := learn_batch_prologue_table m b T hTL
  have hagree := first_pass_u_agree m hexp b T hc hh hmask hlam hu
  obtain ⟨ea, _⟩ := eager_first_pass_apply m (learn_batch_prologue m b) b.within_mask
    (rows_apart_within_mask b hc) (learn_batch_prologue m b).sorted_features T
    (fun s hs => hmask s ((List.perm_insertionSort index_feature.le b.sorted_features).mem_iff.mp hs))
  have hdc := learn_batch_docs_congr m fuel (learn_batch_first_pass m b)
    (eager_first_pass m (learn_batch_prologue m b) T (learn_batch_prologue m b).sorted_features)
    (eager_first_pass m (learn_batch_prologue m b) T (learn_batch_prologue m b).sorted_features)
    (learn_batch_prologue m b).examples 0
    { learn_batch_prologue m b with
      all := { (learn_batch_prologue m b).all with weight_vector := learn_batch_first_pass m b } }
    (by
      intro ec hec f hf k hk
      have hk' : k < b.all.lda := by
        have : b.topics = b.all.lda := hc.1
        rw [← this]
        exact hk
      have hand := within_mask_and b hc _ (hdocs ec hec f hf)
      obtain ⟨w, hw, hrow⟩ := hdocs ec hec f hf
      show learn_batch_first_pass m b ((f.weight_index &&& b.all.weight_mask) + b.topics + 1 + k)
        = eager_first_pass m (learn_batch_prologue m b) T (learn_batch_prologue m b).sorted_features
            ((f.weight_index &&& b.all.weight_mask) + b.topics + 1 + k)
      rw [hand, hrow, hc.1]
      exact (hagree w k hw hk').symm)
  have hE : eager_learn_batch m fuel { b with all := { b.all with weight_vector := T } }
      = (learn_batch_docs m fuel (learn_batch_first_pass m b) 0 (learn_batch_prologue m b).examples
          { learn_batch_prologue m b with
            all := { (learn_batch_prologue m b).all with
              weight_vector := learn_batch_first_pass m b } }).map
        (fun l3 => learn_batch_epilogue
          { l3 with
            all := { l3.all with weight_vector :=
              (eager_second_pass l3 (learn_batch_locals m b (b.example_t + 1)) l3.sorted_features
                ⟨eager_first_pass m (learn_batch_prologue m b) T
                  (learn_batch_prologue m b).sorted_features, l3.total_new⟩).weights },
            total_new := (eager_second_pass l3 (learn_batch_locals m b (b.example_t + 1))
                l3.sorted_features
                ⟨eager_first_pass m (learn_batch_prologue m b) T
                  (learn_batch_prologue m b).sorted_features, l3.total_new⟩).total_new }
          (learn_batch_locals m b (b.example_t + 1)).minuseta) := by
    have hneT : ({ b with all := { b.all with weight_vector := T } } : lda ℝ).sorted_features
        ≠ [] := hne
    rw [eager_learn_batch_of_docs m fuel _ hneT, hpro]
    refine (congrArg (Option.map _) hdc).trans ?_
    cases learn_batch_docs m fuel (learn_batch_first_pass m b) 0
        (learn_batch_prologue m b).examples
        { learn_batch_prologue m b with
          all := { (learn_batch_prologue m b).all with
            weight_vector := learn_batch_first_pass m b } } with
    | none => rfl
    | some l3 => rfl
  have hL := learn_batch_of_docs m fuel b hne
  cases hd : learn_batch_docs m fuel (learn_batch_first_pass m b) 0
      (learn_batch_prologue m b).examples
      { learn_batch_prologue m b with
        all := { (learn_batch_prologue m b).all with
          weight_vector := learn_batch_first_pass m b } } with
  | none =>
    left
    rw [hL, hE, hd]
    exact ⟨rfl, rfl⟩
  | some l3 =>
    right
    rw [hd] at hL hE
    simp only [Option.map_some'] at hL hE
    obtain ⟨v, E, sl, sd, ret, hl3⟩ := learn_batch_docs_frame m fuel _ _ _ _ _ hd
    have hperm := List.perm_insertionSort index_feature.le b.sorted_features
    have hsorted : (b.sorted_features.insertionSort index_feature.le).Sorted index_feature.le := by
      haveI : IsTotal (index_feature ℝ) index_feature.le := ⟨fun a b => Nat.le_total _ _⟩
      haveI : IsTrans (index_feature ℝ) index_feature.le := ⟨fun a b c => Nat.le_trans⟩
      exact List.sorted_insertionSort _ _
    have e_mask : l3.all.weight_mask = b.all.weight_mask := by rw [hl3]; rfl
    have e_lda : l3.all.lda = b.all.lda := by rw [hl3]; rfl
    have e_topics : l3.topics = b.topics := by rw [hl3]; rfl
    have e_ss : l3.all.stride_shift = b.all.stride_shift := by rw [hl3]; rfl
    have e_nb : l3.all.num_bits = b.all.num_bits := by rw [hl3]; rfl
    have e_sorted : l3.sorted_features = b.sorted_features.insertionSort index_feature.le := by
      rw [hl3]; rfl
    have e_W : l3.all.weight_vector = learn_batch_first_pass m b := by rw [hl3]
    have e_row : ∀ w, l3.row w = b.row w := by intro w; unfold lda.row; rw [e_ss]
    have e_len : l3.all.length = b.all.length := by unfold vw.length; rw [e_nb]
    have hc3 : l3.config_ok := by
      unfold lda.config_ok lda.stride vw.length
      rw [e_topics, e_lda, e_ss, e_mask, e_nb]
      exact hc
    have hwm3 : ∀ x, l3.within_mask x ↔ b.within_mask x :=
      fun x => within_mask_congr b l3 e_nb e_ss x
    have hok3 : ∀ s ∈ l3.sorted_features, l3.within_mask s.f.weight_index := by
      intro s hs
      rw [e_sorted] at hs
      exact (hwm3 _).mpr (hmask s (hperm.mem_iff.mp hs))
    -- closed forms of the two second passes
    obtain ⟨_, pt, psz⟩ := second_pass_sorted l3 (learn_batch_locals m b (b.example_t + 1))
      l3.within_mask (rows_apart_within_mask l3 hc3) hc3.1 l3.sorted_features.length
      l3.sorted_features ⟨l3.all.weight_vector, l3.total_new⟩ (le_refl _) hok3
      (by rw [e_sorted]; exact hsorted)
    obtain ⟨q1, q2, qt, qsz⟩ := eager_second_pass_apply l3 hc3
      (learn_batch_locals m b (b.example_t + 1)) l3.sorted_features hok3
      ⟨eager_first_pass m (learn_batch_prologue m b) T (learn_batch_prologue m b).sorted_features,
        l3.total_new⟩
    -- the amounts are the same in both schemes
    have hnv : ∀ e ∈ l3.sorted_features, ∀ k, k < l3.all.lda →
        new_value l3 (learn_batch_locals m b (b.example_t + 1)).eta
          (eager_first_pass m (learn_batch_prologue m b) T (learn_batch_prologue m b).sorted_features)
          e k
        = new_value l3 (learn_batch_locals m b (b.example_t + 1)).eta l3.all.weight_vector e k := by
      intro e he k hk
      apply new_value_congr l3 _ _ _ e k hc3.1 hk
      intro j hj
      have hand := within_mask_and l3 hc3 _ (hok3 e he)
      obtain ⟨w, hw, hrow⟩ := hok3 e he
      rw [hand, hrow, e_W, e_row, e_lda]
      exact hagree w j (by rw [← e_len]; exact hw) (by rw [← e_lda]; exact hj)
    have hA : (eager_second_pass l3 (learn_batch_locals m b (b.example_t + 1)) l3.sorted_features
          ⟨eager_first_pass m (learn_batch_prologue m b) T
            (learn_batch_prologue m b).sorted_features, l3.total_new⟩).total_new
        = (second_pass l3 (learn_batch_locals m b (b.example_t + 1)) l3.sorted_features
          ⟨l3.all.weight_vector, l3.total_new⟩).total_new := by
      apply v_array_ext
      · intro k
        rw [qt k, pt k]
        by_cases hk : k < l3.all.lda
        · rw [if_pos hk, if_pos hk]
          congr 2
          exact List.map_congr_left (fun e he => hnv e he k hk)
        · rw [if_neg hk, if_neg hk]
      · rw [qsz, psz]
    obtain ⟨b', hb'eq⟩ : ∃ b' : lda ℝ, b' = learn_batch_epilogue
        { l3 with
          all := { l3.all with weight_vector :=
            (second_pass l3 (learn_batch_locals m b (b.example_t + 1)) l3.sorted_features
              ⟨l3.all.weight_vector, l3.total_new⟩).weights },
          total_new := (second_pass l3 (learn_batch_locals m b (b.example_t + 1))
              l3.sorted_features ⟨l3.all.weight_vector, l3.total_new⟩).total_new }
        (learn_batch_locals m b (b.example_t + 1)).minuseta := ⟨_, rfl⟩
    rw [← hb'eq] at hL
    have b_len : b'.all.length = b.all.length := by rw [hb'eq]; exact e_len
    have b_lda : b'.all.lda = b.all.lda := by rw [hb'eq]; exact e_lda
    have b_row : ∀ w, b'.row w = b.row w := by intro w; rw [hb'eq]; exact e_row w
    have b_gain : ∀ (W : Nat → ℝ) (es : List (index_feature ℝ)) (i : Nat),
        gain b' (learn_batch_locals m b (b.example_t + 1)).eta W es i
          = gain l3 (learn_batch_locals m b (b.example_t + 1)).eta W es i := by
      intro W es i; rw [hb'eq]; rfl
    have hrows := fun w hw => learn_batch_rows m fuel b b' hne hc hmask hL w hw
    have heff := fun w hw k hk =>
      effective_after m hexp hlog fuel b b' hne hc hh hmask hmu hL w hw k hk
    refine ⟨b', _, hL, hE, ?_, ?_, ?_⟩
    · rw [hb'eq, hA]
      rfl
    · intro w k hw hk
      rw [b_len] at hw
      rw [b_lda] at hk
      rw [heff w hw k hk]
      have h1 : (learn_batch_epilogue
          { l3 with
            all := { l3.all with weight_vector :=
              (eager_second_pass l3 (learn_batch_locals m b (b.example_t + 1)) l3.sorted_features
                ⟨eager_first_pass m (learn_batch_prologue m b) T
                  (learn_batch_prologue m b).sorted_features, l3.total_new⟩).weights },
            total_new := (eager_second_pass l3 (learn_batch_locals m b (b.example_t + 1))
                l3.sorted_features
                ⟨eager_first_pass m (learn_batch_prologue m b) T
                  (learn_batch_prologue m b).sorted_features, l3.total_new⟩).total_new }
          (learn_batch_locals m b (b.example_t + 1)).minuseta).lambda w k
          = (eager_second_pass l3 (learn_batch_locals m b (b.example_t + 1)) l3.sorted_features
                ⟨eager_first_pass m (learn_batch_prologue m b) T
                  (learn_batch_prologue m b).sorted_features, l3.total_new⟩).weights
              (l3.row w + k) := rfl
      rw [h1, q1 w k (by rw [e_len]; exact hw) (by rw [e_lda]; exact hk)]
      show (learn_batch_locals m b (b.example_t + 1)).minuseta
          * eager_first_pass m (learn_batch_prologue m b) T
              (learn_batch_prologue m b).sorted_features (l3.row w + k)
          + gain l3 (learn_batch_locals m b (b.example_t + 1)).eta
              (eager_first_pass m (learn_batch_prologue m b) T
                (learn_batch_prologue m b).sorted_features) l3.sorted_features (l3.row w + k)
        = b.mu m * b.effective m w k
          + gain b' (learn_batch_locals m b (b.example_t + 1)).eta (learn_batch_first_pass m b)
              b.sorted_features (b.row w + k)
      have hcell : eager_first_pass m (learn_batch_prologue m b) T
          (learn_batch_prologue m b).sorted_features (b.row w + k) = T (b.row w + k) := by
        apply ea
        intro s hsm hh2
        have hsm' : s ∈ b.sorted_features := hperm.mem_iff.mp hsm
        have hand2 : s.f.weight_index &&& (learn_batch_prologue m b).all.weight_mask
            = s.f.weight_index := within_mask_and b hc _ (hmask s hsm')
        have hK : (learn_batch_prologue m b).all.lda = b.all.lda := rfl
        rw [hand2, hK] at hh2
        obtain ⟨w', hw2, hrow⟩ := hmask s hsm'
        rw [hrow] at hh2
        have := row_of_cell b hc w w' k (by omega) (by omega)
        subst this
        omega
      rw [e_row, hcell, hlam w k hw hk, b_gain]
      congr 1
      rw [gain_perm l3 _ (learn_batch_first_pass m b) b.sorted_features l3.sorted_features
        (by rw [e_sorted]; exact hperm.symm)]
      apply gain_congr
      intro e he j hj
      rw [hnv e he j hj, e_W]
    · intro w k hw hk
      rw [b_len] at hw
      rw [b_lda] at hk
      have h1 : (learn_batch_epilogue
          { l3 with
            all := { l3.all with weight_vector :=
              (eager_second_pass l3 (learn_batch_locals m b (b.example_t + 1)) l3.sorted_features
                ⟨eager_first_pass m (learn_batch_prologue m b) T
                  (learn_batch_prologue m b).sorted_features, l3.total_new⟩).weights },
            total_new := (eager_second_pass l3 (learn_batch_locals m b (b.example_t + 1))
                l3.sorted_features
                ⟨eager_first_pass m (learn_batch_prologue m b) T
                  (learn_batch_prologue m b).sorted_features, l3.total_new⟩).total_new }
          (learn_batch_locals m b (b.example_t + 1)).minuseta).u w k
          = (eager_second_pass l3 (learn_batch_locals m b (b.example_t + 1)) l3.sorted_features
                ⟨eager_first_pass m (learn_batch_prologue m b) T
                  (learn_batch_prologue m b).sorted_features, l3.total_new⟩).weights
              (l3.row w + l3.all.lda + 1 + k) := rfl
      rw [h1, q2 w k (by rw [e_len]; exact hw) (by rw [e_lda]; exact hk)]
      show eager_first_pass m (learn_batch_prologue m b) T
          (learn_batch_prologue m b).sorted_features (l3.row w + l3.all.lda + 1 + k) = _
      rw [e_row, e_lda, hagree w k hw hk]
      obtain ⟨hT, hU⟩ := hrows w hw
      by_cases htouched : ∃ s ∈ b.sorted_features, s.f.weight_index = b.row w
      · exact ((hT htouched).2.2 k hk).symm
      · have hun : ∀ s ∈ b.sorted_features, s.f.weight_index ≠ b.row w :=
          fun s hs hh => htouched ⟨s, hs, hh⟩
        obtain ⟨hsame, hfirst, _⟩ := hU hun
        rw [hfirst _ (by omega) (by omega)]
        show _ = b'.all.weight_vector (b'.row w + b'.all.lda + 1 + k)
        rw [b_row, b_lda]
        exact (hsame (b.row w + b.all.lda + 1 + k) (by omega) (by omega)).symm

end batch_step


end LDA

namespace LDA

section pushes

variable {α : Type} [LinearOrderedField α] [FloorRing α] [float_cast α]

theorem learn_push_fold_table (num_ex : Nat) (T : Nat → α) :
    ∀ (fs : List (feature α)) (l1 : lda α),
      fs.foldl (fun (l2 : lda α) f =>
          { l2 with
            sorted_features := l2.sorted_features ++ [⟨num_ex, f⟩],
            doc_lengths := l2.doc_lengths.set num_ex (int_add (l2.doc_lengths.data num_ex) (float_to_int f.x)) })
        { l1 with all := { l1.all with weight_vector := T } }
      = { fs.foldl (fun (l2 : lda α) f =>
          { l2 with
            sorted_features := l2.sorted_features ++ [⟨num_ex, f⟩],
            doc_lengths := l2.doc_lengths.set num_ex (int_add (l2.doc_lengths.data num_ex) (float_to_int f.x)) })
          l1 with
          all := { l1.all with weight_vector := T } } := by
  intro fs
  induction fs with
  | nil => intro l1; rfl
  | cons f rest ih =>
    intro l1
    rw [List.foldl_cons, List.foldl_cons]
    exact ih
      { l1 with
        sorted_features := l1.sorted_features ++ [⟨num_ex, f⟩],
        doc_lengths := l1.doc_lengths.set num_ex (int_add (l1.doc_lengths.data num_ex) (float_to_int f.x)) }

/-- Pushing an example does not read the table. -/
theorem learn_push_table (l : lda α) (T : Nat → α) (ec : Example α) :
    learn_push { l with all := { l.all with weight_vector := T } } ec
      = { learn_push l ec with all := { (learn_push l ec).all with weight_vector := T } } := by
  have hall : (learn_push l ec).all = l.all := (learn_push_fields l ec).2.2.1
  rw [hall]
  unfold learn_push
  exact learn_push_fold_table l.examples.length T ec.features
    { l with examples := l.examples ++ [ec], doc_lengths := l.doc_lengths.push_back 0 }

/-- A returning `learn_batch` whose shrink factor has a non-positive logarithm keeps
the decay history in order. -/
theorem history_ok_after (m : math_kernels α) (fuel : Nat) (b b' : lda α)
    (hf : ∀ x : α, to_float x = x) (hc : b.config_ok) (hh : b.history_ok)
    (hmask : ∀ s ∈ b.sorted_features, b.within_mask s.f.weight_index)
    (hmu : b.sorted_features ≠ [] → m.log (b.mu m) ≤ 0)
    (h : learn_batch m fuel b = some b') : b'.history_ok := by
  obtain ⟨hn, hmono, hrows⟩ := hh
  choose! g hg using hrows
  have hRI := rows_batch_step m fuel b b' g hf hc hmask hg h
  by_cases hne : b.sorted_features = []
  · have := learn_batch_of_empty m fuel b b' hne h
    subst this
    exact ⟨hn, hmono, fun w hw => ⟨g w, hg w hw⟩⟩
  · obtain ⟨d1, d2⟩ := learn_batch_bookkeeping m fuel b b' hne h
    refine ⟨by rw [d1, push_back_size]; omega, ?_, fun w hw => ⟨_, hRI w hw⟩⟩
    intro i j hij hj
    rw [d1, push_back_size] at hj
    rw [d1]
    by_cases hjs : j = b.decay_levels.size
    · subst hjs
      rw [push_back_data_size]
      by_cases his : i = b.decay_levels.size
      · rw [his, push_back_data_size]
      · rw [push_back_data_lt _ _ _ (by omega)]
        have h1 := hmono i (b.decay_levels.size - 1) (by omega) (by omega)
        have h2 := hmu hne
        have : b.decay_levels.last = b.decay_levels.data (b.decay_levels.size - 1) := rfl
        rw [this]
        linarith
    · rw [push_back_data_lt _ _ _ (by omega), push_back_data_lt _ _ _ (by omega)]
      exact hmono i j hij (by omega)

/-- The parameters read by the step size, across one returning call. -/
theorem params_call_step (m : math_kernels α) (fuel : Nat) (l l' : lda α) (c : lda_call α)
    (e p : α) (mode : lda_math_mode)
    (hI : l.all.eta = e ∧ l.all.power_t = p ∧ l.mmode = mode ∧ 0 ≤ l.example_t)
    (h : c.run m fuel l = some l') :
    l'.all.eta = e ∧ l'.all.power_t = p ∧ l'.mmode = mode ∧ 0 ≤ l'.example_t := by
  have hbatch : ∀ b b' : lda α,
      (b.all.eta = e ∧ b.all.power_t = p ∧ b.mmode = mode ∧ 0 ≤ b.example_t) →
      learn_batch m fuel b = some b' →
      b'.all.eta = e ∧ b'.all.power_t = p ∧ b'.mmode = mode ∧ 0 ≤ b'.example_t := by
    intro b b' ⟨h1, h2, h3, h4⟩ hb
    by_cases hne : b.sorted_features = []
    · have := learn_batch_of_empty m fuel b b' hne hb
      subst this
      exact ⟨h1, h2, h3, h4⟩
    · obtain ⟨_, _, _, _, _, e6, e7, e8, _⟩ := learn_batch_frame m fuel b b' hb
      obtain ⟨_, d2⟩ := learn_batch_bookkeeping m fuel b b' hne hb
      exact ⟨by rw [e7, h1], by rw [e8, h2], by rw [e6, h3], by rw [d2]; linarith⟩
  cases c with
  | learn ec =>
    obtain ⟨_, _, p3⟩ := learn_push_fields l ec
    obtain ⟨q1, _, q3, _, _, _, q7, _⟩ := p3
    have hpush : (learn_push l ec).all.eta = e ∧ (learn_push l ec).all.power_t = p ∧
        (learn_push l ec).mmode = mode ∧ 0 ≤ (learn_push l ec).example_t := by
      rw [q1, q3, q7]; exact hI
    have hrun : learn m fuel l ec = some l' := h
    unfold learn at hrun
    simp only [] at hrun
    split_ifs at hrun with hfull
    · exact hbatch _ _ hpush hrun
    · simp only [Option.some.injEq] at hrun
      rw [← hrun]; exact hpush
  | end_pass =>
    have hrun : end_pass m fuel l = some l' := h
    unfold end_pass at hrun
    split_ifs at hrun with hsome
    · exact hbatch _ _ hI hrun
    · simp only [Option.some.injEq] at hrun
      rw [← hrun]; exact hI

/-- With a learning rate in `(0, 1)`, `power_t >= 0` and a counter `>= 0`, every
minibatch of a sequence of calls has its shrink factor in `(0, 1]`. -/
theorem run_batches_ok_of_params (m : math_kernels α) (fuel : Nat) (e p : α)
    (mode : lda_math_mode)
    (hpow : ∀ x q : α, 1 ≤ x → q ≤ 0 →
      0 < ldamath.powf m mode x q ∧ ldamath.powf m mode x q ≤ 1)
    (he : 0 < e) (he1 : e < 1) (hp : 0 ≤ p) :
    ∀ (calls : List (lda_call α)) (l : lda α),
      (l.all.eta = e ∧ l.all.power_t = p ∧ l.mmode = mode ∧ 0 ≤ l.example_t) →
      run_batches_ok (fun b => 0 < b.mu m ∧ b.mu m ≤ 1) m fuel l calls := by
  have hmu : ∀ b : lda α,
      (b.all.eta = e ∧ b.all.power_t = p ∧ b.mmode = mode ∧ 0 ≤ b.example_t) →
      0 < b.mu m ∧ b.mu m ≤ 1 := by
    intro b ⟨h1, h2, h3, h4⟩
    have hmu_eq : b.mu m = 1 - e * ldamath.powf m mode (b.example_t + 1) (-p) := by
      show 1 - b.all.eta * ldamath.powf m b.mmode (b.example_t + 1) (-b.all.power_t) = _
      rw [h1, h2, h3]
    obtain ⟨p1, p2⟩ := hpow (b.example_t + 1) (-p) (by linarith) (by linarith)
    rw [hmu_eq]
    have q1 : 0 < e * ldamath.powf m mode (b.example_t + 1) (-p) := mul_pos he p1
    have q2 : e * ldamath.powf m mode (b.example_t + 1) (-p) < 1 := by
      calc e * ldamath.powf m mode (b.example_t + 1) (-p)
          ≤ e * 1 := mul_le_mul_of_nonneg_left p2 (le_of_lt he)
        _ = e := mul_one e
        _ < 1 := he1
    exact ⟨by linarith, by linarith⟩
  intro calls
  induction calls with
  | nil => intro l _; trivial
  | cons c cs ih =>
    intro l hI
    rw [run_batches_ok]
    constructor
    · cases c with
      | learn ec =>
        obtain ⟨_, _, p3⟩ := learn_push_fields l ec
        obtain ⟨q1, _, q3, _, _, _, q7, _⟩ := p3
        unfold lda_call.batch_ok lda_call.batch
        simp only []
        split_ifs with hfull
        · intro _
          apply hmu
          rw [q1, q3, q7]; exact hI
        · trivial
      | end_pass =>
        unfold lda_call.batch_ok lda_call.batch
        simp only []
        split_ifs with hsome
        · intro _; exact hmu l hI
        · trivial
    · cases hrun : lda_call.run m fuel l c with
      | none => trivial
      | some l1 => exact ih l1 (params_call_step m fuel l l1 c e p mode hI hrun)

end pushes

end LDA

namespace LDA

section sizes

variable {α : Type} [LinearOrderedField α] [FloorRing α] [float_cast α]

/-- The size of `total_lambda` after lines 715–723. -/
theorem learn_batch_total_lambda_size (l : lda α) :
    (learn_batch_total_lambda l).size
      = if l.total_lambda.size = 0 then l.all.lda else l.total_lambda.size := by
  unfold learn_batch_total_lambda
  by_cases h0 : l.total_lambda.size = 0
  · rw [if_pos h0, if_pos h0]
    simp only []
    have hinit : (for_loop l.all.lda (fun _ (a : v_array α) => a.push_back 0) l.total_lambda).size
        = l.all.lda := by
      rw [(push_back_loop (fun _ => (0 : α)) l.total_lambda l.all.lda).1, h0, Nat.zero_add]
    apply for_loop_invariant (fun t : v_array α => t.size = l.all.lda) _ _ _ _ hinit
    intro j t ht
    apply for_loop_invariant (fun t : v_array α => t.size = l.all.lda) _ _ _ _ ht
    intro k t1 ht1
    exact ht1
  · rw [if_neg h0, if_neg h0]

end sizes

section pairs

/-- One call of `learn_batch` and of the eager scheme, on an empty or non-empty
minibatch: both return or neither does, and everything the comparison rests on
holds again of the results. -/
theorem batch_pair (m : math_kernels ℝ) (hexp : m.exp = Real.exp) (hlog : m.log = Real.log)
    (fuel : Nat) (b : lda ℝ) (T : Nat → ℝ) (hc : b.config_ok) (hh : b.history_ok)
    (hmask : ∀ s ∈ b.sorted_features, b.within_mask s.f.weight_index)
    (hdocs : ∀ ec ∈ b.examples, ∀ f ∈ ec.features, b.within_mask f.weight_index)
    (hmu : b.sorted_features ≠ [] → 0 < b.mu m ∧ b.mu m ≤ 1)
    (hlam : ∀ w k, w < b.all.length → k < b.all.lda → T (b.row w + k) = b.effective m w k)
    (hu : ∀ w k, w < b.all.length → k < b.all.lda →
      T (b.row w + b.all.lda + 1 + k) = b.all.weight_vector (b.row w + b.all.lda + 1 + k))
    (h0 : b.total_lambda.size = 0 → ∀ w k, w < b.all.length → k < b.all.lda →
      T (b.row w + k) = b.all.weight_vector (b.row w + k)) :
    (learn_batch m fuel b = none ∧
      eager_learn_batch m fuel { b with all := { b.all with weight_vector := T } } = none) ∨
    ∃ b' e', learn_batch m fuel b = some b' ∧
      eager_learn_batch m fuel { b with all := { b.all with weight_vector := T } } = some e' ∧
      b'.config_ok ∧ b'.history_ok ∧
      (∀ s ∈ b'.sorted_features, b'.within_mask s.f.weight_index) ∧
      (∀ ec ∈ b'.examples, ∀ f ∈ ec.features, b'.within_mask f.weight_index) ∧
      b'.eager_agrees m e' ∧
      (b'.total_lambda.size = 0 → ∀ w k, w < b'.all.length → k < b'.all.lda →
        e'.lambda w k = b'.lambda w k) ∧
      b'.all.num_bits = b.all.num_bits ∧ b'.all.stride_shift = b.all.stride_shift := by
  by_cases hne : b.sorted_features = []
  · right
    have hL : learn_batch m fuel b
        = some { b with all := { b.all with returned := b.all.returned ++ b.examples },
                        examples := [] } := by
      unfold learn_batch
      rw [hne, return_all_frame]
      rfl
    have hE : eager_learn_batch m fuel { b with all := { b.all with weight_vector := T } }
        = some { b with all := { b.all with returned := b.all.returned ++ b.examples,
                                            weight_vector := T },
                        examples := [] } := by
      unfold eager_learn_batch
      rw [return_all_frame]
      simp only [hne, List.isEmpty_nil, if_true]
    refine ⟨_, _, hL, hE, hc, hh, ?_, ?_, ⟨rfl, hlam, hu⟩, h0, rfl, rfl⟩
    · rw [hne]; intro s hs; exact absurd hs (List.not_mem_nil s)
    · intro ec hec; exact absurd hec (List.not_mem_nil ec)
  · obtain ⟨hm1, hm2⟩ := hmu hne
    rcases batch_agrees m hexp hlog fuel b T hne hc hh hmask hdocs hm1 hlam hu h0 with
      hnone | ⟨b', e', hb', he', r1, r2, r3⟩
    · left; exact hnone
    · right
      obtain ⟨_, _, e3, e4, _, _, _, _, _, _, _, _, _, _, _, e16, e17⟩ :=
        learn_batch_frame m fuel b b' hb'
      obtain ⟨_, _, rsz, _, _, rK, _⟩ := learn_batch_result m fuel b b' hne hc hmask hb'
      refine ⟨b', e', hb', he', learn_batch_config_ok m fuel b b' hb' hc, ?_, ?_, ?_,
        ⟨r1, r2, r3⟩, ?_, e4, e3⟩
      · apply history_ok_after m fuel b b' to_float_real hc hh hmask _ hb'
        intro _
        rw [hlog]
        exact Real.log_nonpos (le_of_lt hm1) hm2
      · rw [e17]; intro s hs; exact absurd hs (List.not_mem_nil s)
      · rw [e16]; intro ec hec; exact absurd hec (List.not_mem_nil ec)
      · intro hz w k _ hk
        rw [rsz, learn_batch_total_lambda_size] at hz
        rw [rK] at hk
        split_ifs at hz with hb0
        · omega
        · exact absurd hz hb0

end pairs

end LDA

namespace LDA

section calls_pair

/-- The minibatch that a call hands to `learn_batch`: what the comparison of the two
schemes rests on holds of it when it holds of the learner, and the eager scheme is
handed the same minibatch with its own table. -/
theorem batch_state_facts (m : math_kernels ℝ) (fuel : Nat) (l : lda ℝ) (T : Nat → ℝ)
    (c : lda_call ℝ) (b : lda ℝ) (hc : l.config_ok) (hh : l.history_ok)
    (hmask : ∀ s ∈ l.sorted_features, l.within_mask s.f.weight_index)
    (hdocs : ∀ ec ∈ l.examples, ∀ f ∈ ec.features, l.within_mask f.weight_index)
    (hlam : ∀ w k, w < l.all.length → k < l.all.lda → T (l.row w + k) = l.effective m w k)
    (hu : ∀ w k, w < l.all.length → k < l.all.lda →
      T (l.row w + l.all.lda + 1 + k) = l.all.weight_vector (l.row w + l.all.lda + 1 + k))
    (h0 : l.total_lambda.size = 0 → ∀ w k, w < l.all.length → k < l.all.lda →
      T (l.row w + k) = l.all.weight_vector (l.row w + k))
    (hcall : c.within_mask l)
    (hb : b = c.pushed l) :
    b.config_ok ∧ b.history_ok ∧
    (∀ s ∈ b.sorted_features, b.within_mask s.f.weight_index) ∧
    (∀ ec ∈ b.examples, ∀ f ∈ ec.features, b.within_mask f.weight_index) ∧
    (∀ w k, w < b.all.length → k < b.all.lda → T (b.row w + k) = b.effective m w k) ∧
    (∀ w k, w < b.all.length → k < b.all.lda →
      T (b.row w + b.all.lda + 1 + k) = b.all.weight_vector (b.row w + b.all.lda + 1 + k)) ∧
    (b.total_lambda.size = 0 → ∀ w k, w < b.all.length → k < b.all.lda →
      T (b.row w + k) = b.all.weight_vector (b.row w + k)) ∧
    b.all = l.all ∧
    c.run m fuel l = (match c.batch l with | some _ => learn_batch m fuel b | none => some b) ∧
    c.run_eager m fuel { l with all := { l.all with weight_vector := T } }
      = (match c.batch l with
          | some _ => eager_learn_batch m fuel { b with all := { b.all with weight_vector := T } }
          | none => some { b with all := { b.all with weight_vector := T } }) ∧
    (∀ b1, c.batch l = some b1 → b1 = b) := by
  cases c with
  | learn ec =>
    have hb' : b = learn_push l ec := hb
    subst hb'
    obtain ⟨p1, p2, p3⟩ := learn_push_fields l ec
    obtain ⟨q1, q2, _, _, _, q6, q7, q8, _⟩ := p3
    have hwm : ∀ x, (learn_push l ec).within_mask x ↔ l.within_mask x :=
      fun x => within_mask_congr l _ (by rw [q1]) (by rw [q1]) x
    refine ⟨config_ok_congr l _ q1 q2 hc, ?_, ?_, ?_, ?_, ?_, ?_, q1, ?_, ?_, ?_⟩
    · unfold lda.history_ok lda.t_last lda.row
      rw [q1, q6, q7]
      exact hh
    · intro s hs
      rw [hwm]
      rw [p2] at hs
      rcases List.mem_append.mp hs with hs1 | hs1
      · exact hmask s hs1
      · obtain ⟨f, hf, hfs⟩ := List.mem_map.mp hs1
        rw [← hfs]
        exact hcall f hf
    · intro e he f hf
      rw [hwm]
      rw [p1] at he
      rcases List.mem_append.mp he with he1 | he1
      · exact hdocs e he1 f hf
      · rw [List.mem_singleton] at he1
        subst he1
        exact hcall f hf
    · unfold lda.effective lda.lambda lda.pending lda.level_of_row lda.t_last lda.row
      rw [q1, q6, q7]
      exact hlam
    · unfold lda.row
      rw [q1]
      exact hu
    · unfold lda.row
      rw [q1, q8]
      exact h0
    · show learn m fuel l ec = _
      unfold learn lda_call.batch
      simp only []
      split_ifs <;> rfl
    · show (if l.examples.length + 1 = l.minibatch then
          eager_learn_batch m fuel
            (learn_push { l with all := { l.all with weight_vector := T } } ec)
        else some (learn_push { l with all := { l.all with weight_vector := T } } ec)) = _
      rw [learn_push_table]
      unfold lda_call.batch
      simp only []
      split_ifs <;> rfl
    · intro b1 hb1
      unfold lda_call.batch at hb1
      simp only [] at hb1
      split_ifs at hb1
      simp only [Option.some.injEq] at hb1
      exact hb1.symm
  | end_pass =>
    have hb' : b = l := hb
    subst hb'
    refine ⟨hc, hh, hmask, hdocs, hlam, hu, h0, rfl, ?_, ?_, ?_⟩
    · show end_pass m fuel b = _
      unfold end_pass lda_call.batch
      simp only []
      split_ifs <;> rfl
    · show (if b.examples.length ≠ 0 then
          eager_learn_batch m fuel { b with all := { b.all with weight_vector := T } }
        else some { b with all := { b.all with weight_vector := T } }) = _
      unfold lda_call.batch
      simp only []
      split_ifs <;> rfl
    · intro b1 hb1
      unfold lda_call.batch at hb1
      simp only [] at hb1
      split_ifs at hb1
      simp only [Option.some.injEq] at hb1
      exact hb1.symm

/-- One call in both schemes: both return or neither does, and what the comparison
rests on holds again of the results. -/
theorem call_pair (m : math_kernels ℝ) (hexp : m.exp = Real.exp) (hlog : m.log = Real.log)
    (fuel : Nat) (l : lda ℝ) (T : Nat → ℝ) (c : lda_call ℝ)
    (hc : l.config_ok) (hh : l.history_ok)
    (hmask : ∀ s ∈ l.sorted_features, l.within_mask s.f.weight_index)
    (hdocs : ∀ ec ∈ l.examples, ∀ f ∈ ec.features, l.within_mask f.weight_index)
    (hlam : ∀ w k, w < l.all.length → k < l.all.lda → T (l.row w + k) = l.effective m w k)
    (hu : ∀ w k, w < l.all.length → k < l.all.lda →
      T (l.row w + l.all.lda + 1 + k) = l.all.weight_vector (l.row w + l.all.lda + 1 + k))
    (h0 : l.total_lambda.size = 0 → ∀ w k, w < l.all.length → k < l.all.lda →
      T (l.row w + k) = l.all.weight_vector (l.row w + k))
    (hcall : c.within_mask l)
    (hmu : c.batch_ok (fun b1 => 0 < b1.mu m ∧ b1.mu m ≤ 1) l) :
    (c.run m fuel l = none ∧
      c.run_eager m fuel { l with all := { l.all with weight_vector := T } } = none) ∨
    ∃ l' e', c.run m fuel l = some l' ∧
      c.run_eager m fuel { l with all := { l.all with weight_vector := T } } = some e' ∧
      l'.config_ok ∧ l'.history_ok ∧
      (∀ s ∈ l'.sorted_features, l'.within_mask s.f.weight_index) ∧
      (∀ ec ∈ l'.examples, ∀ f ∈ ec.features, l'.within_mask f.weight_index) ∧
      l'.eager_agrees m e' ∧
      (l'.total_lambda.size = 0 → ∀ w k, w < l'.all.length → k < l'.all.lda →
        e'.lambda w k = l'.lambda w k) ∧
      l'.all.num_bits = l.all.num_bits ∧ l'.all.stride_shift = l.all.stride_shift := by
  obtain ⟨b1, b2, b3, b4, b5, b6, b7, ball, frun, feager, fb⟩ :=
    batch_state_facts m fuel l T c (c.pushed l) hc hh hmask hdocs hlam hu h0 hcall rfl
  unfold lda_call.batch_ok at hmu
  cases hbatch : c.batch l with
  | none =>
    rw [hbatch] at frun feager
    simp only [] at frun feager
    right
    exact ⟨_, _, frun, feager, b1, b2, b3, b4, ⟨rfl, b5, b6⟩, b7, by rw [ball], by rw [ball]⟩
  | some b0 =>
    have hb0 := fb b0 hbatch
    rw [hbatch] at frun feager hmu
    simp only [] at frun feager hmu
    rw [hb0] at hmu
    rcases batch_pair m hexp hlog fuel (c.pushed l) T b1 b2 b3 b4 hmu b5 b6 b7 with
      ⟨n1, n2⟩ | ⟨l', e', r1, r2, r3, r4, r5, r6, r7, r8, r9, r10⟩
    · left
      exact ⟨frun.trans n1, feager.trans n2⟩
    · right
      exact ⟨l', e', frun.trans r1, feager.trans r2, r3, r4, r5, r6, r7, r8,
        by rw [r9, ball], by rw [r10, ball]⟩

/-- A sequence of calls in both schemes, from a lazy learner and an eager learner
that agree: both return or neither does, and the results agree. -/
theorem run_pair (m : math_kernels ℝ) (hexp : m.exp = Real.exp) (hlog : m.log = Real.log)
    (fuel : Nat) :
    ∀ (calls : List (lda_call ℝ)) (l : lda ℝ) (T : Nat → ℝ), l.config_ok → l.history_ok →
      (∀ s ∈ l.sorted_features, l.within_mask s.f.weight_index) →
      (∀ ec ∈ l.examples, ∀ f ∈ ec.features, l.within_mask f.weight_index) →
      (∀ w k, w < l.all.length → k < l.all.lda → T (l.row w + k) = l.effective m w k) →
      (∀ w k, w < l.all.length → k < l.all.lda →
        T (l.row w + l.all.lda + 1 + k) = l.all.weight_vector (l.row w + l.all.lda + 1 + k)) →
      (l.total_lambda.size = 0 → ∀ w k, w < l.all.length → k < l.all.lda →
        T (l.row w + k) = l.all.weight_vector (l.row w + k)) →
      (∀ c ∈ calls, c.within_mask l) →
      run_batches_ok (fun b => 0 < b.mu m ∧ b.mu m ≤ 1) m fuel l calls →
      (run_calls m fuel l calls = none ∧
        run_calls_eager m fuel { l with all := { l.all with weight_vector := T } } calls = none) ∨
      ∃ l' e', run_calls m fuel l calls = some l' ∧
        run_calls_eager m fuel { l with all := { l.all with weight_vector := T } } calls = some e' ∧
        l'.config_ok ∧ l'.history_ok ∧
        (∀ s ∈ l'.sorted_features, l'.within_mask s.f.weight_index) ∧
        (∀ ec ∈ l'.examples, ∀ f ∈ ec.features, l'.within_mask f.weight_index) ∧
        l'.eager_agrees m e' ∧
        (l'.total_lambda.size = 0 → ∀ w k, w < l'.all.length → k < l'.all.lda →
          e'.lambda w k = l'.lambda w k) ∧
        l'.all.num_bits = l.all.num_bits ∧ l'.all.stride_shift = l.all.stride_shift := by
  intro calls
  induction calls with
  | nil =>
    intro l T hc hh hmask hdocs hlam hu h0 _ _
    right
    exact ⟨l, _, rfl, rfl, hc, hh, hmask, hdocs, ⟨rfl, hlam, hu⟩, h0, rfl, rfl⟩
  | cons c cs ih =>
    intro l T hc hh hmask hdocs hlam hu h0 hcalls hok
    rw [run_batches_ok] at hok
    obtain ⟨hok1, hok2⟩ := hok
    rcases call_pair m hexp hlog fuel l T c hc hh hmask hdocs hlam hu h0
        (hcalls c (List.mem_cons_self _ _)) hok1 with
      ⟨n1, n2⟩ | ⟨l1, e1, r1, r2, r3, r4, r5, r6, r7, r8, r9, r10⟩
    · left
      rw [run_calls, run_calls_eager, n1, n2]
      exact ⟨rfl, rfl⟩
    · rw [r1] at hok2
      simp only [] at hok2
      obtain ⟨he1, hl1, hu1⟩ := r7
      have hcs : ∀ c' ∈ cs, c'.within_mask l1 := by
        intro c' hc'
        have := hcalls c' (List.mem_cons_of_mem _ hc')
        cases c' with
        | learn ec => exact fun f hf => (within_mask_congr l l1 r9 r10 _).mpr (this f hf)
        | end_pass => trivial
      have hrow : ∀ w, e1.row w = l1.row w := by
        intro w; rw [he1]; rfl
      have hlda : e1.all.lda = l1.all.lda := by rw [he1]
      have ih1 := ih l1 e1.all.weight_vector r3 r4 r5 r6
        (fun w k hw hk => by
          have := hl1 w k hw hk
          unfold lda.lambda at this
          rw [hrow] at this
          exact this)
        (fun w k hw hk => by
          have := hu1 w k hw hk
          unfold lda.u at this
          rw [hrow, hlda] at this
          exact this)
        (fun hz w k hw hk => by
          have := r8 hz w k hw hk
          unfold lda.lambda at this
          rw [hrow] at this
          exact this)
        hcs hok2
      rw [← he1] at ih1
      rcases ih1 with ⟨n1, n2⟩ | ⟨l', e', t1, t2, t3, t4, t5, t6, t7, t8, t9, t10⟩
      · left
        rw [run_calls, run_calls_eager, r1, r2]
        exact ⟨n1, n2⟩
      · right
        refine ⟨l', e', ?_, ?_, t3, t4, t5, t6, t7, t8, by rw [t9, r9], by rw [t10, r10]⟩
        · rw [run_calls, r1]; exact t1
        · rw [run_calls_eager, r2]; exact t2

end calls_pair

end LDA

namespace LDA

section claim_lazy_eager

/-- The column sums of lines 715–723 for a learner that differs in its table, when
the `lambda` slots are the same as long as `total_lambda` is empty. -/
theorem total_lambda_table (b : lda ℝ) (T : Nat → ℝ) (hc : b.config_ok)
    (h0 : b.total_lambda.size = 0 → ∀ w k, w < b.all.length → k < b.all.lda →
      T (b.row w + k) = b.all.weight_vector (b.row w + k)) :
    learn_batch_total_lambda { b with all := { b.all with weight_vector := T } }
      = learn_batch_total_lambda b := by
  apply learn_batch_total_lambda_congr
  intro hz j k hj hk
  rw [rows_of_mask b hc] at hj
  have := h0 hz j k hj hk
  rw [row_eq] at this
  exact this

/-- The start of the learner has a decay history in order, and no decay pending. -/
theorem start_history (m : math_kernels ℝ) (hexp : m.exp = Real.exp)
    (hlog : m.log = Real.log) (frand48 : Nat → ℝ) (all : vw ℝ) (vm : lda_options ℝ)
    (hmask : all.weight_mask = ((1 <<< all.num_bits) <<< Nat.clog 2 (vm.lda * 2 + 1)) - 1) :
    (lda_start m frand48 all vm).history_ok ∧
    ∀ w k, w < (lda_start m frand48 all vm).all.length →
      (lda_start m frand48 all vm).effective m w k = (lda_start m frand48 all vm).lambda w k := by
  have hrows := rows_start m frand48 all vm (lda_setup_temp_real m hlog vm.lda) hmask
  have hsz : (lda_start m frand48 all vm).decay_levels.size = 1 := by
    rw [(lda_start_fields m frand48 all vm).2.2.2.2.2.2.2.2.2.2.2.1]
    rfl
  refine ⟨⟨by rw [hsz], ?_, fun w hw => ⟨0, hrows w hw⟩⟩, ?_⟩
  · intro i j hij hj
    rw [hsz] at hj
    have h1 : j = 0 := by omega
    have h2 : i = 0 := by omega
    rw [h1, h2]
  · intro w k hw
    obtain ⟨r1, r2⟩ := hrows w hw
    have hlev : (lda_start m frand48 all vm).level_of_row w
        = (lda_start m frand48 all vm).decay_levels.data 0 := by
      unfold lda.level_of_row
      exact end_index_level _ _ _ 0 r1 r2
    unfold lda.effective lda.pending
    rw [hlev]
    unfold v_array.last
    rw [hsz, Nat.sub_self, sub_self, hexp, Real.exp_zero, mul_one]

/-- C2 (lazy decay is eager decay): both schemes start from the learner built by
`lda_setup` and `save_load` and receive the same `learn` and `end_pass` calls, on
hashes within the mask; the arithmetic is exact (`exp` and `log` are the real
functions) and every non-empty minibatch processed has `0 < mu <= 1`.  Then after
every call either both have failed to return (a document loop out of fuel) or both
have returned, and: the two learners differ in their tables only; every `lambda`
slot of the eager table is the effective value
`lambda(w,k) * exp(decay_levels.back - decay_levels[t_last(w)])` of the lazy table;
the `u` slots are the same; and whenever a next call hands a minibatch to
`learn_batch`, the tables that the two first passes hand to the per-document loop
agree on the `u` slots of every row. -/
theorem lazy_decay_eq_eager (m : math_kernels ℝ) (hexp : m.exp = Real.exp)
    (hlog : m.log = Real.log) (fuel : Nat) (frand48 : Nat → ℝ) (all : vw ℝ)
    (vm : lda_options ℝ)
    (hmask : all.weight_mask = ((1 <<< all.num_bits) <<< Nat.clog 2 (vm.lda * 2 + 1)) - 1)
    (calls : List (lda_call ℝ))
    (hcalls : ∀ c ∈ calls, c.within_mask (lda_start m frand48 all vm))
    (hmu : run_batches_ok (fun b => 0 < b.mu m ∧ b.mu m ≤ 1) m fuel
      (lda_start m frand48 all vm) calls) :
    (run_calls m fuel (lda_start m frand48 all vm) calls = none ∧
      run_calls_eager m fuel (lda_start m frand48 all vm) calls = none) ∨
    ∃ l e, run_calls m fuel (lda_start m frand48 all vm) calls = some l ∧
      run_calls_eager m fuel (lda_start m frand48 all vm) calls = some e ∧
      e = { l with all := { l.all with weight_vector := e.all.weight_vector } } ∧
      (∀ w k, w < l.all.length → k < l.all.lda →
        e.lambda w k = l.lambda w k * Real.exp (l.decay_levels.last - l.level_of_row w)) ∧
      (∀ w k, w < l.all.length → k < l.all.lda → e.u w k = l.u w k) ∧
      (∀ (c : lda_call ℝ) (b : lda ℝ), c.within_mask l → c.batch l = some b →
        c.batch e = some { b with all := { b.all with weight_vector := e.all.weight_vector } } ∧
        ∀ w k, w < b.all.length → k < b.all.lda →
          eager_first_pass m
              (learn_batch_prologue m { b with all := { b.all with weight_vector := e.all.weight_vector } })
              e.all.weight_vector
              (learn_batch_prologue m
                { b with all := { b.all with weight_vector := e.all.weight_vector } }).sorted_features
              (b.row w + b.all.lda + 1 + k)
            = learn_batch_first_pass m b (b.row w + b.all.lda + 1 + k)) := by
  obtain ⟨hh, heff⟩ := start_history m hexp hlog frand48 all vm hmask
  obtain ⟨_, _, _, _, _, _, _, _, _, _, _, _, _, s14, s15, _⟩ := lda_start_fields m frand48 all vm
  have hpair := run_pair m hexp hlog fuel calls (lda_start m frand48 all vm)
    (lda_start m frand48 all vm).all.weight_vector (lda_start_config m frand48 all vm (lda_setup_temp_real m hlog vm.lda) hmask) hh
    (by rw [s15]; intro s hs; exact absurd hs (List.not_mem_nil s))
    (by rw [s14]; intro ec hec; exact absurd hec (List.not_mem_nil ec))
    (fun w k hw _ => (heff w k hw).symm)
    (fun _ _ _ _ => rfl) (fun _ _ _ _ _ => rfl) hcalls hmu
  have hself : ({ lda_start m frand48 all vm with
      all := { (lda_start m frand48 all vm).all with
        weight_vector := (lda_start m frand48 all vm).all.weight_vector } } : lda ℝ)
      = lda_start m frand48 all vm := rfl
  rw [hself] at hpair
  rcases hpair with hnone | ⟨l, e, r1, r2, hc, hl, hm, hd, ⟨a1, a2, a3⟩, h0, _, _⟩
  · left; exact hnone
  · right
    refine ⟨l, e, r1, r2, a1, ?_, a3, ?_⟩
    · intro w k hw hk
      rw [a2 w k hw hk, ← hexp]
      rfl
    · intro c b hcall hb
      have hrow : ∀ w, e.row w = l.row w := by
        intro w; rw [a1]; rfl
      have hlda : e.all.lda = l.all.lda := by rw [a1]
      obtain ⟨b1, b2, b3, b4, b5, b6, b7, _, _, _, fb⟩ :=
        batch_state_facts m fuel l e.all.weight_vector c (c.pushed l) hc hl hm hd
          (fun w k hw hk => by
            have := a2 w k hw hk
            unfold lda.lambda at this
            rw [hrow] at this
            exact this)
          (fun w k hw hk => by
            have := a3 w k hw hk
            unfold lda.u at this
            rw [hrow, hlda] at this
            exact this)
          (fun hz w k hw hk => by
            have := h0 hz w k hw hk
            unfold lda.lambda at this
            rw [hrow] at this
            exact this)
          hcall rfl
      have hbp := fb b hb
      subst hbp
      constructor
      · rw [a1]
        cases c with
        | learn ec =>
          unfold lda_call.batch at hb ⊢
          simp only [] at hb ⊢
          split_ifs at hb with hfull
          rw [if_pos hfull, learn_push_table]
          rfl
        | end_pass =>
          unfold lda_call.batch at hb ⊢
          simp only [] at hb ⊢
          split_ifs at hb with hsome
          rw [if_pos hsome]
          rfl
      · intro w k hw hk
        rw [learn_batch_prologue_table m _ _ (total_lambda_table _ _ b1 b7)]
        exact first_pass_u_agree m hexp _ _ b1 b2 b3 b5 b6 w k hw hk

theorem lazy_decay_eq_eager_witness :
    ∃ l e, run_calls (kernels_of Real.exp Real.log (fun x p => x ^ p)
      (deriv (fun y => Real.log (Real.Gamma y))) (fun y => Real.log (Real.Gamma y))) 2
        (lda_start (kernels_of Real.exp Real.log (fun x p => x ^ p)
      (deriv (fun y => Real.log (Real.Gamma y))) (fun y => Real.log (Real.Gamma y))) (fun _ => 1) (demo_all : vw ℝ)
          ⟨1, 0.1, 0.1, 1, 0.001, 1, lda_math_mode.USE_PRECISE⟩)
        [lda_call.learn demo_doc, lda_call.learn demo_doc] = some l ∧
      run_calls_eager (kernels_of Real.exp Real.log (fun x p => x ^ p)
      (deriv (fun y => Real.log (Real.Gamma y))) (fun y => Real.log (Real.Gamma y))) 2
        (lda_start (kernels_of Real.exp Real.log (fun x p => x ^ p)
      (deriv (fun y => Real.log (Real.Gamma y))) (fun y => Real.log (Real.Gamma y))) (fun _ => 1) (demo_all : vw ℝ)
          ⟨1, 0.1, 0.1, 1, 0.001, 1, lda_math_mode.USE_PRECISE⟩)
        [lda_call.learn demo_doc, lda_call.learn demo_doc] = some e ∧
      ∀ w k, w < l.all.length → k < l.all.lda →
        e.lambda w k = l.lambda w k * Real.exp (l.decay_levels.last - l.level_of_row w) := by
  have hcs : ∀ c ∈ [lda_call.learn (demo_doc : Example ℝ), lda_call.learn demo_doc],
      c = lda_call.learn demo_doc ∨ c = lda_call.end_pass := by
    intro c hc
    simp only [List.mem_cons, List.mem_singleton, List.not_mem_nil, or_false, or_self] at hc
    exact Or.inl hc
  obtain ⟨l0, hl0⟩ := demo_start_returns 1 [lda_call.learn demo_doc, lda_call.learn demo_doc] hcs
  obtain ⟨_, _, _, s4, s8, s6, s10, _, _, s13, _⟩ := demo_start_facts 1
  have hmu := run_batches_ok_of_params (kernels_of Real.exp Real.log (fun x p => x ^ p)
      (deriv (fun y => Real.log (Real.Gamma y))) (fun y => Real.log (Real.Gamma y))) 2 (1 / 2) 0 lda_math_mode.USE_PRECISE
    (fun x q hx hq => ⟨Real.rpow_pos_of_pos (by linarith) q,
      Real.rpow_le_one_of_one_le_of_nonpos hx hq⟩)
    (by norm_num) (by norm_num) (le_refl 0)
    [lda_call.learn demo_doc, lda_call.learn demo_doc] _ ⟨s8, s6, s10, by rw [s13]⟩
  have h := lazy_decay_eq_eager (kernels_of Real.exp Real.log (fun x p => x ^ p)
      (deriv (fun y => Real.log (Real.Gamma y))) (fun y => Real.log (Real.Gamma y))) rfl rfl 2 (fun _ => 1) (demo_all : vw ℝ)
    ⟨1, 0.1, 0.1, 1, 0.001, 1, lda_math_mode.USE_PRECISE⟩
    (by show 7 = ((1 <<< 1) <<< Nat.clog 2 (1 * 2 + 1)) - 1; simp [Nat.clog])
    [lda_call.learn demo_doc, lda_call.learn demo_doc]
    (by
      intro c hc
      rcases hcs c hc with rfl | rfl
      · intro f hf
        simp only [demo_doc, List.mem_singleton] at hf
        subst hf
        refine ⟨0, ?_, ?_⟩
        · unfold vw.length
          rw [s4]
          decide
        · unfold lda.row; simp
      · trivial)
    hmu
  rcases h with ⟨hn, _⟩ | ⟨l, e, r1, r2, _, a2, _, _⟩
  · rw [hl0] at hn
    cases hn
  · exact ⟨l, e, r1, r2, a2⟩

end claim_lazy_eager

end LDA

namespace LDA

section claim_transform

variable {α : Type} [LinearOrderedField α] [FloorRing α] [float_cast α]

open ldamath

/-- The call `std::accumulate` with initial value `0` is the sum of the cells. -/
theorem accumulate_eq_sum (K : Nat) (mem : Nat → α) (g : Nat) :
    accumulate K mem g 0 = ∑ k in Finset.range K, mem (g + k) := by
  unfold accumulate
  induction K with
  | zero => simp
  | succ n ih => rw [for_loop_succ, ih, Finset.sum_range_succ]

/-- Outside the SSE specialisation `expdigammify` is the template, cell by cell. -/
theorem expdigammify_scalar (m : math_kernels α) (l : lda α) (aligned : Nat → Bool)
    (mem : Nat → α) (g : Nat)
    (hmode : l.mmode ≠ lda_math_mode.USE_SIMD ∨ m.have_simd = false) (i : Nat) :
    l.expdigammify m aligned mem g i
      = if g ≤ i ∧ i < g + l.all.lda then
          max underflow_threshold
            (exponential m l.mmode (digamma m l.mmode (mem i)
              - digamma m l.mmode (∑ k in Finset.range l.all.lda, mem (g + k))))
        else mem i := by
  unfold lda.expdigammify
  cases hmm : l.mmode with
  | USE_FAST_APPROX => simp only; rw [expdigammify_template_apply, accumulate_eq_sum]
  | USE_PRECISE => simp only; rw [expdigammify_template_apply, accumulate_eq_sum]
  | USE_SIMD =>
    have hs : m.have_simd = false := by
      rcases hmode with h | h
      · exact absurd hmm h
      · exact h
    simp only [hs, Bool.false_eq_true, if_false]
    rw [expdigammify_template_apply, accumulate_eq_sum]
    rfl

/-- C12.  In the precise and in the fast-approx mode, on the `K` cells from `g`:
`expdigammify` puts `max(eps, exp(digamma(g_i) - digamma(S)))` in every cell, `S` being
the sum of the `K` cells before the call and `eps = 1e-10`, with `exp` and `digamma`
the kernels of the mode (the library functions in precise mode, `fastexp` and
`fastdigamma` in fast-approx mode); `expdigammify_2` puts
`max(eps, exp(digamma(g_i) - n_i))` in every cell, and what it puts in a cell is the
same for every array that holds the same `g_i` in that cell.  Neither writes any
other cell. -/
theorem expdigammify_closed_form (m : math_kernels α) (l : lda α) (aligned : Nat → Bool)
    (mem : Nat → α) (g : Nat)
    (hmode : l.mmode = lda_math_mode.USE_PRECISE ∨ l.mmode = lda_math_mode.USE_FAST_APPROX) :
    (underflow_threshold : α) = 1e-10 ∧
    (∀ i, g ≤ i → i < g + l.all.lda →
      l.expdigammify m aligned mem g i
        = max underflow_threshold
            (exponential m l.mmode (digamma m l.mmode (mem i)
              - digamma m l.mmode (∑ k in Finset.range l.all.lda, mem (g + k))))) ∧
    (∀ i, i < g ∨ g + l.all.lda ≤ i → l.expdigammify m aligned mem g i = mem i) ∧
    (∀ (norm : Nat → α) (i : Nat), g ≤ i → i < g + l.all.lda →
      l.expdigammify_2 m aligned mem g norm i
        = max underflow_threshold
            (exponential m l.mmode (digamma m l.mmode (mem i) - norm (i - g)))) ∧
    (∀ (norm : Nat → α) (i : Nat), i < g ∨ g + l.all.lda ≤ i →
      l.expdigammify_2 m aligned mem g norm i = mem i) ∧
    (∀ (mem' norm : Nat → α) (i : Nat), g ≤ i → i < g + l.all.lda → mem' i = mem i →
      l.expdigammify_2 m aligned mem' g norm i = l.expdigammify_2 m aligned mem g norm i) ∧
    (l.mmode = lda_math_mode.USE_PRECISE →
      exponential m l.mmode = m.exp ∧ digamma m l.mmode = m.boost_digamma) ∧
    (l.mmode = lda_math_mode.USE_FAST_APPROX →
      exponential m l.mmode = fastexp m ∧ digamma m l.mmode = fastdigamma m) := by
  have hm : l.mmode ≠ lda_math_mode.USE_SIMD ∨ m.have_simd = false := by
    left
    rcases hmode with h | h <;> rw [h] <;> decide
  refine ⟨by unfold underflow_threshold; norm_num, ?_, ?_, ?_, ?_, ?_, ?_, ?_⟩
  · intro i h1 h2
    rw [expdigammify_scalar m l aligned mem g hm, if_pos ⟨h1, h2⟩]
  · intro i hi
    rw [expdigammify_scalar m l aligned mem g hm, if_neg (by omega)]
  · intro norm i h1 h2
    rw [expdigammify_2_scalar m l aligned mem g norm hm, if_pos ⟨h1, h2⟩]
  · intro norm i hi
    rw [expdigammify_2_scalar m l aligned mem g norm hm, if_neg (by omega)]
  · intro mem' norm i h1 h2 he
    rw [expdigammify_2_scalar m l aligned mem g norm hm,
      expdigammify_2_scalar m l aligned mem' g norm hm, he]
  · intro h
    rw [h]
    exact ⟨rfl, rfl⟩
  · intro h
    rw [h]
    exact ⟨rfl, rfl⟩

theorem expdigammify_closed_form_witness :
    (demo_learner : lda ℝ).expdigammify (kernels_of Real.exp Real.log (fun x p => x ^ p)
      (deriv (fun y => Real.log (Real.Gamma y))) (fun y => Real.log (Real.Gamma y))) (fun _ => false) (fun _ => 2) 0 0
      = max underflow_threshold
          (exponential (kernels_of Real.exp Real.log (fun x p => x ^ p)
      (deriv (fun y => Real.log (Real.Gamma y))) (fun y => Real.log (Real.Gamma y))) (demo_learner : lda ℝ).mmode
            (digamma (kernels_of Real.exp Real.log (fun x p => x ^ p)
      (deriv (fun y => Real.log (Real.Gamma y))) (fun y => Real.log (Real.Gamma y))) (demo_learner : lda ℝ).mmode 2
              - digamma (kernels_of Real.exp Real.log (fun x p => x ^ p)
      (deriv (fun y => Real.log (Real.Gamma y))) (fun y => Real.log (Real.Gamma y))) (demo_learner : lda ℝ).mmode
                  (∑ k in Finset.range (demo_learner : lda ℝ).all.lda, (fun _ => (2 : ℝ)) (0 + k)))) :=
  (expdigammify_closed_form (kernels_of Real.exp Real.log (fun x p => x ^ p)
      (deriv (fun y => Real.log (Real.Gamma y))) (fun y => Real.log (Real.Gamma y))) (demo_learner : lda ℝ) (fun _ => false) (fun _ => 2) 0
    (Or.inl rfl)).2.1 0 (le_refl _) (by decide)

end claim_transform

end LDA

namespace LDA

section claim_clamp

variable {α : Type} [LinearOrderedField α] [FloorRing α] [float_cast α]

open ldamath

/-- The second sweep of `vexpdigammify` leaves at least `threshold` in every cell. -/
theorem exp_sweep_ge (m : math_kernels α) (aligned : Nat → Bool) (K g : Nat) (threshold e : α)
    (mem0 : Nat → α) (i : Nat) (h1 : g ≤ i) (h2 : i < g + K) :
    threshold ≤ simd_sweep aligned
      (fun fp mem1 => store mem1 fp (max threshold (fastexp m (mem1 fp - e))))
      (fun fp mem1 => for_loop 4 (fun j mem2 =>
        store mem2 (fp + j) (max threshold (vfastexp m (mem1 (fp + j) - e)))) mem1)
      g K mem0 i := by
  have key := simd_sweep_pos aligned
    (fun fp mem1 => store mem1 fp (max threshold (fastexp m (mem1 fp - e))))
    (fun fp mem1 => for_loop 4 (fun j mem2 =>
      store mem2 (fp + j) (max threshold (vfastexp m (mem1 (fp + j) - e)))) mem1)
    (fun fp st => ∀ j, g ≤ j → j < fp → threshold ≤ st j)
    g K mem0 ?_ ?_ (fun j hj1 hj2 => by omega)
  · exact key i h1 h2
  · intro fp st1 _ _ p j hj1 hj2
    show threshold ≤ store st1 fp _ j
    by_cases hj : j = fp
    · subst hj
      rw [store_same]
      exact le_max_left _ _
    · rw [store_ne _ _ hj]
      exact p j hj1 (by omega)
  · intro fp st1 _ _ p j hj1 hj2
    show threshold ≤ for_loop 4 _ st1 j
    rw [for_loop_store_from]
    by_cases hc : fp ≤ j ∧ j < fp + 4
    · rw [if_pos hc]
      exact le_max_left _ _
    · rw [if_neg hc]
      exact p j hj1 (by omega)

/-- The SSE specialisation `vexpdigammify` leaves at least `threshold` in every cell. -/
theorem vexpdigammify_ge (m : math_kernels α) (aligned : Nat → Bool) (K : Nat) (mem : Nat → α)
    (g : Nat) (threshold : α) (i : Nat) (h1 : g ≤ i) (h2 : i < g + K) :
    threshold ≤ vexpdigammify m aligned K mem g threshold i := by
  unfold vexpdigammify
  exact exp_sweep_ge m aligned K g threshold _ _ i h1 h2

/-- In every math mode `expdigammify` leaves at least the threshold in every cell. -/
theorem expdigammify_ge (m : math_kernels α) (l : lda α) (aligned : Nat → Bool)
    (mem : Nat → α) (g : Nat) (i : Nat) (h1 : g ≤ i) (h2 : i < g + l.all.lda) :
    underflow_threshold ≤ l.expdigammify m aligned mem g i := by
  by_cases hm : l.mmode ≠ lda_math_mode.USE_SIMD ∨ m.have_simd = false
  · exact expdigammify_scalar_ge m l aligned mem g hm i h1 h2
  · simp only [not_or, not_not, Bool.not_eq_false] at hm
    unfold lda.expdigammify
    rw [hm.1]
    simp only [hm.2, if_true]
    exact vexpdigammify_ge m aligned _ mem g _ i h1 h2

/-- In every math mode `expdigammify_2` leaves at least the threshold in every cell. -/
theorem expdigammify_2_ge (m : math_kernels α) (l : lda α) (aligned : Nat → Bool)
    (mem : Nat → α) (g : Nat) (norm : Nat → α) (i : Nat) (h1 : g ≤ i) (h2 : i < g + l.all.lda) :
    underflow_threshold ≤ l.expdigammify_2 m aligned mem g norm i := by
  by_cases hm : l.mmode ≠ lda_math_mode.USE_SIMD ∨ m.have_simd = false
  · rw [expdigammify_2_scalar m l aligned mem g norm hm, if_pos ⟨h1, h2⟩]
    exact le_max_left _ _
  · simp only [not_or, not_not, Bool.not_eq_false] at hm
    unfold lda.expdigammify_2
    rw [hm.1]
    simp only [hm.2, if_true]
    rcases vexpdigammify_2_apply m aligned l.all.lda mem g norm underflow_threshold i h1 h2
      with h | h <;> rw [h] <;> exact le_max_left _ _

/-- The `u` slots written by the first pass for a row are at least the threshold. -/
theorem first_pass_row_u_ge (m : math_kernels α) (l : lda α) (W : Nat → α) (s : index_feature α)
    (k : Nat) (hk : k < l.all.lda) :
    underflow_threshold
      ≤ first_pass_row m l W s ((s.f.weight_index &&& l.all.weight_mask) + l.all.lda + 1 + k) := by
  unfold first_pass_row
  simp only []
  exact expdigammify_2_ge m l _ _ _ _ _ (by omega) (by omega)

/-- The cells of `v` written by a round of `lda_loop` are at least the threshold. -/
theorem lda_loop_body_v_ge (m : math_kernels α) (l : lda α) (v : Nat) (W : Nat → α)
    (ec : Example α) (st : loop_state α) (k : Nat) (hk : k < l.all.lda) :
    underflow_threshold ≤ (lda_loop_body m l v W ec st).varr (v + k) := by
  unfold lda_loop_body
  simp only []
  exact expdigammify_ge m l _ _ _ _ (by omega) (by omega)

/-- The denominator of `find_cw` is positive when the cells it reads are. -/
theorem inner_product_pos (K : Nat) (hK : 1 ≤ K) (a b : Nat → α)
    (ha : ∀ k, k < K → 0 < a k) (hb : ∀ k, k < K → 0 < b k) :
    0 < inner_product K a b 0 := by
  rw [inner_product_eq_sum]
  apply Finset.sum_pos
  · intro k hk
    rw [Finset.mem_range] at hk
    exact mul_pos (ha k hk) (hb k hk)
  · exact ⟨0, Finset.mem_range.mpr (by omega)⟩

/-- The clamp on numbers.  The values of `α` are numbers; a lane of the SSE
transforms whose pattern is a NaN is not among them.  On numbers, in every math mode,
for every array, every cell written by `expdigammify` and by `expdigammify_2` is at
least `eps = 1e-10 > 0`.  So, for a
learner with the layout of `lda_setup`, at least one topic and hashes within the
mask: every `u` slot of the rows of the minibatch is at least `eps` after the first
pass of `learn_batch`, every cell `v[d,k]` is at least `eps` after each round of
`lda_loop`, and the sum `sum_k u(w)[k] * v[k]` of which `find_cw` takes the inverse is
positive whenever the cells it reads are at least `eps`, as it is for the calls in a
round of `lda_loop` on such `u` slots. -/
theorem underflow_clamp (m : math_kernels α) (l : lda α) (hc : l.config_ok)
    (hK : 1 ≤ l.all.lda)
    (hmask : ∀ s ∈ l.sorted_features, l.within_mask s.f.weight_index) :
    (underflow_threshold : α) = 1e-10 ∧ (0 : α) < underflow_threshold ∧
    (∀ (aligned : Nat → Bool) (mem : Nat → α) (g i : Nat), g ≤ i → i < g + l.all.lda →
      underflow_threshold ≤ l.expdigammify m aligned mem g i) ∧
    (∀ (aligned : Nat → Bool) (mem : Nat → α) (g : Nat) (norm : Nat → α) (i : Nat),
      g ≤ i → i < g + l.all.lda →
      underflow_threshold ≤ l.expdigammify_2 m aligned mem g norm i) ∧
    (∀ s ∈ l.sorted_features, ∀ k, k < l.all.lda →
      underflow_threshold ≤ learn_batch_first_pass m l (s.f.weight_index + l.all.lda + 1 + k)) ∧
    (∀ (v : Nat) (W : Nat → α) (ec : Example α) (st : loop_state α) (k : Nat), k < l.all.lda →
      underflow_threshold ≤ (lda_loop_body m l v W ec st).varr (v + k)) ∧
    (∀ (W : Nat → α) (u : Nat) (varr : Nat → α) (v : Nat),
      (∀ k, k < l.all.lda → underflow_threshold ≤ W (u + k)) →
      (∀ k, k < l.all.lda → underflow_threshold ≤ varr (v + k)) →
      0 < inner_product l.topics (fun k => W (u + k)) (fun k => varr (v + k)) 0 ∧
      find_cw l W u varr v
        = 1 / inner_product l.topics (fun k => W (u + k)) (fun k => varr (v + k)) 0) ∧
    (∀ (v : Nat) (W : Nat → α) (ec : Example α) (st : loop_state α) (f : feature α),
      (∀ k, k < l.all.lda →
        underflow_threshold ≤ W ((f.weight_index &&& l.all.weight_mask) + l.topics + 1 + k)) →
      0 < inner_product l.topics
        (fun k => W ((f.weight_index &&& l.all.weight_mask) + l.topics + 1 + k))
        (fun k => (lda_loop_body m l v W ec st).varr (v + k)) 0) := by
  have hpos : (0 : α) < underflow_threshold := underflow_threshold_pos
  have hden : ∀ (W : Nat → α) (u : Nat) (varr : Nat → α) (v : Nat),
      (∀ k, k < l.all.lda → underflow_threshold ≤ W (u + k)) →
      (∀ k, k < l.all.lda → underflow_threshold ≤ varr (v + k)) →
      0 < inner_product l.topics (fun k => W (u + k)) (fun k => varr (v + k)) 0 := by
    intro W u varr v hu hv
    rw [hc.1]
    exact inner_product_pos _ hK _ _ (fun k hk => lt_of_lt_of_le hpos (hu k hk))
      (fun k hk => lt_of_lt_of_le hpos (hv k hk))
  refine ⟨by unfold underflow_threshold; norm_num, hpos, ?_, ?_, ?_, ?_, ?_, ?_⟩
  · intro aligned mem g i h1 h2
    exact expdigammify_ge m l aligned mem g i h1 h2
  · intro aligned mem g norm i h1 h2
    exact expdigammify_2_ge m l aligned mem g norm i h1 h2
  · intro s hs k hk
    have h := (first_pass_table m l hc hmask).1 s hs (s.f.weight_index + l.all.lda + 1 + k)
      (by omega) (by omega)
    have hand : s.f.weight_index &&& (learn_batch_prologue m l).all.weight_mask
        = s.f.weight_index := within_mask_and l hc _ (hmask s hs)
    have hge := first_pass_row_u_ge m (learn_batch_prologue m l) l.all.weight_vector s k hk
    rw [hand] at hge
    show underflow_threshold ≤ first_pass m (learn_batch_prologue m l) none l.all.weight_vector
      (learn_batch_prologue m l).sorted_features (s.f.weight_index + l.all.lda + 1 + k)
    rw [h]
    exact hge
  · intro v W ec st k hk
    exact lda_loop_body_v_ge m l v W ec st k hk
  · intro W u varr v hu hv
    exact ⟨hden W u varr v hu hv, rfl⟩
  · intro v W ec st f hu
    exact hden W _ _ v hu (fun k hk => lda_loop_body_v_ge m l v W ec st k hk)

theorem underflow_clamp_witness :
    (underflow_threshold : ℝ) ≤ learn_batch_first_pass (kernels_of Real.exp Real.log (fun x p => x ^ p)
      (deriv (fun y => Real.log (Real.Gamma y))) (fun y => Real.log (Real.Gamma y))) (demo_batch : lda ℝ) (0 + 1 + 1 + 0) :=
  (underflow_clamp (kernels_of Real.exp Real.log (fun x p => x ^ p)
      (deriv (fun y => Real.log (Real.Gamma y))) (fun y => Real.log (Real.Gamma y))) (demo_batch : lda ℝ) demo_batch_config (by decide)
    demo_batch_mask).2.2.2.2.1 ⟨0, ⟨1, 0⟩⟩ (by rw [demo_batch_sorted]; exact List.mem_cons_self _ _)
    0 (by decide)

end claim_clamp

end LDA

namespace LDA

section claim_model_layout

variable {α : Type} [LinearOrderedField α] [FloorRing α] [float_cast α]

/-- A loop that appends one entry per round. -/
theorem for_loop_written (item : Nat → model_item α) (len : Nat → Nat) :
    ∀ (K : Nat) (r0 : io_buf α × Nat),
      (for_loop K (fun k (r : io_buf α × Nat) =>
        (({ r.1 with written := r.1.written ++ [item k] } : io_buf α), r.2 + len k)) r0).1
      = { r0.1 with written := r0.1.written ++ (List.range K).map item } := by
  intro K
  induction K with
  | zero => intro r0; simp
  | succ n ih =>
    intro r0
    rw [for_loop_succ, List.range_succ, List.map_append]
    show ({ (for_loop n _ r0).1 with written := (for_loop n _ r0).1.written ++ [item n] } : io_buf α) = _
    rw [ih]
    simp

/-- The cell `stride * w + k` that `save_load` reads is the slot `lambda(w,k)`. -/
theorem save_load_slot (l : lda α) (w k : Nat) :
    l.all.weight_vector ((1 <<< l.all.stride_shift) * w + k) = l.lambda w k := by
  unfold lda.lambda
  have h := row_eq l w
  unfold lda.stride at h
  rw [h, Nat.mul_comm]

/-- One round of the loop of `save_load` appends the entries of the row. -/
theorem save_load_write_row_written (d_len : Nat → Nat) (f_len : α → Nat)
    (hd : ∀ i, d_len i ≠ 0) (l : lda α) (text : Bool) (i : Nat) (model_file : io_buf α) :
    (save_load_write_row d_len f_len l text i model_file).1
      = { model_file with written := model_file.written ++ model_row l text i } := by
  cases text with
  | true =>
    have hbody : (fun k (r : io_buf α × Nat) =>
        let ndx := (1 <<< l.all.stride_shift) * i + k
        let v := l.all.weight_vector ndx
        let w := bin_text_read_write_fixed r.1 (model_item.bin_weight v) 4
          (model_item.text_weight (v + l.lda_rho)) (f_len (v + l.lda_rho)) true
        (w.1, r.2 + w.2))
      = (fun k (r : io_buf α × Nat) =>
        (({ r.1 with written := r.1.written
            ++ [model_item.text_weight (l.lambda i k + l.lda_rho)] } : io_buf α),
          r.2 + f_len (l.lambda i k + l.lda_rho))) := by
      funext k r
      rw [← save_load_slot l i k]
      rfl
    unfold save_load_write_row
    simp only []
    rw [hbody]
    have h0 : (bin_text_read_write_fixed model_file (model_item.bin_index i) 4
        (model_item.text_index i) (d_len i) true)
        = ({ model_file with written := model_file.written ++ [model_item.text_index i] },
            d_len i) := rfl
    rw [h0, if_pos (hd i), for_loop_written]
    simp [model_row, bin_text_read_write_fixed]
  | false =>
    have hbody : (fun k (r : io_buf α × Nat) =>
        let ndx := (1 <<< l.all.stride_shift) * i + k
        let v := l.all.weight_vector ndx
        let w := bin_text_read_write_fixed r.1 (model_item.bin_weight v) 4
          (model_item.text_weight (v + l.lda_rho)) (f_len (v + l.lda_rho)) false
        (w.1, r.2 + w.2))
      = (fun k (r : io_buf α × Nat) =>
        (({ r.1 with written := r.1.written ++ [model_item.bin_weight (l.lambda i k)] } : io_buf α),
          r.2 + 4)) := by
      funext k r
      rw [← save_load_slot l i k]
      rfl
    unfold save_load_write_row
    simp only []
    rw [hbody]
    have h0 : (bin_text_read_write_fixed model_file (model_item.bin_index i) 4
        (model_item.text_index i) (d_len i) false)
        = ({ model_file with written := model_file.written ++ [model_item.bin_index i] }, 4) := rfl
    rw [h0, if_neg (by decide : ¬ (false = true)), if_pos (by decide : (4 : Nat) ≠ 0),
      for_loop_written]
    simp [model_row]

/-- The loop of `save_load` from row `i` on appends the rows `i, …, length - 1`. -/
theorem save_load_write_loop_written (d_len : Nat → Nat) (f_len : α → Nat)
    (hd : ∀ i, d_len i ≠ 0) (l : lda α) (text : Bool) :
    ∀ (n i : Nat) (model_file : io_buf α), i + n + 1 = l.all.length →
      save_load_write_loop d_len f_len l text i model_file
        = { model_file with written := model_file.written
              ++ (List.range' i (n + 1)).flatMap (model_row l text) } := by
  intro n
  induction n with
  | zero =>
    intro i model_file hi
    rw [save_load_write_loop, if_neg (by omega), save_load_write_row_written d_len f_len hd]
    simp
  | succ n ih =>
    intro i model_file hi
    rw [save_load_write_loop, if_pos (by omega), ih (i + 1) _ (by omega),
      save_load_write_row_written d_len f_len hd]
    rw [List.range'_succ i (n + 1)]
    simp

/-- The table has at least one row. -/
theorem length_pos (all : vw α) : 0 < all.length := by
  unfold vw.length
  rw [Nat.shiftLeft_eq, one_mul]
  exact Nat.pow_pos (by norm_num)

/-- What `save_load` writes: the rows `0, …, length - 1` in order. -/
theorem save_load_write_written (d_len : Nat → Nat) (f_len : α → Nat)
    (hd : ∀ i, d_len i ≠ 0) (l : lda α) (text : Bool) (model_file : io_buf α)
    (hf : 0 < model_file.files) :
    save_load_write d_len f_len l model_file text
      = { model_file with written := model_file.written
            ++ (List.range l.all.length).flatMap (model_row l text) } := by
  unfold save_load_write
  rw [if_pos hf, List.range_eq_range']
  have hp := length_pos l.all
  have h := save_load_write_loop_written d_len f_len hd l text (l.all.length - 1) 0 model_file
    (by omega)
  have e : l.all.length - 1 + 1 = l.all.length := by omega
  rw [e] at h
  exact h


/-- C17 (amended).  Layout of the saved model.  With a model file to write to,
`save_load` appends the rows `w = 0, …, W-1` in increasing order and nothing else.  In
text form a row is the index `w`, then the `K` values `lambda(w,k) + rho` for the
stored `lambda(w,k)` at slot `stride * w + k`, then a newline: the entries named by
the specification, and the newline.  In binary form a row is the index `w`, then the
`K` stored values `lambda(w,k)` themselves, without `rho`. -/
theorem save_load_layout (d_len : Nat → Nat) (f_len : α → Nat) (hd : ∀ i, d_len i ≠ 0)
    (l : lda α) (model_file : io_buf α) (hf : 0 < model_file.files) :
    (∀ text : Bool,
      (save_load_write d_len f_len l model_file text).written
        = model_file.written ++ (List.range l.all.length).flatMap (model_row l text) ∧
      (save_load_write d_len f_len l model_file text).files = model_file.files) ∧
    (∀ w, model_row l true w
      = spec_model_row l model_item.text_index model_item.text_weight w
          ++ [model_item.text_newline]) ∧
    (∀ w, model_row l false w
      = [model_item.bin_index w]
          ++ (List.range l.all.lda).map (fun k => model_item.bin_weight (l.lambda w k))) ∧
    (∀ w k, l.lambda w k = l.all.weight_vector (l.stride * w + k)) := by
  refine ⟨?_, ?_, ?_, ?_⟩
  · intro text
    rw [save_load_write_written d_len f_len hd l text model_file hf]
    exact ⟨rfl, rfl⟩
  · intro w
    rfl
  · intro w
    rfl
  · intro w k
    exact (save_load_slot l w k).symm

theorem save_load_layout_witness :
    (save_load_write (fun _ => 2) (fun _ => 9) (demo_learner : lda ℚ) ⟨1, []⟩ true).written
      = [] ++ (List.range (demo_learner : lda ℚ).all.length).flatMap
          (model_row (demo_learner : lda ℚ) true) :=
  ((save_load_layout (fun _ => 2) (fun _ => 9) (fun _ => two_ne_zero) (demo_learner : lda ℚ)
    ⟨1, []⟩ (by decide)).1 true).1

/-- The binary model of the learner `demo_learner` (two rows, one topic, `rho = 0.1`):
the values written are the stored `3` and `5`, where the layout of the specification
has `3 + 0.1` and `5 + 0.1`. -/
theorem spec_layout_counterexample :
    (save_load_write (fun _ => 2) (fun _ => 9) (demo_learner : lda ℚ) ⟨1, []⟩ false).written
      = [model_item.bin_index 0, model_item.bin_weight 3,
          model_item.bin_index 1, model_item.bin_weight 5] ∧
    (List.range (demo_learner : lda ℚ).all.length).flatMap
        (spec_model_row (demo_learner : lda ℚ) model_item.bin_index model_item.bin_weight)
      = [model_item.bin_index 0, model_item.bin_weight (3 + 0.1),
          model_item.bin_index 1, model_item.bin_weight (5 + 0.1)] ∧
    (model_item.bin_weight 3 : model_item ℚ) ≠ model_item.bin_weight (3 + 0.1) := by
  have hlen : (demo_learner : lda ℚ).all.length = 2 := by decide
  have h00 : (demo_learner : lda ℚ).lambda 0 0 = 3 := by
    simp [lda.lambda, lda.row, demo_learner, demo_all]
  have h10 : (demo_learner : lda ℚ).lambda 1 0 = 5 := by
    simp [lda.lambda, lda.row, demo_learner, demo_all]
  have hK : (demo_learner : lda ℚ).all.lda = 1 := rfl
  have hrho : (demo_learner : lda ℚ).lda_rho = 0.1 := rfl
  refine ⟨?_, ?_, ?_⟩
  · rw [save_load_write_written _ _ (fun _ => two_ne_zero) _ _ _ (by decide), hlen]
    simp [List.range_succ, model_row, hK, h00, h10]
  · rw [hlen]
    simp [List.range_succ, spec_model_row, hK, h00, h10, hrho]
  · intro h
    injection h with h
    norm_num at h

end claim_model_layout

end LDA

namespace LDA

section claim_frame

variable {α : Type} [LinearOrderedField α] [FloorRing α] [float_cast α]

/-- The first loop over `sorted_features`, whatever their order, leaves alone every
cell outside the `2K+1` slots of the rows of its entries. -/
theorem first_pass_frame (m : math_kernels α) (l : lda α) (i : Nat) :
    ∀ (feats : List (index_feature α)) (last : Option Nat) (W : Nat → α),
      (∀ s ∈ feats, i < (s.f.weight_index &&& l.all.weight_mask) ∨
        (s.f.weight_index &&& l.all.weight_mask) + 2 * l.all.lda + 1 ≤ i) →
      first_pass m l last W feats i = W i := by
  intro feats
  induction feats with
  | nil => intro last W _; rfl
  | cons s rest ih =>
    intro last W hfar
    have hrest : ∀ t ∈ rest, i < (t.f.weight_index &&& l.all.weight_mask) ∨
        (t.f.weight_index &&& l.all.weight_mask) + 2 * l.all.lda + 1 ≤ i :=
      fun t ht => hfar t (List.mem_cons_of_mem _ ht)
    rw [first_pass]
    by_cases hl : last = some s.f.weight_index
    · rw [if_pos hl]
      exact ih last W hrest
    · rw [if_neg hl, ih _ _ hrest]
      exact first_pass_row_frame m l W s i (hfar s (List.mem_cons_self _ _))

/-- The entries of a run leave alone every cell outside the `lambda` slots of their rows. -/
theorem entries_frame (l : lda α) (eta : α) (i : Nat) :
    ∀ (es : List (index_feature α)) (st : pass_state α),
      (∀ s ∈ es, i < (s.f.weight_index &&& l.all.weight_mask) ∨
        (s.f.weight_index &&& l.all.weight_mask) + l.all.lda ≤ i) →
      (es.foldl (second_pass_entry l eta) st).weights i = st.weights i := by
  intro es
  induction es with
  | nil => intro st _; rfl
  | cons s rest ih =>
    intro st hfar
    rw [List.foldl_cons, ih _ (fun t ht => hfar t (List.mem_cons_of_mem _ ht)),
      (second_pass_entry_apply l eta st s).1 i, if_neg]
    have := hfar s (List.mem_cons_self _ _)
    omega

/-- The second loop over `sorted_features`, whatever their order, leaves alone every
cell outside the `lambda` slots of the rows of its entries. -/
theorem second_pass_frame (l : lda α) (loc : batch_locals α) (i : Nat) :
    ∀ (n : Nat) (feats : List (index_feature α)) (st : pass_state α), feats.length ≤ n →
      (∀ s ∈ feats, i < (s.f.weight_index &&& l.all.weight_mask) ∨
        (s.f.weight_index &&& l.all.weight_mask) + l.all.lda ≤ i) →
      (second_pass l loc feats st).weights i = st.weights i := by
  intro n
  induction n with
  | zero =>
    intro feats st hlen _
    have : feats = [] := List.length_eq_zero.mp (by omega)
    subst this
    rw [second_pass]
  | succ n ih =>
    intro feats st hlen hfar
    cases feats with
    | nil => rw [second_pass]
    | cons s rest =>
      rw [second_pass]
      have hdrop : ∀ t ∈ rest.dropWhile (fun next => next.f.weight_index == s.f.weight_index),
          t ∈ rest := fun t ht => (List.dropWhile_sublist _).subset ht
      have htake : ∀ t ∈ rest.takeWhile (fun next => next.f.weight_index == s.f.weight_index),
          t ∈ rest := fun t ht => (List.takeWhile_sublist _).subset ht
      have hlen' : (rest.dropWhile (fun next => next.f.weight_index == s.f.weight_index)).length
          ≤ n := by
        have := (List.dropWhile_sublist
          (fun next : index_feature α => next.f.weight_index == s.f.weight_index)
          (l := rest)).length_le
        simp only [List.length_cons] at hlen
        omega
      rw [ih _ _ hlen' (fun t ht => hfar t (List.mem_cons_of_mem _ (hdrop t ht)))]
      rw [entries_frame l loc.eta i _ _ (by
        intro t ht
        rcases List.mem_cons.mp ht with rfl | ht'
        · exact hfar _ (List.mem_cons_self _ _)
        · exact hfar t (List.mem_cons_of_mem _ (htake t ht')))]
      show second_pass_shrink l loc.minuseta st.weights s i = st.weights i
      rw [second_pass_shrink_apply, if_neg]
      have := hfar s (List.mem_cons_self _ _)
      omega

/-- The table after a returning `learn_batch`, cell by cell, outside the slots of the
rows of the minibatch; no assumption on the order or on the place of the hashes. -/
theorem learn_batch_table_frame (m : math_kernels α) (fuel : Nat) (l l' : lda α)
    (h : learn_batch m fuel l = some l') (i : Nat)
    (hfar : ∀ s ∈ l.sorted_features, i < (s.f.weight_index &&& l.all.weight_mask) ∨
        (s.f.weight_index &&& l.all.weight_mask) + 2 * l.all.lda + 1 ≤ i) :
    l'.all.weight_vector i = l.all.weight_vector i := by
  by_cases hne : l.sorted_features = []
  · rw [learn_batch_of_empty m fuel l l' hne h]
  · obtain ⟨l3, hdocs, hl'⟩ := learn_batch_nonempty m fuel l l' hne h
    obtain ⟨v, E, sl, sd, ret, hl3⟩ := learn_batch_docs_frame m fuel _ _ _ _ _ hdocs
    have hperm := List.perm_insertionSort index_feature.le l.sorted_features
    have hfar1 : ∀ s ∈ (learn_batch_prologue m l).sorted_features,
        i < (s.f.weight_index &&& (learn_batch_prologue m l).all.weight_mask) ∨
        (s.f.weight_index &&& (learn_batch_prologue m l).all.weight_mask)
          + 2 * (learn_batch_prologue m l).all.lda + 1 ≤ i :=
      fun s hs => hfar s (hperm.mem_iff.mp hs)
    have hW1 : first_pass m (learn_batch_prologue m l) none (learn_batch_prologue m l).all.weight_vector
        (learn_batch_prologue m l).sorted_features i = l.all.weight_vector i :=
      first_pass_frame m (learn_batch_prologue m l) i _ none _ hfar1
    have e_w : l3.all.weight_vector = first_pass m (learn_batch_prologue m l) none
        (learn_batch_prologue m l).all.weight_vector (learn_batch_prologue m l).sorted_features := by
      rw [hl3]
    have e_s : l3.sorted_features = (learn_batch_prologue m l).sorted_features := by rw [hl3]
    have e_mask : l3.all.weight_mask = l.all.weight_mask := by rw [hl3]; rfl
    have e_lda : l3.all.lda = l.all.lda := by rw [hl3]; rfl
    have hfar3 : ∀ s ∈ l3.sorted_features,
        i < (s.f.weight_index &&& l3.all.weight_mask) ∨
        (s.f.weight_index &&& l3.all.weight_mask) + l3.all.lda ≤ i := by
      intro s hs
      rw [e_s] at hs
      rw [e_mask, e_lda]
      have := hfar s (hperm.mem_iff.mp hs)
      omega
    have h2 := second_pass_frame l3 (learn_batch_locals m l (l.example_t + 1)) i _
      l3.sorted_features ⟨l3.all.weight_vector, l3.total_new⟩ (le_refl _) hfar3
    have e' : l'.all.weight_vector = (second_pass l3 (learn_batch_locals m l (l.example_t + 1))
        l3.sorted_features ⟨l3.all.weight_vector, l3.total_new⟩).weights := by
      rw [hl']; rfl
    rw [e', h2]
    show l3.all.weight_vector i = l.all.weight_vector i
    rw [e_w]
    exact hW1

/-- C20.  `learn_batch` touches only the rows of the minibatch.  For a learner with
the layout of `lda_setup` whose entries of `sorted_features` have a row of the table
as their masked term hash, and for every returning `learn_batch`: if row `w` is not
the masked term hash of any entry, then all `stride` cells of `Row(w)` (`lambda`,
`t_last`, `u` and the unused cells) hold after the call what they held before it, and
the rows are laid out as before. -/
theorem learn_batch_untouched_rows (m : math_kernels α) (fuel : Nat) (l l' : lda α)
    (hc : l.config_ok)
    (halign : ∀ s ∈ l.sorted_features, ∃ w',
      (s.f.weight_index &&& l.all.weight_mask) = l.row w')
    (h : learn_batch m fuel l = some l') (w : Nat)
    (hw : ∀ s ∈ l.sorted_features, (s.f.weight_index &&& l.all.weight_mask) ≠ l.row w) :
    (∀ j, j < l.stride →
      l'.all.weight_vector (l.row w + j) = l.all.weight_vector (l.row w + j)) ∧
    (∀ k, k < l.all.lda → l'.lambda w k = l.lambda w k) ∧
    l'.t_last w = l.t_last w ∧
    (∀ k, k < l.all.lda → l'.u w k = l.u w k) ∧
    l'.stride = l.stride ∧ l'.row w = l.row w ∧ l'.all.lda = l.all.lda := by
  have hs := hc.2.1
  obtain ⟨e_lda, _, e_ss, _⟩ := learn_batch_frame m fuel l l' h
  have hrow : l'.row w = l.row w := by unfold lda.row; rw [e_ss]
  have hstride : l'.stride = l.stride := by unfold lda.stride; rw [e_ss]
  have hcell : ∀ j, j < l.stride →
      l'.all.weight_vector (l.row w + j) = l.all.weight_vector (l.row w + j) := by
    intro j hj
    apply learn_batch_table_frame m fuel l l' h
    intro s hsm
    obtain ⟨w', hw'⟩ := halign s hsm
    have hne : w ≠ w' := by
      intro e
      apply hw s hsm
      rw [hw', e]
    rw [hw']
    rcases row_apart l w w' hne with hr | hr <;> omega
  refine ⟨hcell, fun k hk => ?_, ?_, fun k hk => ?_, hstride, hrow, e_lda⟩
  · unfold lda.lambda
    rw [hrow]
    exact hcell k (by omega)
  · unfold lda.t_last
    rw [hrow, e_lda]
    exact hcell _ (by omega)
  · unfold lda.u
    rw [hrow, e_lda]
    have := hcell (l.all.lda + 1 + k) (by omega)
    rw [← add_assoc, ← add_assoc] at this
    exact this

theorem learn_batch_untouched_rows_witness :
    ∃ l', learn_batch (kernels_of Real.exp Real.log (fun x p => x ^ p)
      (deriv (fun y => Real.log (Real.Gamma y))) (fun y => Real.log (Real.Gamma y))) 2 (demo_batch : lda ℝ) = some l' ∧
      l'.lambda 1 0 = (demo_batch : lda ℝ).lambda 1 0 ∧
      l'.t_last 1 = (demo_batch : lda ℝ).t_last 1 := by
  obtain ⟨l', hl'⟩ := demo_batch_returns
  have h := learn_batch_untouched_rows (kernels_of Real.exp Real.log (fun x p => x ^ p)
      (deriv (fun y => Real.log (Real.Gamma y))) (fun y => Real.log (Real.Gamma y))) 2 (demo_batch : lda ℝ) l' demo_batch_config
    (by
      intro s hs
      rw [demo_batch_sorted] at hs
      simp only [List.mem_cons, List.mem_singleton, List.not_mem_nil, or_false] at hs
      refine ⟨0, ?_⟩
      rcases hs with rfl | rfl <;> rfl)
    hl' 1
    (by
      intro s hs
      rw [demo_batch_sorted] at hs
      simp only [List.mem_cons, List.mem_singleton, List.not_mem_nil, or_false] at hs
      rcases hs with rfl | rfl <;> decide)
  exact ⟨l', hl', h.2.1 0 (by decide), h.2.2.1⟩

end claim_frame

end LDA

namespace LDA

section pending_lengths

variable {α : Type} [LinearOrderedField α] [FloorRing α] [float_cast α]

/-- The loop over the features in `learn` adds the `(int)x`, one by one, to the cell
`num_ex` of `doc_lengths` and leaves its size alone. -/
theorem learn_push_fold_lengths (num_ex : Nat) :
    ∀ (fs : List (feature α)) (l1 : lda α),
      (fs.foldl (fun (l2 : lda α) f =>
          { l2 with
            sorted_features := l2.sorted_features ++ [⟨num_ex, f⟩],
            doc_lengths := l2.doc_lengths.set num_ex
              (int_add (l2.doc_lengths.data num_ex) (float_to_int f.x)) })
        l1).doc_lengths.size = l1.doc_lengths.size ∧
      ∀ d, (fs.foldl (fun (l2 : lda α) f =>
          { l2 with
            sorted_features := l2.sorted_features ++ [⟨num_ex, f⟩],
            doc_lengths := l2.doc_lengths.set num_ex
              (int_add (l2.doc_lengths.data num_ex) (float_to_int f.x)) })
        l1).doc_lengths.data d
        = if d = num_ex then
            fs.foldl (fun s f => int_add s (float_to_int f.x)) (l1.doc_lengths.data num_ex)
          else l1.doc_lengths.data d := by
  intro fs
  induction fs with
  | nil =>
    intro l1
    refine ⟨rfl, fun d => ?_⟩
    by_cases hd : d = num_ex
    · subst hd; simp
    · simp [hd]
  | cons f rest ih =>
    intro l1
    rw [List.foldl_cons]
    obtain ⟨h1, h2⟩ := ih
      { l1 with
        sorted_features := l1.sorted_features ++ [⟨num_ex, f⟩],
        doc_lengths := l1.doc_lengths.set num_ex
          (int_add (l1.doc_lengths.data num_ex) (float_to_int f.x)) }
    refine ⟨h1, fun d => ?_⟩
    rw [h2 d]
    by_cases hd : d = num_ex
    · rw [if_pos hd, if_pos hd, List.foldl_cons]
      show List.foldl _ (store l1.doc_lengths.data num_ex _ num_ex) rest = _
      rw [store_same]
    · rw [if_neg hd, if_neg hd]
      show store l1.doc_lengths.data num_ex _ d = _
      rw [store_ne _ _ hd]

/-- The array `doc_lengths` after `learn` has pushed an example. -/
theorem learn_push_lengths (l : lda α) (ec : Example α) :
    (learn_push l ec).doc_lengths.size = l.doc_lengths.size + 1 ∧
    ∀ d, (learn_push l ec).doc_lengths.data d
      = if d = l.examples.length then
          ec.features.foldl (fun s f => int_add s (float_to_int f.x))
            (store l.doc_lengths.data l.doc_lengths.size 0 l.examples.length)
        else store l.doc_lengths.data l.doc_lengths.size 0 d := by
  unfold learn_push
  obtain ⟨h1, h2⟩ := learn_push_fold_lengths l.examples.length ec.features
    { l with examples := l.examples ++ [ec], doc_lengths := l.doc_lengths.push_back 0 }
  exact ⟨h1, h2⟩

/-- The buffers of pending work stay in step when `learn` pushes an example. -/
theorem learn_push_doc_lengths_ok (l : lda α) (ec : Example α) (h : l.doc_lengths_ok) :
    (learn_push l ec).doc_lengths_ok := by
  obtain ⟨h1, h2, h3, h4⟩ := h
  obtain ⟨p1, p2, _⟩ := learn_push_fields l ec
  obtain ⟨q1, q2⟩ := learn_push_lengths l ec
  refine ⟨?_, ?_, ?_, ?_⟩
  · rw [p1, q1, List.length_append, List.length_singleton]
    omega
  · intro d ec' hd
    rw [p1] at hd
    rw [q2 d]
    by_cases hlt : d < l.examples.length
    · rw [List.getElem?_append_left hlt] at hd
      rw [if_neg (by omega), store_ne _ _ (by omega)]
      exact h2 d ec' hd
    · rw [List.getElem?_append_right (by omega)] at hd
      have hd0 : d = l.examples.length := by
        by_contra hne
        have : d - l.examples.length ≠ 0 := by omega
        obtain ⟨j, hj⟩ := Nat.exists_eq_succ_of_ne_zero this
        rw [hj] at hd
        simp at hd
      subst hd0
      simp only [Nat.sub_self, List.getElem?_cons_zero, Option.some.injEq] at hd
      subst hd
      rw [if_pos rfl]
      by_cases hs : l.examples.length = l.doc_lengths.size
      · rw [hs, store_same]
        rfl
      · rw [store_ne _ _ hs, h3 _ (le_refl _) (by omega)]
        rfl
  · intro d hd1 hd2
    rw [p1, List.length_append, List.length_singleton] at hd1
    rw [q1] at hd2
    rw [q2 d, if_neg (by omega)]
    by_cases hs : d = l.doc_lengths.size
    · rw [hs, store_same]
    · rw [store_ne _ _ hs]
      exact h3 d (by omega) (by omega)
  · rintro ⟨ec', hmem, hf⟩
    rw [p1] at hmem
    rw [p2]
    rcases List.mem_append.mp hmem with hm | hm
    · intro hnil
      exact h4 ⟨ec', hm, hf⟩ (List.append_eq_nil.mp hnil).1
    · rw [List.mem_singleton] at hm
      subst hm
      intro hnil
      have := (List.append_eq_nil.mp hnil).2
      rw [List.map_eq_nil_iff] at this
      exact hf this

/-- The buffers of pending work are in step after a returning `learn_batch`. -/
theorem learn_batch_doc_lengths_ok (m : math_kernels α) (fuel : Nat) (l l' : lda α)
    (hI : l.doc_lengths_ok) (h : learn_batch m fuel l = some l') : l'.doc_lengths_ok := by
  obtain ⟨h1, h2, h3, h4⟩ := hI
  by_cases hne : l.sorted_features = []
  · have hl' := learn_batch_of_empty m fuel l l' hne h
    subst hl'
    refine ⟨Nat.zero_le _, ?_, ?_, ?_⟩
    · intro d ec hd
      simp at hd
    · intro d _ hd
      show l.doc_lengths.data d = 0
      by_cases hlt : d < l.examples.length
      · have hget : l.examples[d]? = some (l.examples[d]) := List.getElem?_eq_getElem hlt
        rw [h2 d _ hget]
        have hf : (l.examples[d]).features = [] := by
          by_contra hf
          exact h4 ⟨_, List.getElem_mem hlt, hf⟩ hne
        unfold Example.int_length
        rw [hf]
        rfl
      · exact h3 d (by omega) hd
    · rintro ⟨ec, hmem, _⟩
      simp at hmem
  · obtain ⟨_, _, _, _, _, _, _, _, _, _, _, _, _, _, _, e16, e17⟩ := learn_batch_frame m fuel l l' h
    obtain ⟨l3, _, hl'⟩ := learn_batch_nonempty m fuel l l' hne h
    have hsz : l'.doc_lengths.size = 0 := by rw [hl']; rfl
    refine ⟨by rw [e16]; exact Nat.zero_le _, ?_, ?_, ?_⟩
    · intro d ec hd
      rw [e16] at hd
      simp at hd
    · intro d _ hd
      omega
    · rintro ⟨ec, hmem, _⟩
      rw [e16] at hmem
      simp at hmem

/-- The buffers of pending work stay in step across a returning call. -/
theorem doc_lengths_ok_step (m : math_kernels α) (fuel : Nat) (l : lda α) (c : lda_call α)
    (l' : lda α) (hI : l.doc_lengths_ok) (h : lda_call.run m fuel l c = some l') :
    l'.doc_lengths_ok := by
  cases c with
  | learn ec =>
    have hrun : learn m fuel l ec = some l' := h
    unfold learn at hrun
    simp only [] at hrun
    split_ifs at hrun with hfull
    · exact learn_batch_doc_lengths_ok m fuel _ _ (learn_push_doc_lengths_ok l ec hI) hrun
    · simp only [Option.some.injEq] at hrun
      rw [← hrun]
      exact learn_push_doc_lengths_ok l ec hI
  | end_pass =>
    have hrun : end_pass m fuel l = some l' := h
    unfold end_pass at hrun
    split_ifs at hrun with hsome
    · exact learn_batch_doc_lengths_ok m fuel _ _ hI hrun
    · simp only [Option.some.injEq] at hrun
      rw [← hrun]
      exact hI

/-- The buffers of pending work are in step in every learner reached from the start,
also after the next call has pushed its example. -/
theorem doc_lengths_ok_run (m : math_kernels α) (frand48 : Nat → α) (all : vw α)
    (vm : lda_options α) (fuel : Nat) (calls : List (lda_call α)) (l : lda α)
    (hrun : run_calls m fuel (lda_start m frand48 all vm) calls = some l) (c : lda_call α) :
    (lda_call.pushed l c).doc_lengths_ok := by
  have hstart : (lda_start m frand48 all vm).doc_lengths_ok := by
    refine ⟨Nat.zero_le _, ?_, ?_, ?_⟩
    · intro d ec hd
      have he : (lda_start m frand48 all vm).examples = [] := rfl
      rw [he] at hd
      simp at hd
    · intro d _ _
      rfl
    · rintro ⟨ec, hmem, _⟩
      have he : (lda_start m frand48 all vm).examples = [] := rfl
      rw [he] at hmem
      simp at hmem
  have hl := run_calls_invariant m fuel (fun b => b.doc_lengths_ok)
    (fun b c b' hb hc => doc_lengths_ok_step m fuel b c b' hb hc) calls _ l hstart hrun
  cases c with
  | learn ec => exact learn_push_doc_lengths_ok l ec hl
  | end_pass => exact hl

end pending_lengths

end LDA

namespace LDA

section batch_loss

variable {α : Type} [LinearOrderedField α] [FloorRing α] [float_cast α]

/-- The loss after the loop over the documents: every document whose entry of
`doc_lengths` is the sum of its `(int)x` takes its score off when that sum is
positive. -/
theorem learn_batch_docs_loss (m : math_kernels α) (fuel : Nat) (W : Nat → α) :
    ∀ (exs : List (Example α)) (d : Nat) (l l' : lda α),
      (∀ j ec, exs[j]? = some ec → l.doc_lengths.data (d + j) = ec.int_length) →
      learn_batch_docs m fuel W d exs l = some l' →
      ∃ scores, learn_batch_docs_scores m fuel W d exs l = some scores ∧
        scores.length = exs.length ∧
        l'.all.sum_loss = l.all.sum_loss - (List.zipWith Example.loss_term exs scores).sum ∧
        l'.all.sum_loss_since_last_dump
          = l.all.sum_loss_since_last_dump - (List.zipWith Example.loss_term exs scores).sum := by
  intro exs
  induction exs with
  | nil =>
    intro d l l' _ h
    simp only [learn_batch_docs, Option.some.injEq] at h
    subst h
    exact ⟨[], rfl, rfl, by simp, by simp⟩
  | cons ec rest ih =>
    intro d l l' hlen h
    rw [learn_batch_docs] at h
    rw [learn_batch_docs_scores]
    cases hl : lda_loop m fuel l l.Elogtheta (d * l.all.lda) W ec with
    | none => rw [hl] at h; simp at h
    | some r =>
      rw [hl] at h
      simp only at h ⊢
      have hd : l.doc_lengths.data d = ec.int_length := hlen 0 ec (by simp)
      have hrest : ∀ j ec', rest[j]? = some ec' →
          l.doc_lengths.data (d + 1 + j) = ec'.int_length := by
        intro j ec' hj
        have := hlen (j + 1) ec' (by simpa using hj)
        rw [← this]
        congr 1
        omega
      obtain ⟨scores, hs, hlen', h1, h2⟩ := ih (d + 1) _ l'
        (by intro j ec' hj; exact hrest j ec' hj) h
      refine ⟨r.score :: scores, ?_, by simp [hlen'], ?_, ?_⟩
      · rw [hs]; rfl
      · rw [h1, List.zipWith_cons_cons, List.sum_cons]
        unfold Example.loss_term
        rw [← hd]
        by_cases hp : l.doc_lengths.data d > 0
        · simp only [hp, if_true, return_simple_example]
          ring
        · simp only [hp, if_false, return_simple_example]
          ring
      · rw [h2, List.zipWith_cons_cons, List.sum_cons]
        unfold Example.loss_term
        rw [← hd]
        by_cases hp : l.doc_lengths.data d > 0
        · simp only [hp, if_true, return_simple_example]
          ring
        · simp only [hp, if_false, return_simple_example]
          ring

/-- The loss after a returning `learn_batch` on a non-empty minibatch whose buffers
are in step. -/
theorem learn_batch_loss (m : math_kernels α) (fuel : Nat) (l l' : lda α)
    (hI : l.doc_lengths_ok) (hne : l.sorted_features ≠ [])
    (h : learn_batch m fuel l = some l') :
    ∃ scores, learn_batch_scores m fuel l = some scores ∧
      scores.length = l.examples.length ∧
      l'.all.sum_loss = l.all.sum_loss - (List.zipWith Example.loss_term l.examples scores).sum ∧
      l'.all.sum_loss_since_last_dump
        = l.all.sum_loss_since_last_dump
          - (List.zipWith Example.loss_term l.examples scores).sum := by
  obtain ⟨l3, hdocs, hl'⟩ := learn_batch_nonempty m fuel l l' hne h
  have hlen : ∀ j ec, l.examples[j]? = some ec →
      l.doc_lengths.data (0 + j) = ec.int_length := by
    intro j ec hj
    rw [Nat.zero_add]
    exact hI.2.1 j ec hj
  have hdocs' : learn_batch_docs m fuel (learn_batch_first_pass m l) 0 l.examples
      { learn_batch_prologue m l with
        all := { (learn_batch_prologue m l).all with
          weight_vector := learn_batch_first_pass m l } } = some l3 := hdocs
  obtain ⟨scores, hs, hl, h1, h2⟩ := learn_batch_docs_loss m fuel _ l.examples 0 _ l3
    (by intro j ec hj; exact hlen j ec hj) hdocs'
  refine ⟨scores, hs, hl, ?_, ?_⟩
  · rw [hl']
    exact h1
  · rw [hl']
    exact h2

end batch_loss

end LDA

namespace LDA

section claim_doc_lengths

variable {α : Type} [LinearOrderedField α] [FloorRing α] [float_cast α]

/-- For whole-number values the sum of the `(int)x` is the sum of the `x`. -/
theorem int_sum_of_whole :
    ∀ fs : List (feature α), (∀ f ∈ fs, ∃ n : Int, f.x = (n : α)) →
      (((fs.map (fun f => to_int f.x)).sum : Int) : α) = (fs.map (fun f => f.x)).sum := by
  intro fs
  induction fs with
  | nil => intro _; simp
  | cons f rest ih =>
    intro h
    obtain ⟨n, hn⟩ := h f (List.mem_cons_self _ _)
    rw [List.map_cons, List.sum_cons, List.map_cons, List.sum_cons, Int.cast_add,
      ih (fun t ht => h t (List.mem_cons_of_mem _ ht)), hn, to_int_intCast]

/-- The machine's conversion `(int)x` rounds toward zero when the result is in the
range of `int`. -/
theorem float_to_int_of_range (x : α) (h1 : -2 ^ 31 ≤ to_int x) (h2 : to_int x < 2 ^ 31) :
    float_to_int x = to_int x := by
  unfold float_to_int
  rw [if_pos ⟨h1, h2⟩]

/-- The machine's addition of two `int` is the sum when this is in the range of `int`. -/
theorem int_add_of_range (a b : Int) (h1 : -2 ^ 31 ≤ a + b) (h2 : a + b < 2 ^ 31) :
    int_add a b = a + b := by
  unfold int_add
  rw [Int.emod_eq_of_lt (by omega) (by omega)]
  ring

/-- As long as the magnitudes of the start value and of the `(int)x` add up to less
than `2^31`, the accumulation in an `int` gives the sum. -/
theorem int_fold_of_small :
    ∀ (fs : List (feature α)) (s : Int),
      (s.natAbs : Int) + ((fs.map (fun f => ((to_int f.x).natAbs : Int))).sum) < 2 ^ 31 →
      fs.foldl (fun s f => int_add s (float_to_int f.x)) s
        = s + (fs.map (fun f => to_int f.x)).sum := by
  intro fs
  induction fs with
  | nil => intro s _; simp
  | cons f rest ih =>
    intro s h
    rw [List.map_cons, List.sum_cons] at h
    have hrest : (0 : Int) ≤ (rest.map (fun f => ((to_int f.x).natAbs : Int))).sum := by
      apply List.sum_nonneg
      intro x hx
      obtain ⟨f', _, rfl⟩ := List.mem_map.mp hx
      exact Int.natCast_nonneg _
    have hconv : float_to_int f.x = to_int f.x :=
      float_to_int_of_range f.x (by omega) (by omega)
    have hadd : int_add s (to_int f.x) = s + to_int f.x :=
      int_add_of_range s (to_int f.x) (by omega) (by omega)
    rw [List.foldl_cons, hconv, hadd, ih (s + to_int f.x) (by omega), List.map_cons,
      List.sum_cons]
    ring

/-- For a document whose `(int)x` have magnitudes that add up to less than `2^31`, the
entry of `doc_lengths` is the sum of the `(int)x`. -/
theorem int_length_of_small (ec : Example α)
    (h : (ec.features.map (fun f => ((to_int f.x).natAbs : Int))).sum < 2 ^ 31) :
    ec.int_length = (ec.features.map (fun f => to_int f.x)).sum := by
  unfold Example.int_length
  rw [int_fold_of_small ec.features 0 (by simpa using h), zero_add]

/-- For whole-number feature values whose magnitudes add up to less than `2^31`, the
entry of `doc_lengths` is the sum of the `x`. -/
theorem int_length_of_whole (ec : Example α) (h : ∀ f ∈ ec.features, ∃ n : Int, f.x = (n : α))
    (hs : (ec.features.map (fun f => ((to_int f.x).natAbs : Int))).sum < 2 ^ 31) :
    ((ec.int_length : Int) : α) = ec.mass := by
  rw [int_length_of_small ec hs]
  exact int_sum_of_whole ec.features h

/-- A sum of terms of documents whose sum of `(int)x` is not positive is zero. -/
theorem loss_terms_zero :
    ∀ (exs : List (Example α)) (scores : List α), (∀ ec ∈ exs, ec.int_length ≤ 0) →
      (List.zipWith Example.loss_term exs scores).sum = 0 := by
  intro exs
  induction exs with
  | nil => intro scores _; simp
  | cons ec rest ih =>
    intro scores h
    cases scores with
    | nil => simp
    | cons s ss =>
      rw [List.zipWith_cons_cons, List.sum_cons, ih ss (fun t ht => h t (List.mem_cons_of_mem _ ht))]
      unfold Example.loss_term
      rw [if_neg (not_lt.mpr (h ec (List.mem_cons_self _ _)))]
      simp

/-- C11 (amended).  For every learner reached from the start by `learn` and `end_pass`
calls, once the next call has pushed its example: `doc_lengths[d]` of every pending
document `d` is what the `int` accumulation of the `(int)x` of its features gives.
For a document whose `(int)x` have magnitudes that add up to less than `2^31` (no
conversion and no addition leaves the range of `int`) this is the sum over its
features of `x` rounded toward zero, and the sum of `x` when every `x` is a whole
number.  In particular the document that `learn` has just pushed has this value in
its entry.  A returning `learn_batch` on a non-empty minibatch takes the score of
document `d` off `sum_loss` and off `sum_loss_since_last_dump` exactly when the entry
is positive. -/
theorem doc_lengths_truncated_sum (m : math_kernels α) (frand48 : Nat → α) (all : vw α)
    (vm : lda_options α) (fuel : Nat) (calls : List (lda_call α)) (l : lda α)
    (hrun : run_calls m fuel (lda_start m frand48 all vm) calls = some l) (c : lda_call α) :
    (∀ d ec, (lda_call.pushed l c).examples[d]? = some ec →
      (lda_call.pushed l c).doc_lengths.data d = ec.int_length) ∧
    (∀ d ec, (lda_call.pushed l c).examples[d]? = some ec →
      (ec.features.map (fun f => ((to_int f.x).natAbs : Int))).sum < 2 ^ 31 →
      (lda_call.pushed l c).doc_lengths.data d = (ec.features.map (fun f => to_int f.x)).sum ∧
      ((∀ f ∈ ec.features, ∃ n : Int, f.x = (n : α)) →
        (((lda_call.pushed l c).doc_lengths.data d : Int) : α) = ec.mass)) ∧
    (∀ ec : Example α, (learn_push l ec).doc_lengths.data l.examples.length = ec.int_length) ∧
    (∀ l', learn_batch m fuel (lda_call.pushed l c) = some l' →
      (lda_call.pushed l c).sorted_features ≠ [] →
      ∃ scores, learn_batch_scores m fuel (lda_call.pushed l c) = some scores ∧
        scores.length = (lda_call.pushed l c).examples.length ∧
        l'.all.sum_loss = (lda_call.pushed l c).all.sum_loss
          - (List.zipWith (fun ec s => if ec.int_length > 0 then s else 0)
              (lda_call.pushed l c).examples scores).sum ∧
        l'.all.sum_loss_since_last_dump = (lda_call.pushed l c).all.sum_loss_since_last_dump
          - (List.zipWith (fun ec s => if ec.int_length > 0 then s else 0)
              (lda_call.pushed l c).examples scores).sum) := by
  have hok := doc_lengths_ok_run m frand48 all vm fuel calls l hrun
  refine ⟨(hok c).2.1, ?_, ?_, ?_⟩
  · intro d ec hd hs
    rw [(hok c).2.1 d ec hd]
    exact ⟨int_length_of_small ec hs, fun hw => int_length_of_whole ec hw hs⟩
  · intro ec
    have h := (hok (lda_call.learn ec)).2.1 l.examples.length ec
    apply h
    show (learn_push l ec).examples[l.examples.length]? = some ec
    rw [(learn_push_fields l ec).1]
    simp
  · intro l' hl' hne
    exact learn_batch_loss m fuel _ l' (hok c) hne hl'

theorem doc_lengths_truncated_sum_witness :
    (learn_push (lda_start (kernels_of Real.exp Real.log (fun x p => x ^ p)
      (deriv (fun y => Real.log (Real.Gamma y))) (fun y => Real.log (Real.Gamma y))) (fun _ => 1) (demo_all : vw ℝ)
        ⟨1, 0.1, 0.1, 1, 0.001, 2, lda_math_mode.USE_PRECISE⟩) demo_doc).doc_lengths.data 0
      = (demo_doc : Example ℝ).int_length :=
  (doc_lengths_truncated_sum (kernels_of Real.exp Real.log (fun x p => x ^ p)
      (deriv (fun y => Real.log (Real.Gamma y))) (fun y => Real.log (Real.Gamma y))) (fun _ => 1) (demo_all : vw ℝ)
    ⟨1, 0.1, 0.1, 1, 0.001, 2, lda_math_mode.USE_PRECISE⟩ 2 [] _ rfl
    (lda_call.learn demo_doc)).2.2.1 demo_doc


/-- The document `half_doc` has no whole word: its sum of `(int)x` is `0`. -/
theorem half_doc_int_length : (half_doc : Example ℝ).int_length = 0 := by
  have h : to_int (1 / 2 : ℝ) = 0 := by
    unfold to_int
    rw [if_pos (by norm_num), Int.floor_eq_zero_iff]
    constructor <;> norm_num
  have h2 : float_to_int (1 / 2 : ℝ) = 0 := by
    rw [float_to_int_of_range _ (by rw [h]; norm_num) (by rw [h]; norm_num), h]
  unfold Example.int_length half_doc
  simp only [List.foldl_cons, List.foldl_nil]
  rw [h2]
  rfl

/-- The start of the small learner with a minibatch of two documents: two calls of
`learn` on the document `half_doc`, whose only feature has the value `1/2`.  The sum
of `x` is `1/2 > 0`, but the entry of `doc_lengths` is `0`, the test of `learn_batch`
fails for every score, and the minibatch leaves `sum_loss` as it was. -/
theorem fractional_mass_counterexample :
    (half_doc : Example ℝ).mass = 1 / 2 ∧
    (learn_push (lda_start (kernels_of Real.exp Real.log (fun x p => x ^ p)
      (deriv (fun y => Real.log (Real.Gamma y))) (fun y => Real.log (Real.Gamma y))) (fun _ => 1) (demo_all : vw ℝ)
      ⟨1, 0.1, 0.1, 1, 0.001, 2, lda_math_mode.USE_PRECISE⟩) half_doc).doc_lengths.data 0 = 0 ∧
    (∀ s : ℝ, (half_doc : Example ℝ).loss_term s = 0) ∧
    ∃ l', run_calls (kernels_of Real.exp Real.log (fun x p => x ^ p)
      (deriv (fun y => Real.log (Real.Gamma y))) (fun y => Real.log (Real.Gamma y))) 2 (lda_start (kernels_of Real.exp Real.log (fun x p => x ^ p)
      (deriv (fun y => Real.log (Real.Gamma y))) (fun y => Real.log (Real.Gamma y))) (fun _ => 1) (demo_all : vw ℝ)
      ⟨1, 0.1, 0.1, 1, 0.001, 2, lda_math_mode.USE_PRECISE⟩)
        [lda_call.learn half_doc, lda_call.learn half_doc] = some l' ∧
      l'.all.sum_loss = (lda_start (kernels_of Real.exp Real.log (fun x p => x ^ p)
      (deriv (fun y => Real.log (Real.Gamma y))) (fun y => Real.log (Real.Gamma y))) (fun _ => 1) (demo_all : vw ℝ)
      ⟨1, 0.1, 0.1, 1, 0.001, 2, lda_math_mode.USE_PRECISE⟩).all.sum_loss := by
  obtain ⟨hc, hK, _, hnb, _, _, hmode, hmb, _, _, hex, hsf, _⟩ := demo_start_facts 2
  have heps : (0 : ℝ) ≤ (lda_start (kernels_of Real.exp Real.log (fun x p => x ^ p)
      (deriv (fun y => Real.log (Real.Gamma y))) (fun y => Real.log (Real.Gamma y))) (fun _ => 1) (demo_all : vw ℝ)
      ⟨1, 0.1, 0.1, 1, 0.001, 2, lda_math_mode.USE_PRECISE⟩).lda_epsilon := by
    show (0 : ℝ) ≤ 0.001
    norm_num
  have hok0 := doc_lengths_ok_run (kernels_of Real.exp Real.log (fun x p => x ^ p)
      (deriv (fun y => Real.log (Real.Gamma y))) (fun y => Real.log (Real.Gamma y))) (fun _ => 1) (demo_all : vw ℝ)
    ⟨1, 0.1, 0.1, 1, 0.001, 2, lda_math_mode.USE_PRECISE⟩ 2 [] _ rfl
  have hcall : ∀ (b : lda ℝ), b.all.num_bits = 1 →
      (lda_call.learn (half_doc : Example ℝ)).within_mask b := by
    intro b hb f hf
    simp only [half_doc, List.mem_singleton] at hf
    subst hf
    refine ⟨0, ?_, ?_⟩
    · unfold vw.length; rw [hb]; decide
    · unfold lda.row; simp
  -- the first call pushes the document
  obtain ⟨l1, r0, r1, r2, r3, r4, r5, r6, r7, r8⟩ := single_step (kernels_of Real.exp Real.log (fun x p => x ^ p)
      (deriv (fun y => Real.log (Real.Gamma y))) (fun y => Real.log (Real.Gamma y))) (lda_start (kernels_of Real.exp Real.log (fun x p => x ^ p)
      (deriv (fun y => Real.log (Real.Gamma y))) (fun y => Real.log (Real.Gamma y))) (fun _ => 1) (demo_all : vw ℝ)
      ⟨1, 0.1, 0.1, 1, 0.001, 2, lda_math_mode.USE_PRECISE⟩)
    (lda_call.learn half_doc) hc hK (Or.inl (by rw [hmode]; intro hh; cases hh)) heps
    (by rw [hsf]; intro s hs; exact absurd hs (List.not_mem_nil s))
    (by rw [hex]; intro ec hec; exact absurd hec (List.not_mem_nil ec))
    (hcall _ hnb)
  have h1 : lda_call.run (kernels_of Real.exp Real.log (fun x p => x ^ p)
      (deriv (fun y => Real.log (Real.Gamma y))) (fun y => Real.log (Real.Gamma y))) 2 (lda_start (kernels_of Real.exp Real.log (fun x p => x ^ p)
      (deriv (fun y => Real.log (Real.Gamma y))) (fun y => Real.log (Real.Gamma y))) (fun _ => 1) (demo_all : vw ℝ)
      ⟨1, 0.1, 0.1, 1, 0.001, 2, lda_math_mode.USE_PRECISE⟩) (lda_call.learn half_doc)
      = some (learn_push (lda_start (kernels_of Real.exp Real.log (fun x p => x ^ p)
      (deriv (fun y => Real.log (Real.Gamma y))) (fun y => Real.log (Real.Gamma y))) (fun _ => 1) (demo_all : vw ℝ)
      ⟨1, 0.1, 0.1, 1, 0.001, 2, lda_math_mode.USE_PRECISE⟩) half_doc) := by
    show learn (kernels_of Real.exp Real.log (fun x p => x ^ p)
      (deriv (fun y => Real.log (Real.Gamma y))) (fun y => Real.log (Real.Gamma y))) 2 (lda_start (kernels_of Real.exp Real.log (fun x p => x ^ p)
      (deriv (fun y => Real.log (Real.Gamma y))) (fun y => Real.log (Real.Gamma y))) (fun _ => 1) (demo_all : vw ℝ)
      ⟨1, 0.1, 0.1, 1, 0.001, 2, lda_math_mode.USE_PRECISE⟩) half_doc = _
    unfold learn
    simp only []
    rw [if_neg]
    rw [hex, hmb]
    decide
  have hl1 : l1 = learn_push (lda_start (kernels_of Real.exp Real.log (fun x p => x ^ p)
      (deriv (fun y => Real.log (Real.Gamma y))) (fun y => Real.log (Real.Gamma y))) (fun _ => 1) (demo_all : vw ℝ)
      ⟨1, 0.1, 0.1, 1, 0.001, 2, lda_math_mode.USE_PRECISE⟩) half_doc := by
    rw [h1] at r0
    exact (Option.some.inj r0).symm
  subst hl1
  -- the second call pushes the document and runs the minibatch
  obtain ⟨l2, t0, _⟩ := single_step (kernels_of Real.exp Real.log (fun x p => x ^ p)
      (deriv (fun y => Real.log (Real.Gamma y))) (fun y => Real.log (Real.Gamma y))) _ (lda_call.learn half_doc) r1 r2 r3 r4 r5 r6
    (hcall _ (by rw [r7]; exact hnb))
  obtain ⟨p1, p2, p3⟩ := learn_push_fields (lda_start (kernels_of Real.exp Real.log (fun x p => x ^ p)
      (deriv (fun y => Real.log (Real.Gamma y))) (fun y => Real.log (Real.Gamma y))) (fun _ => 1) (demo_all : vw ℝ)
      ⟨1, 0.1, 0.1, 1, 0.001, 2, lda_math_mode.USE_PRECISE⟩) (half_doc : Example ℝ)
  obtain ⟨q1, q2, q3⟩ := learn_push_fields (learn_push (lda_start (kernels_of Real.exp Real.log (fun x p => x ^ p)
      (deriv (fun y => Real.log (Real.Gamma y))) (fun y => Real.log (Real.Gamma y))) (fun _ => 1) (demo_all : vw ℝ)
      ⟨1, 0.1, 0.1, 1, 0.001, 2, lda_math_mode.USE_PRECISE⟩) (half_doc : Example ℝ))
    (half_doc : Example ℝ)
  have hbatch : learn_batch (kernels_of Real.exp Real.log (fun x p => x ^ p)
      (deriv (fun y => Real.log (Real.Gamma y))) (fun y => Real.log (Real.Gamma y))) 2
      (learn_push (learn_push (lda_start (kernels_of Real.exp Real.log (fun x p => x ^ p)
      (deriv (fun y => Real.log (Real.Gamma y))) (fun y => Real.log (Real.Gamma y))) (fun _ => 1) (demo_all : vw ℝ)
      ⟨1, 0.1, 0.1, 1, 0.001, 2, lda_math_mode.USE_PRECISE⟩) half_doc) half_doc) = some l2 := by
    have t1 : learn (kernels_of Real.exp Real.log (fun x p => x ^ p)
      (deriv (fun y => Real.log (Real.Gamma y))) (fun y => Real.log (Real.Gamma y))) 2 (learn_push (lda_start (kernels_of Real.exp Real.log (fun x p => x ^ p)
      (deriv (fun y => Real.log (Real.Gamma y))) (fun y => Real.log (Real.Gamma y))) (fun _ => 1) (demo_all : vw ℝ)
      ⟨1, 0.1, 0.1, 1, 0.001, 2, lda_math_mode.USE_PRECISE⟩) half_doc) half_doc = some l2 := t0
    unfold learn at t1
    simp only [] at t1
    rw [if_pos] at t1
    · exact t1
    · rw [p1, hex, p3.2.2.2.1, hmb]
      rfl
  have hok2 := hok0 (lda_call.learn half_doc)
  have hok3 : (learn_push (learn_push (lda_start (kernels_of Real.exp Real.log (fun x p => x ^ p)
      (deriv (fun y => Real.log (Real.Gamma y))) (fun y => Real.log (Real.Gamma y))) (fun _ => 1) (demo_all : vw ℝ)
      ⟨1, 0.1, 0.1, 1, 0.001, 2, lda_math_mode.USE_PRECISE⟩) half_doc) half_doc).doc_lengths_ok :=
    learn_push_doc_lengths_ok _ _ hok2
  have hne : (learn_push (learn_push (lda_start (kernels_of Real.exp Real.log (fun x p => x ^ p)
      (deriv (fun y => Real.log (Real.Gamma y))) (fun y => Real.log (Real.Gamma y))) (fun _ => 1) (demo_all : vw ℝ)
      ⟨1, 0.1, 0.1, 1, 0.001, 2, lda_math_mode.USE_PRECISE⟩) half_doc) half_doc).sorted_features ≠ [] := by
    rw [q2]
    simp [half_doc]
  obtain ⟨scores, _, _, hloss, _⟩ := learn_batch_loss (kernels_of Real.exp Real.log (fun x p => x ^ p)
      (deriv (fun y => Real.log (Real.Gamma y))) (fun y => Real.log (Real.Gamma y))) 2 _ l2 hok3 hne hbatch
  have hzero : (List.zipWith Example.loss_term
      (learn_push (learn_push (lda_start (kernels_of Real.exp Real.log (fun x p => x ^ p)
      (deriv (fun y => Real.log (Real.Gamma y))) (fun y => Real.log (Real.Gamma y))) (fun _ => 1) (demo_all : vw ℝ)
      ⟨1, 0.1, 0.1, 1, 0.001, 2, lda_math_mode.USE_PRECISE⟩) half_doc) half_doc).examples scores).sum = 0 := by
    apply loss_terms_zero
    intro ec hec
    rw [q1, p1, hex] at hec
    simp only [List.nil_append, List.mem_append, List.mem_singleton] at hec
    rcases hec with rfl | rfl <;> rw [half_doc_int_length]
  refine ⟨by simp [Example.mass, half_doc], ?_, ?_, l2, ?_, ?_⟩
  · have h := hok2.2.1 0 half_doc (by
      show (learn_push (lda_start (kernels_of Real.exp Real.log (fun x p => x ^ p)
      (deriv (fun y => Real.log (Real.Gamma y))) (fun y => Real.log (Real.Gamma y))) (fun _ => 1) (demo_all : vw ℝ)
      ⟨1, 0.1, 0.1, 1, 0.001, 2, lda_math_mode.USE_PRECISE⟩) half_doc).examples[0]? = some half_doc
      rw [p1, hex]
      rfl)
    rw [half_doc_int_length] at h
    exact h
  · intro s
    unfold Example.loss_term
    rw [half_doc_int_length]
    simp
  · rw [run_calls, h1]
    simp only []
    rw [run_calls, t0]
    rfl
  · rw [hloss, hzero, sub_zero, q3.1, p3.1]

end claim_doc_lengths

end LDA

namespace LDA

section claim_empty_document

variable {α : Type} [LinearOrderedField α] [FloorRing α] [float_cast α]

/-- A loop that rewrites cell `k` from the old content of that cell. -/
theorem for_loop_store_self (g : Nat → α → α) (n : Nat) (W : Nat → α) (i : Nat) :
    for_loop n (fun k a => store a k (g k (a k))) W i = if i < n then g i (W i) else W i := by
  induction n with
  | zero => simp
  | succ n ih =>
    rw [for_loop_succ]
    by_cases hi : i = n
    · subst hi
      rw [store_same, ih, if_neg (lt_irrefl _), if_pos (Nat.lt_succ_self _)]
    · rw [store_ne _ _ hi, ih]
      by_cases h1 : i < n
      · rw [if_pos h1, if_pos (by omega)]
      · rw [if_neg h1, if_neg (by omega)]

/-- A sum of zeros, as the loops of `average_diff` compute it. -/
theorem for_loop_sum_zero (n : Nat) (f : Nat → α) (h : ∀ k, k < n → f k = 0) :
    for_loop n (fun k acc => acc + f k) 0 = 0 := by
  induction n with
  | zero => rfl
  | succ n ih =>
    rw [for_loop_succ, ih (fun k hk => h k (by omega)), h n (Nat.lt_succ_self _), add_zero]

/-- One round of `lda_loop` on a document without features: `new_gamma` is `alpha` on
the topics, and `old_gamma` is the former `new_gamma` there. -/
theorem lda_loop_body_empty (m : math_kernels α) (l : lda α) (v : Nat) (W : Nat → α)
    (ec : Example α) (hec : ec.features = []) (st : loop_state α) (k : Nat) :
    (lda_loop_body m l v W ec st).new_gamma k
      = (if k < l.topics then l.lda_alpha else st.new_gamma k) ∧
    (lda_loop_body m l v W ec st).old_gamma k
      = (if k < l.topics then st.new_gamma k else st.old_gamma k) := by
  have hn : (lda_loop_body m l v W ec st).new_gamma
      = for_loop l.topics (fun k g => store g k
          (g k * (l.expdigammify m m.v_aligned16
            (for_loop l.topics (fun k a => store a (v + k) (st.new_gamma k)) st.varr) v) (v + k)
            + l.lda_alpha))
          (for_loop l.topics (fun k a => store a k 0) st.new_gamma) := by
    unfold lda_loop_body
    rw [hec]
    rfl
  have ho : (lda_loop_body m l v W ec st).old_gamma
      = for_loop l.topics (fun k a => store a k (st.new_gamma k)) st.old_gamma := by
    unfold lda_loop_body
    rfl
  have e0 := for_loop_store_self (fun _ _ => (0 : α)) l.topics st.new_gamma k
  have e1 := for_loop_store_self (fun k x => x * (l.expdigammify m m.v_aligned16
      (for_loop l.topics (fun k a => store a (v + k) (st.new_gamma k)) st.varr) v) (v + k)
      + l.lda_alpha) l.topics (for_loop l.topics (fun k a => store a k 0) st.new_gamma) k
  have e2 := for_loop_store_self (fun k _ => st.new_gamma k) l.topics st.old_gamma k
  constructor
  · rw [hn]
    refine e1.trans ?_
    by_cases hk : k < l.topics
    · rw [if_pos hk, if_pos hk]
      refine (congrArg (fun y => y * _ + l.lda_alpha) e0).trans ?_
      rw [if_pos hk]
      simp
    · rw [if_neg hk, if_neg hk]
      refine e0.trans ?_
      rw [if_neg hk]
  · rw [ho]
    exact e2

/-- Whatever `lda_loop` returns for a document without features holds `alpha` in
`new_gamma` on the topics. -/
theorem lda_loop_rounds_empty (m : math_kernels α) (l : lda α) (v : Nat) (W : Nat → α)
    (ec : Example α) (hec : ec.features = []) :
    ∀ (fuel : Nat) (st st' : loop_state α), lda_loop_rounds m l v W ec fuel st = some st' →
      ∀ k, k < l.topics → st'.new_gamma k = l.lda_alpha := by
  intro fuel
  induction fuel with
  | zero => intro st st' h; simp [lda_loop_rounds] at h
  | succ n ih =>
    intro st st' h k hk
    rw [lda_loop_rounds] at h
    split_ifs at h with hd
    · exact ih _ _ h k hk
    · simp only [Option.some.injEq] at h
      rw [← h, (lda_loop_body_empty m l v W ec hec st k).1, if_pos hk]

/-- The second round of `lda_loop` on a document without features changes nothing:
the exit test sees a difference of `0`. -/
theorem average_diff_second_round (m : math_kernels α) (l : lda α) (v : Nat) (W : Nat → α)
    (ec : Example α) (hec : ec.features = []) (st : loop_state α)
    (hst : ∀ k, l.topics ≤ k → st.old_gamma k = st.new_gamma k) :
    average_diff l.all (lda_loop_body m l v W ec (lda_loop_body m l v W ec st)).old_gamma
      (lda_loop_body m l v W ec (lda_loop_body m l v W ec st)).new_gamma = 0 := by
  unfold average_diff
  simp only []
  rw [for_loop_sum_zero, zero_div]
  intro k _
  rw [(lda_loop_body_empty m l v W ec hec _ k).1, (lda_loop_body_empty m l v W ec hec _ k).2,
    (lda_loop_body_empty m l v W ec hec st k).1, (lda_loop_body_empty m l v W ec hec st k).2]
  by_cases hk : k < l.topics
  · simp [hk]
  · simp only [hk, if_false]
    rw [hst k (by omega), sub_self, abs_zero]

/-- On a document without features `lda_loop` returns within two rounds. -/
theorem lda_loop_empty_returns (m : math_kernels α) (l : lda α) (heps : 0 ≤ l.lda_epsilon)
    (E : v_array α) (v : Nat) (W : Nat → α) (ec : Example α) (hec : ec.features = []) :
    ∃ r, lda_loop m 2 l E v W ec = some r := by
  have hrounds : ∀ st : loop_state α, (∀ k, l.topics ≤ k → st.old_gamma k = st.new_gamma k) →
      ∃ st', lda_loop_rounds m l v W ec 2 st = some st' := by
    intro st hst
    rw [lda_loop_rounds]
    split_ifs with h1
    · rw [lda_loop_rounds]
      rw [average_diff_second_round m l v W ec hec st hst, if_neg (not_lt.mpr heps)]
      exact ⟨_, rfl⟩
    · exact ⟨_, rfl⟩
  unfold lda_loop
  obtain ⟨st', hst'⟩ := hrounds ⟨l.v, for_loop l.topics (fun k a => store a k 1) (fun _ => 0),
    for_loop l.topics (fun k a => store a k 0) (fun _ => 0), 0, 0⟩ (by
      intro k hk
      have e0 := for_loop_store_self (fun _ _ => (0 : α)) l.topics (fun _ => 0) k
      have e1 := for_loop_store_self (fun _ _ => (1 : α)) l.topics (fun _ => 0) k
      rw [if_neg (by omega)] at e0 e1
      exact e0.trans e1.symm)
  simp only [hst']
  exact ⟨_, rfl⟩

/-- The prediction published by `lda_loop` for a document without features. -/
theorem lda_loop_empty_prediction (m : math_kernels α) (l : lda α) (fuel : Nat)
    (E : v_array α) (v : Nat) (W : Nat → α) (ec : Example α) (hec : ec.features = [])
    (r : loop_result α) (h : lda_loop m fuel l E v W ec = some r) :
    r.ec.topic_predictions = List.replicate l.topics l.lda_alpha := by
  unfold lda_loop at h
  simp only [] at h
  cases hr : lda_loop_rounds m l v W ec fuel ⟨l.v, for_loop l.topics (fun k a => store a k 1)
      (fun _ => 0), for_loop l.topics (fun k a => store a k 0) (fun _ => 0), 0, 0⟩ with
  | none => rw [hr] at h; simp at h
  | some st =>
    rw [hr] at h
    simp only [Option.some.injEq] at h
    rw [← h]
    show (List.range l.topics).map st.new_gamma = List.replicate l.topics l.lda_alpha
    rw [List.eq_replicate_iff]
    refine ⟨by simp, ?_⟩
    intro b hb
    rw [List.mem_map] at hb
    obtain ⟨k, hk, rfl⟩ := hb
    exact lda_loop_rounds_empty m l v W ec hec fuel _ st hr k (List.mem_range.mp hk)

/-- C15.  A document without features, for `alpha > 0` and a convergence threshold
that is not negative.  `lda_loop` returns within two rounds of its loop, and whatever
number of rounds it is given, the prediction it publishes has `K` entries, all equal
to `alpha`, hence positive.  In every learner reached from the start by `learn` and `end_pass`
calls, the entry of `doc_lengths` of such a pending document is `0`; the loop over
the documents of `learn_batch` then passes `sum_loss` and `sum_loss_since_last_dump`
on as they are, and only hands the example back. -/
theorem empty_document (m : math_kernels α) (l : lda α) (halpha : 0 < l.lda_alpha)
    (heps : 0 ≤ l.lda_epsilon) (E : v_array α) (v : Nat) (W : Nat → α) (ec : Example α)
    (hec : ec.features = []) :
    (∃ r, lda_loop m 2 l E v W ec = some r) ∧
    (∀ fuel r, lda_loop m fuel l E v W ec = some r →
      r.ec.topic_predictions = List.replicate l.topics l.lda_alpha ∧
      r.ec.topic_predictions.length = l.topics ∧
      ∀ x ∈ r.ec.topic_predictions, x = l.lda_alpha ∧ 0 < x) ∧
    (∀ (frand48 : Nat → α) (all : vw α) (vm : lda_options α) (fuel : Nat)
      (calls : List (lda_call α)) (l0 : lda α) (c : lda_call α),
      run_calls m fuel (lda_start m frand48 all vm) calls = some l0 →
      ∀ d, (lda_call.pushed l0 c).examples[d]? = some ec →
        (lda_call.pushed l0 c).doc_lengths.data d = 0) ∧
    (∀ (fuel d : Nat) (rest : List (Example α)) (b b' : lda α), b.doc_lengths.data d = 0 →
      learn_batch_docs m fuel W d (ec :: rest) b = some b' →
      ∃ r, lda_loop m fuel b b.Elogtheta (d * b.all.lda) W ec = some r ∧
        learn_batch_docs m fuel W (d + 1) rest
          { b with v := r.varr, Elogtheta := r.Elogtheta,
                   all := { b.all with returned := b.all.returned ++ [r.ec] } } = some b') := by
  refine ⟨lda_loop_empty_returns m l heps E v W ec hec, ?_, ?_, ?_⟩
  · intro fuel r h
    have hp := lda_loop_empty_prediction m l fuel E v W ec hec r h
    refine ⟨hp, by rw [hp, List.length_replicate], ?_⟩
    intro x hx
    rw [hp] at hx
    have hxa := List.eq_of_mem_replicate hx
    exact ⟨hxa, by rw [hxa]; exact halpha⟩
  · intro frand48 all vm fuel calls l0 c hrun d hd
    have hok := doc_lengths_ok_run m frand48 all vm fuel calls l0 hrun c
    rw [hok.2.1 d ec hd]
    unfold Example.int_length
    rw [hec]
    rfl
  · intro fuel d rest b b' hd h
    rw [learn_batch_docs] at h
    cases hl : lda_loop m fuel b b.Elogtheta (d * b.all.lda) W ec with
    | none => rw [hl] at h; simp at h
    | some r =>
      rw [hl] at h
      refine ⟨r, rfl, ?_⟩
      have hno : ¬ (b.doc_lengths.data d > 0) := by rw [hd]; exact lt_irrefl _
      simp only [hno, if_false] at h
      exact h

theorem empty_document_witness :
    ∃ r, lda_loop (kernels_of Real.exp Real.log (fun x p => x ^ p)
      (deriv (fun y => Real.log (Real.Gamma y))) (fun y => Real.log (Real.Gamma y))) 2 (demo_learner : lda ℝ) v_array.init 0 (fun _ => 0) empty_doc = some r :=
  (empty_document (kernels_of Real.exp Real.log (fun x p => x ^ p)
      (deriv (fun y => Real.log (Real.Gamma y))) (fun y => Real.log (Real.Gamma y))) (demo_learner : lda ℝ) (by show (0 : ℝ) < 0.1; norm_num)
    (by show (0 : ℝ) ≤ 0.001; norm_num) v_array.init 0 (fun _ => 0) empty_doc rfl).1

end claim_empty_document

end LDA

namespace LDA

section claim_math_mode

/-- C16.  Extraction of a math mode from a token: `simd` gives the SIMD mode,
`accuracy` and `precise` give the precise mode, `fast-approx` and `approx` give the
fast approximation; `invalid_option_value` is thrown exactly when the token is none
of these five strings, its argument is the token, and the target then keeps the mode
it had. -/
theorem math_mode_extraction (token : String) (mmode : lda_math_mode) :
    operator_rshift ("simd") mmode = ⟨lda_math_mode.USE_SIMD, none⟩ ∧
    operator_rshift ("accuracy") mmode = ⟨lda_math_mode.USE_PRECISE, none⟩ ∧
    operator_rshift ("precise") mmode = ⟨lda_math_mode.USE_PRECISE, none⟩ ∧
    operator_rshift ("fast-approx") mmode = ⟨lda_math_mode.USE_FAST_APPROX, none⟩ ∧
    operator_rshift ("approx") mmode = ⟨lda_math_mode.USE_FAST_APPROX, none⟩ ∧
    ((operator_rshift token mmode).thrown ≠ none ↔
      token ≠ "simd" ∧ token ≠ "accuracy" ∧ token ≠ "precise" ∧ token ≠ "fast-approx" ∧
        token ≠ "approx") ∧
    ((operator_rshift token mmode).thrown ≠ none →
      (operator_rshift token mmode).thrown = some token ∧
        (operator_rshift token mmode).mmode = mmode) := by
  refine ⟨by simp [operator_rshift], by simp [operator_rshift], by simp [operator_rshift],
    by simp [operator_rshift], by simp [operator_rshift], ?_, ?_⟩
  · unfold operator_rshift
    split_ifs with h1 h2 h3
    · simp [h1]
    · rcases h2 with h2 | h2 <;> simp [h2]
    · rcases h3 with h3 | h3 <;> simp [h3]
    · simp only [not_or] at h2 h3
      simp [h1, h2.1, h2.2, h3.1, h3.2]
  · unfold operator_rshift
    split_ifs with h1 h2 h3
    · simp
    · simp
    · simp
    · intro _; exact ⟨rfl, rfl⟩

theorem math_mode_extraction_witness :
    (operator_rshift ("fast") lda_math_mode.USE_PRECISE).thrown = some "fast" ∧
      (operator_rshift ("fast") lda_math_mode.USE_PRECISE).mmode = lda_math_mode.USE_PRECISE :=
  (math_mode_extraction ("fast") lda_math_mode.USE_PRECISE).2.2.2.2.2.2 (by decide)

end claim_math_mode

end LDA

namespace LDA

section claim_stride

variable {α : Type} [LinearOrderedField α] [FloorRing α] [float_cast α]

/-- What `lda_setup` leaves in the fields that fix the layout of a row. -/
theorem lda_setup_layout (m : math_kernels α) (all : vw α) (vm : lda_options α) :
    (lda_setup m all vm).all.stride_shift = Int.toNat (lda_setup_temp m (vm.lda * 2 + 1)) ∧
    (lda_setup m all vm).all.lda = vm.lda ∧ (lda_setup m all vm).topics = vm.lda := by
  unfold lda_setup
  simp only []
  refine ⟨?_, ?_, trivial⟩
  · split_ifs <;> rfl
  · split_ifs <;> rfl

/-- The row width set by `lda_setup` for `K` topics when line 911 gives the exact
ceiling of the binary logarithm of `2K+1`: the stride is `2^ceil(log2(2K+1))`, the
exponent being the ceiling of `log(2K+1)/log 2` over the reals; it is a power of
two, at least `2K+1`, and no power of two that is at least `2K+1` is smaller.  The `2K+1` slots of a row (`lambda` at `0..K-1`, `t_last` at `K`, `u` at
`K+1..2K`) lie among the `stride` cells of the row, and none of them is a cell of
another row. -/
theorem lda_setup_stride (m : math_kernels α) (all : vw α) (vm : lda_options α)
    (hshift : Int.toNat (lda_setup_temp m (vm.lda * 2 + 1)) = Nat.clog 2 (vm.lda * 2 + 1)) :
    (lda_setup m all vm).all.lda = vm.lda ∧ (lda_setup m all vm).topics = vm.lda ∧
    (lda_setup m all vm).stride = 2 ^ Nat.clog 2 (2 * vm.lda + 1) ∧
    (Nat.clog 2 (2 * vm.lda + 1) : Int)
      = ⌈Real.log ((2 * vm.lda + 1 : Nat) : ℝ) / Real.log 2⌉ ∧
    2 * vm.lda + 1 ≤ (lda_setup m all vm).stride ∧
    (∀ e : Nat, 2 * vm.lda + 1 ≤ 2 ^ e → (lda_setup m all vm).stride ≤ 2 ^ e) ∧
    (∀ w j : Nat, j < 2 * vm.lda + 1 →
      (lda_setup m all vm).row w ≤ (lda_setup m all vm).row w + j ∧
      (lda_setup m all vm).row w + j < (lda_setup m all vm).row w + (lda_setup m all vm).stride ∧
      (lda_setup m all vm).row w + j < (lda_setup m all vm).row (w + 1)) ∧
    (∀ w w' i j : Nat, w ≠ w' → i < 2 * vm.lda + 1 → j < (lda_setup m all vm).stride →
      (lda_setup m all vm).row w + i ≠ (lda_setup m all vm).row w' + j) := by
  obtain ⟨h1, h2, h3⟩ := lda_setup_layout m all vm
  rw [hshift] at h1
  have hcomm : vm.lda * 2 + 1 = 2 * vm.lda + 1 := by omega
  have hs : (lda_setup m all vm).stride = 2 ^ Nat.clog 2 (2 * vm.lda + 1) := by
    unfold lda.stride
    rw [h1, Nat.shiftLeft_eq, one_mul, hcomm]
  have hge : 2 * vm.lda + 1 ≤ (lda_setup m all vm).stride := by
    rw [hs]
    exact Nat.le_pow_clog (by norm_num) _
  have hceil := clog_eq_ceil_log vm.lda
  rw [hcomm] at hceil
  refine ⟨h2, h3, hs, hceil, hge, ?_, ?_, ?_⟩
  · intro e he
    rw [hs]
    exact Nat.pow_le_pow_right (by norm_num) ((Nat.le_pow_iff_clog_le (by norm_num)).1 he)
  · intro w j hj
    refine ⟨Nat.le_add_right _ _, by omega, ?_⟩
    rw [row_eq, row_eq, Nat.add_mul, one_mul]
    omega
  · intro w w' i j hne hi hj h
    rcases row_apart (lda_setup m all vm) w w' hne with hr | hr <;> omega

theorem lda_setup_stride_witness :
    (lda_setup (kernels_of Real.exp Real.log (fun x p => x ^ p)
      (deriv (fun y => Real.log (Real.Gamma y))) (fun y => Real.log (Real.Gamma y)))
      (demo_all : vw ℝ) ⟨3, 1, 1, 1, 1, 1, lda_math_mode.USE_SIMD⟩).stride = 2 ^ 3 :=
  (lda_setup_stride _ (demo_all : vw ℝ) ⟨3, 1, 1, 1, 1, 1, lda_math_mode.USE_SIMD⟩
      (lda_setup_temp_real _ rfl 3)).2.2.1.trans (by simp [Nat.clog])

end claim_stride

end LDA

namespace LDA

section claim_lanes

variable {α : Type} [LinearOrderedField α] [FloorRing α] [float_cast α]

open ldamath

/-- The scale of `fastlog2` and the scale of `vfastlog2` are the same number `2^-23`. -/
theorem fastlog2_scale :
    ((1 : Nat) : α) / ((1 <<< 23 : Nat) : α) = 1.1920928955078125e-7 := by
  have h : (1 <<< 23 : Nat) = 8388608 := by decide
  rw [h]
  norm_num

/-- The signed conversion of a pattern below `2^31` is its value. -/
theorem v4si_to_v4sf_of_lt (n : Nat) (h : n < 2 ^ 31) : (v4si_to_v4sf n : α) = (n : α) := by
  unfold v4si_to_v4sf
  have h1 : n % 2 ^ 32 = n := Nat.mod_eq_of_lt (by omega)
  rw [h1, if_pos h]

/-- The rational part of `vfastdigamma` is the rational part of `fastdigamma` over a
common denominator. -/
theorem fastdigamma_rational (x : α) (h0 : 0 < x) :
    (-48 + x * (-157 + x * (-127 - 30 * x))) / (12 * x * (1 + x) * (2 + x) * (2 + x))
      = -(1 + 2 * x) / (x * (1 + x)) - (13 + 6 * x) / (12 * (2 + x) * (2 + x)) := by
  have h1 : x ≠ 0 := ne_of_gt h0
  have h2 : 1 + x ≠ 0 := by positivity
  have h3 : 2 + x ≠ 0 := by positivity
  field_simp
  ring

/-- C19.  One lane of `vfastlog2` against the scalar `fastlog2`, for a float whose
sign bit is clear: the mantissa float and the scaled bit pattern are the same, but
the vector code subtracts `124.22551499` where the scalar code subtracts
`124.22544637`, so the lane is lower by `0.00006862` and never equal; `vfastlog`, and
`vfastdigamma` at a positive argument, are lower than `fastlog` and `fastdigamma` by
`0.69314718 * 0.00006862`. -/
theorem vfastlog2_differs (m : math_kernels α) (x : α) (h0 : 0 < x) (hx : m.bits x < 2 ^ 31)
    (hx2 : m.bits (2 + x) < 2 ^ 31) :
    vfastlog2 m x = fastlog2 m x - 0.00006862 ∧
    vfastlog2 m x ≠ fastlog2 m x ∧
    vfastlog m x = fastlog m x - 0.69314718 * 0.00006862 ∧
    vfastdigamma m x = fastdigamma m x - 0.69314718 * 0.00006862 ∧
    vfastdigamma m x ≠ fastdigamma m x := by
  have hlog2 : ∀ y : α, m.bits y < 2 ^ 31 → vfastlog2 m y = fastlog2 m y - 0.00006862 := by
    intro y hy
    unfold vfastlog2 fastlog2
    simp only []
    rw [v4si_to_v4sf_of_lt _ hy, fastlog2_scale]
    have hm : (0x7e <<< 23 : Nat) = 0x3f000000 := by decide
    rw [hm]
    ring
  have hlog : ∀ y : α, m.bits y < 2 ^ 31 →
      vfastlog m y = fastlog m y - 0.69314718 * 0.00006862 := by
    intro y hy
    unfold vfastlog fastlog
    rw [hlog2 y hy]
    ring
  have hdig : vfastdigamma m x = fastdigamma m x - 0.69314718 * 0.00006862 := by
    unfold vfastdigamma fastdigamma
    simp only []
    rw [hlog (2 + x) hx2, fastdigamma_rational x h0]
    ring
  refine ⟨hlog2 x hx, ?_, hlog x hx, hdig, ?_⟩
  · rw [hlog2 x hx]
    intro h
    have : (0.00006862 : α) = 0 := by linarith
    norm_num at this
  · rw [hdig]
    intro h
    have : (0.69314718 * 0.00006862 : α) = 0 := by linarith
    norm_num at this

theorem vfastlog2_differs_witness :
    vfastlog2 float_kernels (1 : ℚ) = fastlog2 float_kernels 1 - 0.00006862 ∧
    vfastlog2 float_kernels (1 : ℚ) ≠ fastlog2 float_kernels 1 ∧
    vfastlog float_kernels (1 : ℚ) = fastlog float_kernels 1 - 0.69314718 * 0.00006862 ∧
    vfastdigamma float_kernels (1 : ℚ) = fastdigamma float_kernels 1 - 0.69314718 * 0.00006862 ∧
    vfastdigamma float_kernels (1 : ℚ) ≠ fastdigamma float_kernels 1 :=
  vfastlog2_differs float_kernels 1 (by norm_num) (by simp [float_kernels])
    (by norm_num [float_kernels])

/-- The two logarithms at the float `1.0`: pattern `0x3f800000`, mantissa float `0.5`,
scaled pattern `127`. -/
theorem fastlog2_at_one :
    fastlog2 float_kernels (1 : ℚ)
      = 127 - 124.22544637 - 1.498030302 * (1 / 2) - 1.72587999 / (0.3520887068 + 1 / 2) ∧
    vfastlog2 float_kernels (1 : ℚ)
      = 127 - 124.22551499 - 1.498030302 * (1 / 2) - 1.72587999 / (0.3520887068 + 1 / 2) := by
  have hb : (float_kernels : math_kernels ℚ).bits 1 = 0x3f800000 := by simp [float_kernels]
  have hm : ((0x3f800000 &&& 0x007FFFFF) ||| (0x7e <<< 23) : Nat) = 0x3f000000 := by decide
  have hm2 : ((0x3f800000 &&& 0x007FFFFF) ||| 0x3f000000 : Nat) = 0x3f000000 := by decide
  have ho : (float_kernels : math_kernels ℚ).of_bits 0x3f000000 = 1 / 2 := by simp [float_kernels]
  constructor
  · unfold fastlog2
    simp only []
    rw [hb, hm, ho, fastlog2_scale]
    norm_num
  · unfold vfastlog2
    simp only []
    rw [hb, hm2, ho, v4si_to_v4sf_of_lt _ (by norm_num)]
    norm_num

end claim_lanes

end LDA

namespace LDA

section claim_rational_term

variable {α : Type} [LinearOrderedField α] [FloorRing α] [float_cast α]

open ldamath

/-- The two rational terms are the same number away from the zeros of the
denominators. -/
theorem digamma_rational_eq (x : α) (h0 : x ≠ 0) (h1 : x ≠ -1) (h2 : x ≠ -2) :
    (-48 + x * (-157 + x * (-127 - 30 * x))) / (12 * x * (1 + x) * (2 + x) * (2 + x))
      = -(1 + 2 * x) / (x * (1 + x)) - (13 + 6 * x) / (12 * (2 + x) * (2 + x)) := by
  have h1' : 1 + x ≠ 0 := by
    intro h
    apply h1
    linarith
  have h2' : 2 + x ≠ 0 := by
    intro h
    apply h2
    linarith
  field_simp
  ring

/-- C25.  The rational term of `vfastdigamma`, the quotient
`(-48 - 157x - 127x^2 - 30x^3) / (12 x (1+x) (2+x)^2)`, is the rational term
`-(1+2x)/(x(1+x)) - (13+6x)/(12 (2+x)^2)` of `fastdigamma` for every `x` other than
`0`, `-1` and `-2`: each function is its rational term plus its logarithm of `2 + x`,
so the two differ by the difference of their logarithms only. -/
theorem vfastdigamma_rational_term (m : math_kernels α) (x : α) (h0 : x ≠ 0) (h1 : x ≠ -1)
    (h2 : x ≠ -2) :
    vfastdigamma m x - vfastlog m (2 + x) = fastdigamma m x - fastlog m (2 + x) ∧
    vfastdigamma m x - vfastlog m (2 + x)
      = (-48 - 157 * x - 127 * x ^ 2 - 30 * x ^ 3) / (12 * x * (1 + x) * (2 + x) ^ 2) ∧
    fastdigamma m x - fastlog m (2 + x)
      = -(1 + 2 * x) / (x * (1 + x)) - (13 + 6 * x) / (12 * (2 + x) ^ 2) ∧
    (-48 - 157 * x - 127 * x ^ 2 - 30 * x ^ 3) / (12 * x * (1 + x) * (2 + x) ^ 2)
      = -(1 + 2 * x) / (x * (1 + x)) - (13 + 6 * x) / (12 * (2 + x) ^ 2) := by
  have hv : vfastdigamma m x - vfastlog m (2 + x)
      = (-48 + x * (-157 + x * (-127 - 30 * x))) / (12 * x * (1 + x) * (2 + x) * (2 + x)) := by
    unfold vfastdigamma
    simp only []
    ring
  have hf : fastdigamma m x - fastlog m (2 + x)
      = -(1 + 2 * x) / (x * (1 + x)) - (13 + 6 * x) / (12 * (2 + x) * (2 + x)) := by
    unfold fastdigamma
    simp only []
    ring
  have hr := digamma_rational_eq x h0 h1 h2
  have e1 : (-48 - 157 * x - 127 * x ^ 2 - 30 * x ^ 3) / (12 * x * (1 + x) * (2 + x) ^ 2)
      = (-48 + x * (-157 + x * (-127 - 30 * x))) / (12 * x * (1 + x) * (2 + x) * (2 + x)) := by
    congr 1 <;> ring
  have e2 : -(1 + 2 * x) / (x * (1 + x)) - (13 + 6 * x) / (12 * (2 + x) ^ 2)
      = -(1 + 2 * x) / (x * (1 + x)) - (13 + 6 * x) / (12 * (2 + x) * (2 + x)) := by
    congr 2
    ring
  refine ⟨?_, ?_, ?_, ?_⟩
  · rw [hv, hf, hr]
  · rw [hv, e1]
  · rw [hf, e2]
  · rw [e1, e2, hr]

theorem vfastdigamma_rational_term_witness :
    vfastdigamma float_kernels (1 : ℚ) - vfastlog float_kernels (2 + 1)
      = fastdigamma float_kernels (1 : ℚ) - fastlog float_kernels (2 + 1) :=
  (vfastdigamma_rational_term float_kernels (1 : ℚ) (by norm_num) (by norm_num)
    (by norm_num)).1

end claim_rational_term

end LDA

namespace LDA

section claim_fastpow2

variable {α : Type} [LinearOrderedField α] [FloorRing α] [float_cast α]

open ldamath

/-- The clipping of `fastpow2` is a maximum. -/
theorem fastpow2_clip (p : α) : (if p < -126 then (-126 : α) else p) = max p (-126) := by
  split_ifs with h
  · exact (max_eq_right (le_of_lt h)).symm
  · exact (max_eq_left (not_lt.mp h)).symm

/-- The factor `1 << 23`. -/
theorem shift_23 : ((1 <<< 23 : Nat) : α) = 2 ^ 23 := by
  have h : (1 <<< 23 : Nat) = 2 ^ 23 := by decide
  rw [h]
  norm_num

/-- Away from the integers the ceiling is the floor plus one. -/
theorem ceil_of_not_int (c : α) (h : ∀ n : Int, c ≠ (n : α)) : ⌈c⌉ = ⌊c⌋ + 1 := by
  have h1 : (⌊c⌋ : α) < c := lt_of_le_of_ne (Int.floor_le c) (fun e => h ⌊c⌋ e.symm)
  have h2 : ⌊c⌋ < ⌈c⌉ := Int.lt_ceil.mpr h1
  have h3 := Int.ceil_le_floor_add_one c
  omega

/-- The conversion to a 32-bit pattern and back, as the SSE code does it, gives the
integer back when it fits 32 bits with sign. -/
theorem v4si_roundtrip (z : Int) (h1 : -2 ^ 31 ≤ z) (h2 : z < 2 ^ 31) :
    (v4si_to_v4sf (Int.toNat (z % 2 ^ 32)) : α) = (z : α) := by
  unfold v4si_to_v4sf
  have hnn : 0 ≤ z % 2 ^ 32 := Int.emod_nonneg _ (by norm_num)
  have hlt : z % 2 ^ 32 < 2 ^ 32 := Int.emod_lt_of_pos _ (by norm_num)
  have hcast : ((Int.toNat (z % 2 ^ 32) : Nat) : Int) = z % 2 ^ 32 := Int.toNat_of_nonneg hnn
  have hmod : Int.toNat (z % 2 ^ 32) % 2 ^ 32 = Int.toNat (z % 2 ^ 32) := by
    apply Nat.mod_eq_of_lt
    omega
  rw [hmod]
  by_cases hz : 0 ≤ z
  · have e : z % 2 ^ 32 = z := Int.emod_eq_of_lt hz (by omega)
    rw [if_pos (by omega)]
    have : ((Int.toNat (z % 2 ^ 32) : Nat) : α) = (((Int.toNat (z % 2 ^ 32) : Nat) : Int) : α) := by
      push_cast
      rfl
    rw [this, hcast, e]
  · have e : z % 2 ^ 32 = z + 2 ^ 32 := by
      have := Int.emod_emod_of_dvd z (dvd_refl (2 ^ 32 : Int))
      have h3 : (z + 2 ^ 32) % 2 ^ 32 = z % 2 ^ 32 := by simp
      rw [← h3]
      exact Int.emod_eq_of_lt (by omega) (by omega)
    rw [if_neg (by omega)]
    have : ((Int.toNat (z % 2 ^ 32) : Nat) : α) = (((Int.toNat (z % 2 ^ 32) : Nat) : Int) : α) := by
      push_cast
      rfl
    rw [this, hcast, e]
    push_cast
    ring

/-- The conversion `(int)` of a number between `-126` and `2^31`. -/
theorem to_int_bounds (c : α) (h1 : -126 ≤ c) (h2 : c < 2 ^ 31) :
    -2 ^ 31 ≤ to_int c ∧ to_int c < 2 ^ 31 := by
  unfold to_int
  split_ifs with h
  · constructor
    · have : (0 : Int) ≤ ⌊c⌋ := Int.floor_nonneg.mpr h
      omega
    · have : (⌊c⌋ : α) < ((2 ^ 31 : Int) : α) := by
        have e : (((2 ^ 31 : Int)) : α) = 2 ^ 31 := by norm_num
        rw [e]
        exact lt_of_le_of_lt (Int.floor_le c) h2
      exact Int.cast_lt.mp this
  · constructor
    · have : ((-126 : Int) : α) ≤ c := by push_cast; exact h1
      have := (Int.le_ceil c).trans' this
      have h3 : (-126 : Int) ≤ ⌈c⌉ := Int.cast_le.mp this
      omega
    · have : ⌈c⌉ ≤ 0 := Int.ceil_le.mpr (by push_cast; exact le_of_lt (not_le.mp h))
      omega


/-- The machine's conversion `(int)x` always gives a number in the range of `int`. -/
theorem float_to_int_range (x : α) : -2 ^ 31 ≤ float_to_int x ∧ float_to_int x < 2 ^ 31 := by
  unfold float_to_int
  split_ifs with h
  · exact h
  · constructor <;> norm_num

/-- The machine's conversion `(int)x` of a number that is `2^31` or more is `INT_MIN`. -/
theorem float_to_int_of_large (x : α) (h : 2 ^ 31 ≤ x) : float_to_int x = -2 ^ 31 := by
  unfold float_to_int
  rw [if_neg]
  rintro ⟨_, h2⟩
  have h0 : (0 : α) ≤ x := le_trans (by positivity) h
  unfold to_int at h2
  rw [if_pos h0] at h2
  have h3 : ((2 ^ 31 : Int) : α) ≤ x := by
    have e : (((2 ^ 31 : Int)) : α) = 2 ^ 31 := by norm_num
    rw [e]
    exact h
  have := Int.le_floor.mpr h3
  omega

/-- The conversion `(uint32_t)x` of a number from `0` to below `2^32` is its integer
part. -/
theorem float_to_uint32_of_range (x : α) (h0 : 0 ≤ x) (h1 : x < 2 ^ 32) :
    float_to_uint32 x = Int.toNat ⌊x⌋ := by
  have hf0 : (0 : Int) ≤ ⌊x⌋ := Int.floor_nonneg.mpr h0
  have hf1 : ⌊x⌋ < 2 ^ 32 := by
    have : (⌊x⌋ : α) < ((2 ^ 32 : Int) : α) := by
      have e : (((2 ^ 32 : Int)) : α) = 2 ^ 32 := by norm_num
      rw [e]
      exact lt_of_le_of_lt (Int.floor_le x) h1
    exact Int.cast_lt.mp this
  have ht : to_int x = ⌊x⌋ := by
    unfold to_int
    rw [if_pos h0]
  unfold float_to_uint32
  rw [ht, if_pos ⟨by omega, by omega⟩, Int.emod_eq_of_lt hf0 hf1]

/-- The conversion `_mm_cvttps_epi32` of a number from `0` to below `2^31` is its integer
part. -/
theorem v4sf_to_v4si_of_range (x : α) (h0 : 0 ≤ x) (h1 : x < 2 ^ 31) :
    v4sf_to_v4si x = Int.toNat ⌊x⌋ := by
  have hf0 : (0 : Int) ≤ ⌊x⌋ := Int.floor_nonneg.mpr h0
  have hf1 : ⌊x⌋ < 2 ^ 31 := by
    have : (⌊x⌋ : α) < ((2 ^ 31 : Int) : α) := by
      have e : (((2 ^ 31 : Int)) : α) = 2 ^ 31 := by norm_num
      rw [e]
      exact lt_of_le_of_lt (Int.floor_le x) h1
    exact Int.cast_lt.mp this
  have ht : to_int x = ⌊x⌋ := by
    unfold to_int
    rw [if_pos h0]
  unfold v4sf_to_v4si
  rw [float_to_int_of_range x (by omega) (by omega), ht,
    Int.emod_eq_of_lt hf0 (by omega)]

/-- The conversion `_mm_cvttps_epi32` of a number that is `2^31` or more is the pattern
`0x80000000`. -/
theorem v4sf_to_v4si_of_large (x : α) (h : 2 ^ 31 ≤ x) : v4sf_to_v4si x = 0x80000000 := by
  unfold v4sf_to_v4si
  rw [float_to_int_of_large x h]
  rfl

/-- The value of `fastpow2` with its intermediate values named. -/
theorem fastpow2_unfold (m : math_kernels α) (p : α) :
    fastpow2 m p = m.of_bits (float_to_uint32
      (2 ^ 23 * (max p (-126) + 121.2740838
        + 27.7280233 / (4.84252568
            - (max p (-126) - ((float_to_int (max p (-126)) : Int) : α)
                + (if p < 0 then 1 else 0)))
        - 1.49012907
            * (max p (-126) - ((float_to_int (max p (-126)) : Int) : α)
                + (if p < 0 then 1 else 0))))) := by
  unfold fastpow2
  simp only []
  rw [fastpow2_clip, shift_23]

/-- The integer vector of `vfastpow2` with its intermediate values named: the same
`w` and `z` as in `fastpow2`, and the conversion `_mm_cvttps_epi32` at the end. -/
theorem vfastpow2_bits_unfold (p : α) :
    vfastpow2_bits p = v4sf_to_v4si
      (2 ^ 23 * (max p (-126) + 121.2740838
        + 27.7280233 / (4.84252568
            - (max p (-126) - ((float_to_int (max p (-126)) : Int) : α)
                + (if p < 0 then 1 else 0)))
        - 1.49012907
            * (max p (-126) - ((float_to_int (max p (-126)) : Int) : α)
                + (if p < 0 then 1 else 0)))) := by
  have hround : (v4si_to_v4sf (v4sf_to_v4si (max p (-126))) : α)
      = ((float_to_int (max p (-126)) : Int) : α) :=
    v4si_roundtrip (float_to_int (max p (-126))) (float_to_int_range _).1
      (float_to_int_range _).2
  unfold vfastpow2_bits
  simp only []
  rw [fastpow2_clip, shift_23, hround]

/-- For `z <= 1` and `clipp >= -126` the number converted by `fastpow2` is positive. -/
theorem fastpow2_value_pos (clipp z : α) (hc : -126 ≤ clipp) (hz1 : z ≤ 1) :
    0 < (2 : α) ^ 23 * (clipp + 121.2740838 + 27.7280233 / (4.84252568 - z) - 1.49012907 * z) := by
  have hd : (0 : α) < 4.84252568 - z := by
    have : (1 : α) < 4.84252568 := by norm_num
    linarith
  have hq : 4.7259162 + 1.49012907 * z < 27.7280233 / (4.84252568 - z) := by
    rw [lt_div_iff₀ hd]
    nlinarith [sq_nonneg (z - 1), sq_nonneg z]
  apply mul_pos (by positivity)
  have e : (121.2740838 : α) = 126 - 4.7259162 := by norm_num
  rw [e]
  linarith

/-- C21 (amended).  In `fastpow2(p)`, for every real `p`, with `clipp = max(p, -126)`
and `offset = 1` if `p < 0` else `0`: the integer part `w` is `(int)clipp`, which for
`clipp < 2^31` is `clipp` rounded toward zero (and `INT_MIN` beyond), and
`z = clipp - w + offset`.  So `w` is the floor of `clipp` for `0 <= p < 2^31` and the
ceiling of `clipp` for `p < 0`, which is the floor plus one when `clipp` is not an
integer; `z` is the fractional part `clipp - floor(clipp)` except for a negative
integer `clipp`, where it is `1`.  For `clipp < 2^31` the number
`v = 2^23 * (clipp + 121.2740838 + 27.7280233/(4.84252568 - z) - 1.49012907*z)` is
positive, and the result is the float whose 32-bit pattern is `(uint32_t)v`, the
integer part of `v` when `v < 2^32`.  A lane of `vfastpow2` has the same `w` and `z`
and ends with `_mm_cvttps_epi32`: it is the same float for `v < 2^31`, and the float of
pattern `0x80000000` for `v >= 2^31`. -/
theorem fastpow2_truncates (m : math_kernels α) (p clipp offset z v : α) (w : Int)
    (hc : clipp = max p (-126)) (ho : offset = if p < 0 then 1 else 0)
    (hw : w = float_to_int clipp) (hz : z = clipp - (w : α) + offset)
    (hv : v = 2 ^ 23 * (clipp + 121.2740838 + 27.7280233 / (4.84252568 - z) - 1.49012907 * z)) :
    fastpow2 m p = m.of_bits (float_to_uint32 v) ∧
    (clipp < 2 ^ 31 → w = to_int clipp) ∧
    (2 ^ 31 ≤ clipp → w = -2 ^ 31) ∧
    (0 ≤ p → p < 2 ^ 31 → w = ⌊clipp⌋ ∧ z = Int.fract clipp) ∧
    (p < 0 → w = ⌈clipp⌉) ∧
    (p < 0 → (∀ n : Int, clipp ≠ (n : α)) → w = ⌊clipp⌋ + 1 ∧ z = Int.fract clipp) ∧
    (p < 0 → (∃ n : Int, clipp = (n : α)) → w = ⌊clipp⌋ ∧ z = 1) ∧
    (clipp < 2 ^ 31 → 0 ≤ z ∧ z ≤ 1 ∧ 0 < v) ∧
    (clipp < 2 ^ 31 → v < 2 ^ 32 → float_to_uint32 v = Int.toNat ⌊v⌋) ∧
    vfastpow2 m p = m.of_bits (v4sf_to_v4si v) ∧
    (clipp < 2 ^ 31 → v < 2 ^ 31 →
      v4sf_to_v4si v = Int.toNat ⌊v⌋ ∧ vfastpow2 m p = fastpow2 m p) ∧
    (2 ^ 31 ≤ v → vfastpow2 m p = m.of_bits 0x80000000) := by
  have hge : -126 ≤ clipp := by
    rw [hc]
    exact le_max_right _ _
  have hwt : clipp < 2 ^ 31 → w = to_int clipp := by
    intro hlt
    obtain ⟨b1, b2⟩ := to_int_bounds clipp hge hlt
    rw [hw, float_to_int_of_range clipp b1 b2]
  have hneg : p < 0 → clipp < 0 := by
    intro h
    rw [hc]
    exact max_lt h (by norm_num)
  have hwneg : p < 0 → w = ⌈clipp⌉ := by
    intro h
    rw [hwt (lt_trans (hneg h) (by positivity))]
    unfold to_int
    rw [if_neg (not_le.mpr (hneg h))]
  have hpos : 0 ≤ p → p < 2 ^ 31 → w = ⌊clipp⌋ ∧ z = Int.fract clipp := by
    intro h hlt
    have hcp : clipp = p := by
      rw [hc]
      exact max_eq_left (le_trans (by norm_num) h)
    have hwf : w = ⌊clipp⌋ := by
      rw [hwt (by rw [hcp]; exact hlt)]
      unfold to_int
      rw [if_pos (by rw [hcp]; exact h)]
    refine ⟨hwf, ?_⟩
    rw [hz, ho, if_neg (not_lt.mpr h), hwf, add_zero]
    rfl
  have hnonint : p < 0 → (∀ n : Int, clipp ≠ (n : α)) →
      w = ⌊clipp⌋ + 1 ∧ z = Int.fract clipp := by
    intro h hn
    have hwc := hwneg h
    rw [ceil_of_not_int clipp hn] at hwc
    refine ⟨hwc, ?_⟩
    rw [hz, ho, if_pos h, hwc]
    unfold Int.fract
    push_cast
    ring
  have hint : p < 0 → (∃ n : Int, clipp = (n : α)) → w = ⌊clipp⌋ ∧ z = 1 := by
    rintro h ⟨n, hn⟩
    have hwc := hwneg h
    have hwf : w = ⌊clipp⌋ := by
      rw [hwc, hn, Int.ceil_intCast, Int.floor_intCast]
    refine ⟨hwf, ?_⟩
    rw [hz, ho, if_pos h, hwc, hn, Int.ceil_intCast]
    ring
  have hzv : clipp < 2 ^ 31 → 0 ≤ z ∧ z ≤ 1 ∧ 0 < v := by
    intro hlt
    have hz01 : 0 ≤ z ∧ z ≤ 1 := by
      by_cases h : p < 0
      · by_cases hn : ∃ n : Int, clipp = (n : α)
        · rw [(hint h hn).2]
          exact ⟨zero_le_one, le_refl _⟩
        · rw [(hnonint h (fun n e => hn ⟨n, e⟩)).2]
          exact ⟨Int.fract_nonneg _, le_of_lt (Int.fract_lt_one _)⟩
      · have h0 : 0 ≤ p := not_lt.mp h
        have hcp : clipp = p := by
          rw [hc]
          exact max_eq_left (le_trans (by norm_num) h0)
        rw [(hpos h0 (by rw [← hcp]; exact hlt)).2]
        exact ⟨Int.fract_nonneg _, le_of_lt (Int.fract_lt_one _)⟩
    refine ⟨hz01.1, hz01.2, ?_⟩
    rw [hv]
    exact fastpow2_value_pos clipp z hge hz01.2
  have hfast : fastpow2 m p = m.of_bits (float_to_uint32 v) := by
    rw [fastpow2_unfold, hv, hz, hw, ho, hc]
  have hvec : vfastpow2 m p = m.of_bits (v4sf_to_v4si v) := by
    unfold vfastpow2
    rw [vfastpow2_bits_unfold, hv, hz, hw, ho, hc]
  refine ⟨hfast, hwt, ?_, hpos, hwneg, hnonint, hint, hzv, ?_, hvec, ?_, ?_⟩
  · intro h
    rw [hw]
    exact float_to_int_of_large clipp h
  · intro hlt hv32
    exact float_to_uint32_of_range v (le_of_lt (hzv hlt).2.2) hv32
  · intro hlt hv31
    have h0 : 0 ≤ v := le_of_lt (hzv hlt).2.2
    have e1 := v4sf_to_v4si_of_range v h0 hv31
    have e2 := float_to_uint32_of_range v h0 (lt_trans hv31 (by norm_num))
    exact ⟨e1, by rw [hvec, hfast, e1, e2]⟩
  · intro h
    rw [hvec, v4sf_to_v4si_of_large v h]

theorem fastpow2_truncates_witness :
    (-1 : Int) = ⌊(-3 / 2 : ℚ)⌋ + 1 ∧ (-3 / 2 - ((-1 : Int) : ℚ) + 1 : ℚ) = Int.fract (-3 / 2 : ℚ) := by
  have ht : to_int (-3 / 2 : ℚ) = -1 := by
    unfold to_int
    rw [if_neg (by norm_num), Int.ceil_eq_iff]
    constructor <;> norm_num
  have hw : (-1 : Int) = float_to_int (-3 / 2 : ℚ) := by
    rw [float_to_int_of_range _ (by rw [ht]; norm_num) (by rw [ht]; norm_num), ht]
  exact (fastpow2_truncates pattern_kernels (-3 / 2 : ℚ) (-3 / 2) 1 (-3 / 2 - ((-1 : Int) : ℚ) + 1)
    _ (-1) (by norm_num) (by norm_num) hw rfl rfl).2.2.2.2.2.1 (by norm_num)
    (by
      intro n hn
      have h2 : ((2 * n : Int) : ℚ) = ((-3 : Int) : ℚ) := by
        push_cast
        rw [← hn]
        norm_num
      have h3 : 2 * n = -3 := Int.cast_injective h2
      omega)

/-- The argument `-3/2`, with kernels whose floats are their bit patterns.  The code
has `w = -1` and `z = 1/2` and returns the pattern `1052050970` (the float `0.35356`,
close to `2^(-3/2)`); with `w = floor(clipp) = -2`, as the specification has it,
`z = 3/2` and the pattern is `1055575627` (the float `0.45861`). -/
theorem fastpow2_floor_counterexample :
    to_int (-3 / 2 : ℚ) = -1 ∧ ⌊(-3 / 2 : ℚ)⌋ = -2 ∧
    fastpow2 pattern_kernels (-3 / 2 : ℚ) = 1052050970 ∧
    spec_fastpow2 pattern_kernels (-3 / 2 : ℚ) = 1055575627 ∧
    fastpow2 pattern_kernels (-3 / 2 : ℚ) ≠ spec_fastpow2 pattern_kernels (-3 / 2 : ℚ) := by
  have hw : to_int (-3 / 2 : ℚ) = -1 := by
    unfold to_int
    rw [if_neg (by norm_num), Int.ceil_eq_iff]
    constructor <;> norm_num
  have hf : ⌊(-3 / 2 : ℚ)⌋ = -2 := by
    rw [Int.floor_eq_iff]
    constructor <;> norm_num
  have hmax : max (-3 / 2 : ℚ) (-126) = -3 / 2 := max_eq_left (by norm_num)
  have hwm : float_to_int (-3 / 2 : ℚ) = -1 := by
    rw [float_to_int_of_range _ (by rw [hw]; norm_num) (by rw [hw]; norm_num), hw]
  have h1 : fastpow2 pattern_kernels (-3 / 2 : ℚ) = 1052050970 := by
    rw [fastpow2_unfold, hmax, hwm, if_pos (by norm_num)]
    have hv : ⌊((2 : ℚ) ^ 23 * (-3 / 2 + 121.2740838
        + 27.7280233 / (4.84252568 - (-3 / 2 - ((-1 : Int) : ℚ) + 1))
        - 1.49012907 * (-3 / 2 - ((-1 : Int) : ℚ) + 1)))⌋ = 1052050970 := by
      rw [Int.floor_eq_iff]
      constructor <;> norm_num
    rw [float_to_uint32_of_range _ (by norm_num) (by norm_num), hv]
    have e : Int.toNat (1052050970 : Int) = 1052050970 := rfl
    show ((Int.toNat 1052050970 : Nat) : ℚ) = 1052050970
    rw [e]
    norm_num
  have h2 : spec_fastpow2 pattern_kernels (-3 / 2 : ℚ) = 1055575627 := by
    unfold spec_fastpow2
    simp only []
    rw [hmax, hf, if_pos (by norm_num)]
    have hv : ⌊((2 : ℚ) ^ 23 * (-3 / 2 + 121.2740838
        + 27.7280233 / (4.84252568 - (-3 / 2 - ((-2 : Int) : ℚ) + 1))
        - 1.49012907 * (-3 / 2 - ((-2 : Int) : ℚ) + 1)))⌋ = 1055575627 := by
      rw [Int.floor_eq_iff]
      constructor <;> norm_num
    rw [hv]
    have e : Int.toNat (1055575627 : Int) = 1055575627 := rfl
    show ((Int.toNat 1055575627 : Nat) : ℚ) = 1055575627
    rw [e]
    norm_num
  refine ⟨hw, hf, h1, h2, ?_⟩
  rw [h1, h2]
  norm_num

end claim_fastpow2

end LDA

namespace LDA

section claim_next_pow2

variable {α : Type} [LinearOrderedField α] [FloorRing α] [float_cast α]

/-- The loop of `next_pow2` adds to `i` the number of binary digits of `x`: the least
`e` with `x < 2^e`. -/
theorem next_pow2_loop_spec :
    ∀ (x i : Nat), i ≤ next_pow2_loop x i ∧ x < 2 ^ (next_pow2_loop x i - i) ∧
      ∀ n, x < 2 ^ n → next_pow2_loop x i - i ≤ n := by
  intro x
  induction x using Nat.strong_induction_on with
  | _ x ih =>
    intro i
    rw [next_pow2_loop]
    by_cases hx : x > 0
    · rw [dif_pos hx]
      have hhalf : x >>> 1 = x / 2 := by rw [Nat.shiftRight_eq_div_pow, pow_one]
      rw [hhalf]
      obtain ⟨h1, h2, h3⟩ := ih (x / 2) (Nat.div_lt_self hx (by norm_num)) (i + 1)
      refine ⟨by omega, ?_, ?_⟩
      · have e : next_pow2_loop (x / 2) (i + 1) - i
            = (next_pow2_loop (x / 2) (i + 1) - (i + 1)) + 1 := by omega
        rw [e, pow_succ]
        omega
      · intro n hn
        cases n with
        | zero => simp at hn; omega
        | succ n =>
          have : x / 2 < 2 ^ n := by
            rw [pow_succ] at hn
            omega
          have := h3 n this
          omega
    · rw [dif_neg hx]
      have : x = 0 := by omega
      subst this
      refine ⟨le_refl _, by simp, fun n _ => by omega⟩

/-- The value of `next_pow2` for an argument between `1` and `2^63`. -/
theorem next_pow2_spec (x : Nat) (h1 : 1 ≤ x) (h2 : x ≤ 2 ^ 63) :
    next_pow2 x = 2 ^ next_pow2_loop (x - 1) 0 ∧ x ≤ next_pow2 x ∧ next_pow2 x < 2 * x ∧
      ∀ e, x ≤ 2 ^ e → next_pow2 x ≤ 2 ^ e := by
  obtain ⟨_, hlt, hmin⟩ := next_pow2_loop_spec (x - 1) 0
  rw [Nat.sub_zero] at hlt
  have hmin' : ∀ n, x - 1 < 2 ^ n → next_pow2_loop (x - 1) 0 ≤ n := fun n hn => by
    have := hmin n hn
    omega
  have he : next_pow2_loop (x - 1) 0 ≤ 63 := hmin' 63 (by omega)
  have hval : next_pow2 x = 2 ^ next_pow2_loop (x - 1) 0 := by
    unfold next_pow2
    simp only []
    have hcount : next_pow2_loop (x - 1) 0 % 64 = next_pow2_loop (x - 1) 0 :=
      Nat.mod_eq_of_lt (by omega)
    rw [if_pos (by omega), hcount, Nat.shiftLeft_eq, one_mul]
    apply Nat.mod_eq_of_lt
    exact Nat.pow_lt_pow_right (by norm_num) (by omega)
  rw [hval]
  refine ⟨rfl, by omega, ?_, ?_⟩
  · cases hcase : next_pow2_loop (x - 1) 0 with
    | zero => simp; omega
    | succ e =>
      have : ¬ (x - 1 < 2 ^ e) := by
        intro hh
        have := hmin' e hh
        omega
      rw [pow_succ]
      omega
  · intro e hxe
    exact Nat.pow_le_pow_right (by norm_num) (hmin' e (by
      have : 0 < 2 ^ e := Nat.pow_pos (by norm_num)
      omega))

/-- The value of `next_pow2` fits 64 bits, so above `2^63` it is not a power of two
that is at least the argument. -/
theorem next_pow2_above (x : Nat) (h : 2 ^ 63 < x) :
    next_pow2 x < 2 ^ 64 ∧ ¬ ((∃ e, next_pow2 x = 2 ^ e) ∧ x ≤ next_pow2 x) := by
  have hlt : next_pow2 x < 2 ^ 64 := by
    unfold next_pow2
    exact Nat.mod_lt _ (by norm_num)
  refine ⟨hlt, ?_⟩
  rintro ⟨⟨e, he⟩, hx⟩
  rw [he] at hlt hx
  have h1 : e < 64 := (Nat.pow_lt_pow_iff_right (by norm_num)).mp hlt
  have h2 : 63 < e := (Nat.pow_lt_pow_iff_right (by norm_num)).mp (lt_of_lt_of_le h hx)
  omega

/-- What `lda_setup` leaves in the ring size and in the field `minibatch`. -/
theorem lda_setup_ring_size (m : math_kernels α) (all : vw α) (vm : lda_options α) :
    (lda_setup m all vm).minibatch = vm.minibatch ∧
    (lda_setup m all vm).all.ring_size
      = (if all.ring_size > next_pow2 vm.minibatch then all.ring_size
          else next_pow2 vm.minibatch) := by
  unfold lda_setup
  simp only []
  refine ⟨trivial, ?_⟩
  split_ifs <;> rfl


/-- C22 (amended).  The function `next_pow2` is total; its loop makes at most 64
rounds on a 64-bit argument.  It returns `1` for `0` and, for every `x` from `1` to
`2^63`, the smallest power of two that is at least `x`, which is below `2 * x`; above
`2^63` no 64-bit value is a power of two that is at least `x`.
`lda_setup` raises the ring size to that power of two of the minibatch size if it is
smaller, and leaves a larger ring size as it is: the ring size becomes the maximum of
the two.  The field `minibatch` of the learner keeps the value of the option. -/
theorem ring_size_of_minibatch (m : math_kernels α) (all : vw α) (vm : lda_options α) :
    (lda_setup m all vm).minibatch = vm.minibatch ∧
    (lda_setup m all vm).all.ring_size = max all.ring_size (next_pow2 vm.minibatch) ∧
    next_pow2 0 = 1 ∧
    (∀ x, x < 2 ^ 64 → next_pow2_loop x 0 ≤ 64) ∧
    (∀ x, 1 ≤ x → x ≤ 2 ^ 63 →
      (∃ e, next_pow2 x = 2 ^ e) ∧ x ≤ next_pow2 x ∧ next_pow2 x < 2 * x ∧
      ∀ e, x ≤ 2 ^ e → next_pow2 x ≤ 2 ^ e) ∧
    (∀ x, 2 ^ 63 < x →
      next_pow2 x < 2 ^ 64 ∧ ¬ ((∃ e, next_pow2 x = 2 ^ e) ∧ x ≤ next_pow2 x)) ∧
    (1 ≤ vm.minibatch → vm.minibatch ≤ 2 ^ 63 → all.ring_size ≤ next_pow2 vm.minibatch →
      (∃ e, (lda_setup m all vm).all.ring_size = 2 ^ e) ∧
      vm.minibatch ≤ (lda_setup m all vm).all.ring_size ∧
      (lda_setup m all vm).all.ring_size < 2 * vm.minibatch) := by
  obtain ⟨hmb, hring⟩ := lda_setup_ring_size m all vm
  have hmax : (lda_setup m all vm).all.ring_size = max all.ring_size (next_pow2 vm.minibatch) := by
    rw [hring]
    split_ifs with h
    · exact (max_eq_left (le_of_lt h)).symm
    · exact (max_eq_right (not_lt.mp h)).symm
  have hzero : next_pow2 0 = 1 := by
    unfold next_pow2
    simp only []
    rw [if_neg (lt_irrefl _), next_pow2_loop, dif_neg (lt_irrefl _)]
    rfl
  refine ⟨hmb, hmax, hzero, ?_, ?_, next_pow2_above, ?_⟩
  · intro x hx
    have := (next_pow2_loop_spec x 0).2.2 64 hx
    omega
  · intro x h1 h2
    obtain ⟨a, b, c, d⟩ := next_pow2_spec x h1 h2
    exact ⟨⟨_, a⟩, b, c, d⟩
  · intro h1 h2 h3
    obtain ⟨a, b, c, _⟩ := next_pow2_spec vm.minibatch h1 h2
    rw [hmax, max_eq_right h3]
    exact ⟨⟨_, a⟩, b, c⟩

theorem ring_size_of_minibatch_witness :
    (lda_setup pattern_kernels (demo_all : vw ℚ) ⟨1, 1, 1, 1, 1, 3, lda_math_mode.USE_SIMD⟩).all.ring_size
        < 2 * 3 ∧
    3 ≤ (lda_setup pattern_kernels (demo_all : vw ℚ) ⟨1, 1, 1, 1, 1, 3, lda_math_mode.USE_SIMD⟩).all.ring_size :=
  ⟨((ring_size_of_minibatch pattern_kernels (demo_all : vw ℚ) ⟨1, 1, 1, 1, 1, 3, lda_math_mode.USE_SIMD⟩).2.2.2.2.2.2
      (by decide) (by decide)
      ((next_pow2_spec 3 (by decide) (by decide)).2.1.trans' (by decide))).2.2,
    ((ring_size_of_minibatch pattern_kernels (demo_all : vw ℚ) ⟨1, 1, 1, 1, 1, 3, lda_math_mode.USE_SIMD⟩).2.2.2.2.2.2
      (by decide) (by decide)
      ((next_pow2_spec 3 (by decide) (by decide)).2.1.trans' (by decide))).2.1⟩

/-- Two inputs on which the sentence of the specification fails.  With a ring of 256
entries and a minibatch of 2, the ring size stays 256, which is not below `2 * 2`.
For a minibatch of `0` the power of two is `1`, which is not below `2 * 0`. -/
theorem ring_size_counterexample :
    (lda_setup pattern_kernels ({ (demo_all : vw ℚ) with ring_size := 256 })
        ⟨1, 1, 1, 1, 1, 2, lda_math_mode.USE_SIMD⟩).all.ring_size = 256 ∧
    (lda_setup pattern_kernels ({ (demo_all : vw ℚ) with ring_size := 256 })
        ⟨1, 1, 1, 1, 1, 2, lda_math_mode.USE_SIMD⟩).minibatch = 2 ∧
    ¬ (256 < 2 * 2) ∧
    next_pow2 0 = 1 ∧ ¬ (1 < 2 * 0) := by
  have h2 : next_pow2 2 = 2 := by
    obtain ⟨_, b, _, d⟩ := next_pow2_spec 2 (by decide) (by decide)
    have := d 1 (by decide)
    omega
  have hzero : next_pow2 0 = 1 := by
    unfold next_pow2
    simp only []
    rw [if_neg (lt_irrefl _), next_pow2_loop, dif_neg (lt_irrefl _)]
    rfl
  obtain ⟨hmb, hring⟩ := lda_setup_ring_size pattern_kernels ({ (demo_all : vw ℚ) with ring_size := 256 })
    ⟨1, 1, 1, 1, 1, 2, lda_math_mode.USE_SIMD⟩
  refine ⟨?_, hmb, by decide, hzero, by decide⟩
  rw [hring]
  show (if 256 > next_pow2 2 then 256 else next_pow2 2) = 256
  rw [h2]
  decide


end claim_next_pow2

end LDA

namespace LDA

section claim_mass

variable {α : Type} [LinearOrderedField α] [FloorRing α] [float_cast α]

open ldamath

end claim_mass

end LDA

namespace LDA

section claim_decay_index

variable {α : Type} [LinearOrderedField α] [FloorRing α] [float_cast α]

/-- The number of entries of `decay_levels` minus the counter, across one returning
`learn_batch`. -/
theorem size_batch_step (m : math_kernels α) (fuel : Nat) (b b' : lda α)
    (h : learn_batch m fuel b = some b') :
    (b'.decay_levels.size : α) - b'.example_t = (b.decay_levels.size : α) - b.example_t := by
  by_cases hne : b.sorted_features = []
  · have := learn_batch_of_empty m fuel b b' hne h
    subst this
    rfl
  · obtain ⟨d1, d2⟩ := learn_batch_bookkeeping m fuel b b' hne h
    rw [d1, d2, push_back_size]
    push_cast
    ring

/-- The number of entries of `decay_levels` minus the counter, across one returning
call. -/
theorem size_call_step (m : math_kernels α) (fuel : Nat) (l l' : lda α) (c : lda_call α)
    (h : c.run m fuel l = some l') :
    (l'.decay_levels.size : α) - l'.example_t = (l.decay_levels.size : α) - l.example_t := by
  cases c with
  | learn ec =>
    obtain ⟨_, _, p3⟩ := learn_push_fields l ec
    obtain ⟨_, _, _, _, _, q6, q7, _⟩ := p3
    have hrun : learn m fuel l ec = some l' := h
    unfold learn at hrun
    simp only [] at hrun
    split_ifs at hrun with hfull
    · rw [size_batch_step m fuel _ _ hrun, q6, q7]
    · simp only [Option.some.injEq] at hrun
      rw [← hrun, q6, q7]
  | end_pass =>
    have hrun : end_pass m fuel l = some l' := h
    unfold end_pass at hrun
    split_ifs at hrun with hsome
    · exact size_batch_step m fuel _ _ hrun
    · simp only [Option.some.injEq] at hrun
      rw [← hrun]

/-- The two ways of naming the entry of a row: by its distance from the last entry and
by its index. -/
theorem index_of_distance (l : lda α) (T0 : α)
    (hsz : (l.decay_levels.size : α) = 1 + (l.example_t - T0)) (w j : Nat)
    (hj : j < l.decay_levels.size) :
    l.t_last w = l.example_t - ((l.decay_levels.size - 1 - j : Nat) : α)
      ↔ l.t_last w = T0 + (j : α) := by
  have h1 : ((l.decay_levels.size - 1 - j : Nat) : α) = (l.decay_levels.size : α) - 1 - (j : α) := by
    rw [Nat.cast_sub (by omega), Nat.cast_sub (by omega)]
    simp
  rw [h1, hsz]
  constructor
  · intro h
    rw [h]
    ring
  · intro h
    rw [h]
    ring

/-- The decay table and the counters stay in step across one returning call whose
hashes are within the mask. -/
theorem decay_index_call_step (m : math_kernels α) (fuel : Nat) (l l' : lda α) (c : lda_call α)
    (T0 : α) (hf : ∀ x : α, to_float x = x) (hc : l.config_ok)
    (hmask : ∀ s ∈ l.sorted_features, l.within_mask s.f.weight_index)
    (hcall : c.within_mask l) (hJ : l.decay_index_ok T0)
    (h : c.run m fuel l = some l') :
    l'.config_ok ∧ (∀ s ∈ l'.sorted_features, l'.within_mask s.f.weight_index) ∧
    l'.all.num_bits = l.all.num_bits ∧ l'.all.stride_shift = l.all.stride_shift ∧
    l'.decay_index_ok T0 := by
  obtain ⟨hsz, hrows⟩ := hJ
  choose! g hg using hrows
  have hRI : ∀ w, w < l.all.length → g w < l.decay_levels.size ∧
      l.t_last w = l.example_t - ((l.decay_levels.size - 1 - g w : Nat) : α) := by
    intro w hw
    exact ⟨(hg w hw).1, (index_of_distance l T0 hsz w (g w) (hg w hw).1).mpr (hg w hw).2⟩
  obtain ⟨r1, r2, r3, r4, r5⟩ := rows_call_step m fuel l l' c g hf hc hmask hcall hRI h
  have hsz' : (l'.decay_levels.size : α) = 1 + (l'.example_t - T0) := by
    have := size_call_step m fuel l l' c h
    linarith
  refine ⟨r1, r2, r3, r4, hsz', ?_⟩
  intro w hw
  obtain ⟨a, b⟩ := r5 w hw
  exact ⟨_, a, (index_of_distance l' T0 hsz' w _ a).mp b⟩

/-- The decay table and the counters stay in step across `end_examples`. -/
theorem decay_index_end_examples (m : math_kernels α) (l : lda α) (T0 : α) (hc : l.config_ok)
    (hmask : ∀ s ∈ l.sorted_features, l.within_mask s.f.weight_index)
    (hJ : l.decay_index_ok T0) :
    (end_examples m l).config_ok ∧
    (∀ s ∈ (end_examples m l).sorted_features, (end_examples m l).within_mask s.f.weight_index) ∧
    (end_examples m l).all.num_bits = l.all.num_bits ∧
    (end_examples m l).all.stride_shift = l.all.stride_shift ∧
    (end_examples m l).decay_index_ok T0 := by
  have hs : l.all.lda + 1 ≤ l.stride := by
    have := hc.2.1
    omega
  obtain ⟨_, h2, _⟩ := end_examples_apply m l hs
  have ht : ∀ w, w < l.all.length → (end_examples m l).t_last w = l.t_last w := by
    intro w hw
    show (end_examples m l).all.weight_vector (l.row w + l.all.lda)
      = l.all.weight_vector (l.row w + l.all.lda)
    apply h2
    intro w' hw' hh
    by_cases hww : w' = w
    · subst hww; omega
    · rcases row_apart l w' w hww with h | h <;> omega
  refine ⟨hc, ?_, rfl, rfl, hJ.1, ?_⟩
  · intro s hs'
    exact (within_mask_congr l (end_examples m l) rfl rfl _).mpr (hmask s hs')
  · intro w hw
    obtain ⟨j, hj1, hj2⟩ := hJ.2 w hw
    exact ⟨j, hj1, by rw [ht w hw]; exact hj2⟩

/-- The decay table and the counters are in step after every returning sequence of
calls of the driver whose hashes are within the mask. -/
theorem decay_index_run (m : math_kernels α) (fuel : Nat) (T0 : α)
    (hf : ∀ x : α, to_float x = x) :
    ∀ (ops : List (lda_op α)) (l l' : lda α), l.config_ok →
      (∀ s ∈ l.sorted_features, l.within_mask s.f.weight_index) →
      (∀ o ∈ ops, o.within_mask l) → l.decay_index_ok T0 →
      run_ops m fuel l ops = some l' → l'.decay_index_ok T0 := by
  intro ops
  induction ops with
  | nil =>
    intro l l' _ _ _ hJ h
    simp only [run_ops, Option.some.injEq] at h
    rw [← h]
    exact hJ
  | cons o os ih =>
    intro l l' hc hmask hops hJ h
    rw [run_ops] at h
    cases ho : lda_op.run m fuel l o with
    | none => rw [ho] at h; simp at h
    | some l1 =>
      rw [ho] at h
      have hstep : l1.config_ok ∧ (∀ s ∈ l1.sorted_features, l1.within_mask s.f.weight_index) ∧
          l1.all.num_bits = l.all.num_bits ∧ l1.all.stride_shift = l.all.stride_shift ∧
          l1.decay_index_ok T0 := by
        cases o with
        | call c =>
          exact decay_index_call_step m fuel l l1 c T0 hf hc hmask
            (hops _ (List.mem_cons_self _ _)) hJ ho
        | end_examples =>
          have e : l1 = end_examples m l := (Option.some.inj ho).symm
          rw [e]
          exact decay_index_end_examples m l T0 hc hmask hJ
      obtain ⟨s1, s2, s3, s4, s5⟩ := hstep
      have hos : ∀ o' ∈ os, o'.within_mask l1 := by
        intro o' ho'
        have := hops o' (List.mem_cons_of_mem _ ho')
        cases o' with
        | call c =>
          cases c with
          | learn ec => exact fun f hf => (within_mask_congr l l1 s3 s4 _).mpr (this f hf)
          | end_pass => trivial
        | end_examples => trivial
      exact ih l1 l' s1 s2 hos s5 h

/-- The decay table and the counters are in step at the start. -/
theorem decay_index_start (m : math_kernels α) (frand48 : Nat → α) (all : vw α)
    (vm : lda_options α)
    (hshift : Int.toNat (lda_setup_temp m (vm.lda * 2 + 1)) = Nat.clog 2 (vm.lda * 2 + 1))
    (hmask : all.weight_mask = ((1 <<< all.num_bits) <<< Nat.clog 2 (vm.lda * 2 + 1)) - 1) :
    (lda_start m frand48 all vm).decay_index_ok all.initial_t := by
  obtain ⟨_, _, _, _, _, _, _, _, _, _, _, s12, s13, _⟩ := lda_start_fields m frand48 all vm
  have hsz : (lda_start m frand48 all vm).decay_levels.size = 1 := by rw [s12]; rfl
  have hsz' : ((lda_start m frand48 all vm).decay_levels.size : α)
      = 1 + ((lda_start m frand48 all vm).example_t - all.initial_t) := by
    rw [hsz, s13]
    simp
  refine ⟨hsz', ?_⟩
  intro w hw
  obtain ⟨a, b⟩ := rows_start m frand48 all vm hshift hmask w hw
  exact ⟨0, a, (index_of_distance _ all.initial_t hsz' w 0 a).mp b⟩


/-- Decay-table indexing when the conversions to single precision are exact and line
911 gives the exact ceiling of the binary logarithm.  For every learner reached from
the start (`lda_setup`, then `save_load`) by calls of `learn`, `end_pass` and
`end_examples` whose hashes are within the mask: `decay_levels` has `1 + (example_t - initial_t)`
entries, and for every row `w` the slot `t_last(w)` is `initial_t + j` for an index
`j` of `decay_levels`.  The offset `(int)(-1 - example_t + t_last(w))` that
`end_examples` takes from the end is `j - size`, so it reads entry `j`; `learn_batch`,
which first increments the counter and appends an entry, takes the offset
`j - (size + 1)` from the new end and reads the same entry `j`. -/
theorem decay_index_in_bounds (m : math_kernels α) (frand48 : Nat → α) (all : vw α)
    (vm : lda_options α) (hf : ∀ x : α, to_float x = x)
    (hshift : Int.toNat (lda_setup_temp m (vm.lda * 2 + 1)) = Nat.clog 2 (vm.lda * 2 + 1))
    (hmask : all.weight_mask = ((1 <<< all.num_bits) <<< Nat.clog 2 (vm.lda * 2 + 1)) - 1)
    (fuel : Nat) (ops : List (lda_op α))
    (hops : ∀ o ∈ ops, o.within_mask (lda_start m frand48 all vm)) (l : lda α)
    (hrun : run_ops m fuel (lda_start m frand48 all vm) ops = some l) :
    (l.decay_levels.size : α) = 1 + (l.example_t - all.initial_t) ∧
    1 ≤ l.decay_levels.size ∧
    ∀ w, w < l.all.length → ∃ j : Nat,
      j < l.decay_levels.size ∧ (j : α) = l.t_last w - all.initial_t ∧
      to_int (-1 - l.example_t + l.t_last w) = (j : Int) - (l.decay_levels.size : Int) ∧
      l.decay_levels.end_index (to_int (-1 - l.example_t + l.t_last w))
        = l.decay_levels.data j ∧
      to_int (-1 - (l.example_t + 1) + l.t_last w)
        = (j : Int) - ((l.decay_levels.size + 1 : Nat) : Int) ∧
      ∀ x : α, (l.decay_levels.push_back x).end_index
          (to_int (-1 - (l.example_t + 1) + l.t_last w)) = l.decay_levels.data j := by
  have hstart := decay_index_start m frand48 all vm hshift hmask
  have hc := lda_start_config m frand48 all vm hshift hmask
  obtain ⟨_, _, _, _, _, _, _, _, _, _, _, _, _, _, s15, _⟩ := lda_start_fields m frand48 all vm
  obtain ⟨hsz, hrows⟩ := decay_index_run m fuel all.initial_t hf ops _ l hc
    (by rw [s15]; intro s hs; exact absurd hs (List.not_mem_nil s)) hops hstart hrun
  have hpos : 1 ≤ l.decay_levels.size := by
    by_contra hcon
    have h0 : l.decay_levels.size = 0 := by omega
    by_cases hlen : 0 < l.all.length
    · obtain ⟨j, hj, _⟩ := hrows 0 hlen
      omega
    · exact hlen (length_pos l.all)
  refine ⟨hsz, hpos, ?_⟩
  intro w hw
  obtain ⟨j, hj, ht⟩ := hrows w hw
  have e1 : (-1 - l.example_t + l.t_last w : α)
      = (((j : Int) - (l.decay_levels.size : Int) : Int) : α) := by
    rw [ht]
    push_cast
    linarith
  have e2 : (-1 - (l.example_t + 1) + l.t_last w : α)
      = (((j : Int) - ((l.decay_levels.size + 1 : Nat) : Int) : Int) : α) := by
    rw [ht]
    push_cast
    linarith
  refine ⟨j, hj, by rw [ht]; ring, ?_, ?_, ?_, ?_⟩
  · rw [e1, to_int_intCast]
  · rw [e1, to_int_intCast]
    unfold v_array.end_index
    congr 1
    omega
  · rw [e2, to_int_intCast]
  · intro x
    rw [e2, to_int_intCast]
    unfold v_array.end_index
    rw [push_back_size]
    have : Int.toNat (((l.decay_levels.size + 1 : Nat) : Int)
        + ((j : Int) - ((l.decay_levels.size + 1 : Nat) : Int))) = j := by omega
    rw [this]
    exact push_back_data_lt _ _ _ hj

theorem decay_index_in_bounds_witness :
    ∃ l, run_ops (kernels_of Real.exp Real.log (fun x p => x ^ p)
      (deriv (fun y => Real.log (Real.Gamma y))) (fun y => Real.log (Real.Gamma y))) 2 (lda_start (kernels_of Real.exp Real.log (fun x p => x ^ p)
      (deriv (fun y => Real.log (Real.Gamma y))) (fun y => Real.log (Real.Gamma y))) (fun _ => 1) (demo_all : vw ℝ)
      ⟨1, 0.1, 0.1, 1, 0.001, 2, lda_math_mode.USE_PRECISE⟩)
        [lda_op.call (lda_call.learn demo_doc), lda_op.end_examples] = some l ∧
      1 ≤ l.decay_levels.size ∧
      (l.decay_levels.size : ℝ) = 1 + (l.example_t - (demo_all : vw ℝ).initial_t) := by
  obtain ⟨l1, h1⟩ := demo_start_returns 2 [lda_call.learn demo_doc]
    (by intro c hc; left; simpa using hc)
  have hrun : run_ops (kernels_of Real.exp Real.log (fun x p => x ^ p)
      (deriv (fun y => Real.log (Real.Gamma y))) (fun y => Real.log (Real.Gamma y))) 2 (lda_start (kernels_of Real.exp Real.log (fun x p => x ^ p)
      (deriv (fun y => Real.log (Real.Gamma y))) (fun y => Real.log (Real.Gamma y))) (fun _ => 1) (demo_all : vw ℝ)
      ⟨1, 0.1, 0.1, 1, 0.001, 2, lda_math_mode.USE_PRECISE⟩)
      [lda_op.call (lda_call.learn demo_doc), lda_op.end_examples]
      = some (end_examples (kernels_of Real.exp Real.log (fun x p => x ^ p)
      (deriv (fun y => Real.log (Real.Gamma y))) (fun y => Real.log (Real.Gamma y))) l1) := by
    rw [run_calls] at h1
    rw [run_ops]
    show (match lda_call.run (kernels_of Real.exp Real.log (fun x p => x ^ p)
      (deriv (fun y => Real.log (Real.Gamma y))) (fun y => Real.log (Real.Gamma y))) 2 (lda_start (kernels_of Real.exp Real.log (fun x p => x ^ p)
      (deriv (fun y => Real.log (Real.Gamma y))) (fun y => Real.log (Real.Gamma y))) (fun _ => 1) (demo_all : vw ℝ)
      ⟨1, 0.1, 0.1, 1, 0.001, 2, lda_math_mode.USE_PRECISE⟩) (lda_call.learn demo_doc) with
      | none => none
      | some l1 => run_ops (kernels_of Real.exp Real.log (fun x p => x ^ p)
      (deriv (fun y => Real.log (Real.Gamma y))) (fun y => Real.log (Real.Gamma y))) 2 l1 [lda_op.end_examples]) = _
    cases hc : lda_call.run (kernels_of Real.exp Real.log (fun x p => x ^ p)
      (deriv (fun y => Real.log (Real.Gamma y))) (fun y => Real.log (Real.Gamma y))) 2 (lda_start (kernels_of Real.exp Real.log (fun x p => x ^ p)
      (deriv (fun y => Real.log (Real.Gamma y))) (fun y => Real.log (Real.Gamma y))) (fun _ => 1) (demo_all : vw ℝ)
      ⟨1, 0.1, 0.1, 1, 0.001, 2, lda_math_mode.USE_PRECISE⟩) (lda_call.learn demo_doc) with
    | none => rw [hc] at h1; simp at h1
    | some l2 =>
      rw [hc] at h1
      simp only [run_calls, Option.some.injEq] at h1
      rw [h1]
      rfl
  have h := decay_index_in_bounds (kernels_of Real.exp Real.log (fun x p => x ^ p)
      (deriv (fun y => Real.log (Real.Gamma y))) (fun y => Real.log (Real.Gamma y))) (fun _ => 1) (demo_all : vw ℝ)
    ⟨1, 0.1, 0.1, 1, 0.001, 2, lda_math_mode.USE_PRECISE⟩
    to_float_real (lda_setup_temp_real _ rfl 1)
    (by show 7 = ((1 <<< 1) <<< Nat.clog 2 (1 * 2 + 1)) - 1; simp [Nat.clog]) 2
    [lda_op.call (lda_call.learn demo_doc), lda_op.end_examples]
    (by
      intro o ho
      simp only [List.mem_cons, List.mem_singleton, List.not_mem_nil, or_false] at ho
      rcases ho with rfl | rfl
      · intro f hf
        simp only [demo_doc, List.mem_singleton] at hf
        subst hf
        refine ⟨0, length_pos _, ?_⟩
        unfold lda.row; simp
      · trivial)
    _ hrun
  exact ⟨_, hrun, h.2.1, h.1⟩

end claim_decay_index

end LDA

namespace LDA

section claim_pending_buffers

variable {α : Type} [LinearOrderedField α] [FloorRing α] [float_cast α]

/-- C26.  The early return of `learn_batch` leaves `doc_lengths` as it is.  When
`learn` receives a document without features that completes a minibatch in which no
document has a feature, the call returns with `examples` and `sorted_features` empty,
but `doc_lengths` keeps its entries and the one just pushed: it has more entries than
`examples`. -/
theorem empty_minibatch_keeps_doc_lengths (m : math_kernels α) (fuel : Nat) (l : lda α)
    (ec : Example α) (hs : l.sorted_features = []) (hec : ec.features = [])
    (hfull : l.examples.length + 1 = l.minibatch) :
    ∃ l', learn m fuel l ec = some l' ∧ l'.examples = [] ∧ l'.sorted_features = [] ∧
      l'.doc_lengths.size = l.doc_lengths.size + 1 ∧
      l'.doc_lengths.size ≠ l'.examples.length := by
  obtain ⟨_, p2, _⟩ := learn_push_fields l ec
  obtain ⟨q1, _⟩ := learn_push_lengths l ec
  have hsb : (learn_push l ec).sorted_features = [] := by
    rw [p2, hs, hec]
    rfl
  have hb : ∃ l', learn_batch m fuel (learn_push l ec) = some l' := by
    unfold learn_batch
    rw [hsb]
    exact ⟨_, rfl⟩
  obtain ⟨l', hl'⟩ := hb
  have hrun : learn m fuel l ec = some l' := by
    unfold learn
    simp only []
    rw [if_pos hfull]
    exact hl'
  have hform := learn_batch_of_empty m fuel _ l' hsb hl'
  have e1 : l'.examples = [] := by rw [hform]
  have e2 : l'.sorted_features = [] := by rw [hform]; exact hsb
  have e3 : l'.doc_lengths.size = l.doc_lengths.size + 1 := by rw [hform]; exact q1
  refine ⟨l', hrun, e1, e2, e3, ?_⟩
  rw [e3, e1]
  simp

theorem empty_minibatch_keeps_doc_lengths_witness :
    ∃ l', learn (kernels_of Real.exp Real.log (fun x p => x ^ p)
      (deriv (fun y => Real.log (Real.Gamma y))) (fun y => Real.log (Real.Gamma y))) 0
        (lda_start (kernels_of Real.exp Real.log (fun x p => x ^ p)
      (deriv (fun y => Real.log (Real.Gamma y))) (fun y => Real.log (Real.Gamma y))) (fun _ => 1) (demo_all : vw ℝ)
          ⟨1, 0.1, 0.1, 1, 0.001, 1, lda_math_mode.USE_PRECISE⟩) empty_doc = some l' ∧
      l'.examples = [] ∧ l'.sorted_features = [] ∧
      l'.doc_lengths.size = (lda_start (kernels_of Real.exp Real.log (fun x p => x ^ p)
      (deriv (fun y => Real.log (Real.Gamma y))) (fun y => Real.log (Real.Gamma y))) (fun _ => 1) (demo_all : vw ℝ)
          ⟨1, 0.1, 0.1, 1, 0.001, 1, lda_math_mode.USE_PRECISE⟩).doc_lengths.size + 1 ∧
      l'.doc_lengths.size ≠ l'.examples.length :=
  empty_minibatch_keeps_doc_lengths (kernels_of Real.exp Real.log (fun x p => x ^ p)
      (deriv (fun y => Real.log (Real.Gamma y))) (fun y => Real.log (Real.Gamma y))) 0
    (lda_start (kernels_of Real.exp Real.log (fun x p => x ^ p)
      (deriv (fun y => Real.log (Real.Gamma y))) (fun y => Real.log (Real.Gamma y))) (fun _ => 1) (demo_all : vw ℝ)
      ⟨1, 0.1, 0.1, 1, 0.001, 1, lda_math_mode.USE_PRECISE⟩) empty_doc rfl rfl rfl

end claim_pending_buffers

end LDA

namespace LDA

section one_document

variable {α : Type} [LinearOrderedField α] [FloorRing α] [float_cast α]

/-- One document from the start, with one topic and a minibatch of one document: the
call of `learn` returns; the counter is `initial_t + 1`, `decay_levels` has received
one entry, the row of every term of the document carries the counter converted to
single precision in its `t_last` slot, and every other row still carries
`initial_t`. -/
theorem start_learn_one (m : math_kernels α) (frand48 : Nat → α) (all : vw α)
    (vm : lda_options α)
    (hshift : Int.toNat (lda_setup_temp m (vm.lda * 2 + 1)) = Nat.clog 2 (vm.lda * 2 + 1))
    (hmask : all.weight_mask = ((1 <<< all.num_bits) <<< Nat.clog 2 (vm.lda * 2 + 1)) - 1)
    (hK : vm.lda = 1) (hmb : vm.minibatch = 1)
    (hmode : vm.math_mode ≠ lda_math_mode.USE_SIMD ∨ m.have_simd = false)
    (heps : 0 ≤ vm.lda_epsilon) (ec : Example α) (hne : ec.features ≠ [])
    (hec : ∀ f ∈ ec.features, (lda_start m frand48 all vm).within_mask f.weight_index) :
    ∃ l1, learn m 2 (lda_start m frand48 all vm) ec = some l1 ∧
      l1.config_ok ∧ l1.all.lda = 1 ∧
      l1.all.num_bits = (lda_start m frand48 all vm).all.num_bits ∧
      l1.all.stride_shift = (lda_start m frand48 all vm).all.stride_shift ∧
      l1.example_t = all.initial_t + 1 ∧
      l1.decay_levels.size = 2 ∧ l1.decay_levels.data 0 = 0 ∧
      l1.decay_levels.data 1 = 0 + m.log ((lda_start m frand48 all vm).mu m) ∧
      (∀ w, w < l1.all.length → (∃ f ∈ ec.features, f.weight_index = l1.row w) →
        l1.t_last w = to_float (all.initial_t + 1)) ∧
      (∀ w, w < l1.all.length → (∀ f ∈ ec.features, f.weight_index ≠ l1.row w) →
        l1.t_last w = all.initial_t) := by
  have hc := lda_start_config m frand48 all vm hshift hmask
  have hrows := rows_start m frand48 all vm hshift hmask
  obtain ⟨s1, _, _, _, _, _, _, _, _, s10, s11, s12, s13, s14, s15, _, _, _, _, s20⟩ :=
    lda_start_fields m frand48 all vm
  obtain ⟨p1, p2, p3⟩ := learn_push_fields (lda_start m frand48 all vm) ec
  obtain ⟨q1, q2, q3, _, _, q6, q7, _, _, _, _, q12, _⟩ := p3
  have hwm : ∀ x, (learn_push (lda_start m frand48 all vm) ec).within_mask x
      ↔ (lda_start m frand48 all vm).within_mask x :=
    fun x => within_mask_congr _ _ (by rw [q1]) (by rw [q1]) x
  have c1 : (learn_push (lda_start m frand48 all vm) ec).config_ok :=
    config_ok_congr _ _ q1 q2 hc
  have c2 : (learn_push (lda_start m frand48 all vm) ec).all.lda = 1 := by rw [q1, s1, hK]
  have c3 : (learn_push (lda_start m frand48 all vm) ec).mmode ≠ lda_math_mode.USE_SIMD
      ∨ m.have_simd = false := by rw [q3, s10]; exact hmode
  have c4 : 0 ≤ (learn_push (lda_start m frand48 all vm) ec).lda_epsilon := by
    rw [q12, s20]; exact heps
  have hsf : (learn_push (lda_start m frand48 all vm) ec).sorted_features
      = ec.features.map (fun f => ⟨0, f⟩) := by
    rw [p2, s15, s14]; rfl
  have c5 : ∀ s ∈ (learn_push (lda_start m frand48 all vm) ec).sorted_features,
      (learn_push (lda_start m frand48 all vm) ec).within_mask s.f.weight_index := by
    intro s hs
    rw [hwm]
    rw [hsf] at hs
    obtain ⟨f, hf, hfs⟩ := List.mem_map.mp hs
    rw [← hfs]
    exact hec f hf
  have c6 : ∀ e ∈ (learn_push (lda_start m frand48 all vm) ec).examples, ∀ f ∈ e.features,
      ∃ s ∈ (learn_push (lda_start m frand48 all vm) ec).sorted_features,
        s.f.weight_index = f.weight_index := by
    intro e he f hf
    rw [p1, s14] at he
    rw [hsf]
    simp only [List.nil_append, List.mem_singleton] at he
    subst he
    exact ⟨⟨0, f⟩, List.mem_map.mpr ⟨f, hf, rfl⟩, rfl⟩
  have hne' : (learn_push (lda_start m frand48 all vm) ec).sorted_features ≠ [] := by
    rw [hsf]
    intro h
    exact hne (List.map_eq_nil_iff.mp h)
  obtain ⟨l1, hl1⟩ := learn_batch_single_returns m _ c1 c2 c3 c4 c5 c6
  obtain ⟨e1, _, e3, e4, _⟩ := learn_batch_frame m 2 _ l1 hl1
  obtain ⟨d1, d2⟩ := learn_batch_bookkeeping m 2 _ l1 hne' hl1
  have hlearn : learn m 2 (lda_start m frand48 all vm) ec = some l1 := by
    unfold learn
    simp only []
    rw [if_pos (by rw [s14, s11, hmb]; rfl)]
    exact hl1
  have hmu : (learn_push (lda_start m frand48 all vm) ec).mu m
      = (lda_start m frand48 all vm).mu m := by
    unfold lda.mu learn_batch_locals lda.powf
    simp only []
    rw [q1, q3, q7]
  have hrow : ∀ w, l1.row w = (learn_push (lda_start m frand48 all vm) ec).row w := by
    intro w
    unfold lda.row
    rw [e3]
  have hlen : l1.all.length = (learn_push (lda_start m frand48 all vm) ec).all.length := by
    unfold vw.length
    rw [e4]
  have hdl : l1.decay_levels
      = ((v_array.init).push_back 0).push_back (0 + m.log ((lda_start m frand48 all vm).mu m)) := by
    rw [d1, q6, s12, hmu]
    rfl
  refine ⟨l1, hlearn, learn_batch_config_ok m 2 _ l1 hl1 c1, by rw [e1, c2], by rw [e4, q1],
    by rw [e3, q1], by rw [d2, q7, s13], by rw [hdl]; rfl, by rw [hdl]; rfl, by rw [hdl]; rfl,
    ?_, ?_⟩
  · intro w hw hf
    rw [hlen] at hw
    obtain ⟨f, hf1, hf2⟩ := hf
    have := (learn_batch_rows m 2 _ l1 hne' c1 c5 hl1 w hw).1
      ⟨⟨0, f⟩, by rw [hsf]; exact List.mem_map.mpr ⟨f, hf1, rfl⟩, by rw [← hrow]; exact hf2⟩
    rw [this.2.1, q7, s13]
  · intro w hw hf
    rw [hlen] at hw
    have h2 := (learn_batch_rows m 2 _ l1 hne' c1 c5 hl1 w hw).2
      (by
        intro s hs
        rw [hsf] at hs
        obtain ⟨f, hf1, hfs⟩ := List.mem_map.mp hs
        rw [← hfs, ← hrow]
        exact hf f hf1)
    have hst := c1.2.1
    have e : l1.t_last w = (learn_push (lda_start m frand48 all vm) ec).t_last w := by
      unfold lda.t_last
      rw [hrow, e1]
      exact h2.1 _ (by omega) (by omega)
    rw [e]
    have e' : (learn_push (lda_start m frand48 all vm) ec).t_last w
        = (lda_start m frand48 all vm).t_last w := by
      unfold lda.t_last lda.row
      rw [q1]
    rw [e']
    have hw' : w < (lda_start m frand48 all vm).all.length := by
      rw [q1] at hw; exact hw
    obtain ⟨_, r2⟩ := hrows w hw'
    rw [r2, s13, s12]
    show all.initial_t - ((0 : Nat) : α) = all.initial_t
    simp

end one_document

end LDA

namespace LDA

section counter_rounding

/-- The small learner over the rationals, started at the counter `t` with one topic
and a minibatch of one document, after one call of `learn` on `demo_doc`, whose
single term is the term of row `0`. -/
theorem start_learn_demo (m : math_kernels ℚ) (frand48 : Nat → ℚ) (t : ℚ)
    (h2 : m.log 2 = 11629080 / 2 ^ 24) (h3 : m.log 3 = 9215828 / 2 ^ 23) :
    ∃ l1, learn m 2 (lda_start m frand48 { (demo_all : vw ℚ) with initial_t := t }
        ⟨1, 0.1, 0.1, 1, 0.001, 1, lda_math_mode.USE_PRECISE⟩) demo_doc = some l1 ∧
      l1.config_ok ∧ l1.all.lda = 1 ∧ l1.all.length = 2 ∧ l1.example_t = t + 1 ∧
      l1.decay_levels.size = 2 ∧ l1.decay_levels.data 0 = 0 ∧
      l1.decay_levels.data 1 = 0 + m.log ((lda_start m frand48
        { (demo_all : vw ℚ) with initial_t := t }
        ⟨1, 0.1, 0.1, 1, 0.001, 1, lda_math_mode.USE_PRECISE⟩).mu m) ∧
      l1.t_last 0 = to_float (t + 1) ∧ l1.t_last 1 = t := by
  have hshift := lda_setup_temp_three m h2 h3
  obtain ⟨l1, r0, r1, r2, r3, r4, r5, r6, r7, r8, r9, r10⟩ :=
    start_learn_one m frand48 { (demo_all : vw ℚ) with initial_t := t }
      ⟨1, 0.1, 0.1, 1, 0.001, 1, lda_math_mode.USE_PRECISE⟩ hshift
      (by show 7 = ((1 <<< 1) <<< Nat.clog 2 (1 * 2 + 1)) - 1; simp [Nat.clog]) rfl rfl
      (Or.inl (by decide)) (by norm_num) demo_doc (by simp [demo_doc])
      (by
        intro f hf
        simp only [demo_doc, List.mem_singleton] at hf
        subst hf
        refine ⟨0, ?_, ?_⟩
        · unfold vw.length
          rw [Nat.shiftLeft_eq, one_mul]
          exact Nat.pow_pos (by norm_num)
        · unfold lda.row; simp)
  have hlen : l1.all.length = 2 := by
    unfold vw.length
    rw [r3, (lda_start_fields m frand48 _ _).2.2.2.1]
    rfl
  have hss : l1.all.stride_shift = 2 := by
    rw [r4, (lda_start_fields m frand48 _ _).2.2.1]
    exact hshift.trans (by simp [Nat.clog])
  have hrow0 : l1.row 0 = 0 := by unfold lda.row; simp
  have hrow1 : l1.row 1 = 4 := by unfold lda.row; rw [hss]; rfl
  refine ⟨l1, r0, r1, r2, hlen, r5, r6, r7, r8, ?_, ?_⟩
  · exact r9 0 (by rw [hlen]; norm_num) ⟨_, List.mem_singleton.mpr rfl, by rw [hrow0]⟩
  · apply r10 1 (by rw [hlen]; norm_num)
    intro f hf
    simp only [demo_doc, List.mem_singleton] at hf
    subst hf
    rw [hrow1]
    show (0 : Nat) ≠ 4
    norm_num

/-- C7.  The stamp of the first pass is not the counter.  The small learner over the
rationals, where the conversion `(float)l.example_t` of line 758 rounds to single
precision, is started with `initial_t = 2^24`, one topic and a minibatch of one
document, and learns `demo_doc`: `learn_batch` returns with the counter `example_t` at
`2^24 + 1`, and the `t_last` slot of the row of the document holds `2^24`. -/
theorem first_pass_stamp_rounded (m : math_kernels ℚ) (frand48 : Nat → ℚ)
    (h2 : m.log 2 = 11629080 / 2 ^ 24) (h3 : m.log 3 = 9215828 / 2 ^ 23) :
    ∃ l1, learn m 2 (lda_start m frand48 { (demo_all : vw ℚ) with initial_t := 16777216 }
        ⟨1, 0.1, 0.1, 1, 0.001, 1, lda_math_mode.USE_PRECISE⟩) demo_doc = some l1 ∧
      l1.example_t = 16777217 ∧ l1.t_last 0 = 16777216 ∧ l1.t_last 0 ≠ l1.example_t := by
  obtain ⟨l1, r0, _, _, _, r4, _, _, _, r8, _⟩ := start_learn_demo m frand48 16777216 h2 h3
  have e : (16777216 + 1 : ℚ) = 16777217 := by norm_num
  rw [e] at r4 r8
  rw [to_float_16777217] at r8
  exact ⟨l1, r0, r4, r8, by rw [r4, r8]; norm_num⟩

theorem first_pass_stamp_rounded_witness :
    ∃ l1, learn logf_kernels 2 (lda_start logf_kernels (fun _ => 1)
        { (demo_all : vw ℚ) with initial_t := 16777216 }
        ⟨1, 0.1, 0.1, 1, 0.001, 1, lda_math_mode.USE_PRECISE⟩) demo_doc = some l1 ∧
      l1.example_t = 16777217 ∧ l1.t_last 0 = 16777216 ∧ l1.t_last 0 ≠ l1.example_t :=
  first_pass_stamp_rounded logf_kernels (fun _ => 1) (by simp [logf_kernels])
    (by norm_num [logf_kernels])

/-- C3.  A row that is not brought current by `end_examples`.  The small learner over
the rationals is started with `initial_t = 2^24`, one topic and a minibatch of one
document, and learns `demo_doc`.  The minibatch appends entry `1` of `decay_levels`
and touches row `0`, whose `t_last` slot receives `2^24` for the counter `2^24 + 1`;
so `end_examples` reads entry `0` for this row, not entry `1`: it multiplies
`lambda(0,0)` by `min(1, exp(decay_levels[1] - decay_levels[0]))`, where
`decay_levels[1] - decay_levels[0]` is the logarithm of the shrink factor of that
minibatch, and not by `min(1, exp(decay_levels[1] - decay_levels[1]))`. -/
theorem end_examples_stale_entry (m : math_kernels ℚ) (frand48 : Nat → ℚ)
    (h2 : m.log 2 = 11629080 / 2 ^ 24) (h3 : m.log 3 = 9215828 / 2 ^ 23) :
    ∃ l1 g, run_calls m 2 (lda_start m frand48 { (demo_all : vw ℚ) with initial_t := 16777216 }
        ⟨1, 0.1, 0.1, 1, 0.001, 1, lda_math_mode.USE_PRECISE⟩) [lda_call.learn demo_doc]
        = some l1 ∧
      run_last_touch m 2 (lda_start m frand48 { (demo_all : vw ℚ) with initial_t := 16777216 }
        ⟨1, 0.1, 0.1, 1, 0.001, 1, lda_math_mode.USE_PRECISE⟩) (fun _ => 0)
        [lda_call.learn demo_doc] = some g ∧
      g 0 = 1 ∧ l1.decay_levels.size = 2 ∧
      l1.level_of_row 0 = l1.decay_levels.data 0 ∧
      (end_examples m l1).lambda 0 0
        = l1.lambda 0 0 * min 1 (m.exp (l1.decay_levels.data 1 - l1.decay_levels.data 0)) ∧
      l1.decay_levels.data 1 - l1.decay_levels.data 0
        = m.log ((lda_start m frand48 { (demo_all : vw ℚ) with initial_t := 16777216 }
            ⟨1, 0.1, 0.1, 1, 0.001, 1, lda_math_mode.USE_PRECISE⟩).mu m) := by
  obtain ⟨l1, r0, r1, r2, r3, r4, r5, r6, r7, r8, _⟩ :=
    start_learn_demo m frand48 16777216 h2 h3
  have e : (16777216 + 1 : ℚ) = 16777217 := by norm_num
  rw [e] at r4 r8
  rw [to_float_16777217] at r8
  obtain ⟨_, _, _, _, _, _, _, _, _, _, s11, s12, _, s14, s15, _⟩ :=
    lda_start_fields m frand48 { (demo_all : vw ℚ) with initial_t := 16777216 }
      ⟨1, 0.1, 0.1, 1, 0.001, 1, lda_math_mode.USE_PRECISE⟩
  obtain ⟨_, p2, p3⟩ := learn_push_fields (lda_start m frand48
      { (demo_all : vw ℚ) with initial_t := 16777216 }
      ⟨1, 0.1, 0.1, 1, 0.001, 1, lda_math_mode.USE_PRECISE⟩) demo_doc
  have hcall : lda_call.run m 2 (lda_start m frand48
      { (demo_all : vw ℚ) with initial_t := 16777216 }
      ⟨1, 0.1, 0.1, 1, 0.001, 1, lda_math_mode.USE_PRECISE⟩) (lda_call.learn demo_doc)
      = some l1 := r0
  have hrun : run_calls m 2 (lda_start m frand48 { (demo_all : vw ℚ) with initial_t := 16777216 }
      ⟨1, 0.1, 0.1, 1, 0.001, 1, lda_math_mode.USE_PRECISE⟩) [lda_call.learn demo_doc]
      = some l1 := by
    rw [run_calls, hcall]
    rfl
  have hlev : l1.level_of_row 0 = l1.decay_levels.data 0 := by
    unfold lda.level_of_row
    apply end_index_level l1.decay_levels l1.example_t _ 0 (by rw [r5]; norm_num)
    rw [r8, r4, r5]
    norm_num
  have hs : l1.all.lda + 1 ≤ l1.stride := by have := r1.2.1; omega
  obtain ⟨a1, _, _⟩ := end_examples_apply m l1 hs
  have hlast : l1.decay_levels.last = l1.decay_levels.data 1 := by
    unfold v_array.last
    rw [r5]
  refine ⟨l1, (lda_call.learn demo_doc).last_touch (lda_start m frand48
      { (demo_all : vw ℚ) with initial_t := 16777216 }
      ⟨1, 0.1, 0.1, 1, 0.001, 1, lda_math_mode.USE_PRECISE⟩) (fun _ => 0),
    hrun, ?_, ?_, r5, hlev, ?_, by rw [r6, r7]; ring⟩
  · rw [run_last_touch, hcall]
    rfl
  · have hbatch : (lda_call.learn demo_doc).batch (lda_start m frand48
        { (demo_all : vw ℚ) with initial_t := 16777216 }
        ⟨1, 0.1, 0.1, 1, 0.001, 1, lda_math_mode.USE_PRECISE⟩)
        = some (learn_push (lda_start m frand48
            { (demo_all : vw ℚ) with initial_t := 16777216 }
            ⟨1, 0.1, 0.1, 1, 0.001, 1, lda_math_mode.USE_PRECISE⟩) demo_doc) := by
      show (if (lda_start m frand48
          { (demo_all : vw ℚ) with initial_t := 16777216 }
          ⟨1, 0.1, 0.1, 1, 0.001, 1, lda_math_mode.USE_PRECISE⟩).examples.length + 1
          = (lda_start m frand48
          { (demo_all : vw ℚ) with initial_t := 16777216 }
          ⟨1, 0.1, 0.1, 1, 0.001, 1, lda_math_mode.USE_PRECISE⟩).minibatch
        then some (learn_push (lda_start m frand48
          { (demo_all : vw ℚ) with initial_t := 16777216 }
          ⟨1, 0.1, 0.1, 1, 0.001, 1, lda_math_mode.USE_PRECISE⟩) demo_doc) else none) = _
      rw [if_pos (by rw [s14, s11]; rfl)]
    have hsf : (learn_push (lda_start m frand48
        { (demo_all : vw ℚ) with initial_t := 16777216 }
        ⟨1, 0.1, 0.1, 1, 0.001, 1, lda_math_mode.USE_PRECISE⟩) demo_doc).sorted_features
        = demo_doc.features.map (fun f => ⟨0, f⟩) := by
      rw [p2, s15, s14]; rfl
    have hsz : (learn_push (lda_start m frand48
        { (demo_all : vw ℚ) with initial_t := 16777216 }
        ⟨1, 0.1, 0.1, 1, 0.001, 1, lda_math_mode.USE_PRECISE⟩) demo_doc).decay_levels.size
        = 1 := by
      rw [p3.2.2.2.2.2.1, s12]; rfl
    unfold lda_call.last_touch
    rw [hbatch]
    simp only []
    unfold lda.touches
    rw [hsf, hsz]
    simp [lda.row, demo_doc]
  · rw [a1 0 0 (by rw [r3]; norm_num) (by rw [r2]; norm_num)]
    unfold lda.end_decay
    rw [hlev, hlast]

theorem end_examples_stale_entry_witness :
    ∃ (l1 : lda ℚ) (g : Nat → Nat), run_calls logf_kernels 2 (lda_start logf_kernels (fun _ => 1)
        { (demo_all : vw ℚ) with initial_t := 16777216 }
        ⟨1, 0.1, 0.1, 1, 0.001, 1, lda_math_mode.USE_PRECISE⟩) [lda_call.learn demo_doc]
        = some l1 ∧
      g 0 = 1 ∧ l1.level_of_row 0 = l1.decay_levels.data 0 := by
  obtain ⟨l1, g, a, _, c, _, e, _⟩ := end_examples_stale_entry logf_kernels (fun _ => 1)
    (by simp [logf_kernels]) (by norm_num [logf_kernels])
  exact ⟨l1, g, a, c, e⟩

/-- C24.  A read past the end of `decay_levels`.  The small learner over the rationals
is started with `initial_t = 2^24 + 2`, one topic and a minibatch of one document, and
learns `demo_doc`: the counter is `2^24 + 3`, `decay_levels` has two entries, and the
`t_last` slot of row `0` holds `2^24 + 4`, the float nearest to the counter.  The
offset `(int)(-1 - example_t + t_last(0))` that `end_examples` takes from the end is
`0`: the cell read is `decay_levels.end[0]`, of index `2`, past the last entry; and
`t_last(0) - initial_t` is `2`, not an index of `decay_levels`. -/
theorem decay_index_past_end (m : math_kernels ℚ) (frand48 : Nat → ℚ)
    (h2 : m.log 2 = 11629080 / 2 ^ 24) (h3 : m.log 3 = 9215828 / 2 ^ 23) :
    ∃ l1, run_ops m 2 (lda_start m frand48 { (demo_all : vw ℚ) with initial_t := 16777218 }
        ⟨1, 0.1, 0.1, 1, 0.001, 1, lda_math_mode.USE_PRECISE⟩)
        [lda_op.call (lda_call.learn demo_doc)] = some l1 ∧
      l1.example_t = 16777219 ∧ l1.decay_levels.size = 2 ∧ l1.t_last 0 = 16777220 ∧
      to_int (-1 - l1.example_t + l1.t_last 0) = 0 ∧
      Int.toNat ((l1.decay_levels.size : Int) + to_int (-1 - l1.example_t + l1.t_last 0))
        = l1.decay_levels.size ∧
      l1.level_of_row 0 = l1.decay_levels.data 2 ∧
      l1.t_last 0 - 16777218 = 2 ∧
      (end_examples m l1).lambda 0 0
        = l1.lambda 0 0 * min 1 (m.exp (l1.decay_levels.last - l1.decay_levels.data 2)) := by
  obtain ⟨l1, r0, r1, r2, r3, r4, r5, _, _, r8, _⟩ :=
    start_learn_demo m frand48 16777218 h2 h3
  have e : (16777218 + 1 : ℚ) = 16777219 := by norm_num
  rw [e] at r4 r8
  rw [to_float_16777219] at r8
  have hcall : lda_op.run m 2 (lda_start m frand48
      { (demo_all : vw ℚ) with initial_t := 16777218 }
      ⟨1, 0.1, 0.1, 1, 0.001, 1, lda_math_mode.USE_PRECISE⟩)
      (lda_op.call (lda_call.learn demo_doc)) = some l1 := r0
  have hrun : run_ops m 2 (lda_start m frand48 { (demo_all : vw ℚ) with initial_t := 16777218 }
      ⟨1, 0.1, 0.1, 1, 0.001, 1, lda_math_mode.USE_PRECISE⟩)
      [lda_op.call (lda_call.learn demo_doc)] = some l1 := by
    rw [run_ops, hcall]
    rfl
  have hoff : to_int (-1 - l1.example_t + l1.t_last 0) = 0 := by
    rw [r4, r8]
    have : (-1 - 16777219 + 16777220 : ℚ) = ((0 : Int) : ℚ) := by norm_num
    rw [this, to_int_intCast]
  have hlev : l1.level_of_row 0 = l1.decay_levels.data 2 := by
    unfold lda.level_of_row v_array.end_index
    rw [hoff, r5]
    rfl
  have hs : l1.all.lda + 1 ≤ l1.stride := by have := r1.2.1; omega
  obtain ⟨a1, _, _⟩ := end_examples_apply m l1 hs
  refine ⟨l1, hrun, r4, r5, r8, hoff, by rw [hoff, r5]; rfl, hlev, by rw [r8]; norm_num, ?_⟩
  rw [a1 0 0 (by rw [r3]; norm_num) (by rw [r2]; norm_num)]
  unfold lda.end_decay
  rw [hlev]

theorem decay_index_past_end_witness :
    ∃ l1, run_ops logf_kernels 2 (lda_start logf_kernels (fun _ => 1)
        { (demo_all : vw ℚ) with initial_t := 16777218 }
        ⟨1, 0.1, 0.1, 1, 0.001, 1, lda_math_mode.USE_PRECISE⟩)
        [lda_op.call (lda_call.learn demo_doc)] = some l1 ∧
      Int.toNat ((l1.decay_levels.size : Int) + to_int (-1 - l1.example_t + l1.t_last 0))
        = l1.decay_levels.size := by
  obtain ⟨l1, a, _, _, _, _, f, _⟩ := decay_index_past_end logf_kernels (fun _ => 1)
    (by simp [logf_kernels]) (by norm_num [logf_kernels])
  exact ⟨l1, a, f⟩

end counter_rounding

end LDA

namespace LDA

section fast_kernels

variable {α : Type} [LinearOrderedField α] [FloorRing α] [float_cast α]

/-- The pattern that `fastpow2` computes at `0`: `0x3f8000dc`. -/
theorem fastpow2_zero (m : math_kernels α) : ldamath.fastpow2 m 0 = m.of_bits 0x3f8000dc := by
  have ht : to_int (0 : α) = 0 := by
    unfold to_int
    rw [if_pos (le_refl _)]
    exact Int.floor_zero
  have hw : float_to_int (0 : α) = 0 := by
    rw [float_to_int_of_range _ (by rw [ht]; norm_num) (by rw [ht]; norm_num), ht]
  have hmax : max (0 : α) (-126) = 0 := max_eq_left (by norm_num)
  rw [fastpow2_unfold, hmax, hw, if_neg (lt_irrefl _)]
  have hv : ⌊((2 : α) ^ 23 * (0 + 121.2740838
      + 27.7280233 / (4.84252568 - (0 - ((0 : Int) : α) + 0))
      - 1.49012907 * (0 - ((0 : Int) : α) + 0)))⌋ = 1065353436 := by
    rw [Int.floor_eq_iff]
    constructor <;> norm_num
  rw [float_to_uint32_of_range _ (by norm_num) (by norm_num), hv]
  rfl

/-- C6.  A shrink factor below zero.  Outside the precise mode `lda::powf` is
`fastpow`, and with `power_t = 0` its value is `fastpow2(0)` for every counter: the
float of pattern `0x3f8000dc`, which is `1 + 220/2^23`, above one.  So `minuseta` is
`1 - eta * (1 + 220/2^23)`, which for the learning rate `1` is `-220/2^23`, and the
entry that `learn_batch` appends to `decay_levels` is the previous one plus the
logarithm of this negative number. -/
theorem fast_pow_above_one (m : math_kernels α) (l : lda α)
    (hmode : l.mmode ≠ lda_math_mode.USE_PRECISE) (hp : l.all.power_t = 0) :
    (∀ x : α, l.powf m x (-l.all.power_t) = m.of_bits 0x3f8000dc) ∧
    l.mu m = 1 - l.all.eta * m.of_bits 0x3f8000dc ∧
    (learn_batch_prologue m l).decay_levels
      = l.decay_levels.push_back
          (l.decay_levels.last + m.log (1 - l.all.eta * m.of_bits 0x3f8000dc)) ∧
    float_of_bits 0x3f8000dc = 1 + 220 / 2 ^ 23 ∧
    (m.of_bits 0x3f8000dc = 1 + 220 / 2 ^ 23 → l.all.eta = 1 →
      l.mu m = -(220 / 2 ^ 23) ∧ l.mu m < 0 ∧
      (learn_batch_prologue m l).decay_levels
        = l.decay_levels.push_back (l.decay_levels.last + m.log (-(220 / 2 ^ 23)))) := by
  have hpow : ∀ x : α, l.powf m x (-l.all.power_t) = m.of_bits 0x3f8000dc := by
    intro x
    have e : l.powf m x (-l.all.power_t) = ldamath.fastpow m x (-l.all.power_t) := by
      unfold lda.powf ldamath.powf
      cases hm : l.mmode with
      | USE_PRECISE => exact absurd hm hmode
      | USE_FAST_APPROX => rfl
      | USE_SIMD => rfl
    rw [e, hp]
    unfold ldamath.fastpow
    rw [neg_zero, zero_mul]
    exact fastpow2_zero m
  have hmu : l.mu m = 1 - l.all.eta * m.of_bits 0x3f8000dc := by
    show 1 - l.all.eta * l.powf m (l.example_t + 1) (-l.all.power_t) = _
    rw [hpow]
  have hdl : (learn_batch_prologue m l).decay_levels
      = l.decay_levels.push_back
          (l.decay_levels.last + m.log (1 - l.all.eta * m.of_bits 0x3f8000dc)) := by
    show l.decay_levels.push_back (l.decay_levels.last + m.log (l.mu m)) = _
    rw [hmu]
  refine ⟨hpow, hmu, hdl, by norm_num [float_of_bits], ?_⟩
  intro hb he
  have hval : (1 : α) - l.all.eta * m.of_bits 0x3f8000dc = -(220 / 2 ^ 23) := by
    rw [hb, he]
    ring
  refine ⟨by rw [hmu, hval], by rw [hmu, hval]; norm_num, by rw [hdl, hval]⟩

theorem fast_pow_above_one_witness :
    ({ (demo_learner : lda ℚ) with
        mmode := lda_math_mode.USE_FAST_APPROX,
        all := { (demo_all : vw ℚ) with eta := 1 } } : lda ℚ).mu logf_kernels < 0 :=
  ((fast_pow_above_one logf_kernels
    { (demo_learner : lda ℚ) with
        mmode := lda_math_mode.USE_FAST_APPROX,
        all := { (demo_all : vw ℚ) with eta := 1 } }
    (by decide) rfl).2.2.2.2 (by norm_num [logf_kernels, float_of_bits]) rfl).2.1

/-- C13.  A lane of the SSE transforms that is not clamped.  For the argument `88.9`
a lane of `vfastexp` is the float whose pattern `vfastpow2` computes at
`1.442695040 * 88.9 = 128.255589056`: the pattern `0x7f98cec6`, with the exponent
field `255` and a fraction that is not zero, a NaN.  It is the second operand of the
`_mm_max_ps(threshold, .)` of `vexpdigammify` and `vexpdigammify_2`. -/
theorem vfastexp_nan_pattern (m : math_kernels ℚ) :
    ldamath.vfastpow2_bits ((1.442695040 : ℚ) * 88.9) = 0x7f98cec6 ∧
    ldamath.vfastexp m 88.9 = m.of_bits 0x7f98cec6 ∧
    is_nan_bits 0x7f98cec6 = true ∧
    (0x7f98cec6 >>> 23) % 256 = 255 ∧ 0x7f98cec6 % 2 ^ 23 = 1625798 := by
  have hp : (1.442695040 : ℚ) * 88.9 = 128.255589056 := by norm_num
  have ht : to_int (128.255589056 : ℚ) = 128 := by
    unfold to_int
    rw [if_pos (by norm_num), Int.floor_eq_iff]
    constructor <;> norm_num
  have hw : float_to_int (128.255589056 : ℚ) = 128 := by
    rw [float_to_int_of_range _ (by rw [ht]; norm_num) (by rw [ht]; norm_num), ht]
  have hmax : max (128.255589056 : ℚ) (-126) = 128.255589056 := max_eq_left (by norm_num)
  have hbits : ldamath.vfastpow2_bits ((1.442695040 : ℚ) * 88.9) = 0x7f98cec6 := by
    rw [hp, vfastpow2_bits_unfold, hmax, hw, if_neg (by norm_num)]
    have hv : ⌊((2 : ℚ) ^ 23 * (128.255589056 + 121.2740838
        + 27.7280233 / (4.84252568 - (128.255589056 - ((128 : Int) : ℚ) + 0))
        - 1.49012907 * (128.255589056 - ((128 : Int) : ℚ) + 0)))⌋ = 2140720838 := by
      rw [Int.floor_eq_iff]
      constructor <;> norm_num
    rw [v4sf_to_v4si_of_range _ (by norm_num) (by norm_num), hv]
    rfl
  refine ⟨hbits, ?_, by decide, by decide, by decide⟩
  unfold ldamath.vfastexp ldamath.vfastpow2
  rw [hbits]

end fast_kernels

end LDA

namespace LDA

section stride_rounding

/-- C18.  A stride below `2K+1`.  For `K = 2^20` topics, with the single-precision
logarithms of `2^21 + 1` and of `2` (the floats `0x4168e5c0` and `0x3f317218`), the
quotient of line 911 is rounded to the float `21`: `lda_setup` sets the shift to `21`
and the stride to `2^21`, which is below `2K+1 = 2^21 + 1`, while the smallest power
of two that is at least `2K+1` is `2^22`.  The last `u` slot of a row, at offset
`2K`, is the first cell of the next row. -/
theorem lda_setup_stride_short (m : math_kernels ℚ) (all : vw ℚ) (vm : lda_options ℚ)
    (hK : vm.lda = 2 ^ 20) (h2 : m.log 2 = 11629080 / 2 ^ 24)
    (h : m.log 2097153 = 15263168 / 2 ^ 20) :
    lda_setup_temp m (vm.lda * 2 + 1) = 21 ∧
    (lda_setup m all vm).all.stride_shift = 21 ∧
    (lda_setup m all vm).stride = 2 ^ 21 ∧
    (lda_setup m all vm).stride < 2 * vm.lda + 1 ∧
    Nat.clog 2 (2 * vm.lda + 1) = 22 ∧
    (lda_setup m all vm).row 0 + 2 * vm.lda = (lda_setup m all vm).row 1 + 0 := by
  obtain ⟨l1, _, _⟩ := lda_setup_layout m all vm
  have ht : lda_setup_temp m (vm.lda * 2 + 1) = 21 := by
    rw [hK]
    exact lda_setup_temp_large m h2 h
  have hs : (lda_setup m all vm).all.stride_shift = 21 := by
    rw [l1, ht]
    rfl
  have hst : (lda_setup m all vm).stride = 2 ^ 21 := by
    unfold lda.stride
    rw [hs, Nat.shiftLeft_eq, one_mul]
  have hclog : Nat.clog 2 (2 * vm.lda + 1) = 22 := by
    rw [hK]
    apply le_antisymm
    · exact (Nat.le_pow_iff_clog_le (by norm_num)).mp (by norm_num)
    · by_contra hcon
      have h1 : Nat.clog 2 (2 * 2 ^ 20 + 1) ≤ 21 := by omega
      have := (Nat.le_pow_iff_clog_le (by norm_num)).mpr h1
      norm_num at this
  refine ⟨ht, hs, hst, by rw [hst, hK]; norm_num, hclog, ?_⟩
  rw [row_eq, row_eq, hst, hK]
  norm_num

theorem lda_setup_stride_short_witness :
    (lda_setup logf_kernels (demo_all : vw ℚ)
      ⟨2 ^ 20, 1, 1, 1, 1, 1, lda_math_mode.USE_SIMD⟩).stride < 2 * 2 ^ 20 + 1 :=
  (lda_setup_stride_short logf_kernels (demo_all : vw ℚ)
    ⟨2 ^ 20, 1, 1, 1, 1, 1, lda_math_mode.USE_SIMD⟩ rfl (by simp [logf_kernels])
    (by norm_num [logf_kernels])).2.2.2.1

end stride_rounding

end LDA
